import Mathlib

/-!
# fread.c : field scanners

A shallow embedding of the field-level scanners of `src/fread.c` and of the helpers they
call.  Pointers into the input are byte offsets from `sof`; the file-level globals
(`eof`, `sep`, `eol`, `quote`, `dec`, `quoteRule`, the NA strings and the flags) are the
fields of `Ctx`.  A scanner `f(&ch, targetCol, targetRow)` becomes a function of the
context, the caller's cursor and a flag telling whether `targetCol` is non-NULL; it returns
the C return value, the caller's cursor after the call and the last value written to
`targetCol[targetRow]` (if any).

Every C loop is rendered by structural recursion on a counter that starts at the number of
bytes left before `eof` (plus one where the loop pre-increments); the loop conditions are
kept as written, so the counter never reaches zero before the C condition turns false.
-/

namespace Fread

/-! ## Globals and memory -/

/-- The private globals of `fread.c` that the field processors read, together with the
memory they scan.  `buf` holds the bytes from `sof` on; it may extend past `eof`
(the window is `[0, eof)`), and a read past the end of `buf` yields the byte 0, as it
does for NUL-terminated text input. -/
structure Ctx where
  buf : List Nat
  eof : Nat
  sep : Nat
  eol : Nat
  eol2 : Nat
  eolLen : Nat
  quote : Nat
  dec : Nat
  quoteRule : Nat
  NAstrings : List (List Nat)
  any_number_like_NAstrings : Bool
  blank_is_a_NAstring : Bool
  stripWhite : Bool
  skipEmptyLines : Bool
  fill : Bool

/-- The byte `*(sof+i)`. -/
def rd (c : Ctx) (i : Nat) : Nat := c.buf.getD i 0

/-- The byte `s[j]` of a NUL-terminated C string given by its bytes before the NUL. -/
def rdStr (s : List Nat) (j : Nat) : Nat := s.getD j 0

def INT32_MAX : Nat := 2147483647
def INT64_MAX : Nat := 9223372036854775807
def UINT64_MAX : Nat := 18446744073709551615
def INT_MIN : Int := -2147483648

/-- Modelled from the spec: `fread.h` is not part of the sources; the spec gives the INT32
missing value as the most-negative 32-bit integer. -/
def NA_INT32 : Int := -2147483648

/-- Modelled from the spec: `fread.h` is not part of the sources; the spec gives the INT64
missing value as the most-negative 64-bit integer. -/
def NA_INT64 : Int := -9223372036854775808

/-- Modelled from the spec: `fread.h` is not part of the sources; the spec gives the BOOL8
missing value as a distinguished byte value outside 0 and 1 (the most-negative 8-bit
integer is used here). -/
def NA_BOOL8 : Int := -128

/-- The value of the C cast `(int)x` on a two's-complement 32-bit `int`. -/
def toInt32 (x : Int) : Int := (x + 2147483648) % 4294967296 - 2147483648

/-- The value of the C cast `(uint32_t)x`. -/
def toUInt32 (x : Int) : Nat := (x % 4294967296).toNat

/-- What a scanner leaves behind: its return value, the caller's cursor `*this` after the
call, and the last value stored at `targetCol[targetRow]` (`none` when nothing was
stored). -/
structure Res (α : Type) where
  ok : Bool
  ch : Nat
  cell : Option α
deriving DecidableEq, Repr

/-- A store `targetCol[targetRow] = v`, performed only when `targetCol` is non-NULL. -/
def store {α : Type} (tgt : Bool) (v : α) (old : Option α) : Option α :=
  if tgt then some v else old

/-! ## Cursor helpers -/

/-- The loop `while (ch<eof && p(ch)) ch++`. -/
def scanWhile (eof : Nat) (p : Nat → Bool) : Nat → Nat → Nat
  | 0, ch => ch
  | n + 1, ch => if ch < eof ∧ p ch = true then scanWhile eof p n (ch + 1) else ch

/-- Whether the byte at `i` is skipped by `skip_white`: a space or a tab, and not `sep`. -/
def isWhite (c : Ctx) (i : Nat) : Bool :=
  (rd c i = 32 ∨ rd c i = 9) ∧ rd c i ≠ c.sep

/-- The function `skip_white`. -/
def skip_white (c : Ctx) (ch : Nat) : Nat :=
  scanWhile c.eof (isWhite c) (c.eof - ch) ch

/-- The function `on_sep`: the return value and the updated cursor. -/
def on_sep (c : Ctx) (ch : Nat) : Bool × Nat :=
  let ch1 :=
    if c.sep = 32 ∧ ch < c.eof ∧ rd c ch = 32 then
      let ch2 := scanWhile c.eof (fun i => rd c (i + 1) = 32 ∧ i + 1 < c.eof) (c.eof - ch) ch
      if ch2 + 1 = c.eof ∨ rd c (ch2 + 1) = c.eol then ch2 + 1 else ch2
    else ch
  (decide (ch1 ≥ c.eof ∨ rd c ch1 = c.sep ∨ rd c ch1 = c.eol), ch1)

/-- Whether the byte at `i` is neither `sep` nor `eol`. -/
def notSepEol (c : Ctx) (i : Nat) : Bool := rd c i ≠ c.sep ∧ rd c i ≠ c.eol

/-- The function `next_sep`. -/
def next_sep (c : Ctx) (ch : Nat) : Nat :=
  (on_sep c (scanWhile c.eof (notSepEol c) (c.eof - ch) ch)).2

/-- The loop `while (ch1<eof && *ch1==*ch2) { ch1++; ch2++; }` of `is_NAstring`; returns
the final `ch1` and the final index into the NA string. -/
def naMatch (c : Ctx) (na : List Nat) : Nat → Nat → Nat → Nat × Nat
  | 0, ch1, j => (ch1, j)
  | n + 1, ch1, j =>
    if ch1 < c.eof ∧ rd c ch1 = rdStr na j then naMatch c na n (ch1 + 1) (j + 1) else (ch1, j)

/-- The `for` loop of `is_NAstring` over the NA strings still to be tried. -/
def naAny (c : Ctx) (fieldStart : Nat) : List (List Nat) → Bool
  | [] => false
  | na :: rest =>
    let m := naMatch c na (c.eof - fieldStart) fieldStart 0
    if rdStr na m.2 = 0 then
      let ch1 := skip_white c m.1
      if ch1 ≥ c.eof ∨ rd c ch1 = c.sep ∨ rd c ch1 = c.eol then true
      else naAny c fieldStart rest
    else naAny c fieldStart rest

/-- The function `is_NAstring`. -/
def is_NAstring (c : Ctx) (fieldStart : Nat) : Bool :=
  naAny c (skip_white c fieldStart) c.NAstrings

/-! ## The string scanner `Field` -/

/-- The `(len, off)` pair of `fread.h` stored for a string cell. -/
structure LenOff where
  len : Int
  off : Nat
deriving DecidableEq, Repr

/-- The `case 0` loop of `Field`, entered with `ch` on the opening quote:
`while (++ch<eof && eolCount<100) ...`; returns the final `ch`. -/
def quoteLoop0 (c : Ctx) : Nat → Nat → Nat → Nat
  | 0, ch, _ => ch + 1
  | n + 1, ch, eolCount =>
    let ch := ch + 1
    if ch < c.eof ∧ eolCount < 100 then
      let eolCount := eolCount + (if rd c ch = c.eol then 1 else 0)
      if rd c ch = c.quote then
        if ch + 1 < c.eof ∧ rd c (ch + 1) = c.quote then quoteLoop0 c n (ch + 1) eolCount
        else ch
      else quoteLoop0 c n ch eolCount
    else ch

/-- The `case 1` loop of `Field`:
`while (++ch<eof && *ch!=quote && eolCount<100) { eolCount += (*ch==eol); ch += (*ch=='\\'); }`. -/
def quoteLoop1 (c : Ctx) : Nat → Nat → Nat → Nat
  | 0, ch, _ => ch + 1
  | n + 1, ch, eolCount =>
    let ch := ch + 1
    if ch < c.eof ∧ rd c ch ≠ c.quote ∧ eolCount < 100 then
      quoteLoop1 c n (ch + (if rd c ch = 92 then 1 else 0))
        (eolCount + (if rd c ch = c.eol then 1 else 0))
    else ch

/-- The test `*ch==quote && (ch+1>=eof || *(ch+1)==sep || *(ch+1)==eol)` of `case 2`. -/
def quoteThenSep (c : Ctx) (ch : Nat) : Bool :=
  rd c ch = c.quote ∧ (ch + 1 ≥ c.eof ∨ rd c (ch + 1) = c.sep ∨ rd c (ch + 1) = c.eol)

/-- The inner loop of `case 2`: `while (++ch2<eof && *ch2!=eol)` looking for a quote that
is followed by a terminator; returns whether it was found, and the final `ch2`. -/
def quoteLoop2inner (c : Ctx) : Nat → Nat → Bool × Nat
  | 0, ch2 => (false, ch2 + 1)
  | n + 1, ch2 =>
    let ch2 := ch2 + 1
    if ch2 < c.eof ∧ rd c ch2 ≠ c.eol then
      if quoteThenSep c ch2 then (true, ch2) else quoteLoop2inner c n ch2
    else (false, ch2)

/-- The outer loop of `case 2`, entered with `ch` on the opening quote and `ch2` equal to
it; returns the final `(ch, ch2)`. -/
def quoteLoop2 (c : Ctx) : Nat → Nat → Nat → Nat × Nat
  | 0, ch, ch2 => (ch + 1, ch2)
  | n + 1, ch, ch2 =>
    let ch := ch + 1
    if ch < c.eof ∧ rd c ch ≠ c.eol then
      if quoteThenSep c ch then (ch, ch)
      else if rd c ch = c.sep then
        let r := quoteLoop2inner c (c.eof - ch) ch
        if r.1 then (r.2, r.2) else (ch, r.2)
      else quoteLoop2 c n ch ch2
    else (ch, ch2)

/-- The loop `while(fieldLen>0 && (fieldStart[fieldLen-1]==' ' || ...=='\t')) fieldLen--`. -/
def stripTrail (c : Ctx) (fieldStart : Nat) : Nat → Nat
  | 0 => 0
  | n + 1 =>
    if rd c (fieldStart + n) = 32 ∨ rd c (fieldStart + n) = 9 then stripTrail c fieldStart n
    else n + 1

/-- Lines 198-215 of `Field`: everything after the end of the field has been located at
`ch`, with `fieldStart` and `quoted` as set by the branch taken. -/
def Field_finish (c : Ctx) (this : Nat) (tgt : Bool) (fieldStart : Nat) (quoted : Bool)
    (ch : Nat) : Res LenOff :=
  let fieldLen : Int := toInt32 ((ch : Int) - (fieldStart : Int))
  let fieldLen : Int :=
    if c.stripWhite ∧ ¬ quoted then
      (if 0 < fieldLen then (stripTrail c fieldStart fieldLen.toNat : Int) else fieldLen)
    else fieldLen
  let ch := if quoted then (if c.stripWhite then skip_white c (ch + 1) else ch + 1) else ch
  let os := on_sep c ch
  if ¬ os.1 then ⟨false, this, none⟩
  else
    let fieldLen : Int :=
      if fieldLen = 0 then (if c.blank_is_a_NAstring then INT_MIN else fieldLen)
      else (if is_NAstring c fieldStart then INT_MIN else fieldLen)
    ⟨true, os.2, store tgt ⟨fieldLen, toUInt32 ((fieldStart : Int) - (this : Int))⟩ none⟩

/-- The function `Field`. -/
def Field (c : Ctx) (this : Nat) (tgt : Bool) : Res LenOff :=
  let ch := if c.stripWhite then skip_white c this else this
  if rd c ch ≠ c.quote ∨ c.quoteRule = 3 then
    Field_finish c this tgt ch false (scanWhile c.eof (notSepEol c) (c.eof - ch) ch)
  else
    match c.quoteRule with
    | 0 =>
      let e := quoteLoop0 c (c.eof - ch + 1) ch 0
      if e ≥ c.eof ∨ rd c e ≠ c.quote then ⟨false, this, none⟩
      else Field_finish c this tgt (ch + 1) true e
    | 1 =>
      let e := quoteLoop1 c (c.eof - ch + 1) ch 0
      if e ≥ c.eof ∨ rd c e ≠ c.quote then ⟨false, this, none⟩
      else Field_finish c this tgt (ch + 1) true e
    | 2 =>
      let r := quoteLoop2 c (c.eof - ch + 1) ch ch
      if r.1 ≠ r.2 then Field_finish c this tgt ch false r.1
      else Field_finish c this tgt (ch + 1) true r.1
    | _ => ⟨false, this, none⟩

/-- The function `SkipField`. -/
def SkipField (c : Ctx) (this : Nat) (_tgt : Bool) : Res LenOff := Field c this false

/-! ## The numeric scanners -/

/-- The test `'0'<=*ch && *ch<='9'`. -/
def isDigit (c : Ctx) (i : Nat) : Bool := 48 ≤ rd c i ∧ rd c i ≤ 57

/-- The accumulation loop shared by the numeric scanners:
`while (ch<eof && '0'<=*ch && *ch<='9' && acc<limit) { acc *= 10; acc += *ch-'0'; ch++; }`;
returns the final `ch` and `acc`. -/
def accLoop (c : Ctx) (limit : Nat) : Nat → Nat → Nat → Nat × Nat
  | 0, ch, acc => (ch, acc)
  | n + 1, ch, acc =>
    if ch < c.eof ∧ isDigit c ch = true ∧ acc < limit then
      accLoop c limit n (ch + 1) (acc * 10 + (rd c ch - 48))
    else (ch, acc)

/-- The closing lines shared verbatim by `StrtoI64`, `StrtoI32` and `StrtoD`, entered with
the parsed value `v` already stored:
`skip_white(&ch); ok = ok && on_sep(&ch); *this = ch; if (ok && !any_number_like_NAstrings)
return true; na = is_NAstring(start); if (ok && !na) return true; target = NA;
next_sep(&ch); *this = ch; return na;`. -/
def numTail {α : Type} (c : Ctx) (tgt : Bool) (start ch : Nat) (ok : Bool) (v na : α) :
    Res α :=
  let ch := skip_white c ch
  let os := if ok then on_sep c ch else (false, ch)
  if os.1 ∧ ¬ c.any_number_like_NAstrings then ⟨true, os.2, store tgt v none⟩
  else
    let isna := is_NAstring c start
    if os.1 ∧ ¬ isna then ⟨true, os.2, store tgt v none⟩
    else ⟨isna, next_sep c os.2, store tgt na (store tgt v none)⟩

/-- The body shared by `StrtoI64` and `StrtoI32`, which differ in the accumulator bound
`limit` and in the missing value `na` only. -/
def StrtoInt (c : Ctx) (limit : Nat) (na : Int) (this : Nat) (tgt : Bool) : Res Int :=
  let os := on_sep c (skip_white c this)
  if os.1 then ⟨true, os.2, store tgt na none⟩
  else
    let start := os.2
    let quoted : Bool := start < c.eof ∧ rd c start = c.quote
    let ch := if quoted then start + 1 else start
    let signed : Bool := ch < c.eof ∧ (rd c ch = 45 ∨ rd c ch = 43)
    let sign : Int := if signed ∧ rd c ch = 45 then -1 else 1
    let ch := if signed then ch + 1 else ch
    let ok : Bool := ch < c.eof ∧ isDigit c ch
    let r := accLoop c limit (c.eof - ch) ch 0
    if quoted ∧ (r.1 ≥ c.eof ∨ rd c r.1 ≠ c.quote) then ⟨false, this, none⟩
    else numTail c tgt start (if quoted then r.1 + 1 else r.1) ok (sign * (r.2 : Int)) na

/-- The function `StrtoI64`. -/
def StrtoI64 (c : Ctx) (this : Nat) (tgt : Bool) : Res Int :=
  StrtoInt c ((INT64_MAX - 10) / 10) NA_INT64 this tgt

/-- The function `StrtoI32`. -/
def StrtoI32 (c : Ctx) (this : Nat) (tgt : Bool) : Res Int :=
  StrtoInt c ((INT32_MAX - 10) / 10) NA_INT32 this tgt

/-- The double that `StrtoD` stores, kept symbolic: the missing value `NA_FLOAT64`, the C
constant `NAN`, `sign*INFINITY`, or the product
`(double)(sign * (long double)acc * pow10lookup[350+e])`, of which the factors `sign` and
`acc` and the exponent `e` are recorded; the table is not looked up. -/
inductive F64 where
  | na
  | nan
  | inf (sign : Int)
  | num (sign : Int) (acc : Nat) (e : Int)
deriving DecidableEq, Repr

/-- The mantissa of the number branch of `StrtoD` (lines 377-392), entered on the first
byte of the mantissa: returns the cursor after the mantissa, the accumulator `acc` and the
exponent `e` implied by the decimal point and by the digits that were not accumulated. -/
def StrtoD_mantissa (c : Ctx) (ch : Nat) : Nat × Nat × Int :=
  let r1 := accLoop c ((UINT64_MAX - 10) / 10) (c.eof - ch) ch 0
  let hasDec : Bool := r1.1 < c.eof ∧ rd c r1.1 = c.dec
  let decCh := if hasDec then r1.1 + 1 else r1.1
  let r2 := accLoop c ((UINT64_MAX - 10) / 10) (c.eof - decCh) decCh r1.2
  let e : Int := if hasDec then - toInt32 ((r2.1 : Int) - (decCh : Int)) else 0
  let ch3 := scanWhile c.eof (isDigit c) (c.eof - r2.1) r2.1
  (ch3, r2.2, if hasDec then e else e - ((ch3 : Int) - (r2.1 : Int)))

/-- The number branch of `StrtoD` (the `else` of `if (!ok)`, lines 377-404), entered on the
first byte of the mantissa: returns the final `ch`, the mantissa `acc` and the decimal
exponent `e` with which `pow10lookup[350+e]` is read. -/
def StrtoD_num (c : Ctx) (ch : Nat) : Nat × Nat × Int :=
  let m := StrtoD_mantissa c ch
  if m.1 < c.eof ∧ (rd c m.1 = 69 ∨ rd c m.1 = 101) then
    let ch4 := m.1 + 1
    let esigned : Bool := ch4 < c.eof ∧ (rd c ch4 = 45 ∨ rd c ch4 = 43)
    let esign : Int := if esigned ∧ rd c ch4 = 45 then -1 else 1
    let ch5 := if esigned then ch4 + 1 else ch4
    let r3 := accLoop c ((INT32_MAX - 10) / 10) (c.eof - ch5) ch5 0
    (r3.1, m.2.1, m.2.2 + esign * (r3.2 : Int))
  else m

/-- Lines 372-406 of `StrtoD`, entered after the optional sign with `ch` on `start`:
returns the final `ch`, the value `d` and the flag `ok`. Line 405 reads
`pow10lookup[350+e]` with no test of the index `350+e`; this function records `e` and
returns in every case, also where the index is outside the 701 entries of the table and
the C call has undefined behaviour. `pow10InTable` tells the two cases apart, and
`StrtoD_checked` is the call with the undefined case set apart. -/
def StrtoD_value (c : Ctx) (sign : Int) (ch : Nat) : Nat × F64 × Bool :=
  let ok : Bool := ch < c.eof ∧ (isDigit c ch ∨ rd c ch = c.dec)
  if ¬ ok then
    if ch < c.eof ∧ rd c ch = 73 ∧ rd c (ch + 1) = 110 ∧ rd c (ch + 2) = 102 then
      (ch + 3, F64.inf sign, true)
    else if ch < c.eof ∧ rd c ch = 78 ∧ rd c (ch + 1) = 65 ∧ rd c (ch + 2) = 78 then
      (ch + 3, F64.nan, true)
    else (ch, F64.nan, false)
  else
    let n := StrtoD_num c ch
    (n.1, F64.num sign n.2.1 n.2.2, true)

/-- The function `StrtoD`, as far as its cursor, its return value and the factors of the
value it stores go; `StrtoD_checked` sets apart the calls in which line 405 reads outside
the table `pow10lookup`. -/
def StrtoD (c : Ctx) (this : Nat) (tgt : Bool) : Res F64 :=
  let os := on_sep c (skip_white c this)
  if os.1 then ⟨true, os.2, store tgt F64.na none⟩
  else
    let ch := os.2
    let quoted : Bool := ch < c.eof ∧ rd c ch = c.quote
    let ch := if quoted then ch + 1 else ch
    let signed : Bool := ch < c.eof ∧ (rd c ch = 45 ∨ rd c ch = 43)
    let sign : Int := if signed ∧ rd c ch = 45 then -1 else 1
    let start := if signed then ch + 1 else ch
    let p := StrtoD_value c sign start
    if quoted ∧ (p.1 ≥ c.eof ∨ rd c p.1 ≠ c.quote) then ⟨false, this, none⟩
    else numTail c tgt start (if quoted then p.1 + 1 else p.1) p.2.2 p.2.1 F64.na

/-- The local `logical01` of `StrtoB`, a constant of the source. -/
def logical01 : Bool := false

/-- Lines 433-444 of `StrtoB`, entered with `ch` on the first byte after the optional
opening quote and `cell0` the cell as left by line 426: returns the final `ch` and the
cell. -/
def StrtoB_literal (c : Ctx) (tgt : Bool) (cell0 : Option Int) (ch : Nat) : Nat × Option Int :=
  if ((rd c ch = 48 ∨ rd c ch = 49) ∧ logical01) ∨
      (rd c ch = 78 ∧ ch + 1 < c.eof ∧ rd c (ch + 1) = 65) then
    let ch1 := if (rd c ch = 48 ∨ rd c ch = 49) ∧ logical01 then ch else ch + 1
    (ch1 + 1,
      store tgt (if rd c ch1 = 49 then 1 else if rd c ch1 = 48 then 0 else NA_BOOL8) cell0)
  else if rd c ch = 84 then
    (if ch + 1 + 2 < c.eof ∧
          ((rd c (ch + 1) = 82 ∧ rd c (ch + 1 + 1) = 85 ∧ rd c (ch + 1 + 2) = 69) ∨
           (rd c (ch + 1) = 114 ∧ rd c (ch + 1 + 1) = 117 ∧ rd c (ch + 1 + 2) = 101))
      then ch + 1 + 3 else ch + 1,
      store tgt 1 cell0)
  else if rd c ch = 70 then
    (if ch + 1 + 3 < c.eof ∧
          ((rd c (ch + 1) = 65 ∧ rd c (ch + 1 + 1) = 76 ∧ rd c (ch + 1 + 2) = 83 ∧
              rd c (ch + 1 + 3) = 69) ∨
           (rd c (ch + 1) = 97 ∧ rd c (ch + 1 + 1) = 108 ∧ rd c (ch + 1 + 2) = 115 ∧
              rd c (ch + 1 + 3) = 101))
      then ch + 1 + 4 else ch + 1,
      store tgt 0 cell0)
  else (ch, cell0)

/-- The function `StrtoB`; `true` is stored as 1 and `false` as 0. -/
def StrtoB (c : Ctx) (this : Nat) (tgt : Bool) : Res Int :=
  let cell0 := store tgt NA_BOOL8 none
  let os := on_sep c (skip_white c this)
  if os.1 then ⟨true, os.2, cell0⟩
  else
    let start := os.2
    let quoted : Bool := start < c.eof ∧ rd c start = c.quote
    let ch := if quoted then start + 1 else start
    if quoted ∧ rd c ch = c.quote then
      let os2 := on_sep c (ch + 1)
      if os2.1 then ⟨true, os2.2, cell0⟩ else ⟨false, this, cell0⟩
    else
      let p := StrtoB_literal c tgt cell0 ch
      if quoted ∧ (p.1 ≥ c.eof ∨ rd c p.1 ≠ c.quote) then ⟨false, this, p.2⟩
      else
        let os3 := on_sep c (if quoted then p.1 + 1 else p.1)
        if os3.1 then ⟨true, os3.2, p.2⟩
        else ⟨is_NAstring c start, next_sep c os3.2, store tgt NA_BOOL8 p.2⟩

/-! ## Specification vocabulary -/

/-- The cursor `p` is at or past `eof`, or rests on a byte equal to `sep` or `eol`. -/
def onTerm (c : Ctx) (p : Nat) : Prop := p ≥ c.eof ∨ rd c p = c.sep ∨ rd c p = c.eol

instance (c : Ctx) (p : Nat) : Decidable (onTerm c p) := by unfold onTerm; infer_instance

/-! ## Fields and digit strings -/

/-- The bytes `f` sit in memory from offset `p` on. -/
def bytesAt (c : Ctx) : Nat → List Nat → Bool
  | _, [] => true
  | p, b :: bs => decide (rd c p = b) && bytesAt c (p + 1) bs

/-- The text of an unquoted field: the bytes `f` sit at offset `p` inside the window, none
of them is `sep` or `eol`, and they are followed by `sep`, `eol` or `eof`. -/
def fieldAt (c : Ctx) (p : Nat) (f : List Nat) : Prop :=
  bytesAt c p f = true ∧ p + f.length ≤ c.eof ∧ (∀ b ∈ f, b ≠ c.sep ∧ b ≠ c.eol) ∧
    onTerm c (p + f.length)

instance (c : Ctx) (p : Nat) (f : List Nat) : Decidable (fieldAt c p f) := by
  unfold fieldAt; infer_instance

/-- Every byte of `ds` is a decimal digit. -/
def allDigits (ds : List Nat) : Prop := ∀ d ∈ ds, 48 ≤ d ∧ d ≤ 57

instance (ds : List Nat) : Decidable (allDigits ds) := by unfold allDigits; infer_instance

/-- The number obtained by appending the decimal digits `ds` to `acc`. -/
def digitsValFrom (acc : Nat) (ds : List Nat) : Nat :=
  ds.foldl (fun a d => a * 10 + (d - 48)) acc

/-- The decimal value of the digit string `ds`. -/
def digitsVal (ds : List Nat) : Nat := digitsValFrom 0 ds

/-- The comma-separated dialect used for the concrete examples: `sep` a comma, `eol` a
line feed, `quote` a double quote, `dec` a dot, quote rule 0, no NA strings, stripping on;
the window is the whole of `buf`. -/
def csv (buf : List Nat) : Ctx :=
  { buf := buf, eof := buf.length, sep := 44, eol := 10, eol2 := 10, eolLen := 1, quote := 34,
    dec := 46, quoteRule := 0, NAstrings := [], any_number_like_NAstrings := false,
    blank_is_a_NAstring := false, stripWhite := true, skipEmptyLines := false, fill := false }

/-- The sign denoted by the optional sign prefix `s` of a number: -1 for `-`, else 1. -/
def signOf (s : List Nat) : Int := if s = [45] then -1 else 1

/-- The texts that the boolean scanner is specified to accept: `T`, `F`, `TRUE`, `FALSE`,
`True`, `False` and `NA`. -/
def boolLits : List (List Nat) :=
  [[84], [70], [84, 82, 85, 69], [70, 65, 76, 83, 69], [84, 114, 117, 101],
   [70, 97, 108, 115, 101], [78, 65]]

/-- The value specified for a boolean text: 1 for the `T` forms, 0 for the `F` forms, the
missing value otherwise. -/
def boolVal (f : List Nat) : Int :=
  if f.head? = some 84 then 1 else if f.head? = some 70 then 0 else NA_BOOL8

/-- The letters that follow the first one in the texts of `boolLits`:
`A R U E L S r u e a l s`. -/
def boolTailLetters : List Nat := [65, 82, 85, 69, 76, 83, 114, 117, 101, 97, 108, 115]

/-! ## Type codes and the sampler's retry loop -/

/-- Modelled from the spec: the column type codes of `fread.h`, which is not part of the
sources; the spec orders them `DROP < BOOL8 < INT32 < INT64 < FLOAT64 < STRING` and the
source comments give `CT_DROP` as 0 and `CT_BOOL8` as 1. -/
def CT_DROP : Nat := 0
def CT_BOOL8 : Nat := 1
def CT_INT32 : Nat := 2
def CT_INT64 : Nat := 3
def CT_FLOAT64 : Nat := 4
def CT_STRING : Nat := 5

/-- The call `(*fun[t])(&ch, NULL, 0)` through the table
`fun = {&SkipField, &StrtoB, &StrtoI32, &StrtoI64, &StrtoD, &Field}`: the return value and
the cursor after the call; `none` when `t` lies outside the six entries. -/
def funProbe (c : Ctx) (t : Nat) (ch : Nat) : Option (Bool × Nat) :=
  match t with
  | 0 => some ((SkipField c ch false).ok, (SkipField c ch false).ch)
  | 1 => some ((StrtoB c ch false).ok, (StrtoB c ch false).ch)
  | 2 => some ((StrtoI32 c ch false).ok, (StrtoI32 c ch false).ch)
  | 3 => some ((StrtoI64 c ch false).ok, (StrtoI64 c ch false).ch)
  | 4 => some ((StrtoD c ch false).ok, (StrtoD c ch false).ch)
  | 5 => some ((Field c ch false).ok, (Field c ch false).ch)
  | _ => none

/-- The variables of the sampling loop of `freadMain` that its field retry loop reads and
writes: the globals (with `quoteRule`), the `type` vector, `field`, `ch`, `fieldStart`,
`lineStart` and `bumped`. -/
structure Sampler where
  c : Ctx
  type : List Nat
  field : Nat
  ch : Nat
  fieldStart : Nat
  lineStart : Nat
  bumped : Bool

/-- The ways one evaluation of the retry loop's condition and body can end. -/
inductive SampleStep where
  /-- The loop condition is false: the field was read, and the loop is left. -/
  | done (s : Sampler)
  /-- The body ran (a type bump or a quote rule bump) and the condition is tested again. -/
  | again (s : Sampler)
  /-- The call `STOP("Even quoteRule 3 was insufficient!")`. -/
  | abort
  /-- The table `fun` was indexed outside its entries. -/
  | outOfTable

/-- One round of the loop
`while (type[field]<=CT_STRING && !(*fun[type[field]])(&ch,NULL,0)) { ch=fieldStart; ... }`
of the sampling pass (lines 880-898). -/
def sampleStep (s : Sampler) : SampleStep :=
  let t := s.type.getD s.field 0
  if t ≤ CT_STRING then
    match funProbe s.c t s.ch with
    | none => SampleStep.outOfTable
    | some (true, ch) => SampleStep.done { s with ch := ch }
    | some (false, _) =>
      if t < CT_STRING then
        SampleStep.again { s with ch := s.fieldStart, type := s.type.set s.field (t + 1),
                                  bumped := true }
      else if s.c.quoteRule < 3 then
        SampleStep.again { s with c := { s.c with quoteRule := s.c.quoteRule + 1 },
                                  bumped := true, ch := s.lineStart, field := 0 }
      else SampleStep.abort
  else SampleStep.done s

/-- Content of a rule 0 quoted field: every quote byte `q` in it is one of a doubled pair. -/
def doubled (q : Nat) : List Nat → Bool
  | [] => true
  | [a] => decide (a ≠ q)
  | a :: b :: rest => if a = q then decide (b = q) && doubled q rest else doubled q (b :: rest)

/-- Content of a rule 1 quoted field: a backslash (byte 92) escapes the byte that follows
it, whatever it is; every quote byte `q` in the content is escaped in that way, and no
backslash is left to escape the closing quote. -/
def escaped (q : Nat) : List Nat → Bool
  | [] => true
  | [a] => decide (a ≠ q ∧ a ≠ 92)
  | a :: b :: rest =>
    if a = q then false else if a = 92 then escaped q rest else escaped q (b :: rest)

/-! ## The float grammar -/

/-- An optional sign: nothing, `+` or `-`. -/
def isSign (s : List Nat) : Prop := s = [] ∨ s = [43] ∨ s = [45]

instance (s : List Nat) : Decidable (isSign s) := by unfold isSign; infer_instance

/-- The decimal part of a number text: nothing, or the decimal point followed by the
digits `D2`. -/
def decPart (dec : Nat) : Option (List Nat) → List Nat
  | none => []
  | some D2 => dec :: D2

/-- The exponent part of a number text: nothing, or a marker byte followed by an optional
sign `es` and the digits `D3`. -/
def expPart : Option (Nat × List Nat × List Nat) → List Nat
  | none => []
  | some (m, es, D3) => m :: (es ++ D3)

/-- The bytes a float text is made of: digits, the decimal point, `E e + -` and the
letters of `Inf` and `NAN`. -/
def isFloatByte (dec b : Nat) : Prop :=
  (48 ≤ b ∧ b ≤ 57) ∨ b = dec ∨ b ∈ [69, 101, 43, 45, 73, 110, 102, 78, 65]

instance (dec b : Nat) : Decidable (isFloatByte dec b) := by unfold isFloatByte; infer_instance

/-- Whether a byte is a decimal digit. -/
def isDigitByte (b : Nat) : Bool := 48 ≤ b ∧ b ≤ 57

/-- A text without its leading `+` or `-`, if it has one. -/
def stripSign : List Nat → List Nat
  | [] => []
  | b :: r => if b = 43 ∨ b = 45 then r else b :: r

/-- The grammar of the float scanner as the specification words it:
`[sign] digits [dec digits] [E [sign] digits]` with at least one digit in the mantissa and
at least one digit after an exponent marker (`E` or `e`), or the literal `Inf` or `NAN`. -/
def specFloat (dec : Nat) (f : List Nat) : Bool :=
  if f = [73, 110, 102] ∨ f = [78, 65, 78] then true
  else
    let body := stripSign f
    let D1 := body.takeWhile isDigitByte
    let r1 := body.dropWhile isDigitByte
    let hasDec : Bool := r1.head? = some dec
    let D2 := if hasDec then r1.tail.takeWhile isDigitByte else []
    let r2 := if hasDec then r1.tail.dropWhile isDigitByte else r1
    if D1.length + D2.length = 0 then false
    else
      match r2 with
      | [] => true
      | m :: r3 =>
        if m = 69 ∨ m = 101 then
          decide (stripSign r3 ≠ []) && (stripSign r3).all isDigitByte
        else false

/-- The bytes of memory from offset `a` up to, not including, offset `b`. -/
def seg (c : Ctx) (a b : Nat) : List Nat := (List.range (b - a)).map (fun i => rd c (a + i))

/-- A run of digits `ds` at `ch` that ends at `eof` or on a byte that is not a digit. -/
def digitRun (c : Ctx) (ch : Nat) (ds : List Nat) : Prop :=
  bytesAt c ch ds = true ∧ allDigits ds ∧ ch + ds.length ≤ c.eof ∧
    (ch + ds.length ≥ c.eof ∨ isDigit c (ch + ds.length) = false)

/-- The number texts `D1 [dec D2] [marker [sign] D3]` with a digit or the decimal point in
the mantissa (the digit strings being otherwise free, possibly empty), whose integer digits
fit the accumulator of `StrtoD` when a decimal part follows and whose exponent digits fit
its exponent accumulator. -/
def numBody (dec : Nat) (body : List Nat) : Prop :=
  ∃ D1 d x, body = D1 ++ (decPart dec d ++ expPart x) ∧ allDigits D1 ∧
    (∀ D2, d = some D2 → allDigits D2 ∧ digitsVal D1 < 10 * ((UINT64_MAX - 10) / 10)) ∧
    (D1 ≠ [] ∨ d ≠ none) ∧
    (∀ m es D3, x = some (m, es, D3) → (m = 69 ∨ m = 101) ∧ isSign es ∧ allDigits D3 ∧
      digitsVal D3 < 10 * ((INT32_MAX - 10) / 10))

/-- An optional sign followed by a number text in the sense of `numBody` or by one of the
literals `Inf` and `NAN`. -/
def floatText (dec : Nat) (f : List Nat) : Prop :=
  ∃ s body, f = s ++ body ∧ isSign s ∧
    (numBody dec body ∨ body = [73, 110, 102] ∨ body = [78, 65, 78])

/-- The parts of a field read as a number text after its optional sign: the integer digits
`D1`, whether the decimal point follows them, the digits `D2` after the decimal point, and
the rest of the field. -/
structure FloatParts where
  D1 : List Nat
  hasDec : Bool
  D2 : List Nat
  rest : List Nat
deriving DecidableEq, Repr

/-- The parts of the field `f` read as a number text. -/
def floatParts (dec : Nat) (f : List Nat) : FloatParts :=
  let body := stripSign f
  let r1 := body.dropWhile isDigitByte
  let hasDec : Bool := r1.head? = some dec
  ⟨body.takeWhile isDigitByte, hasDec,
    if hasDec then r1.tail.takeWhile isDigitByte else [],
    if hasDec then r1.tail.dropWhile isDigitByte else r1⟩

/-- The digits of the exponent when the rest of a field after its mantissa begins with an
exponent marker (`E` or `e`): the digits that follow the marker and its optional sign. -/
def expDigits : List Nat → Option (List Nat)
  | [] => none
  | m :: r3 => if m = 69 ∨ m = 101 then some ((stripSign r3).takeWhile isDigitByte) else none

/-- The length of the mantissa text: its digits and its decimal point. -/
def mantissaLength (q : FloatParts) : Nat :=
  q.D1.length + (if q.hasDec then 1 + q.D2.length else 0)

/-- The fields for which line 405 of `StrtoD` reads `pow10lookup` inside the table and on
which no digit string that the grammar asks for is empty: a decimal point has a digit
before or after it and integer digits worth less than `10*((UINT64_MAX-10)/10)` before it,
an exponent marker is followed (after its optional sign) by a digit, and the length of the
mantissa plus the value of the exponent digits is at most 350. -/
def floatScope (dec : Nat) (f : List Nat) : Bool :=
  let q := floatParts dec f
  (!q.hasDec || (decide (q.D1.length + q.D2.length ≠ 0) &&
    decide (digitsVal q.D1 < 10 * ((UINT64_MAX - 10) / 10)))) &&
  (match expDigits q.rest with
   | some D3 => decide (D3 ≠ []) && decide (mantissaLength q + digitsVal D3 ≤ 350)
   | none => decide (mantissaLength q ≤ 350))

/-! ## The ordered merge of the chunk results -/

/-- What a worker brings to the ordered section for one chunk (jump): its stop reason, the
offset `thisThreadStart` it started parsing at, the offset `ch` it stopped at and the
number `buffi` of rows in its buffers. -/
structure ChunkResult where
  myStopReason : Nat
  thisThreadStart : Nat
  ch : Nat
  buffi : Nat
deriving DecidableEq, Repr

/-- The shared variables of the ordered section: `ansi`, `prevThreadEnd`, `stopTeam`,
whether `stopErr` was written, and the calls `pushBuffer(.., howMany, myansi)` made so
far, each recorded as the pair `(myansi, howMany)`. -/
structure MergeState where
  ansi : Nat
  prevThreadEnd : Nat
  stopTeam : Bool
  stopErr : Bool
  pushes : List (Nat × Nat)
deriving DecidableEq, Repr

/-- One chunk through lines 1238-1304 of `freadMain`, for a worker that reached the
ordered section: the ordered block, the test `howMany < buffi` after it and the call of
`pushBuffer`. -/
def mergeStep (nrowLimit : Nat) (m : MergeState) (k : ChunkResult) : MergeState :=
  if k.myStopReason = 0 ∧ m.stopTeam = false then
    if m.prevThreadEnd ≠ k.thisThreadStart then { m with stopTeam := true, stopErr := true }
    else
      let myansi := m.ansi
      if myansi < nrowLimit then
        let howMany := min k.buffi (nrowLimit - myansi)
        { ansi := m.ansi + howMany, prevThreadEnd := k.ch,
          stopTeam := decide (howMany < k.buffi), stopErr := m.stopErr,
          pushes := m.pushes ++ [(myansi, howMany)] }
      else { m with prevThreadEnd := k.ch, stopTeam := true }
  else if m.stopTeam = false then { m with stopTeam := true, stopErr := true }
  else m

/-- The ordered sections of the chunks taken in chunk-index order, from the state in which
the read starts: `ansi = 0`, `prevThreadEnd = pos`, nothing pushed. -/
def mergeAll (nrowLimit pos : Nat) (ks : List ChunkResult) : MergeState :=
  ks.foldl (mergeStep nrowLimit) ⟨0, pos, false, false, []⟩

/-- The destination ranges `(a, n)` are contiguous from row `a`: each starts where the
one before it ends. -/
def contiguousFrom : Nat → List (Nat × Nat) → Prop
  | _, [] => True
  | a, (b, n) :: rest => b = a ∧ contiguousFrom (a + n) rest

/-- Chunk results whose boundaries match: the first starts at `prev` and every next one
starts where the one before it stopped. -/
def boundariesMatch : Nat → List ChunkResult → Prop
  | _, [] => True
  | prev, k :: rest => k.thisThreadStart = prev ∧ boundariesMatch k.ch rest

/-- The destination ranges that give chunk `i` the rows `[a_i, a_i + buffi_i)` with
`a_0 = a` and `a_(i+1) = a_i + buffi_i`. -/
def rowRanges : Nat → List ChunkResult → List (Nat × Nat)
  | _, [] => []
  | a, k :: rest => (a, k.buffi) :: rowRanges (a + k.buffi) rest

/-! ## Out-of-sample type exceptions in the body read -/

/-- The call `(*fun[t])(&ch, buffcol, buffi)` through the table
`fun = {&SkipField, &StrtoB, &StrtoI32, &StrtoI64, &StrtoD, &Field}` with a destination
when `tgt` is set: the return value and the cursor after the call; `none` when `t` lies
outside the six entries. -/
def funCall (c : Ctx) (t : Nat) (ch : Nat) (tgt : Bool) : Option (Bool × Nat) :=
  match t with
  | 0 => some ((SkipField c ch tgt).ok, (SkipField c ch tgt).ch)
  | 1 => some ((StrtoB c ch tgt).ok, (StrtoB c ch tgt).ch)
  | 2 => some ((StrtoI32 c ch tgt).ok, (StrtoI32 c ch tgt).ch)
  | 3 => some ((StrtoI64 c ch tgt).ok, (StrtoI64 c ch tgt).ch)
  | 4 => some ((StrtoD c ch tgt).ok, (StrtoD c ch tgt).ch)
  | 5 => some ((Field c ch tgt).ok, (Field c ch tgt).ch)
  | _ => none

/-- The ways the retry loop of the body read can end. -/
inductive Retry where
  /-- The scanner of type `abs(thisType)` read the field and left the cursor on `ch`. -/
  | read (thisType : Int) (ch : Nat)
  /-- The table `fun` was indexed outside its entries. -/
  | outOfTable
  /-- The fuel of the model ran out. -/
  | fuel
deriving DecidableEq, Repr

/-- The loop `while (!fun[abs(thisType)](&ch, buffcol, buffi)) { buffcol = NULL;
thisType = thisType<0 ? thisType-1 : -thisType-1; ch = fieldStart; }` of the body read
(lines 1167-1174), every call starting from `fieldStart`; `tgt` says whether `buffcol` is
non-NULL. -/
def bodyRetry (c : Ctx) (fieldStart : Nat) : Nat → Int → Bool → Retry
  | 0, _, _ => Retry.fuel
  | n + 1, thisType, tgt =>
    match funCall c thisType.natAbs fieldStart tgt with
    | none => Retry.outOfTable
    | some (true, ch) => Retry.read thisType ch
    | some (false, _) =>
      bodyRetry c fieldStart n (if thisType < 0 then thisType - 1 else -thisType - 1) false

/-- Lines 1175-1199 on the shared type of the column: nothing when the type fetched at
line 1164 was `CT_STRING` or the field was read at that type; otherwise the critical
section, which fetches the shared type again and replaces it by `thisType` when that is
smaller. -/
def bodyTypeUpdate (shared oldType thisType : Int) : Int :=
  if oldType = (CT_STRING : Int) then shared
  else if thisType ≠ oldType then (if thisType < shared then thisType else shared)
  else shared

/-- One column's shared type entry during the body read: its current value, the values it
had before (newest first) and the types `thisType` of the scanners that have read a field
of the column. -/
structure ColType where
  shared : Int
  older : List Int
  used : List Int
deriving DecidableEq, Repr

/-- A worker reading one field of the column: the globals and `fieldStart` of the field,
and how many of the past values of the shared type its fetch at line 1164 lies behind the
critical section (0: no other worker has come in between). -/
structure Visit where
  c : Ctx
  fieldStart : Nat
  stale : Nat

/-- One field of the column (lines 1163-1199): the fetch of the shared type, the retry
loop and the update; `none` when the retry loop leaves the table `fun`. -/
def bodyVisit (s : ColType) (v : Visit) : Option ColType :=
  let oldType := (s.shared :: s.older).getD v.stale s.shared
  match bodyRetry v.c v.fieldStart 7 oldType (decide (oldType > 0)) with
  | Retry.read thisType _ =>
    some ⟨bodyTypeUpdate s.shared oldType thisType, s.shared :: s.older, thisType :: s.used⟩
  | _ => none

/-- The fields of one column read by the workers, in the order of their critical
sections, from the type `T0` the column has when the body read starts. -/
def bodyVisits (T0 : Int) (vs : List Visit) : Option ColType :=
  vs.foldlM bodyVisit ⟨T0, [], []⟩

/-- Every replacement in a history (newest first) puts a negative type of strictly larger
magnitude in place of the value before it. -/
def upwardHistory : List Int → Prop
  | [] => True
  | [_] => True
  | a :: b :: rest => (a = b ∨ (a < 0 ∧ b.natAbs < a.natAbs)) ∧ upwardHistory (b :: rest)

/-! ## Counting fields and detecting the dialect -/

/-- The constant `JUMPLINES`. -/
def JUMPLINES : Nat := 100

/-- The loop `while (ch<eof && *ch!=eol)` of `countfields`: returns the field count, or -1
when `Field` fails, and the final `ch`. -/
def countLoop (c : Ctx) : Nat → Nat → Int → Int × Nat
  | 0, ch, ncol => (ncol, ch)
  | n + 1, ch, ncol =>
    if ch < c.eof ∧ rd c ch ≠ c.eol then
      let r := Field c ch false
      if r.ok = false then (-1, ch)
      else if r.ch < c.eof ∧ rd c r.ch ≠ c.eol then countLoop c n (r.ch + 1) (ncol + 1)
      else countLoop c n r.ch ncol
    else (ncol, ch)

/-- The function `countfields`: the return value and the caller's cursor after the call
(left alone when the return value is -1). -/
def countfields (c : Ctx) (this : Nat) : Int × Nat :=
  let ch := if c.sep = 32 then scanWhile c.eof (fun i => rd c i = 32) (c.eof - this) this
            else this
  let r := countLoop c (c.eof - ch + 1) ch 1
  if r.1 < 0 then (-1, this) else (r.1, r.2 + c.eolLen)

/-- Reading slot `i` of an `int` array of `JUMPLINES+1` entries; `none` outside it. -/
def aget (a : List Int) (i : Int) : Option Int :=
  if 0 ≤ i ∧ i < a.length then some (a.getD i.toNat 0) else none

/-- Writing slot `i` of an `int` array; `none` outside it. -/
def aset (a : List Int) (i : Int) (v : Int) : Option (List Int) :=
  if 0 ≤ i ∧ i < a.length then some (a.set i.toNat v) else none

/-- The variables of the line counting loop of the detector (lines 699-707): the cursor,
the slot `i`, `lastncol` and the arrays `numFields` and `numLines`. -/
structure Runs where
  ch : Nat
  i : Int
  lastncol : Int
  numFields : List Int
  numLines : List Int
deriving DecidableEq, Repr

/-- The loop `while (ch<eof && thisLine++<=JUMPLINES)` of the detector under the dialect
`c`; the first argument is the number of lines `thisLine` may still count,
`JUMPLINES + 1 - thisLine`.  `none` when an array is indexed outside its entries. -/
def countRuns (c : Ctx) : Nat → Runs → Option Runs
  | 0, s => some s
  | n + 1, s =>
    if s.ch < c.eof then
      let r := countfields c s.ch
      if r.1 < 0 then (aset s.numFields 0 (-1)).map (fun nf => { s with numFields := nf })
      else
        let i := if s.lastncol ≠ r.1 then s.i + 1 else s.i
        match (if s.lastncol ≠ r.1 then aset s.numFields i r.1 else some s.numFields) with
        | none => none
        | some nf =>
          match aget s.numLines i with
          | none => none
          | some l =>
            match aset s.numLines i (l + 1) with
            | none => none
            | some nl =>
              countRuns c n { ch := r.2, i := i, lastncol := r.1, numFields := nf,
                              numLines := nl }
    else some s

/-- The variables that hold the detector's best candidate so far. -/
structure Top where
  topNumLines : Int
  topNumFields : Int
  topNmax : Int
  topSep : Nat
  topQuoteRule : Nat
  firstJumpEnd : Nat
deriving DecidableEq, Repr

/-- The loop `i=-1; while (numLines[++i]) { ... }` of the detector (lines 712-723) for the
candidate `(sep, quoteRule)` whose counting loop stopped at `ch`; the first argument is
fuel.  `none` when an array is read outside its entries. -/
def scoreRuns (sep quoteRule ch : Nat) (nf nl : List Int) : Nat → Int → Int → Top → Option Top
  | 0, _, _, _ => none
  | n + 1, i, nmax, top =>
    match aget nl (i + 1) with
    | none => none
    | some l =>
      if l = 0 then some top
      else
        match aget nf (i + 1) with
        | none => none
        | some f =>
          let nmax := if f > nmax then f else nmax
          let top :=
            if f > 1 ∧ (l > top.topNumLines ∨
                (l = top.topNumLines ∧ f > top.topNumFields ∧ sep ≠ 32)) then
              ⟨l, f, nmax, sep, quoteRule, ch⟩
            else top
          scoreRuns sep quoteRule ch nf nl n (i + 1) nmax top

/-- The counting loop of one candidate `(sep, quoteRule)` from `pos`, with the arrays
cleared. -/
def candidateRuns (c : Ctx) (pos sep quoteRule : Nat) : Option Runs :=
  countRuns { c with sep := sep, quoteRule := quoteRule } (JUMPLINES + 1)
    ⟨pos, -1, 0, List.replicate (JUMPLINES + 1) 0, List.replicate (JUMPLINES + 1) 0⟩

/-- The body of the two nested `for` loops of the detector (lines 697-723) for one
candidate. -/
def tryCandidate (c : Ctx) (pos : Nat) (top : Top) (sr : Nat × Nat) : Option Top :=
  match candidateRuns c pos sr.1 sr.2 with
  | none => none
  | some s =>
    if aget s.numFields 0 = some (-1) then some top
    else scoreRuns sr.1 sr.2 s.ch s.numFields s.numLines (JUMPLINES + 2) (-1) 0 top

/-- The candidates in the order the loops visit them: for each separator the quote rules
0, 1, 2, 3. -/
def candidates (seps : List Nat) : List (Nat × Nat) :=
  seps.flatMap (fun s => [(s, 0), (s, 1), (s, 2), (s, 3)])

/-- The separators tried when `sep` is left to be detected: `",|;\t "`. -/
def autoSeps : List Nat := [44, 124, 59, 9, 32]

/-- Lines 682-729 of `freadMain`: the detector run over the candidates from the line start
`pos`; `c` supplies the window, `eol`, `quote` and the flags. -/
def detectTop (c : Ctx) (pos : Nat) (seps : List Nat) : Option Top :=
  (candidates seps).foldlM (tryCandidate c pos) ⟨0, 1, 0, c.eol, 0, c.eof⟩

/-- The runs `(field count, number of lines)` that the scoring loop visits in the arrays
`numFields` and `numLines`: the slots before the first one that holds no line. -/
def runsOf (nf nl : List Int) : List (Int × Int) :=
  (nf.zip nl).takeWhile (fun p => p.2 ≠ 0)

/-- The runs of the candidate `sr = (sep, quoteRule)` on the sample from `pos`, when its
counting loop meets no line on which `countfields` returns -1. -/
def candRuns (c : Ctx) (pos : Nat) (sr : Nat × Nat) : Option (List (Int × Int)) :=
  match candidateRuns c pos sr.1 sr.2 with
  | none => none
  | some s =>
    if aget s.numFields 0 = some (-1) then none else some (runsOf s.numFields s.numLines)

/-- The test of lines 714-716: the run of `f` fields over `l` lines of a candidate with
separator `sep` replaces the best so far. -/
def beats (sep : Nat) (f l : Int) (top : Top) : Prop :=
  f > 1 ∧ (l > top.topNumLines ∨ (l = top.topNumLines ∧ f > top.topNumFields ∧ sep ≠ 32))

instance (sep : Nat) (f l : Int) (top : Top) : Decidable (beats sep f l top) := by
  unfold beats; infer_instance

/-- One round of the scoring loop on the run `(f, l)`: `nmax` is raised to `f` and the
best so far is replaced when the run beats it. -/
def scoreStep (sep quoteRule ch : Nat) (st : Int × Top) (run : Int × Int) : Int × Top :=
  let nmax := if run.1 > st.1 then run.1 else st.1
  (nmax, if beats sep run.1 run.2 st.2 then ⟨run.2, run.1, nmax, sep, quoteRule, ch⟩
         else st.2)

/-- The run `(f, l)` of a candidate with separator `sep` does not beat `top`: it has fewer
lines, or as many lines and no more fields, or as many lines and `sep` is a space. -/
def dominated (sep : Nat) (run : Int × Int) (top : Top) : Prop :=
  run.2 < top.topNumLines ∨
    (run.2 = top.topNumLines ∧ (run.1 ≤ top.topNumFields ∨ sep = 32))

/-- The run `(f, l)` of a candidate with separator `sep` is strictly worse than `top`: it
has fewer lines, or as many lines while the separator of `top` is not a space and the run
has fewer fields or is space-separated. -/
def strictlyWorse (sep : Nat) (run : Int × Int) (top : Top) : Prop :=
  run.2 < top.topNumLines ∨
    (run.2 = top.topNumLines ∧ top.topSep ≠ 32 ∧ (run.1 < top.topNumFields ∨ sep = 32))

/-- The best so far `top1` is `top0` or has replaced it through a run of `runs` of the
candidate `(s, r)`. -/
def advanced (s r : Nat) (runs : List (Int × Int)) (top0 top1 : Top) : Prop :=
  top1 = top0 ∨
    (top1.topSep = s ∧ top1.topQuoteRule = r ∧ (top1.topNumFields, top1.topNumLines) ∈ runs ∧
      top1.topNumFields > 1 ∧
      (top0.topNumLines < top1.topNumLines ∨
        (top0.topNumLines = top1.topNumLines ∧ top0.topNumFields < top1.topNumFields ∧
          s ≠ 32)))

/-- The invariant of the detector after the candidates `cs`: no run of more than one field
of a candidate tried so far beats the best so far; and the best so far is the initial one
(one column, `sep = eol`, rule 0) or belongs to a candidate that owns a run of that many
fields and lines, every run of the candidates tried before it being strictly worse. -/
def detectInv (c : Ctx) (pos : Nat) (cs : List (Nat × Nat)) (top : Top) : Prop :=
  (∀ sr ∈ cs, ∀ runs, candRuns c pos sr = some runs →
    ∀ run ∈ runs, run.1 > 1 → dominated sr.1 run top) ∧
  (top = ⟨0, 1, 0, c.eol, 0, c.eof⟩ ∨
    ∃ pre post runs, cs = pre ++ (top.topSep, top.topQuoteRule) :: post ∧
      candRuns c pos (top.topSep, top.topQuoteRule) = some runs ∧
      (top.topNumFields, top.topNumLines) ∈ runs ∧ top.topNumFields > 1 ∧
      ∀ sr ∈ pre, ∀ runs2, candRuns c pos sr = some runs2 →
        ∀ run ∈ runs2, run.1 > 1 → strictlyWorse sr.1 run top)

/-! ## The header row -/

/-- The loop of lines 768-777 of `freadMain` over the fields of the first row; the first
argument is the number of fields still to visit, the second the offset that `++ch` yields
at the top of the next round.  Returns `allchar` and the offset `++ch` would yield next. -/
def headerScan (c : Ctx) : Nat → Nat → Bool → Bool × Nat
  | 0, this, allchar => (allchar, this)
  | n + 1, this, allchar =>
    let os := on_sep c (skip_white c this)
    let allchar := if allchar ∧ ¬ os.1 ∧ (StrtoD c os.2 false).ok then false else allchar
    headerScan c n ((Field c this false).ch + 1) allchar

/-- The loop of lines 805-811 that stores the column names: the first argument is the
number of names still to store, the second the offset that `++ch` yields, `i` the column.
Returns `colNames` and the final `ch`. -/
def readNames (c : Ctx) (anchor : Nat) : Nat → Nat → Nat → List LenOff → List LenOff × Nat
  | 0, start, _, names => (names, start - 1)
  | n + 1, start, i, names =>
    let r := Field c start true
    let names :=
      match r.cell with
      | some lo => names.set i ⟨lo.len, lo.off + (start - anchor)⟩
      | none => names.set i ⟨(names.getD i ⟨0, 0⟩).len, (names.getD i ⟨0, 0⟩).off + (start - anchor)⟩
    if r.ch ≥ c.eof ∨ rd c r.ch = c.eol then (names, r.ch)
    else readNames c anchor n (r.ch + 1) (i + 1) names

/-- The backward loop `while (ch>sof && *ch!=eol2) ch--` of line 791. -/
def scanBack (c : Ctx) (sof : Nat) : Nat → Nat → Nat
  | 0, ch => ch
  | n + 1, ch => if ch > sof ∧ rd c ch ≠ c.eol2 then scanBack c sof n (ch - 1) else ch

/-- Lines 789-793: from `pos`, the start of the line before it. -/
def prevLineStart (c : Ctx) (sof pos : Nat) : Nat :=
  let ch0 := if pos < sof + (c.eolLen + 1) then sof else pos - (c.eolLen + 1)
  let ch1 := scanBack c sof (ch0 - sof) ch0
  if ch1 > sof then ch1 + 1 else ch1

/-- How lines 762-815 end. -/
inductive HeaderResult where
  /-- One of the calls of `STOP`. -/
  | stop
  /-- The first row is a data row: `colNames` as allocated and `pos` unchanged. -/
  | dataRow (colNames : List LenOff) (pos : Nat)
  /-- The first row is the header: the names and `pos` on the row after it. -/
  | header (colNames : List LenOff) (pos : Nat)
deriving DecidableEq, Repr

/-- Lines 762-815 of `freadMain` under the detected dialect `c`, with `ch = pos` on the
first row, `tt` its field count, `ncol` columns, the argument `header` (`none` for auto),
`skipNrow` and the start `sof` of the input.  The field count `tt` is taken positive, as
`countfields` returns it when it does not return -1. -/
def headerResolve (c : Ctx) (sof pos tt ncol : Nat) (header : Option Bool) (skipNrow : Nat) :
    HeaderResult :=
  let colNames : List LenOff := List.replicate ncol ⟨0, 0⟩
  let start := if c.sep = 32 then scanWhile c.eof (fun i => rd c i = 32) (c.eof - pos) pos
               else pos
  let hs := headerScan c tt start true
  let ch := hs.2 - 1
  if ch < c.eof ∧ rd c ch ≠ c.eol then HeaderResult.stop
  else if header = some false ∨ (header = none ∧ hs.1 = false) then
    if pos > sof ∧ skipNrow = 0 then
      let r := countfields c (prevLineStart c sof pos)
      if r.1 = ncol then HeaderResult.stop
      else if r.2 ≠ pos then HeaderResult.stop
      else HeaderResult.dataRow colNames pos
    else HeaderResult.dataRow colNames pos
  else
    let rn := readNames c pos ncol start 0 colNames
    if rn.2 < c.eof ∧ rd c rn.2 ≠ c.eol then HeaderResult.stop
    else HeaderResult.header rn.1 (if rn.2 < c.eof then rn.2 + c.eolLen else rn.2)

/-- The offsets at which the fields of a row begin: the first at `start`, each next one
right after the terminator on which `Field` leaves the cursor. -/
def fieldStarts (c : Ctx) : Nat → Nat → List Nat
  | 0, _ => []
  | n + 1, start => start :: fieldStarts c n ((Field c start false).ch + 1)

/-- The test of line 772 on the field that begins at `p`: the field is empty after its
leading blanks, or `StrtoD` fails on it. -/
def emptyOrNotFloat (c : Ctx) (p : Nat) : Bool :=
  (on_sep c (skip_white c p)).1 || !(StrtoD c (on_sep c (skip_white c p)).2 false).ok

/-! ## Chunk boundaries: `nextGoodLine` and the worker's row loop -/

/-- The loop `while (ch2<eof && i<5 && ((thisNcol=countfields(&ch2))==ncol ||
(thisNcol==0 && (skipEmptyLines || fill)))) i++` of `nextGoodLine`; the first argument is
`5 - i`.  Returns `i` and `ch2`. -/
def goodLines (c : Ctx) (ncol : Int) : Nat → Nat → Nat → Nat × Nat
  | 0, ch2, i => (i, ch2)
  | n + 1, ch2, i =>
    if ch2 < c.eof then
      let r := countfields c ch2
      if r.1 = ncol ∨ (r.1 = 0 ∧ (c.skipEmptyLines = true ∨ c.fill = true)) then
        goodLines c ncol n r.2 (i + 1)
      else (i, r.2)
    else (i, ch2)

/-- The loop `while (ch<eof && attempts++<30)` of `nextGoodLine`; the first argument is
fuel.  Returns `ch` and `attempts`. -/
def goodLineLoop (c : Ctx) (ncol : Int) : Nat → Nat → Nat → Nat × Nat
  | 0, ch, attempts => (ch, attempts)
  | n + 1, ch, attempts =>
    if ch < c.eof then
      if attempts < 30 then
        let ch1 := scanWhile c.eof (fun i => rd c i ≠ c.eol) (c.eof - ch) ch
        let ch2 := if ch1 < c.eof then ch1 + c.eolLen else ch1
        let g := goodLines c ncol 5 ch2 0
        if g.1 = 5 ∨ g.2 ≥ c.eof then (ch2, attempts + 1)
        else goodLineLoop c ncol n ch2 (attempts + 1)
      else (ch, attempts + 1)
    else (ch, attempts)

/-- The function `nextGoodLine`: the return value and the caller's cursor after the call
(left alone on failure). -/
def nextGoodLine (c : Ctx) (this : Nat) (ncol : Int) : Bool × Nat :=
  let r := goodLineLoop c ncol 31 this 0
  if r.1 < c.eof ∧ r.2 < 30 then (true, r.1) else (false, this)

/-- The loop `while (j<ncol)` of the body read (lines 1161-1204) on one row; `typ j` is
the value of the shared `type[j]` that the worker fetches at line 1164, and the first
argument is `ncol - j`.  Returns `j` and `ch` after the loop, `none` when the retry loop
leaves the table `fun`. -/
def workerFields (c : Ctx) (typ : Nat → Int) : Nat → Nat → Nat → Option (Nat × Nat)
  | 0, j, ch => some (j, ch)
  | n + 1, j, ch =>
    match bodyRetry c ch 7 (typ j) (decide (typ j > 0)) with
    | Retry.read _ ch2 =>
      if ch2 ≥ c.eof ∨ rd c ch2 = c.eol then some (j + 1, ch2)
      else workerFields c typ n (j + 1) (ch2 + 1)
    | _ => none

/-- How one round of the worker's loop over the rows ends. -/
inductive RowResult where
  /-- The row was read; the cursor is on the start of the next line. -/
  | row (ch : Nat)
  /-- An empty line was skipped (`skipEmptyLines`). -/
  | skipped (ch : Nat)
  /-- The loop is left with `myStopReason` set. -/
  | stop (reason : Nat) (ch : Nat)
  /-- The retry loop left the table `fun`. -/
  | outOfTable
deriving DecidableEq, Repr

/-- One round of the loop `while (ch<nextJump && buffi<args.nrowLimit)` of the body read
(lines 1151-1235), from the line start `ch`. -/
def workerRow (c : Ctx) (typ : Nat → Int) (ncol : Nat) (ch : Nat) : RowResult :=
  let ch1 := if c.sep = 32 then scanWhile c.eof (fun i => rd c i = 32) (c.eof - ch) ch else ch
  let ch2 := skip_white c ch1
  if (ch2 ≥ c.eof ∨ rd c ch2 = c.eol) ∧ c.skipEmptyLines = true then
    RowResult.skipped (ch2 + c.eolLen)
  else if (ch2 ≥ c.eof ∨ rd c ch2 = c.eol) ∧ c.fill = false then RowResult.stop 1 ch2
  else
    match workerFields c typ ncol 0 ch2 with
    | none => RowResult.outOfTable
    | some (j, ch3) =>
      if j < ncol ∧ c.fill = false then RowResult.stop 2 ch3
      else if ch3 < c.eof ∧ rd c ch3 ≠ c.eol then RowResult.stop 3 ch3
      else RowResult.row (ch3 + c.eolLen)

/-- How the worker's loop over the rows of its chunk ends: `myStopReason`, the cursor and
`buffi`; `none` when the retry loop left the table `fun`. -/
def workerLoop (c : Ctx) (typ : Nat → Nat → Int) (ncol nextJump nrowLimit : Nat) :
    Nat → Nat → Nat → Option (Nat × Nat × Nat)
  | 0, ch, buffi => some (0, ch, buffi)
  | n + 1, ch, buffi =>
    if ch < nextJump ∧ buffi < nrowLimit then
      match workerRow c (typ buffi) ncol ch with
      | RowResult.row ch2 => workerLoop c typ ncol nextJump nrowLimit n ch2 (buffi + 1)
      | RowResult.skipped ch2 => workerLoop c typ ncol nextJump nrowLimit n ch2 buffi
      | RowResult.stop reason ch2 => some (reason, ch2, buffi)
      | RowResult.outOfTable => none
    else some (0, ch, buffi)

/-- One chunk of the body read up to the ordered section (lines 1119-1236): the worker
starts at `start` (where `nextGoodLine` put it, or `pos` for the first chunk) and reads
rows while its cursor is below `nextJump + eolLen`. -/
def workerChunk (c : Ctx) (typ : Nat → Nat → Int) (ncol nextJump nrowLimit start : Nat) :
    Option (Nat × Nat × Nat) :=
  workerLoop c typ ncol (nextJump + c.eolLen) nrowLimit (c.eof - start + 1) start 0

/-- The offset of the first byte at or after `p` that is `sep` or `eol`, or `eof`. -/
def fieldEnd (c : Ctx) (p : Nat) : Nat := scanWhile c.eof (notSepEol c) (c.eof - p) p

/-- The field that begins at `p` is unquoted: its first byte after the leading blanks is
not the quote byte (or quote rule 3 is in force, under which `Field` takes every field as
unquoted). -/
def unquotedAt (c : Ctx) (p : Nat) : Bool :=
  rd c (skip_white c p) ≠ c.quote ∨ c.quoteRule = 3

/-- A row of exactly `n` unquoted fields from `p`, each but the last ended by `sep`, the
last ended by an `eol` byte inside the window: the offset of that byte. -/
def rowEnd (c : Ctx) : Nat → Nat → Option Nat
  | 0, _ => none
  | n + 1, p =>
    if unquotedAt c p = true ∧ fieldEnd c p < c.eof then
      if rd c (fieldEnd c p) = c.eol then (if n = 0 then some (fieldEnd c p) else none)
      else rowEnd c n (fieldEnd c p + 1)
    else none

/-- From the line start `S` on, the window holds rows of exactly `ncol` unquoted fields,
each ended by `eol` and followed by the rest of the line terminator (which holds no
further `eol` byte), up to the end of the window.  A row that is blank is allowed only
when blank lines are skipped or filled. -/
inductive Regular (c : Ctx) (ncol : Nat) : Nat → Prop where
  | done (S : Nat) (h : c.eof ≤ S) : Regular c ncol S
  | row (S e : Nat) (h : rowEnd c ncol S = some e)
      (h2 : ∀ i, e < i → i < e + c.eolLen → rd c i ≠ c.eol)
      (hb : c.skipEmptyLines = true ∨ c.fill = true ∨ rd c (skip_white c S) ≠ c.eol)
      (hn : Regular c ncol (e + c.eolLen)) : Regular c ncol S

/-- The dialects in which no scanner reads across a separator: `sep` is not a space, a
quote, a digit, a sign, the decimal point or a letter of the literals of `StrtoD` and
`StrtoB`; `eol` is a line feed or a carriage return and the terminator has 1 or 2 bytes;
`dec` is a dot or a comma and the quote byte is not a blank. -/
def plainDialect (c : Ctx) : Prop :=
  c.sep ≠ 32 ∧ c.sep ≠ c.quote ∧ c.eol ≠ c.quote ∧ (c.eol = 10 ∨ c.eol = 13) ∧
  (c.eolLen = 1 ∨ c.eolLen = 2) ∧ (c.dec = 46 ∨ c.dec = 44) ∧
  ¬ isFloatByte c.dec c.sep ∧ c.sep ∉ boolTailLetters ∧ c.sep ≠ 84 ∧ c.sep ≠ 70 ∧
  c.sep ≠ 78 ∧ c.quote ≠ 32 ∧ c.quote ≠ 9

instance (c : Ctx) : Decidable (plainDialect c) := by unfold plainDialect; infer_instance


/-- The offset of the first `eol` byte at or after `B`, or `eof`: where the inner loop
`while (ch<eof && *ch!=eol) ch++` of `nextGoodLine` stops. -/
def firstEol (c : Ctx) (B : Nat) : Nat :=
  scanWhile c.eof (fun i => rd c i ≠ c.eol) (c.eof - B) B

/-! ## From the detector to the column types: first line, header, type sample -/

/-- The retry loop of lines 880-898 run until its condition is false; the first argument
is fuel (`again` is returned when it runs out). -/
def sampleRetry : Nat → Sampler → SampleStep
  | 0, s => SampleStep.again s
  | n + 1, s =>
    match sampleStep s with
    | SampleStep.again s2 => sampleRetry n s2
    | r => r

/-- The loop `while (ch<eof && *ch!=eol && field<ncol)` of lines 877-901 over the fields of
one line; the first argument is fuel.  `none` for `STOP`, for an access outside the table
`fun` and when the fuel runs out. -/
def sampleFields (ncol : Nat) : Nat → Sampler → Option Sampler
  | 0, _ => none
  | n + 1, s =>
    if s.ch < s.c.eof ∧ rd s.c s.ch ≠ s.c.eol ∧ s.field < ncol then
      match sampleRetry (5 * ncol + 4) { s with fieldStart := s.ch } with
      | SampleStep.done s2 =>
        sampleFields ncol n
          (if s2.ch < s2.c.eof ∧ rd s2.c s2.ch ≠ s2.c.eol then
            { s2 with ch := s2.ch + 1, field := s2.field + 1 }
          else s2)
      | _ => none
    else some s

/-- How one round of the sampling loop over the lines of a jump ends. -/
inductive LineResult where
  /-- One of the calls of `STOP` (or the fuel of the model ran out). -/
  | stop
  /-- The `break` of line 871 on a blank line. -/
  | brk (s : Sampler)
  /-- The line was sampled; the cursor is on the start of the next line. -/
  | next (s : Sampler)

/-- One round of the loop `while(ch<eof && (line<JUMPLINES || j==nJumps-1))` of the
sampling pass (lines 867-935), without the statistics of the line lengths. -/
def sampleLine (ncol : Nat) (s : Sampler) : LineResult :=
  let c := s.c
  let ch1 := if c.sep = 32 then scanWhile c.eof (fun i => rd c i = 32) (c.eof - s.ch) s.ch
             else s.ch
  let ch2 := skip_white c ch1
  let blank : Bool := ch2 ≥ c.eof ∨ rd c ch2 = c.eol
  if blank = true ∧ c.skipEmptyLines = false ∧ c.fill = false then
    LineResult.brk { s with ch := ch2 }
  else
    match sampleFields ncol (4 * ncol + 5)
        { s with ch := ch2, field := 0, fieldStart := ch2,
                 lineStart := if blank then ch2 else s.ch } with
    | none => LineResult.stop
    | some s2 =>
      if s2.field + 1 < ncol ∧ s2.c.fill = false ∧
          ((s2.ch < s2.c.eof ∧ rd s2.c s2.ch ≠ s2.c.eol) ∨ s2.ch > s2.lineStart) then
        LineResult.stop
      else if s2.ch < s2.c.eof then
        if rd s2.c s2.ch ≠ s2.c.eol ∨ s2.field ≥ ncol then LineResult.stop
        else LineResult.next { s2 with ch := s2.ch + s2.c.eolLen }
      else if s2.type.getD (ncol - 1) 0 = CT_STRING ∧ rd s2.c s2.fieldStart = s2.c.quote ∧
          rd s2.c (s2.ch - 1) ≠ s2.c.quote ∧ s2.c.quoteRule < 2 then
        LineResult.stop
      else LineResult.next s2

/-- The loop over the lines of one sampling jump (lines 866-936); `last` is
`j == nJumps-1`, the first argument is fuel, then `line`, the sampler, `lastRowEnd` and
`sampleLines`.  `none` for `STOP` (or when the fuel runs out). -/
def sampleJump (ncol : Nat) (last : Bool) :
    Nat → Nat → Sampler → Nat → Nat → Option (Sampler × Nat × Nat)
  | 0, _, _, _, _ => none
  | n + 1, line, s, lastRowEnd, sampleLines =>
    if s.ch < s.c.eof ∧ (line < JUMPLINES ∨ last = true) then
      match sampleLine ncol s with
      | LineResult.stop => none
      | LineResult.brk s2 => some (s2, lastRowEnd, sampleLines)
      | LineResult.next s2 => sampleJump ncol last n (line + 1) s2 s2.ch (sampleLines + 1)
    else some (s, lastRowEnd, sampleLines)

/-- A difference of two offsets converted to `size_t`. -/
def sizeDiff (a b : Nat) : Nat := (a + 2 ^ 64 - b) % 2 ^ 64

/-- Lines 834-844: the number of sampling jumps for the size `jump0size` of the first
jump. -/
def nJumps (c : Ctx) (pos jump0size : Nat) : Nat :=
  (if jump0size > 0 then
    (if jump0size * 100 * 2 % 2 ^ 64 < sizeDiff c.eof pos then 100
     else if jump0size * 10 * 2 % 2 ^ 64 < sizeDiff c.eof pos then 10 else 0)
   else 0) + 1

/-- Line 858: where jump `j` starts.  The product `0.5*jump0size` is exact in a `double`
for sizes below `2^53`, so its conversion to `size_t` is `jump0size / 2`. -/
def jumpStart (c : Ctx) (pos jump0size nJ j : Nat) : Nat :=
  if j = 0 then pos
  else if j = nJ - 1 then c.eof - jump0size / 2
  else pos + j * (sizeDiff c.eof pos / (nJ - 1))

/-- How the sampling pass over the jumps ends. -/
inductive Sampled where
  /-- Every jump was sampled: the sampler, `lastRowEnd` and `sampleLines`. -/
  | done (s : Sampler) (lastRowEnd sampleLines : Nat)
  /-- The call `STOP("Could not find first good line start after jump point %d when
  sampling.")` at jump `j`. -/
  | noGoodLine (j : Nat)
  /-- The call `STOP("Internal error: Sampling jump point %d is before the last jump
  ended")` at jump `j`. -/
  | overlap (j : Nat)
  /-- One of the calls of `STOP` inside the loop over the lines (or the fuel of the model
  ran out). -/
  | stop

/-- The loop `for (int j=0; j<nJumps; j++)` of the sampling pass (lines 857-942); the
first argument is `nJumps - j`. -/
def sampleJumps (ncol pos jump0size nJ : Nat) : Nat → Nat → Sampler → Nat → Nat → Sampled
  | 0, _, s, lastRowEnd, sampleLines => Sampled.done s lastRowEnd sampleLines
  | k + 1, j, s, lastRowEnd, sampleLines =>
    let g := if j > 0 then nextGoodLine s.c (jumpStart s.c pos jump0size nJ j) (ncol : Int)
             else (true, jumpStart s.c pos jump0size nJ j)
    if g.1 = false then Sampled.noGoodLine j
    else if g.2 < lastRowEnd then Sampled.overlap j
    else
      match sampleJump ncol (decide (j = nJ - 1)) (s.c.eof - g.2 + 1) 0 { s with ch := g.2 }
          lastRowEnd sampleLines with
      | none => Sampled.stop
      | some r => sampleJumps ncol pos jump0size nJ k (j + 1) r.1 r.2.1 r.2.2

/-- The number of entries of the table `pow10lookup` (line 354), which holds the powers of
ten for the exponents -350 to 350. -/
def POW10_ENTRIES : Nat := 701

/-- The index `350+e` with which line 405 reads `pow10lookup` to make the value `d`;
`none` for the values that are not made by the table multiplication. -/
def pow10Index : F64 → Option Int
  | F64.num _ _ e => some (350 + e)
  | _ => none

/-- Whether the value `d` was made with a read of `pow10lookup` inside its 701 entries:
line 405 reads `pow10lookup[350+e]` with no test of the index. The values that are not
made by the table multiplication read nothing. -/
def pow10InTable (d : F64) : Bool :=
  match pow10Index d with
  | some i => decide (0 ≤ i ∧ i < (POW10_ENTRIES : Int))
  | none => true

/-- The call of `StrtoD` as far as C defines it: `none` when the call comes to line 405
with an index `350+e` outside the table `pow10lookup` (the read is out of bounds and the
behaviour of the program is undefined, whatever the lines after it would return), and
otherwise the result of `StrtoD`. -/
def StrtoD_checked (c : Ctx) (this : Nat) (tgt : Bool) : Option (Res F64) :=
  let os := on_sep c (skip_white c this)
  if os.1 then some (StrtoD c this tgt)
  else
    let ch := os.2
    let quoted : Bool := ch < c.eof ∧ rd c ch = c.quote
    let ch := if quoted then ch + 1 else ch
    let signed : Bool := ch < c.eof ∧ (rd c ch = 45 ∨ rd c ch = 43)
    let sign : Int := if signed ∧ rd c ch = 45 then -1 else 1
    let start := if signed then ch + 1 else ch
    if pow10InTable (StrtoD_value c sign start).2.1 then some (StrtoD c this tgt) else none

/-! ## The dialect given by the caller and the detected separator -/

/-- The tests of lines 671-674 on the separator `args.sep` given by the caller, the quote
and the decimal mark, and the choice of the candidate separators of lines 675-680: `none`
for a call of `STOP`, otherwise the list `seps`, which holds the automatic candidates when
`args.sep` is NUL and only `args.sep` otherwise. -/
def dialectSeps (argsSep quote dec : Nat) : Option (List Nat) :=
  if argsSep = quote ∧ quote ≠ 0 then none
  else if dec = 0 then none
  else if argsSep = dec then none
  else if quote = dec then none
  else if argsSep = 0 then some autoSeps
  else some [argsSep]

/-- Lines 667-733: the dialect in force after the detection of the separator and the quote
rule, `sep = topSep` and `quoteRule = topQuoteRule`; `none` for a call of `STOP` or an
access outside an array. -/
def detectDialect (c : Ctx) (argsSep pos : Nat) : Option Ctx :=
  match dialectSeps argsSep c.quote c.dec with
  | none => none
  | some seps =>
    match detectTop c pos seps with
    | none => none
    | some top => some { c with sep := top.topSep, quoteRule := top.topQuoteRule }

/-! ## The detection of the line ending -/

/-- Line 595: the start of the input after the UTF-8 byte order mark, when the input
starts with one. -/
def skipBOM (c : Ctx) (sof : Nat) : Nat :=
  if rd c sof = 239 ∧ rd c (sof + 1) = 187 ∧ rd c (sof + 2) = 191 then sof + 3 else sof

/-- The loop of lines 597-600, `while (ch<eof && *ch!='\n' && *ch!='\r')`, whose body
skips from a quote to the next quote, `while(++ch<eof && *ch!=quote) {}`, and then steps
over one byte. -/
def eolLoop (c : Ctx) : Nat → Nat → Nat
  | 0, ch => ch
  | n + 1, ch =>
    if ch < c.eof ∧ rd c ch ≠ 10 ∧ rd c ch ≠ 13 then
      let ch1 :=
        if rd c ch = c.quote then
          scanWhile c.eof (fun i => rd c i ≠ c.quote) (c.eof - (ch + 1)) (ch + 1)
        else ch
      eolLoop c n (ch1 + 1)
    else ch

/-- The ways the detection of the line ending can end. -/
inductive EolResult where
  /-- The globals `eol`, `eol2` and `eolLen` are set; `warn` says whether the warning
  about the line ending `\n\r` was given. -/
  | ok (eol eol2 eolLen : Nat) (warn : Bool)
  /-- The call `STOP("Internal error: ch>eof when detecting eol")`. -/
  | stopPastEof
  /-- The call of `STOP` for the line ending `\r\r\n`. -/
  | stopCRCR
  /-- The call `STOP("Internal error: if no \\r or \\n found then ch should be eof")`. -/
  | stopInternal
deriving DecidableEq, Repr

/-- Lines 601-624: the line ending decided from the offset `ch` on which the loop
stopped. -/
def eolDecide (c : Ctx) (ch : Nat) : EolResult :=
  if ch ≥ c.eof then
    if ch > c.eof then EolResult.stopPastEof else EolResult.ok 10 10 1 false
  else
    let eol := rd c ch
    if eol = 13 then
      if ch + 1 < c.eof ∧ rd c (ch + 1) = 10 then EolResult.ok 13 10 2 false
      else if ch + 1 < c.eof ∧ rd c (ch + 1) = 13 then EolResult.stopCRCR
      else EolResult.ok 13 13 1 false
    else if eol = 10 then
      if ch + 1 < c.eof ∧ rd c (ch + 1) = 13 then EolResult.ok 10 13 2 true
      else EolResult.ok 10 10 1 false
    else EolResult.stopInternal

/-- Lines 595-624 of `freadMain`: the detection of the line ending of the input that
starts at `sof`. -/
def detectEol (c : Ctx) (sof : Nat) : EolResult :=
  eolDecide c (eolLoop c (c.eof - skipBOM c sof) (skipBOM c sof))

/-- What a scan for the first line ending outside quotes finds. -/
inductive BareEol where
  /-- The first `\n` or `\r` outside quotes is at offset `p`. -/
  | found (p : Nat)
  /-- The input ends inside quotes. -/
  | unclosed
  /-- The input ends outside quotes without a `\n` or `\r` outside quotes. -/
  | absent
deriving DecidableEq, Repr

/-- The first `\n` or `\r` that lies outside quotes, read byte by byte from offset `i`
with `inq` telling whether `i` lies inside quotes: outside quotes a quote byte opens a
quoted run, inside quotes the next quote byte closes it. -/
def firstBareEol (c : Ctx) : Nat → Nat → Bool → BareEol
  | 0, _, inq => if inq then BareEol.unclosed else BareEol.absent
  | n + 1, i, inq =>
    if i ≥ c.eof then (if inq then BareEol.unclosed else BareEol.absent)
    else if inq then firstBareEol c n (i + 1) (decide (rd c i ≠ c.quote))
    else if rd c i = 10 ∨ rd c i = 13 then BareEol.found i
    else firstBareEol c n (i + 1) (decide (rd c i = c.quote))

/-! ## The passes of the body read: stop reasons, the row limit and the reread -/

/-- What the buffer `stopErr` holds: the empty string it is initialised with, or the
message one of the calls of `snprintf` wrote into it, with the numbers it names. -/
inductive StopErr where
  /-- The initial value `""`. -/
  | empty
  /-- The message "OpenMP error" of line 1076. -/
  | openmp
  /-- The message "Jump %d did not end exactly where jump %d found its first good line
  start" of line 1246. -/
  | mismatch
  /-- The message "Line %d is empty" of line 1269. -/
  | emptyLine (line : Nat)
  /-- The message "Expecting %d cols but line %d contains only %d cols" of line 1275. -/
  | tooFew (ncol line j : Nat)
  /-- The message "Too many fields on line %d" of line 1281. -/
  | tooMany (line ncol : Nat)
  /-- The message "Internal error: unknown myStopReason %d" of line 1286. -/
  | unknownReason (reason : Nat)
deriving DecidableEq, Repr

/-- The shared variables of a pass over the chunks: `ansi`, `prevThreadEnd`, `stopTeam`,
`stopErr`, `nTypeBump` and the calls `pushBuffer(.., howMany, myansi)` made so far, each
recorded as the pair `(myansi, howMany)`. -/
structure Shared where
  ansi : Nat
  prevThreadEnd : Nat
  stopTeam : Bool
  stopErr : StopErr
  nTypeBump : Nat
  pushes : List (Nat × Nat)
deriving DecidableEq, Repr

/-- The message of lines 1264-1288 for a worker that comes to the ordered section with a
stop reason, `line` being `ansi+buffi+row1Line` and `j` the fields read on that line. -/
def stopMessage (ncol row1Line ansi buffi reason j : Nat) : StopErr :=
  let line := ansi + buffi + row1Line
  match reason with
  | 1 => StopErr.emptyLine line
  | 2 => StopErr.tooFew ncol line j
  | 3 => StopErr.tooMany line ncol
  | r => StopErr.unknownReason r

/-- The ordered section, the test `howMany < buffi` and the call of `pushBuffer` (lines
1238-1304) for a worker that left its loop over the rows with the result `k`, having read
`j` fields on its last line. -/
def orderedStep (nrowLimit ncol row1Line : Nat) (s : Shared) (k : ChunkResult) (j : Nat) :
    Shared :=
  if k.myStopReason = 0 ∧ s.stopTeam = false then
    if s.prevThreadEnd ≠ k.thisThreadStart then
      { s with stopErr := StopErr.mismatch, stopTeam := true }
    else
      let myansi := s.ansi
      if myansi < nrowLimit then
        let howMany := min k.buffi (nrowLimit - myansi)
        { s with ansi := s.ansi + howMany, prevThreadEnd := k.ch,
                 stopTeam := decide (howMany < k.buffi),
                 pushes := s.pushes ++ [(myansi, howMany)] }
      else { s with prevThreadEnd := k.ch, stopTeam := true }
  else if s.stopTeam = false then
    { s with stopErr := stopMessage ncol row1Line s.ansi k.buffi k.myStopReason j,
             stopTeam := true }
  else s

/-- How one iteration of the loop over the jumps (lines 1114-1318) goes. -/
inductive JumpRun where
  /-- The call `nextGoodLine(&ch, ncol)` of line 1122 failed. -/
  | noGoodLine
  /-- The worker ran `bumps` critical sections that replaced a column type, and then a
  call of `realloc` failed while it grew its buffers (lines 1145-1147). -/
  | reallocFailed (bumps : Nat)
  /-- The worker left its loop over the rows with the result `k`, having read `j` fields
  on its last line and run `bumps` critical sections that replaced a column type. -/
  | chunk (k : ChunkResult) (j : Nat) (bumps : Nat)
deriving DecidableEq, Repr

/-- One iteration of the loop over the jumps on the shared variables; `early` says that
the worker made the test `if (stopTeam) continue` of line 1116 before another worker set
the flag, so that it runs although the flag is set when it comes to the ordered
section. -/
def jumpStep (nrowLimit ncol row1Line : Nat) (s : Shared) (r : Bool × JumpRun) : Shared :=
  if s.stopTeam = true ∧ r.1 = false then s
  else
    match r.2 with
    | JumpRun.noGoodLine => { s with stopTeam := true }
    | JumpRun.reallocFailed bumps => { s with stopTeam := true, nTypeBump := s.nTypeBump + bumps }
    | JumpRun.chunk k j bumps =>
      orderedStep nrowLimit ncol row1Line { s with nTypeBump := s.nTypeBump + bumps } k j

/-- How the team of a pass starts (lines 1070-1113). -/
inductive TeamStart where
  /-- Every thread has its buffers. -/
  | ready
  /-- The test `nth_actual>nth` of the master thread held. -/
  | tooManyThreads
  /-- A call of `calloc` or `malloc` for the buffers of a thread failed. -/
  | allocFailed
deriving DecidableEq, Repr

/-- One pass over the chunks (the parallel region, lines 1069-1322) from the shared
variables `s`: the start of the team and the iterations of the loop over the jumps.
`stopTeam` is not reset at the label `read`; when it is set before the loop starts (by an
earlier pass, or by the start of the team before the barrier of line 1108), every
iteration leaves on the test `if (stopTeam) continue` of line 1116. Otherwise the
iterations act on the shared variables in the order of the list `runs`, which is the order
in time of their writes and not the jump order: the ordered sections run in jump order,
but the writes of `stopTeam` of lines 1123 and 1145 are outside the ordered section
(`validOrder`). -/
def readPass (nrowLimit ncol row1Line : Nat) (s : Shared) (t : TeamStart)
    (runs : List (Bool × JumpRun)) : Shared :=
  let s1 : Shared :=
    match t with
    | TeamStart.ready => s
    | TeamStart.tooManyThreads => { s with stopErr := StopErr.openmp, stopTeam := true }
    | TeamStart.allocFailed => { s with stopTeam := true }
  if s1.stopTeam = true then s1
  else runs.foldl (jumpStep nrowLimit ncol row1Line) s1

/-- The ways the body read can end. -/
inductive ReadOutcome where
  /-- The call `STOP(stopErr)` of line 1357. -/
  | stop (msg : StopErr)
  /-- The call `STOP("Internal error: ansi(%d)>allocnrow(%d) ...")` of line 1359. -/
  | stopAlloc
  /-- The table is returned with `nrow` rows, after `passes` passes over the chunks. -/
  | table (nrow : Nat) (passes : Nat)
  /-- A critical section of the reread pass replaced a column type: its call
  `realloc(typeBumpMsg, ..)` of line 1191 is made on the buffer that `free(typeBumpMsg)`
  of line 1347 released after the first pass, and the behaviour of the program is
  undefined from there on. -/
  | reallocFreed
deriving DecidableEq, Repr

/-- How lines 1357-1367 after a pass end. -/
inductive PassEnd where
  /-- The call `STOP(stopErr)` of line 1357. -/
  | stop (msg : StopErr)
  /-- The call of `STOP` on `ansi > allocnrow` of line 1359. -/
  | stopAlloc
  /-- No `STOP`; the table has `nrow` rows, the value of `allocnrow` after the lines. -/
  | rows (nrow : Nat)
deriving DecidableEq, Repr

/-- Lines 1357-1367 after a pass: the call `STOP(stopErr)` when the team was stopped with
a message; otherwise the test of `ansi` against `allocnrow` and the call
`setFinalNrow(ansi)`. -/
def passEnd (nrowLimit allocnrow : Nat) (s : Shared) : PassEnd :=
  if s.stopTeam = true ∧ s.stopErr ≠ StopErr.empty then PassEnd.stop s.stopErr
  else if s.ansi > allocnrow then
    if nrowLimit > allocnrow then PassEnd.stopAlloc else PassEnd.rows allocnrow
  else if s.ansi = allocnrow then PassEnd.rows allocnrow
  else PassEnd.rows s.ansi

/-- The body read from the label `read` to the end (lines 1037-1389): the first pass from
`ansi = 0`, `prevThreadEnd = pos`, `stopTeam = false`, `stopErr = ""` and `nTypeBump = 0`,
lines 1357-1367, and, when `nTypeBump` is not zero, the reread pass, which starts from
the shared variables as the first pass left them but for `ansi = 0` and
`prevThreadEnd = pos`. Line 1347 frees `typeBumpMsg` after a first pass with
`nTypeBump != 0` and leaves the pointer as it is, so that a critical section of the reread
pass that replaces a column type (it counts in `nTypeBump`) calls `realloc` on the freed
buffer. -/
def readBody (nrowLimit ncol row1Line pos allocnrow : Nat)
    (t1 : TeamStart) (runs1 : List (Bool × JumpRun))
    (t2 : TeamStart) (runs2 : List (Bool × JumpRun)) : ReadOutcome :=
  let s1 := readPass nrowLimit ncol row1Line ⟨0, pos, false, StopErr.empty, 0, []⟩ t1 runs1
  match passEnd nrowLimit allocnrow s1 with
  | PassEnd.stop msg => ReadOutcome.stop msg
  | PassEnd.stopAlloc => ReadOutcome.stopAlloc
  | PassEnd.rows alloc1 =>
    if s1.nTypeBump ≠ 0 then
      let s2 := readPass nrowLimit ncol row1Line
        { s1 with ansi := 0, prevThreadEnd := pos } t2 runs2
      if s2.nTypeBump ≠ s1.nTypeBump then ReadOutcome.reallocFreed
      else
        match passEnd nrowLimit alloc1 s2 with
        | PassEnd.stop msg => ReadOutcome.stop msg
        | PassEnd.stopAlloc => ReadOutcome.stopAlloc
        | PassEnd.rows alloc2 => ReadOutcome.table alloc2 2
    else ReadOutcome.table alloc1 1

/-- Whether the iterations of the loop `#pragma omp for ordered schedule(dynamic)` over the
jumps `js` (listed in jump order) can act on the shared variables in the order `order`, a
list of jump numbers. Each jump is named once. A worker that leaves its loop over the rows
with a result acts in its ordered section (lines 1240-1291), which runs after the
iterations of all the jumps before it have passed theirs or ended; a worker that finds no
good line (line 1123) or fails to grow its buffers (line 1145) writes `stopTeam` outside
the ordered section, at any time. -/
def validOrder (js : List JumpRun) (order : List Nat) : Bool :=
  decide (order.length = js.length) &&
  (List.range js.length).all (fun i => decide (i ∈ order)) &&
  (List.range order.length).all (fun p =>
    match js.getD (order.getD p 0) JumpRun.noGoodLine with
    | JumpRun.chunk _ _ _ =>
      (List.range (order.getD p 0)).all (fun i => decide (i ∈ order.take p))
    | _ => true)

/-- The runs of the jumps `js` in the order `order` in which they act on the shared
variables, the run of jump `i` with the flag `early i`. -/
def scheduled (js : List JumpRun) (early : Nat → Bool) (order : List Nat) :
    List (Bool × JumpRun) :=
  order.map (fun i => (early i, js.getD i JumpRun.noGoodLine))

/-! ## Short rows in the body read -/

/-- The constant `INT8_MIN`. -/
def INT8_MIN : Int := -128

/-- A value in a column buffer of a worker: an `int8_t`, `int32_t`, `int64_t`, `double` or
`lenOff` according to the type of the column. -/
inductive Cell where
  | bool8 (v : Int)
  | int32 (v : Int)
  | int64 (v : Int)
  | float64 (v : F64)
  | string (v : LenOff)
deriving DecidableEq, Repr

/-- The `switch (type[j])` of lines 1210-1229: what the fill loop stores in
`buffcol[buffi]` for a column whose type entry is `t`; `none` for the `default` case,
which stores nothing. -/
def fillCell (c : Ctx) (t : Int) : Option Cell :=
  if t = (CT_BOOL8 : Int) then some (Cell.bool8 NA_BOOL8)
  else if t = (CT_INT32 : Int) then some (Cell.int32 NA_INT32)
  else if t = (CT_INT64 : Int) then some (Cell.int64 NA_INT64)
  else if t = (CT_FLOAT64 : Int) then some (Cell.float64 F64.na)
  else if t = (CT_STRING : Int) then
    some (Cell.string ⟨if c.blank_is_a_NAstring then INT8_MIN else 0, 0⟩)
  else none

/-- The loop `while (j<ncol)` of lines 1208-1231 on the row `buffi` of the buffers, `row`
holding the cell `mybuff[resj][buffi]` at index `resj` (`none` for a cell that was not
written): returns the row after the loop. -/
def fillLoop (c : Ctx) (typ : Nat → Int) (ncol : Nat) :
    Nat → Nat → Nat → List (Option Cell) → List (Option Cell)
  | 0, _, _, row => row
  | n + 1, j, resj, row =>
    if j < ncol then
      fillLoop c typ ncol n (j + 1) (if typ j ≠ (CT_DROP : Int) then resj + 1 else resj)
        (match fillCell c (typ j) with
         | some v => row.set resj (some v)
         | none => row)
    else row

/-- The index `resj` of column `j` in the buffers of a worker: the number of columns
before `j` whose type entry is not `CT_DROP`. -/
def resjOf (typ : Nat → Int) : Nat → Nat
  | 0 => 0
  | j + 1 => resjOf typ j + (if typ j ≠ (CT_DROP : Int) then 1 else 0)

/-- Whether a cell holds the value that marks a missing field in a column of its type, as
the scanner of the type stores it: `NA_BOOL8`, `NA_INT32`, `NA_INT64`, `NA_FLOAT64`, and
the length `INT_MIN` for a string (lines 207 and 209 of `Field`). -/
def isMissing : Cell → Bool
  | Cell.bool8 v => decide (v = NA_BOOL8)
  | Cell.int32 v => decide (v = NA_INT32)
  | Cell.int64 v => decide (v = NA_INT64)
  | Cell.float64 v => decide (v = F64.na)
  | Cell.string v => decide (v.len = INT_MIN)

/-! ## The order of the scanners -/

/-- A dialect in which no byte of a number or of a logical literal is the separator, the
quote or the line ending: the line ending is `\n` or `\r`, the decimal mark `.` or `,`;
the separator is no byte that `StrtoD` reads in a number; the quote is no such byte, no
letter of the literals of `StrtoB`, no blank, not NUL, not the separator and not the line
ending; and no NA string begins with a sign or holds the quote. -/
def chainDialect (c : Ctx) : Prop :=
  (c.eol = 10 ∨ c.eol = 13) ∧ (c.dec = 46 ∨ c.dec = 44) ∧
  ¬ isFloatByte c.dec c.sep ∧ ¬ isFloatByte c.dec c.quote ∧
  c.quote ∉ boolTailLetters ∧ c.quote ≠ 84 ∧ c.quote ≠ 70 ∧
  c.quote ≠ 32 ∧ c.quote ≠ 9 ∧ c.quote ≠ 0 ∧ c.quote ≠ c.sep ∧ c.quote ≠ c.eol ∧
  ∀ na ∈ c.NAstrings, na.head? ≠ some 43 ∧ na.head? ≠ some 45 ∧ c.quote ∉ na

instance (c : Ctx) : Decidable (chainDialect c) := by unfold chainDialect; infer_instance

/-! ## Chunk sizing of the body read (`freadMain`, lines 1048-1061) -/

/-- The conversion of a C `int` to `size_t` (64 bits). -/
def toSize (x : Int) : Nat := (x % 2 ^ 64).toNat

/-- The larger of two `size_t` values (`umax`). -/
def umax (a b : Nat) : Nat := if a > b then a else b

/-- The smaller of two `size_t` values (`umin`). -/
def umin (a b : Nat) : Nat := if a < b then a else b

/-- The number of chunks `nJumps`, the distance `chunkBytes` between two jump points and
the number of threads `nth` of the body read. -/
structure ChunkSizing where
  nJumps : Int
  chunkBytes : Nat
  nth : Int
deriving DecidableEq, Repr

/-- The chunk sizing of lines 1048-1061: `sampleJumps` is `nJumps` as the sampling left
it, `argsNth` is `args.nth`, `maxLen` the longest sampled line. `int` results are taken in
32 bits, `size_t` results in 64 bits, the `int` division truncates; a division by zero,
which the C code does not define, gives 0. -/
def chunkSizing (sampleJumps argsNth maxLen : Int) (lastRowEnd pos : Nat) : ChunkSizing :=
  let chunkBytes := umax (toSize (toInt32 (1000 * maxLen))) (1 * 1024 * 1024)
  let sized : Int × Nat :=
    if sampleJumps > 1 ∧ argsNth > 1 then
      let nJumps := toInt32 ((sizeDiff lastRowEnd pos / chunkBytes : Nat) : Int)
      let nJumps :=
        if nJumps = 0 then 1
        else if nJumps > argsNth then
          toInt32 (argsNth * toInt32 (1 + Int.tdiv (toInt32 (nJumps - 1)) argsNth))
        else nJumps
      (nJumps, sizeDiff lastRowEnd pos / toSize nJumps)
    else (1, chunkBytes)
  ⟨sized.1, sized.2, toInt32 ((umin (toSize sized.1) (toSize argsNth) : Nat) : Int)⟩

/-! ## Rows after a chunk boundary -/

/-- The start of the `k`-th row after offset `p`: the cursor after `k` successive calls of
`countfields`, the first one at `p`. -/
def rowStart (c : Ctx) (p : Nat) : Nat → Nat
  | 0 => p
  | k + 1 => (countfields c (rowStart c p k)).2

/-! ## The limit of 100 end-of-lines in a quoted field -/

/-- The end-of-line bytes of a quoted content that the loop of quote rule 1 counts: the
byte after a backslash is stepped over and is not counted. -/
def bareEols (eol : Nat) : List Nat → Nat
  | [] => 0
  | [a] => if a = eol then 1 else 0
  | a :: b :: rest =>
    (if a = eol then 1 else 0) + (if a = 92 then bareEols eol rest else bareEols eol (b :: rest))

/-! # Theorems -/

/-! ## Lemmas on the cursor helpers -/

theorem scanWhile_ge (eof : Nat) (p : Nat → Bool) (n ch : Nat) :
    ch ≤ scanWhile eof p n ch := by
  induction n generalizing ch with
  | zero => simp [scanWhile]
  | succ n ih =>
    unfold scanWhile
    split
    · exact Nat.le_trans (Nat.le_succ ch) (ih (ch + 1))
    · exact Nat.le_refl ch

theorem scanWhile_stop (eof : Nat) (p : Nat → Bool) (n ch : Nat) (hn : eof - ch ≤ n) :
    scanWhile eof p n ch ≥ eof ∨ p (scanWhile eof p n ch) = false := by
  induction n generalizing ch with
  | zero => left; simp [scanWhile]; omega
  | succ n ih =>
    unfold scanWhile
    split
    · exact ih (ch + 1) (by omega)
    · rename_i h
      by_cases h1 : ch < eof
      · right; simpa [h1] using h
      · left; omega

theorem scanWhile_all (eof : Nat) (p : Nat → Bool) (n ch i : Nat)
    (h1 : ch ≤ i) (h2 : i < scanWhile eof p n ch) : i < eof ∧ p i = true := by
  induction n generalizing ch with
  | zero => simp [scanWhile] at h2; omega
  | succ n ih =>
    unfold scanWhile at h2
    split at h2
    · rename_i h
      by_cases hi : i = ch
      · subst hi; exact h
      · exact ih (ch + 1) (by omega) h2
    · omega

theorem scanWhile_le (eof : Nat) (p : Nat → Bool) (n ch : Nat) (h : ch ≤ eof) :
    scanWhile eof p n ch ≤ eof := by
  induction n generalizing ch with
  | zero => simpa [scanWhile] using h
  | succ n ih =>
    unfold scanWhile
    split
    · rename_i h1; exact ih (ch + 1) (by omega)
    · exact h

theorem scanWhile_inv (eof : Nat) (p : Nat → Bool) (Q : Nat → Prop) (n ch : Nat)
    (h0 : Q ch) (hs : ∀ i, i < eof → p i = true → Q i → Q (i + 1)) :
    Q (scanWhile eof p n ch) := by
  induction n generalizing ch with
  | zero => simpa [scanWhile] using h0
  | succ n ih =>
    unfold scanWhile
    split
    · rename_i h1; exact ih (ch + 1) (hs ch h1.1 h1.2 h0)
    · exact h0

/-- When the loop condition fails at the start the cursor does not move. -/
theorem scanWhile_fix (eof : Nat) (p : Nat → Bool) (n ch : Nat)
    (h : ¬ (ch < eof ∧ p ch = true)) : scanWhile eof p n ch = ch := by
  cases n with
  | zero => rfl
  | succ n => unfold scanWhile; rw [if_neg h]

theorem on_sep_iff (c : Ctx) (ch : Nat) : (on_sep c ch).1 = true ↔ onTerm c (on_sep c ch).2 := by
  simp [on_sep, onTerm]

theorem on_sep_of_onTerm (c : Ctx) (ch : Nat) (h : onTerm c ch) : (on_sep c ch).1 = true := by
  rw [on_sep_iff]
  unfold on_sep
  simp only
  split
  · rename_i hs
    split
    · rename_i h2
      rcases h2 with h2 | h2
      · left; omega
      · right; right; exact h2
    · right; left
      rw [hs.1]
      exact scanWhile_inv c.eof _ (fun i => rd c i = 32) _ ch hs.2.2
        (fun i _ hp _ => by simp at hp; exact hp.1)
  · exact h

theorem next_sep_onTerm (c : Ctx) (ch : Nat) : onTerm c (next_sep c ch) := by
  unfold next_sep
  rw [← on_sep_iff]
  apply on_sep_of_onTerm
  rcases scanWhile_stop c.eof (notSepEol c) (c.eof - ch) ch (Nat.le_refl _) with h | h
  · left; exact h
  · right
    simp only [notSepEol, ne_eq, Bool.decide_and, Bool.and_eq_false_imp, decide_eq_true_eq,
      decide_eq_false_iff_not, Decidable.not_not] at h
    by_cases h1 : rd c (scanWhile c.eof (notSepEol c) (c.eof - ch) ch) = c.sep
    · left; exact h1
    · right
      have := h h1
      simpa using this

theorem Field_finish_onTerm (c : Ctx) (this : Nat) (tgt : Bool) (fs : Nat) (q : Bool) (ch : Nat)
    (h : (Field_finish c this tgt fs q ch).ok = true) :
    onTerm c (Field_finish c this tgt fs q ch).ch := by
  unfold Field_finish at h ⊢
  simp only at h ⊢
  generalize hos : on_sep c (if q = true then
    (if c.stripWhite = true then skip_white c (ch + 1) else ch + 1) else ch) = os at h ⊢
  by_cases h1 : os.1 = true
  · simp only [h1, not_true_eq_false, if_false]
    rw [← hos] at h1 ⊢
    exact (on_sep_iff _ _).1 h1
  · simp [h1] at h

theorem numTail_onTerm {α : Type} (c : Ctx) (tgt : Bool) (start ch : Nat) (ok : Bool) (v na : α)
    (_h : (numTail c tgt start ch ok v na).ok = true) :
    onTerm c (numTail c tgt start ch ok v na).ch := by
  unfold numTail
  simp only
  generalize hos : (if ok = true then on_sep c (skip_white c ch)
      else (false, skip_white c ch)) = os
  have key : os.1 = true → onTerm c os.2 := by
    intro h1
    cases ok with
    | false => simp at hos; rw [← hos] at h1; simp at h1
    | true => simp at hos; rw [← hos] at h1 ⊢; exact (on_sep_iff _ _).1 h1
  by_cases h1 : os.1 = true
  · by_cases h2 : c.any_number_like_NAstrings = true
    · by_cases h3 : is_NAstring c start = true
      · simp only [h1, h2, h3, not_true_eq_false, and_false, if_false]
        exact next_sep_onTerm _ _
      · simp only [h1, h2, h3, not_true_eq_false, and_false, if_false, not_false_eq_true,
          and_self, if_true]
        exact key h1
    · simp only [h1, h2, not_false_eq_true, and_self, if_true]
      exact key h1
  · simp only [h1, false_and, if_false]
    exact next_sep_onTerm _ _

theorem StrtoInt_onTerm (c : Ctx) (limit : Nat) (na : Int) (this : Nat) (tgt : Bool)
    (h : (StrtoInt c limit na this tgt).ok = true) :
    onTerm c (StrtoInt c limit na this tgt).ch := by
  generalize hr : StrtoInt c limit na this tgt = r at h ⊢
  unfold StrtoInt at hr
  lift_lets at hr
  extract_lets os start quoted ch sg sign ch2 ok r0 at hr
  split at hr
  · rename_i h1; subst hr; exact (on_sep_iff _ _).1 h1
  · split at hr
    · subst hr; simp at h
    · subst hr; exact numTail_onTerm _ _ _ _ _ _ _ h

theorem StrtoD_onTerm (c : Ctx) (this : Nat) (tgt : Bool)
    (h : (StrtoD c this tgt).ok = true) : onTerm c (StrtoD c this tgt).ch := by
  generalize hr : StrtoD c this tgt = r at h ⊢
  unfold StrtoD at hr
  lift_lets at hr
  extract_lets os ch quoted ch1 sg sign start p at hr
  split at hr
  · rename_i h1; subst hr; exact (on_sep_iff _ _).1 h1
  · split at hr
    · subst hr; simp at h
    · subst hr; exact numTail_onTerm _ _ _ _ _ _ _ h

theorem StrtoB_onTerm (c : Ctx) (this : Nat) (tgt : Bool)
    (h : (StrtoB c this tgt).ok = true) : onTerm c (StrtoB c this tgt).ch := by
  generalize hr : StrtoB c this tgt = r at h ⊢
  unfold StrtoB at hr
  lift_lets at hr
  extract_lets cell0 os start quoted ch os2 p os3 at hr
  split at hr
  · rename_i h1; subst hr; exact (on_sep_iff _ _).1 h1
  · split at hr
    · split at hr
      · rename_i h3; subst hr; exact (on_sep_iff _ _).1 h3
      · subst hr; simp at h
    · split at hr
      · subst hr; simp at h
      · split at hr
        · rename_i h4; subst hr; exact (on_sep_iff _ _).1 h4
        · subst hr; exact next_sep_onTerm _ _

theorem Field_onTerm (c : Ctx) (this : Nat) (tgt : Bool)
    (h : (Field c this tgt).ok = true) : onTerm c (Field c this tgt).ch := by
  generalize hr : Field c this tgt = r at h ⊢
  unfold Field at hr
  lift_lets at hr
  extract_lets ch e0 e1 e2 at hr
  split at hr
  · subst hr; exact Field_finish_onTerm _ _ _ _ _ _ h
  · split at hr
    · split at hr
      · subst hr; simp at h
      · subst hr; exact Field_finish_onTerm _ _ _ _ _ _ h
    · split at hr
      · subst hr; simp at h
      · subst hr; exact Field_finish_onTerm _ _ _ _ _ _ h
    · split at hr
      · subst hr; exact Field_finish_onTerm _ _ _ _ _ _ h
      · subst hr; exact Field_finish_onTerm _ _ _ _ _ _ h
    · subst hr; simp at h

/-! ## Lemmas on fields -/

theorem bytesAt_cons (c : Ctx) (p b : Nat) (bs : List Nat) :
    bytesAt c p (b :: bs) = true ↔ rd c p = b ∧ bytesAt c (p + 1) bs = true := by
  simp [bytesAt]

theorem bytesAt_append (c : Ctx) (p : Nat) (xs ys : List Nat) :
    bytesAt c p (xs ++ ys) = true ↔
      bytesAt c p xs = true ∧ bytesAt c (p + xs.length) ys = true := by
  induction xs generalizing p with
  | nil => simp [bytesAt]
  | cons x xs ih =>
    simp only [List.cons_append, bytesAt_cons, ih, List.length_cons]
    rw [show p + 1 + xs.length = p + (xs.length + 1) by omega]
    tauto

theorem skip_white_fix (c : Ctx) (p : Nat) (h : ¬ (p < c.eof ∧ isWhite c p = true)) :
    skip_white c p = p := scanWhile_fix _ _ _ _ h

theorem skip_white_ge (c : Ctx) (p : Nat) : p ≤ skip_white c p := scanWhile_ge _ _ _ _

theorem skip_white_stop (c : Ctx) (p : Nat) :
    skip_white c p ≥ c.eof ∨ isWhite c (skip_white c p) = false :=
  scanWhile_stop _ _ _ _ (Nat.le_refl _)

/-- A cursor already on `sep`, `eol` or `eof` is left alone by `skip_white`, provided
`eol` is not itself a space or a tab. -/
theorem skip_white_onTerm (c : Ctx) (p : Nat) (he : c.eol ≠ 32 ∧ c.eol ≠ 9)
    (h : onTerm c p) : skip_white c p = p := by
  apply skip_white_fix
  rintro ⟨h1, h2⟩
  simp only [isWhite, ne_eq, Bool.decide_and, Bool.and_eq_true, decide_eq_true_eq,
    decide_not, Bool.not_eq_true', decide_eq_false_iff_not] at h2
  rcases h with h | h | h
  · omega
  · exact h2.2 h
  · rw [h] at h2; rcases h2.1 with h3 | h3
    · exact he.1 h3
    · exact he.2 h3

/-- Inside the window and off `sep` and `eol`, `on_sep` answers false and leaves the
cursor alone. -/
theorem on_sep_false (c : Ctx) (p : Nat) (h1 : p < c.eof) (h2 : rd c p ≠ c.sep)
    (h3 : rd c p ≠ c.eol) : on_sep c p = (false, p) := by
  unfold on_sep
  have : ¬ (c.sep = 32 ∧ p < c.eof ∧ rd c p = 32) := by
    rintro ⟨a, _, b⟩; exact h2 (by rw [a, b])
  simp only [this, if_false]
  simp [h2, h3]; omega

/-- On a terminator that is not a separating space, `on_sep` answers true and leaves the
cursor alone. -/
theorem on_sep_true (c : Ctx) (p : Nat) (h : onTerm c p)
    (hs : ¬ (c.sep = 32 ∧ p < c.eof ∧ rd c p = 32)) : on_sep c p = (true, p) := by
  unfold on_sep
  simp only [hs, if_false]
  unfold onTerm at h
  simp [h]

theorem digitsValFrom_ge (acc : Nat) (ds : List Nat) : acc ≤ digitsValFrom acc ds := by
  induction ds generalizing acc with
  | nil => simp [digitsValFrom]
  | cons d ds ih =>
    have := ih (acc * 10 + (d - 48))
    simp only [digitsValFrom, List.foldl_cons] at this ⊢
    omega

/-- The accumulation loop run over a digit string that it can consume whole: every digit
is read while the accumulator is below `limit`, and the loop stops right after the string
because the next byte is not a digit or lies at `eof`. -/
theorem accLoop_run (c : Ctx) (limit : Nat) (ds : List Nat) (n ch acc : Nat)
    (hb : bytesAt c ch ds = true) (hd : allDigits ds) (hw : ch + ds.length ≤ c.eof)
    (hn : c.eof - ch ≤ n) (hv : ds ≠ [] → digitsValFrom acc ds < 10 * limit)
    (hstop : ch + ds.length ≥ c.eof ∨ isDigit c (ch + ds.length) = false) :
    accLoop c limit n ch acc = (ch + ds.length, digitsValFrom acc ds) := by
  induction ds generalizing n ch acc with
  | nil =>
    simp only [List.length_nil, Nat.add_zero, digitsValFrom, List.foldl_nil] at hstop ⊢
    cases n with
    | zero => rfl
    | succ n =>
      unfold accLoop
      rw [if_neg]
      rintro ⟨h1, h2, _⟩
      rcases hstop with h | h
      · omega
      · rw [h] at h2; exact Bool.false_ne_true h2
  | cons d ds ih =>
    rw [bytesAt_cons] at hb
    have hd0 : 48 ≤ d ∧ d ≤ 57 := hd d (List.mem_cons_self _ _)
    have hd1 : allDigits ds := fun x hx => hd x (List.mem_cons_of_mem _ hx)
    simp only [List.length_cons] at hw hstop ⊢
    have hv0 := hv (List.cons_ne_nil _ _)
    have hge := digitsValFrom_ge (acc * 10 + (d - 48)) ds
    simp only [digitsValFrom, List.foldl_cons] at hv0 hge
    cases n with
    | zero => omega
    | succ n =>
      unfold accLoop
      have hcond : ch < c.eof ∧ isDigit c ch = true ∧ acc < limit := by
        refine ⟨by omega, ?_, by omega⟩
        simp [isDigit, hb.1, hd0]
      rw [if_pos hcond, hb.1]
      have := ih n (ch + 1) (acc * 10 + (d - 48)) hb.2 hd1 (by omega) (by omega)
        (fun _ => by simpa [digitsValFrom] using hv0)
        (by rw [show ch + 1 + ds.length = ch + (ds.length + 1) by omega]; exact hstop)
      rw [this, show ch + 1 + ds.length = ch + (ds.length + 1) by omega]
      simp [digitsValFrom]

/-! ## C1 -/

/-- C1: whenever a field scanner (`Field`, `StrtoB`, `StrtoI32`, `StrtoI64`, `StrtoD`)
returns success, for any memory, window, dialect, start cursor and destination, the cursor
it hands back is at or past `eof`, or rests on a byte equal to `sep` or `eol`. -/
theorem scanner_success_lands_on_terminator (c : Ctx) (this : Nat) (tgt : Bool) :
    ((Field c this tgt).ok = true → onTerm c (Field c this tgt).ch) ∧
    ((StrtoB c this tgt).ok = true → onTerm c (StrtoB c this tgt).ch) ∧
    ((StrtoI32 c this tgt).ok = true → onTerm c (StrtoI32 c this tgt).ch) ∧
    ((StrtoI64 c this tgt).ok = true → onTerm c (StrtoI64 c this tgt).ch) ∧
    ((StrtoD c this tgt).ok = true → onTerm c (StrtoD c this tgt).ch) :=
  ⟨Field_onTerm c this tgt, StrtoB_onTerm c this tgt,
   StrtoInt_onTerm c _ _ this tgt, StrtoInt_onTerm c _ _ this tgt, StrtoD_onTerm c this tgt⟩

/-! ## C2 -/

theorem fieldAt_head (c : Ctx) (p b : Nat) (bs : List Nat) (h : fieldAt c p (b :: bs)) :
    p < c.eof ∧ rd c p = b ∧ b ≠ c.sep ∧ b ≠ c.eol := by
  obtain ⟨h1, h2, h3, _⟩ := h
  rw [bytesAt_cons] at h1
  simp only [List.length_cons] at h2
  exact ⟨by omega, h1.1, h3 b (List.mem_cons_self _ _)⟩

/-- After a field whose terminator is not a digit, the accumulation loop has to stop. -/
theorem onTerm_not_digit (c : Ctx) (q : Nat) (h : onTerm c q)
    (hsep : ¬ (48 ≤ c.sep ∧ c.sep ≤ 57)) (heol : c.eol = 10 ∨ c.eol = 13) :
    q ≥ c.eof ∨ isDigit c q = false := by
  rcases h with h | h | h
  · left; exact h
  · right; simp only [isDigit, h, Bool.decide_and, Bool.and_eq_false_imp, decide_eq_true_eq,
      decide_eq_false_iff_not]; omega
  · right; simp only [isDigit, h, Bool.decide_and, Bool.and_eq_false_imp, decide_eq_true_eq,
      decide_eq_false_iff_not]; omega

/-- The closing lines of a numeric scanner when the number ended on a terminator and no
NA string is number-like: success, with the parsed value left in the cell. -/
theorem numTail_plain {α : Type} (c : Ctx) (tgt : Bool) (start ch : Nat) (v na : α)
    (h : onTerm c ch) (heol : c.eol = 10 ∨ c.eol = 13)
    (hna : c.any_number_like_NAstrings = false) :
    (numTail c tgt start ch true v na).ok = true ∧
      (numTail c tgt start ch true v na).cell = store tgt v none := by
  have h1 : skip_white c ch = ch := skip_white_onTerm c ch (by omega) h
  have h2 : (on_sep c ch).1 = true := on_sep_of_onTerm c ch h
  simp [numTail, h1, h2, hna]

/-- What `StrtoI64` and `StrtoI32` do up to their closing lines on an unquoted field made
of an optional sign and a digit string that the accumulator can hold. -/
theorem StrtoInt_signed_digits (c : Ctx) (limit : Nat) (na : Int) (p : Nat) (s ds : List Nat)
    (tgt : Bool) (hs : s = [] ∨ s = [43] ∨ s = [45]) (hne : ds ≠ []) (hd : allDigits ds)
    (hf : fieldAt c p (s ++ ds)) (hq : (s ++ ds).head? ≠ some c.quote)
    (hsep : ¬ (48 ≤ c.sep ∧ c.sep ≤ 57)) (heol : c.eol = 10 ∨ c.eol = 13)
    (hv : digitsVal ds < 10 * limit) :
    StrtoInt c limit na p tgt =
      numTail c tgt p (p + (s ++ ds).length) true (signOf s * (digitsVal ds : Int)) na := by
  obtain ⟨d, ds', rfl⟩ := List.exists_cons_of_ne_nil hne
  have hd0 : 48 ≤ d ∧ d ≤ 57 := hd d (List.mem_cons_self _ _)
  have hterm := hf.2.2.2
  have hstop := onTerm_not_digit c _ hterm hsep heol
  rcases hs with rfl | rfl | rfl
  · -- no sign
    simp only [List.nil_append] at hf hq hterm hstop ⊢
    obtain ⟨hp, hb, hns, hne'⟩ := fieldAt_head c p d ds' hf
    have hq' : rd c p ≠ c.quote := by
      intro h; apply hq; simp [← h, hb]
    have h1 : skip_white c p = p := by
      apply skip_white_fix; rintro ⟨_, h2⟩
      simp only [isWhite, hb] at h2; simp at h2; omega
    have h2 : on_sep c p = (false, p) := on_sep_false c p hp (hb ▸ hns) (hb ▸ hne')
    have h3 := accLoop_run c limit (d :: ds') (c.eof - p) p 0 hf.1 hd hf.2.1 (Nat.le_refl _)
      (fun _ => hv) hstop
    have h4 : ¬ (rd c p = 45 ∨ rd c p = 43) := by rw [hb]; omega
    have h5 : isDigit c p = true := by simp [isDigit, hb, hd0]
    simp [StrtoInt, h1, h2, hq', h4, h3, h5, hp, signOf, digitsVal]
  · -- plus
    simp only [List.singleton_append] at hf hq hterm hstop ⊢
    obtain ⟨hp, hb, hns, hne'⟩ := fieldAt_head c p 43 (d :: ds') hf
    have hby := hf.1
    rw [bytesAt_cons, bytesAt_cons] at hby
    have hlen := hf.2.1
    simp only [List.length_cons] at hlen hstop
    have hq' : rd c p ≠ c.quote := by
      intro h; apply hq; simp [← h, hb]
    have h1 : skip_white c p = p := by
      apply skip_white_fix; rintro ⟨_, h2⟩
      simp only [isWhite, hb] at h2; simp at h2
    have h2 : on_sep c p = (false, p) := on_sep_false c p hp (hb ▸ hns) (hb ▸ hne')
    have hby2 : bytesAt c (p + 1) (d :: ds') = true := by rw [bytesAt_cons]; exact hby.2
    have h3 := accLoop_run c limit (d :: ds') (c.eof - (p + 1)) (p + 1) 0 hby2 hd
      (by simp only [List.length_cons]; omega) (Nat.le_refl _) (fun _ => hv)
      (by simp only [List.length_cons]
          rw [show p + 1 + (ds'.length + 1) = p + (ds'.length + 1 + 1) by omega]; exact hstop)
    have h5 : isDigit c (p + 1) = true := by simp [isDigit, hby.2.1, hd0]
    have hp1 : p + 1 < c.eof := by omega
    have hq2 := hq'
    rw [hb] at hq2
    simp [StrtoInt, h1, h2, hq2, hb, h3, h5, hp, hp1, signOf, digitsVal]
    rw [show p + 1 + (ds'.length + 1) = p + (ds'.length + 1 + 1) by omega]
  · -- minus
    simp only [List.singleton_append] at hf hq hterm hstop ⊢
    obtain ⟨hp, hb, hns, hne'⟩ := fieldAt_head c p 45 (d :: ds') hf
    have hby := hf.1
    rw [bytesAt_cons, bytesAt_cons] at hby
    have hlen := hf.2.1
    simp only [List.length_cons] at hlen hstop
    have hq' : rd c p ≠ c.quote := by
      intro h; apply hq; simp [← h, hb]
    have h1 : skip_white c p = p := by
      apply skip_white_fix; rintro ⟨_, h2⟩
      simp only [isWhite, hb] at h2; simp at h2
    have h2 : on_sep c p = (false, p) := on_sep_false c p hp (hb ▸ hns) (hb ▸ hne')
    have hby2 : bytesAt c (p + 1) (d :: ds') = true := by rw [bytesAt_cons]; exact hby.2
    have h3 := accLoop_run c limit (d :: ds') (c.eof - (p + 1)) (p + 1) 0 hby2 hd
      (by simp only [List.length_cons]; omega) (Nat.le_refl _) (fun _ => hv)
      (by simp only [List.length_cons]
          rw [show p + 1 + (ds'.length + 1) = p + (ds'.length + 1 + 1) by omega]; exact hstop)
    have h5 : isDigit c (p + 1) = true := by simp [isDigit, hby.2.1, hd0]
    have hp1 : p + 1 < c.eof := by omega
    have hq2 := hq'
    rw [hb] at hq2
    simp [StrtoInt, h1, h2, hq2, hb, h3, h5, hp, hp1, signOf, digitsVal]
    rw [show p + 1 + (ds'.length + 1) = p + (ds'.length + 1 + 1) by omega]

/-- What `StrtoI64` and `StrtoI32` return on an unquoted field that is a lone sign: the
answer of `is_NAstring` on the field. -/
theorem StrtoInt_lone_sign (c : Ctx) (limit : Nat) (na : Int) (p : Nat) (s : List Nat)
    (tgt : Bool) (hs : s = [43] ∨ s = [45]) (hf : fieldAt c p s)
    (hq : s.head? ≠ some c.quote) (hsep : ¬ (48 ≤ c.sep ∧ c.sep ≤ 57))
    (heol : c.eol = 10 ∨ c.eol = 13) :
    (StrtoInt c limit na p tgt).ok = is_NAstring c p := by
  have hterm := hf.2.2.2
  have hstop := onTerm_not_digit c _ hterm hsep heol
  have key : ∀ b, (b = 43 ∨ b = 45) → fieldAt c p [b] → [b].head? ≠ some c.quote →
      (p + 1 ≥ c.eof ∨ isDigit c (p + 1) = false) →
      (StrtoInt c limit na p tgt).ok = is_NAstring c p := by
    intro b hb0 hf hq hstop
    obtain ⟨hp, hb, hns, hne'⟩ := fieldAt_head c p b [] hf
    have hq2 : ¬ b = c.quote := by intro h; apply hq; simp [h]
    have h1 : skip_white c p = p := by
      apply skip_white_fix; rintro ⟨_, h2⟩
      simp only [isWhite, hb] at h2; simp at h2; omega
    have h2 : on_sep c p = (false, p) := on_sep_false c p hp (hb ▸ hns) (hb ▸ hne')
    have h3 := accLoop_run c limit [] (c.eof - (p + 1)) (p + 1) 0 rfl
      (fun _ h => absurd h (List.not_mem_nil _)) (by simp; omega) (Nat.le_refl _)
      (fun h => absurd rfl h) (by simpa using hstop)
    have h4 : b = 45 ∨ b = 43 := by omega
    have h5 : ¬ (p + 1 < c.eof ∧ isDigit c (p + 1) = true) := by
      rintro ⟨a1, a2⟩
      rcases hstop with h | h
      · omega
      · rw [h] at a2; exact Bool.false_ne_true a2
    simp only [List.length_nil, Nat.add_zero] at h3
    simp [StrtoInt, h1, h2, hq2, hb, h3, h4, h5, hp, numTail]
  rcases hs with rfl | rfl
  · exact key 43 (by omega) hf hq (by simpa using hstop)
  · exact key 45 (by omega) hf hq (by simpa using hstop)

/-- C2 (amended): for every unquoted field made of an optional `+` or `-` followed by
decimal digits and ended by `sep`, `eol` or `eof`, in a dialect whose `sep` is not a
decimal digit: when the field has at least one digit, no NA string is number-like and the
value lies in the range the scanner accumulates (below ten times the accumulator bound),
`StrtoI32` (resp. `StrtoI64`) called with a destination returns success and stores sign
times the decimal value of the digits; when the field has a sign but no digit, the scanner
returns what `is_NAstring` answers on the field, so it is rejected when no NA string is
configured. -/
theorem StrtoI32_StrtoI64_signed_digits (c : Ctx) (p : Nat) (s ds : List Nat)
    (hs : s = [] ∨ s = [43] ∨ s = [45]) (hd : allDigits ds) (hf : fieldAt c p (s ++ ds))
    (hq : (s ++ ds).head? ≠ some c.quote) (hsep : ¬ (48 ≤ c.sep ∧ c.sep ≤ 57))
    (heol : c.eol = 10 ∨ c.eol = 13) :
    (ds ≠ [] → c.any_number_like_NAstrings = false →
      (digitsVal ds < 10 * ((INT32_MAX - 10) / 10) →
        (StrtoI32 c p true).ok = true ∧
        (StrtoI32 c p true).cell = some (signOf s * (digitsVal ds : Int))) ∧
      (digitsVal ds < 10 * ((INT64_MAX - 10) / 10) →
        (StrtoI64 c p true).ok = true ∧
        (StrtoI64 c p true).cell = some (signOf s * (digitsVal ds : Int)))) ∧
    (ds = [] → s ≠ [] →
      (StrtoI32 c p true).ok = is_NAstring c p ∧ (StrtoI64 c p true).ok = is_NAstring c p ∧
      (c.NAstrings = [] → (StrtoI32 c p true).ok = false ∧ (StrtoI64 c p true).ok = false)) := by
  constructor
  · intro hne hna
    have hterm := hf.2.2.2
    constructor
    · intro hv
      have := StrtoInt_signed_digits c _ NA_INT32 p s ds true hs hne hd hf hq hsep heol hv
      unfold StrtoI32
      rw [this]
      exact numTail_plain c true p _ _ _ hterm heol hna
    · intro hv
      have := StrtoInt_signed_digits c _ NA_INT64 p s ds true hs hne hd hf hq hsep heol hv
      unfold StrtoI64
      rw [this]
      exact numTail_plain c true p _ _ _ hterm heol hna
  · intro he hs'
    subst he
    simp only [List.append_nil] at hf hq
    have hs2 : s = [43] ∨ s = [45] := by
      rcases hs with h | h | h
      · exact absurd h hs'
      · left; exact h
      · right; exact h
    have h32 := StrtoInt_lone_sign c ((INT32_MAX - 10) / 10) NA_INT32 p s true hs2 hf hq hsep heol
    have h64 := StrtoInt_lone_sign c ((INT64_MAX - 10) / 10) NA_INT64 p s true hs2 hf hq hsep heol
    refine ⟨h32, h64, ?_⟩
    intro hna
    have : is_NAstring c p = false := by simp [is_NAstring, hna, naAny]
    unfold StrtoI32 StrtoI64
    rw [h32, h64, this]
    exact ⟨rfl, rfl⟩

/-- C2, an instance: in the comma dialect the field `-999` followed by a comma is stored as
-999 by `StrtoI32` and by `StrtoI64`. -/
theorem StrtoI32_StrtoI64_signed_digits_witness :
    (StrtoI32 (csv [45, 57, 57, 57, 44]) 0 true).cell = some (-999) ∧
    (StrtoI64 (csv [45, 57, 57, 57, 44]) 0 true).cell = some (-999) :=
  have h := (StrtoI32_StrtoI64_signed_digits (csv [45, 57, 57, 57, 44]) 0 [45] [57, 57, 57]
    (by decide) (by decide) (by decide) (by decide) (by decide) (by decide)).1
    (by decide) (by decide)
  ⟨(h.1 (by decide)).2, (h.2 (by decide)).2⟩

/-- C2 as stated fails in two ways.  With the NA strings `{"-"}` (none number-like) the
field `-` is accepted by `StrtoI32`; and with `sep` the digit `5`, on the input `1253\n`
whose first field is `12`, `StrtoI32` stores 1253. -/
theorem StrtoI32_signed_digits_counterexample :
    (fieldAt { csv [45, 44] with NAstrings := [[45]] } 0 [45] ∧
      (StrtoI32 { csv [45, 44] with NAstrings := [[45]] } 0 true).ok = true) ∧
    (fieldAt { csv [49, 50, 53, 51, 10] with sep := 53 } 0 [49, 50] ∧
      (StrtoI32 { csv [49, 50, 53, 51, 10] with sep := 53 } 0 true).cell = some 1253) := by
  decide

/-! ## C3 -/

theorem on_sep_fst_iff (c : Ctx) (q : Nat) : (on_sep c q).1 = true ↔ onTerm c q := by
  constructor
  · intro h
    by_cases hs : c.sep = 32 ∧ q < c.eof ∧ rd c q = 32
    · right; left; rw [hs.1, hs.2.2]
    · have : on_sep c q = (decide (q ≥ c.eof ∨ rd c q = c.sep ∨ rd c q = c.eol), q) := by
        unfold on_sep; simp only [hs, if_false]
      rw [this] at h
      simpa [onTerm] using h
  · exact on_sep_of_onTerm c q

/-- The boolean scanner on an unquoted, non-empty field without leading blanks, when no NA
string is configured: success is decided by where the literal matcher stops. -/
theorem StrtoB_unquoted (c : Ctx) (p : Nat) (tgt : Bool) (h1 : skip_white c p = p)
    (h2 : on_sep c p = (false, p)) (hq : ¬ rd c p = c.quote) (hna : c.NAstrings = []) :
    (StrtoB c p tgt).ok = decide (onTerm c (StrtoB_literal c tgt (store tgt NA_BOOL8 none) p).1) ∧
    ((StrtoB c p tgt).ok = true →
      (StrtoB c p tgt).cell = (StrtoB_literal c tgt (store tgt NA_BOOL8 none) p).2) := by
  have hna' : ∀ q, is_NAstring c q = false := by intro q; simp [is_NAstring, hna, naAny]
  by_cases h : onTerm c (StrtoB_literal c tgt (store tgt NA_BOOL8 none) p).1
  · have h3 := (on_sep_fst_iff c _).2 h
    simp [StrtoB, h1, h2, hq, h3, h]
  · have h3 : (on_sep c (StrtoB_literal c tgt (store tgt NA_BOOL8 none) p).1).1 = false := by
      rw [← Bool.not_eq_true, on_sep_fst_iff]; exact h
    simp [StrtoB, h1, h2, hq, h3, h, hna']

theorem bytesAt_get (c : Ctx) (p : Nat) (f : List Nat) (i : Nat) (h : bytesAt c p f = true)
    (hi : i < f.length) : rd c (p + i) = f.getD i 0 := by
  induction f generalizing p i with
  | nil => simp at hi
  | cons b bs ih =>
    rw [bytesAt_cons] at h
    cases i with
    | zero => simpa using h.1
    | succ i =>
      simp only [List.length_cons, Nat.add_lt_add_iff_right] at hi
      have := ih (p + 1) i h.2 hi
      rw [show p + (i + 1) = p + 1 + i by omega]
      simpa using this

/-- Two byte strings of the same length read from the same place are equal. -/
theorem bytesAt_unique (c : Ctx) (p : Nat) (f g : List Nat) (hf : bytesAt c p f = true)
    (hg : bytesAt c p g = true) (hl : f.length = g.length) : f = g := by
  induction f generalizing p g with
  | nil => cases g with
    | nil => rfl
    | cons _ _ => simp at hl
  | cons a f ih => cases g with
    | nil => simp at hl
    | cons b g =>
      rw [bytesAt_cons] at hf hg
      simp only [List.length_cons, Nat.add_right_cancel_iff] at hl
      rw [ih (p + 1) g hf.2 hg.2 hl, ← hf.1, ← hg.1]

/-- No cursor strictly inside a field is on a terminator. -/
theorem fieldAt_inside (c : Ctx) (p : Nat) (f : List Nat) (hf : fieldAt c p f) (k : Nat)
    (hk : k < f.length) : ¬ onTerm c (p + k) := by
  obtain ⟨h1, h2, h3, _⟩ := hf
  have hb := bytesAt_get c p f k h1 hk
  have hm : f.getD k 0 ∈ f := by
    rw [List.getD_eq_getElem _ _ hk]; exact List.getElem_mem _
  have := h3 _ hm
  unfold onTerm
  rw [hb]
  rintro (h | h | h)
  · omega
  · exact this.1 h
  · exact this.2 h

/-- A scanner that has consumed the bytes `lit` from the start of a field and then rests
on a terminator has consumed exactly the field, provided no byte of `lit` after the first
is `sep` or `eol`. -/
theorem field_eq_of_consumed (c : Ctx) (p : Nat) (f lit : List Nat) (hf : fieldAt c p f)
    (hne : f ≠ []) (hl : bytesAt c p lit = true) (hw : p + lit.length ≤ c.eof)
    (ht : ∀ b ∈ lit.tail, b ≠ c.sep ∧ b ≠ c.eol) (hon : onTerm c (p + lit.length)) :
    f = lit := by
  have h1 : ¬ lit.length < f.length := fun h => fieldAt_inside c p f hf _ h hon
  have h2 : ¬ f.length < lit.length := by
    intro h
    have hb := bytesAt_get c p lit f.length hl h
    have hpos : 0 < f.length := List.length_pos.2 hne
    have hm : lit.getD f.length 0 ∈ lit.tail := by
      rw [List.getD_eq_getElem _ _ h]
      cases lit with
      | nil => simp at h
      | cons a l =>
        simp only [List.tail_cons]
        obtain ⟨m, hm⟩ : ∃ m, f.length = m + 1 := ⟨f.length - 1, by omega⟩
        simp only [hm, List.getElem_cons_succ]
        exact List.getElem_mem _
    have hx := ht _ hm
    rcases hf.2.2.2 with h3 | h3 | h3
    · omega
    · rw [hb] at h3; exact hx.1 h3
    · rw [hb] at h3; exact hx.2 h3
  exact bytesAt_unique c p f lit hf.1 hl (by omega)

/-- The six ways the literal matcher of `StrtoB` can end, with a destination. -/
theorem StrtoB_literal_cases (c : Ctx) (p : Nat) :
    (rd c p = 78 ∧ p + 1 < c.eof ∧ rd c (p + 1) = 65 ∧
      StrtoB_literal c true (some NA_BOOL8) p = (p + 2, some NA_BOOL8)) ∨
    (¬ (rd c p = 78 ∧ p + 1 < c.eof ∧ rd c (p + 1) = 65) ∧ rd c p = 84 ∧
      (p + 3 < c.eof ∧
        ((rd c (p + 1) = 82 ∧ rd c (p + 2) = 85 ∧ rd c (p + 3) = 69) ∨
         (rd c (p + 1) = 114 ∧ rd c (p + 2) = 117 ∧ rd c (p + 3) = 101))) ∧
      StrtoB_literal c true (some NA_BOOL8) p = (p + 4, some 1)) ∨
    (¬ (rd c p = 78 ∧ p + 1 < c.eof ∧ rd c (p + 1) = 65) ∧ rd c p = 84 ∧
      ¬ (p + 3 < c.eof ∧
        ((rd c (p + 1) = 82 ∧ rd c (p + 2) = 85 ∧ rd c (p + 3) = 69) ∨
         (rd c (p + 1) = 114 ∧ rd c (p + 2) = 117 ∧ rd c (p + 3) = 101))) ∧
      StrtoB_literal c true (some NA_BOOL8) p = (p + 1, some 1)) ∨
    (¬ (rd c p = 78 ∧ p + 1 < c.eof ∧ rd c (p + 1) = 65) ∧ rd c p = 70 ∧
      (p + 4 < c.eof ∧
        ((rd c (p + 1) = 65 ∧ rd c (p + 2) = 76 ∧ rd c (p + 3) = 83 ∧ rd c (p + 4) = 69) ∨
         (rd c (p + 1) = 97 ∧ rd c (p + 2) = 108 ∧ rd c (p + 3) = 115 ∧
            rd c (p + 4) = 101))) ∧
      StrtoB_literal c true (some NA_BOOL8) p = (p + 5, some 0)) ∨
    (¬ (rd c p = 78 ∧ p + 1 < c.eof ∧ rd c (p + 1) = 65) ∧ rd c p = 70 ∧
      ¬ (p + 4 < c.eof ∧
        ((rd c (p + 1) = 65 ∧ rd c (p + 2) = 76 ∧ rd c (p + 3) = 83 ∧ rd c (p + 4) = 69) ∨
         (rd c (p + 1) = 97 ∧ rd c (p + 2) = 108 ∧ rd c (p + 3) = 115 ∧
            rd c (p + 4) = 101))) ∧
      StrtoB_literal c true (some NA_BOOL8) p = (p + 1, some 0)) ∨
    (¬ (rd c p = 78 ∧ p + 1 < c.eof ∧ rd c (p + 1) = 65) ∧ rd c p ≠ 84 ∧ rd c p ≠ 70 ∧
      StrtoB_literal c true (some NA_BOOL8) p = (p, some NA_BOOL8)) := by
  unfold StrtoB_literal
  simp only [logical01, store, Bool.false_eq_true, and_false, false_or, if_true, if_false,
    Nat.add_assoc, Nat.reduceAdd]
  by_cases hN : rd c p = 78 ∧ p + 1 < c.eof ∧ rd c (p + 1) = 65
  · left
    refine ⟨hN.1, hN.2.1, hN.2.2, ?_⟩
    rw [if_pos hN]
    simp [hN.2.2]
  · right
    rw [if_neg hN]
    by_cases hT : rd c p = 84
    · rw [if_pos hT]
      by_cases h3 : p + 3 < c.eof ∧
          ((rd c (p + 1) = 82 ∧ rd c (p + 2) = 85 ∧ rd c (p + 3) = 69) ∨
           (rd c (p + 1) = 114 ∧ rd c (p + 2) = 117 ∧ rd c (p + 3) = 101))
      · left; exact ⟨hN, hT, h3, by rw [if_pos h3]⟩
      · right; left; exact ⟨hN, hT, h3, by rw [if_neg h3]⟩
    · rw [if_neg hT]
      right; right
      by_cases hF : rd c p = 70
      · rw [if_pos hF]
        by_cases h4 : p + 4 < c.eof ∧
            ((rd c (p + 1) = 65 ∧ rd c (p + 2) = 76 ∧ rd c (p + 3) = 83 ∧ rd c (p + 4) = 69) ∨
             (rd c (p + 1) = 97 ∧ rd c (p + 2) = 108 ∧ rd c (p + 3) = 115 ∧
                rd c (p + 4) = 101))
        · left; exact ⟨hN, hF, h4, by rw [if_pos h4]⟩
        · right; left; exact ⟨hN, hF, h4, by rw [if_neg h4]⟩
      · rw [if_neg hF]
        right; right; exact ⟨hN, hT, hF, rfl⟩

/-- C3 (amended): with no NA strings configured, `eol` a line feed or carriage return and
`sep` none of the letters `A R U E L S r u e a l s`, `StrtoB` returns success on a
non-empty unquoted field that does not begin with a space or a tab if and only if the
field text is exactly one of `T`, `F`, `TRUE`, `FALSE`, `True`, `False` or `NA`; on
success with a destination it stores 1 for the `T` forms, 0 for the `F` forms and the
BOOL8 missing value for `NA`. -/
theorem StrtoB_accepts_iff (c : Ctx) (p : Nat) (f : List Nat) (hna : c.NAstrings = [])
    (hsep : c.sep ∉ boolTailLetters) (heol : c.eol = 10 ∨ c.eol = 13) (hne : f ≠ [])
    (hf : fieldAt c p f) (hq : f.head? ≠ some c.quote)
    (hw : f.head? ≠ some 32 ∧ f.head? ≠ some 9) :
    ((StrtoB c p true).ok = true ↔ f ∈ boolLits) ∧
    ((StrtoB c p true).ok = true → (StrtoB c p true).cell = some (boolVal f)) := by
  obtain ⟨b0, r, rfl⟩ := List.exists_cons_of_ne_nil hne
  obtain ⟨hp, hb, hns, hne'⟩ := fieldAt_head c p b0 r hf
  have hq' : ¬ rd c p = c.quote := by
    intro h; apply hq; simp [← h, hb]
  have hw' : b0 ≠ 32 ∧ b0 ≠ 9 := by
    constructor
    · intro h; apply hw.1; simp [h]
    · intro h; apply hw.2; simp [h]
  have h1 : skip_white c p = p := by
    apply skip_white_fix; rintro ⟨_, h2⟩
    simp only [isWhite, hb] at h2; simp at h2; omega
  have h2 : on_sep c p = (false, p) := on_sep_false c p hp (hb ▸ hns) (hb ▸ hne')
  obtain ⟨hok, hcell⟩ := StrtoB_unquoted c p true h1 h2 hq' hna
  simp only [store, if_true] at hok hcell
  simp only [boolTailLetters, List.mem_cons, List.mem_singleton, not_or, List.not_mem_nil,
    or_false] at hsep
  have hval : (StrtoB c p true).ok = true → (StrtoB c p true).cell = some (boolVal (b0 :: r)) := by
    intro h
    rw [hcell h]
    simp only [boolVal, List.head?_cons, Option.some.injEq]
    rcases StrtoB_literal_cases c p with hc | hc | hc | hc | hc | hc
    · rw [hc.2.2.2]; have := hc.1; rw [hb] at this; subst this; simp
    · rw [hc.2.2.2]; have := hc.2.1; rw [hb] at this; subst this; simp
    · rw [hc.2.2.2]; have := hc.2.1; rw [hb] at this; subst this; simp
    · rw [hc.2.2.2]; have := hc.2.1; rw [hb] at this; subst this; simp
    · rw [hc.2.2.2]; have := hc.2.1; rw [hb] at this; subst this; simp
    · rw [hc.2.2.2]
      have h84 := hc.2.1; have h70 := hc.2.2.1
      rw [hb] at h84 h70
      simp [h84, h70]
  refine ⟨?_, hval⟩
  rw [hok, decide_eq_true_eq]
  clear hok hcell hval h1 h2 hq hq' hw hna hw'
  have e10 : ∀ x : Nat, (x = 65 ∨ x = 82 ∨ x = 85 ∨ x = 69 ∨ x = 76 ∨ x = 83 ∨ x = 114 ∨
      x = 117 ∨ x = 101 ∨ x = 97 ∨ x = 108 ∨ x = 115) → x ≠ c.sep ∧ x ≠ c.eol := by
    intro x hx; omega
  constructor
  · -- success: the consumed literal is the whole field
    intro hon
    rcases StrtoB_literal_cases c p with hc | hc | hc | hc | hc | hc
    · rw [hc.2.2.2] at hon
      have := field_eq_of_consumed c p (b0 :: r) [78, 65] hf hne
        (by simp [bytesAt, hc.1, hc.2.2.1]) (by simp; omega)
        (by intro b hb; simp at hb; exact e10 b (by omega)) hon
      rw [this]; decide
    · rw [hc.2.2.2] at hon
      rcases hc.2.2.1.2 with hx | hx
      · have := field_eq_of_consumed c p (b0 :: r) [84, 82, 85, 69] hf hne
          (by simp [bytesAt, hc.2.1, hx, Nat.add_assoc]) (by simp; omega)
          (by intro b hb; simp at hb; exact e10 b (by omega)) hon
        rw [this]; decide
      · have := field_eq_of_consumed c p (b0 :: r) [84, 114, 117, 101] hf hne
          (by simp [bytesAt, hc.2.1, hx, Nat.add_assoc]) (by simp; omega)
          (by intro b hb; simp at hb; exact e10 b (by omega)) hon
        rw [this]; decide
    · rw [hc.2.2.2] at hon
      have := field_eq_of_consumed c p (b0 :: r) [84] hf hne
        (by simp [bytesAt, hc.2.1]) (by simp; omega)
        (by intro b hb; simp at hb) hon
      rw [this]; decide
    · rw [hc.2.2.2] at hon
      rcases hc.2.2.1.2 with hx | hx
      · have := field_eq_of_consumed c p (b0 :: r) [70, 65, 76, 83, 69] hf hne
          (by simp [bytesAt, hc.2.1, hx, Nat.add_assoc]) (by simp; omega)
          (by intro b hb; simp at hb; exact e10 b (by omega)) hon
        rw [this]; decide
      · have := field_eq_of_consumed c p (b0 :: r) [70, 97, 108, 115, 101] hf hne
          (by simp [bytesAt, hc.2.1, hx, Nat.add_assoc]) (by simp; omega)
          (by intro b hb; simp at hb; exact e10 b (by omega)) hon
        rw [this]; decide
    · rw [hc.2.2.2] at hon
      have := field_eq_of_consumed c p (b0 :: r) [70] hf hne
        (by simp [bytesAt, hc.2.1]) (by simp; omega)
        (by intro b hb; simp at hb) hon
      rw [this]; decide
    · rw [hc.2.2.2] at hon
      exact absurd hon (fieldAt_inside c p (b0 :: r) hf 0 (by simp))
  · -- a listed text is consumed whole
    intro hmem
    have s2 : c.sep ≠ 65 ∧ c.sep ≠ 82 ∧ c.sep ≠ 114 ∧ c.sep ≠ 97 := by omega
    clear hsep e10 hns hne' hne
    simp only [boolLits, List.mem_cons, List.mem_singleton, List.not_mem_nil, or_false] at hmem
    rcases hmem with h | h | h | h | h | h | h <;>
    simp only [List.cons.injEq] at h <;>
    obtain ⟨rfl, rfl⟩ := h <;>
    simp only [fieldAt, bytesAt, onTerm, List.length_cons, List.length_nil, List.mem_cons,
      List.mem_singleton, Bool.and_eq_true, decide_eq_true_eq, forall_eq_or_imp,
      List.not_mem_nil, Bool.and_true, Nat.add_assoc, Nat.zero_add, Nat.reduceAdd,
      forall_false, implies_true, and_true, ne_eq] at hf <;>
    obtain ⟨hby, hlen, -, hend⟩ := hf <;>
    rcases StrtoB_literal_cases c p with hc | hc | hc | hc | hc | hc <;>
    rw [hc.2.2.2] <;>
    simp only [onTerm] <;>
    omega

/-- C3, an instance: in the comma dialect `StrtoB` accepts the field `TRUE` and stores 1. -/
theorem StrtoB_accepts_iff_witness :
    (StrtoB (csv [84, 82, 85, 69, 44]) 0 true).ok = true ∧
    (StrtoB (csv [84, 82, 85, 69, 44]) 0 true).cell = some 1 :=
  have h := StrtoB_accepts_iff (csv [84, 82, 85, 69, 44]) 0 [84, 82, 85, 69] rfl (by decide)
    (by decide) (by decide) (by decide) (by decide) (by decide)
  ⟨h.1.2 (by decide), h.2 (h.1.2 (by decide))⟩

/-- C3 as stated fails in two ways.  In the comma dialect the field ` T` (a space, then
`T`) is accepted although its text is not one of the seven; and with `sep` the letter `R`,
on the input `TRUE,\n` whose first field is `T`, the scanner matches `TRUE` across the
separator and rejects the field. -/
theorem StrtoB_accepts_iff_counterexample :
    (fieldAt (csv [32, 84, 44]) 0 [32, 84] ∧ [32, 84] ∉ boolLits ∧
      (StrtoB (csv [32, 84, 44]) 0 true).ok = true) ∧
    (fieldAt { csv [84, 82, 85, 69, 44, 10] with sep := 82 } 0 [84] ∧ [84] ∈ boolLits ∧
      (StrtoB { csv [84, 82, 85, 69, 44, 10] with sep := 82 } 0 true).ok = false) := by
  decide

/-! ## C8 -/

/-- C8: `StrtoD` takes `start` after the sign, so `is_NAstring` never sees the sign.  On
the field `-999` followed by a comma, with a destination: when the NA strings are
`{"-999"}` the cell receives the number -999 and not the missing value (while `StrtoI32`,
whose `start` precedes the sign, stores the INT32 missing value on the same input); when
the NA strings are `{"999"}` the cell receives the FLOAT64 missing value. -/
theorem StrtoD_NA_test_skips_sign :
    (StrtoD { csv [45, 57, 57, 57, 44] with
        NAstrings := [[45, 57, 57, 57]], any_number_like_NAstrings := true } 0 true
      = ⟨true, 4, some (F64.num (-1) 999 0)⟩) ∧
    (StrtoI32 { csv [45, 57, 57, 57, 44] with
        NAstrings := [[45, 57, 57, 57]], any_number_like_NAstrings := true } 0 true
      = ⟨true, 4, some NA_INT32⟩) ∧
    (StrtoD { csv [45, 57, 57, 57, 44] with
        NAstrings := [[57, 57, 57]], any_number_like_NAstrings := true } 0 true
      = ⟨true, 4, some F64.na⟩) := by
  decide

/-! ## C9 -/

/-- The bytes that `on_sep` steps over are separating spaces. -/
theorem on_sep_run (c : Ctx) (q : Nat) :
    q ≤ (on_sep c q).2 ∧ ∀ i, q ≤ i → i < (on_sep c q).2 → rd c i = 32 ∧ c.sep = 32 := by
  unfold on_sep
  simp only
  split
  · rename_i hs
    have hge := scanWhile_ge c.eof (fun i => decide (rd c (i + 1) = 32 ∧ i + 1 < c.eof)) (c.eof - q) q
    have hall : ∀ i, q ≤ i →
        i ≤ scanWhile c.eof (fun i => decide (rd c (i + 1) = 32 ∧ i + 1 < c.eof)) (c.eof - q) q →
        rd c i = 32 := by
      intro i h1 h2
      by_cases hi : i = q
      · rw [hi]; exact hs.2.2
      · obtain ⟨j, rfl⟩ : ∃ j, i = j + 1 := ⟨i - 1, by omega⟩
        have := scanWhile_all c.eof (fun i => decide (rd c (i + 1) = 32 ∧ i + 1 < c.eof))
          (c.eof - q) q j (by omega) (by omega)
        have h3 := this.2
        simp only [decide_eq_true_eq] at h3
        exact h3.1
    split
    · exact ⟨by omega, fun i h1 h2 => ⟨hall i h1 (by omega), hs.1⟩⟩
    · exact ⟨hge, fun i h1 h2 => ⟨hall i h1 (by omega), hs.1⟩⟩
  · exact ⟨Nat.le_refl _, fun i h1 h2 => by omega⟩

/-- C9 (amended): for each of `StrtoB`, `StrtoI32`, `StrtoI64` and `StrtoD` called with a
destination, when after the spaces and tabs skipped by `skip_white` the cursor `q` is on
`sep`, `eol` or `eof`, the scanner returns success and stores the missing value of its
type; the cursor it hands back is the one computed by `on_sep` from `q`: it is `q` itself
unless `sep` is a space and `q` is on a space, in which case it has moved over separating
spaces only, and it rests on `sep`, `eol` or `eof`. -/
theorem empty_field_gives_missing (c : Ctx) (p : Nat) (h : onTerm c (skip_white c p)) :
    StrtoB c p true = ⟨true, (on_sep c (skip_white c p)).2, some NA_BOOL8⟩ ∧
    StrtoI32 c p true = ⟨true, (on_sep c (skip_white c p)).2, some NA_INT32⟩ ∧
    StrtoI64 c p true = ⟨true, (on_sep c (skip_white c p)).2, some NA_INT64⟩ ∧
    StrtoD c p true = ⟨true, (on_sep c (skip_white c p)).2, some F64.na⟩ ∧
    (¬ (c.sep = 32 ∧ skip_white c p < c.eof ∧ rd c (skip_white c p) = 32) →
      (on_sep c (skip_white c p)).2 = skip_white c p) ∧
    skip_white c p ≤ (on_sep c (skip_white c p)).2 ∧
    (∀ i, skip_white c p ≤ i → i < (on_sep c (skip_white c p)).2 → rd c i = c.sep) ∧
    onTerm c (on_sep c (skip_white c p)).2 := by
  have h1 : (on_sep c (skip_white c p)).1 = true := on_sep_of_onTerm c _ h
  refine ⟨?_, ?_, ?_, ?_, ?_, (on_sep_run c _).1, ?_, (on_sep_iff c _).1 h1⟩
  · simp [StrtoB, h1, store]
  · simp [StrtoI32, StrtoInt, h1, store]
  · simp [StrtoI64, StrtoInt, h1, store]
  · simp [StrtoD, h1, store]
  · intro hs
    rw [on_sep_true c _ h hs]
  · intro i hi1 hi2
    have := (on_sep_run c _).2 i hi1 hi2
    rw [this.1, this.2]

/-- C9, an instance: in the comma dialect, on the input ` ,` (a space, then a comma) the
four scanners skip the space, store their missing value and leave the cursor on the
comma. -/
theorem empty_field_gives_missing_witness :
    StrtoB (csv [32, 44]) 0 true = ⟨true, 1, some NA_BOOL8⟩ ∧
    StrtoI32 (csv [32, 44]) 0 true = ⟨true, 1, some NA_INT32⟩ ∧
    StrtoI64 (csv [32, 44]) 0 true = ⟨true, 1, some NA_INT64⟩ ∧
    StrtoD (csv [32, 44]) 0 true = ⟨true, 1, some F64.na⟩ :=
  have h := empty_field_gives_missing (csv [32, 44]) 0 (by decide)
  ⟨h.1, h.2.1, h.2.2.1, h.2.2.2.1⟩

/-- C9 as stated fails when `sep` is a space: on the input of two spaces and the digit
`1`, the cursor starts on a separator (offset 0, which `skip_white` does not move), and
each scanner hands back offset 1, the last space of the run. -/
theorem empty_field_cursor_counterexample :
    skip_white { csv [32, 32, 49] with sep := 32 } 0 = 0 ∧
    onTerm { csv [32, 32, 49] with sep := 32 } 0 ∧
    (StrtoB { csv [32, 32, 49] with sep := 32 } 0 true).ch = 1 ∧
    (StrtoI32 { csv [32, 32, 49] with sep := 32 } 0 true).ch = 1 ∧
    (StrtoI64 { csv [32, 32, 49] with sep := 32 } 0 true).ch = 1 ∧
    (StrtoD { csv [32, 32, 49] with sep := 32 } 0 true).ch = 1 := by
  decide

/-! ## C10 -/

/-- C10 (amended): when `Field` is called with a destination on an empty field (cursor on
`sep`, `eol` or `eof`) whose byte under the cursor is not the quote byte (or under quote
rule 3), it returns success and stores offset 0 and the length `INT_MIN` if the flag
`blank_is_a_NAstring` is set (the empty string is one of the NA strings), and the length
0 otherwise. -/
theorem Field_empty_field (c : Ctx) (p : Nat) (h : onTerm c p)
    (heol : c.eol = 10 ∨ c.eol = 13) (hq : rd c p ≠ c.quote ∨ c.quoteRule = 3) :
    (Field c p true).ok = true ∧
    (Field c p true).cell = some ⟨if c.blank_is_a_NAstring then INT_MIN else 0, 0⟩ := by
  have h1 : skip_white c p = p := skip_white_onTerm c p (by omega) h
  have h2 : (if c.stripWhite = true then skip_white c p else p) = p := by
    split
    · exact h1
    · rfl
  have h3 : scanWhile c.eof (notSepEol c) (c.eof - p) p = p := by
    apply scanWhile_fix
    rintro ⟨a, b⟩
    simp only [notSepEol, ne_eq, Bool.decide_and, Bool.and_eq_true, decide_eq_true_eq,
      decide_not, Bool.not_eq_true', decide_eq_false_iff_not] at b
    rcases h with h | h | h
    · omega
    · exact b.1 h
    · exact b.2 h
  have h4 : (on_sep c p).1 = true := on_sep_of_onTerm c p h
  unfold Field
  simp only [h2, hq, if_true, h3]
  unfold Field_finish
  simp [h4, toInt32, toUInt32, store]

/-- C10, an instance: in the comma dialect with the NA strings `{""}`, `Field` called on
the empty first field of `,` stores the length `INT_MIN`. -/
theorem Field_empty_field_witness :
    (Field { csv [44] with NAstrings := [[]], blank_is_a_NAstring := true } 0 true).cell
      = some ⟨INT_MIN, 0⟩ :=
  (Field_empty_field { csv [44] with NAstrings := [[]], blank_is_a_NAstring := true } 0
    (by decide) (by decide) (by decide)).2

/-- C10 as stated fails: with no NA string, or with the NA strings `{"NA"}`, `Field`
called with a destination on the empty first field of `,` stores the length 0, not
`INT_MIN`; and with quoting disabled by a NUL quote byte, `Field` called at `eof` of a
NUL-terminated input reads the terminating NUL as an opening quote and fails. -/
theorem Field_empty_field_counterexample :
    Field (csv [44]) 0 true = ⟨true, 0, some ⟨0, 0⟩⟩ ∧
    Field { csv [44] with NAstrings := [[78, 65]] } 0 true = ⟨true, 0, some ⟨0, 0⟩⟩ ∧
    (Field { csv [49, 44] with quote := 0 } 2 true).ok = false := by
  decide

/-! ## C6 -/

/-- What the trailing-blank loop of `Field` computes. -/
theorem stripTrail_spec (c : Ctx) (fs n : Nat) :
    stripTrail c fs n ≤ n ∧
    (∀ i, stripTrail c fs n ≤ i → i < n → rd c (fs + i) = 32 ∨ rd c (fs + i) = 9) ∧
    (0 < stripTrail c fs n →
      rd c (fs + (stripTrail c fs n - 1)) ≠ 32 ∧ rd c (fs + (stripTrail c fs n - 1)) ≠ 9) := by
  induction n with
  | zero => simp [stripTrail]
  | succ n ih =>
    unfold stripTrail
    split
    · rename_i h
      refine ⟨by omega, ?_, ih.2.2⟩
      intro i h1 h2
      by_cases hi : i = n
      · rw [hi]; exact h
      · exact ih.2.1 i h1 (by omega)
    · rename_i h
      refine ⟨Nat.le_refl _, fun i h1 h2 => by omega, fun _ => ?_⟩
      simp only [Nat.add_sub_cancel]
      exact ⟨fun a => h (Or.inl a), fun a => h (Or.inr a)⟩

/-- The unquoted search of `Field` stops on the first `sep`, `eol` or `eof` at or after
its start. -/
theorem scan_notSepEol_spec (c : Ctx) (fs : Nat) :
    fs ≤ scanWhile c.eof (notSepEol c) (c.eof - fs) fs ∧
    onTerm c (scanWhile c.eof (notSepEol c) (c.eof - fs) fs) ∧
    ∀ i, fs ≤ i → i < scanWhile c.eof (notSepEol c) (c.eof - fs) fs → ¬ onTerm c i := by
  refine ⟨scanWhile_ge _ _ _ _, ?_, ?_⟩
  · rcases scanWhile_stop c.eof (notSepEol c) (c.eof - fs) fs (Nat.le_refl _) with h | h
    · left; exact h
    · right
      simp only [notSepEol, ne_eq, Bool.decide_and, Bool.and_eq_false_imp, decide_eq_true_eq,
        decide_eq_false_iff_not, Decidable.not_not, decide_not, Bool.not_eq_true'] at h
      by_cases h1 : rd c (scanWhile c.eof (notSepEol c) (c.eof - fs) fs) = c.sep
      · left; exact h1
      · right; simpa using h h1
  · intro i h1 h2
    have := scanWhile_all c.eof (notSepEol c) (c.eof - fs) fs i h1 h2
    simp only [notSepEol, ne_eq, Bool.decide_and, Bool.and_eq_true, decide_eq_true_eq,
      decide_not, Bool.not_eq_true', decide_eq_false_iff_not] at this
    rintro (h | h | h)
    · omega
    · exact this.2.1 h
    · exact this.2.2 h

/-- `Field` under quote rule 3, whatever the byte under the cursor. -/
theorem Field_rule3_eq (c : Ctx) (p : Nat) (tgt : Bool) (h3 : c.quoteRule = 3) :
    Field c p tgt =
      Field_finish c p tgt (if c.stripWhite = true then skip_white c p else p) false
        (scanWhile c.eof (notSepEol c)
          (c.eof - (if c.stripWhite = true then skip_white c p else p))
          (if c.stripWhite = true then skip_white c p else p)) := by
  unfold Field
  simp [h3]

/-- C6 (amended): under quote rule 3 `Field` is total and quote bytes are ordinary data:
for every memory, window, separator and start cursor it returns success.  With `fs` the
start of the field (the cursor, moved over leading blanks when `stripWhite` is on) and `e`
the first `sep`, `eol` or `eof` at or after `fs`, the cursor returned is the one `on_sep`
computes from `e`, and, for a field shorter than 2^31 bytes read with a destination, the
recorded offset is `fs` relative to the cursor and the recorded length is `INT_MIN` when
the field is taken as missing, and otherwise the number `m` of bytes from `fs` to `e` less
the trailing spaces and tabs, which are dropped only when `stripWhite` is on.  Hence one
round of the sampler's retry loop never reaches the abort `Even quoteRule 3 was
insufficient` from a quote rule of at most 3, and leaves the quote rule at most 3. -/
theorem Field_rule3_total (c : Ctx) (p : Nat) (s : Sampler) :
    (c.quoteRule = 3 →
      (∀ tgt, (Field c p tgt).ok = true ∧
        (Field c p tgt).ch =
          (on_sep c (scanWhile c.eof (notSepEol c)
            (c.eof - (if c.stripWhite = true then skip_white c p else p))
            (if c.stripWhite = true then skip_white c p else p))).2) ∧
      (∀ fs e, fs = (if c.stripWhite = true then skip_white c p else p) →
        e = scanWhile c.eof (notSepEol c) (c.eof - fs) fs →
        fs ≤ e ∧ onTerm c e ∧ (∀ i, fs ≤ i → i < e → ¬ onTerm c i) ∧
        (e - fs < 2147483648 →
          ∃ m, m ≤ e - fs ∧ (c.stripWhite = false → m = e - fs) ∧
            (∀ i, m ≤ i → i < e - fs → rd c (fs + i) = 32 ∨ rd c (fs + i) = 9) ∧
            (c.stripWhite = true → 0 < m →
              rd c (fs + (m - 1)) ≠ 32 ∧ rd c (fs + (m - 1)) ≠ 9) ∧
            (Field c p true).cell = some
              ⟨if (m = 0 ∧ c.blank_is_a_NAstring = true) ∨ (m ≠ 0 ∧ is_NAstring c fs = true)
                then INT_MIN else (m : Int), toUInt32 ((fs : Int) - (p : Int))⟩))) ∧
    (s.c.quoteRule ≤ 3 →
      sampleStep s ≠ SampleStep.abort ∧
      ∀ s', (sampleStep s = SampleStep.again s' ∨ sampleStep s = SampleStep.done s') →
        s'.c.quoteRule ≤ 3) := by
  constructor
  · intro h3
    have hterm := scan_notSepEol_spec c (if c.stripWhite = true then skip_white c p else p)
    have hos := on_sep_of_onTerm c _ hterm.2.1
    constructor
    · intro tgt
      rw [Field_rule3_eq c p tgt h3]
      unfold Field_finish
      simp [hos]
    · intro fs e hfs he
      subst hfs
      rw [← he] at hterm hos
      refine ⟨hterm.1, hterm.2.1, hterm.2.2, ?_⟩
      intro hlen
      rw [Field_rule3_eq c p true h3, ← he]
      have hcast : toInt32 ((e : Int) - ((if c.stripWhite = true then skip_white c p else p : Nat) : Int))
          = ((e - (if c.stripWhite = true then skip_white c p else p) : Nat) : Int) := by
        unfold toInt32
        have := hterm.1
        omega
      generalize hfs : (if c.stripWhite = true then skip_white c p else p) = fs at *
      by_cases hsw : c.stripWhite = true
      · by_cases hn : e - fs = 0
        · refine ⟨0, by omega, by simp [hsw], fun i h1 h2 => by omega, fun _ h => by omega, ?_⟩
          unfold Field_finish
          simp [hos, hcast, hn, hsw, store]
        · have hs := stripTrail_spec c fs (e - fs)
          refine ⟨stripTrail c fs (e - fs), hs.1, by simp [hsw], hs.2.1, fun _ => hs.2.2, ?_⟩
          unfold Field_finish
          have hpos : (0 : Int) < ((e - fs : Nat) : Int) := by omega
          simp only [hcast, hsw, hpos, hos, Int.toNat_ofNat, store]
          simp only [Bool.false_eq_true, not_false_eq_true, and_self, ↓reduceIte,
            Bool.not_eq_true, Nat.cast_eq_zero, Nat.cast_ofNat, not_true_eq_false]
          by_cases hz : stripTrail c fs (e - fs) = 0
          · simp [hz, hos]
          · simp [hz, hos]
      · refine ⟨e - fs, Nat.le_refl _, fun _ => rfl, fun i h1 h2 => by omega,
          fun h => absurd h hsw, ?_⟩
        unfold Field_finish
        simp only [hcast, hsw, hos, store]
        by_cases hz : e - fs = 0
        · simp [hz, hos]
        · simp [hz, hos]
  · intro hq
    unfold sampleStep
    simp only
    split
    · rename_i ht
      cases hfun : funProbe s.c (s.type.getD s.field 0) s.ch with
      | none => exact ⟨by simp, by intro s' h; simp at h⟩
      | some r =>
        obtain ⟨ok, ch⟩ := r
        cases ok with
        | true =>
          refine ⟨by simp, ?_⟩
          intro s' h
          simp at h
          rw [← h]; exact hq
        | false =>
          simp only
          by_cases h5 : s.type.getD s.field 0 < CT_STRING
          · rw [if_pos h5]
            refine ⟨by simp, ?_⟩
            intro s' h
            simp at h
            rw [← h]; exact hq
          · rw [if_neg h5]
            by_cases h6 : s.c.quoteRule < 3
            · rw [if_pos h6]
              refine ⟨by simp, ?_⟩
              intro s' h
              simp at h
              rw [← h]; simp; omega
            · exfalso
              have ht5 : s.type.getD s.field 0 = 5 := by
                unfold CT_STRING at ht h5; omega
              have hq3 : s.c.quoteRule = 3 := by omega
              rw [ht5] at hfun
              simp only [funProbe, Option.some.injEq, Prod.mk.injEq] at hfun
              have := Field_rule3_eq s.c s.ch false hq3
              rw [this] at hfun
              have hterm := scan_notSepEol_spec s.c
                (if s.c.stripWhite = true then skip_white s.c s.ch else s.ch)
              have hos := on_sep_of_onTerm s.c _ hterm.2.1
              unfold Field_finish at hfun
              simp [hos] at hfun
    · refine ⟨by simp, ?_⟩
      intro s' h
      simp at h
      rw [← h]; exact hq

/-- C6, an instance: under quote rule 3 in the comma dialect, `Field` succeeds on the input
`a"b,` whose first field holds a quote byte, and a sampler round on a STRING column does
not abort. -/
theorem Field_rule3_total_witness :
    (Field { csv [97, 34, 98, 44] with quoteRule := 3 } 0 true).ok = true ∧
    sampleStep { c := { csv [97, 34, 98, 44] with quoteRule := 3 }, type := [5], field := 0,
                 ch := 0, fieldStart := 0, lineStart := 0, bumped := false }
      ≠ SampleStep.abort :=
  have h := Field_rule3_total { csv [97, 34, 98, 44] with quoteRule := 3 } 0
    { c := { csv [97, 34, 98, 44] with quoteRule := 3 }, type := [5], field := 0,
      ch := 0, fieldStart := 0, lineStart := 0, bumped := false }
  ⟨((h.1 rfl).1 true).1, (h.2 (by decide)).1⟩

/-- C6 as stated fails on the recorded slice.  Under quote rule 3 with `stripWhite` on, on
the input `ab  ,c` the first separator at or after the start of the field is at offset 4
but the slice recorded for the first field has length 2; and with the NA strings `{"NA"}`
the field `NA` is recorded with the length `INT_MIN`. -/
theorem Field_rule3_slice_counterexample :
    (Field { csv [97, 98, 32, 32, 44, 99] with quoteRule := 3 } 0 true = ⟨true, 4, some ⟨2, 0⟩⟩ ∧
      onTerm { csv [97, 98, 32, 32, 44, 99] with quoteRule := 3 } 4 ∧
      ¬ onTerm { csv [97, 98, 32, 32, 44, 99] with quoteRule := 3 } 2 ∧
      ¬ onTerm { csv [97, 98, 32, 32, 44, 99] with quoteRule := 3 } 3) ∧
    Field { csv [78, 65, 44, 99] with quoteRule := 3, NAstrings := [[78, 65]] } 0 true
      = ⟨true, 2, some ⟨INT_MIN, 0⟩⟩ := by
  decide

/-! ## C7 -/

theorem bytesAt_of_get (c : Ctx) (p : Nat) (f : List Nat)
    (h : ∀ i, i < f.length → rd c (p + i) = f.getD i 0) : bytesAt c p f = true := by
  induction f generalizing p with
  | nil => rfl
  | cons b bs ih =>
    rw [bytesAt_cons]
    constructor
    · simpa using h 0 (by simp)
    · apply ih
      intro i hi
      have := h (i + 1) (by simpa using hi)
      rw [show p + 1 + i = p + (i + 1) by omega]
      simpa using this

/-- A cursor `w` on a terminator, reached from the start of a field over bytes none of
which (the first apart) is `sep` or `eol`, is the end of the field. -/
theorem field_end_of_cursor (c : Ctx) (p : Nat) (f : List Nat) (hf : fieldAt c p f)
    (hne : f ≠ []) (w : Nat) (hw : p ≤ w) (hwe : w ≤ c.eof) (hon : onTerm c w)
    (hmid : ∀ i, p < i → i < w → rd c i ≠ c.sep ∧ rd c i ≠ c.eol) :
    w = p + f.length := by
  have hpos : 0 < f.length := List.length_pos.2 hne
  have h1 : ¬ w - p < f.length := by
    intro h
    have := fieldAt_inside c p f hf (w - p) h
    rw [show p + (w - p) = w by omega] at this
    exact this hon
  have h2 : ¬ p + f.length < w := by
    intro h
    have hm := hmid (p + f.length) (by omega) h
    rcases hf.2.2.2 with h3 | h3 | h3
    · omega
    · exact hm.1 h3
    · exact hm.2 h3
  omega

/-- What the comparison loop of `is_NAstring` computes: it advances both cursors by the
same amount over equal bytes inside the window, and stops at `eof` or on a mismatch. -/
theorem naMatch_spec (c : Ctx) (na : List Nat) (n q j : Nat) (hn : c.eof - q ≤ n) :
    q ≤ (naMatch c na n q j).1 ∧
    (naMatch c na n q j).1 - q = (naMatch c na n q j).2 - j ∧
    j ≤ (naMatch c na n q j).2 ∧
    (∀ i, i < (naMatch c na n q j).1 - q → q + i < c.eof ∧ rd c (q + i) = rdStr na (j + i)) ∧
    ((naMatch c na n q j).1 ≥ c.eof ∨
      rd c (naMatch c na n q j).1 ≠ rdStr na (naMatch c na n q j).2) := by
  induction n generalizing q j with
  | zero =>
    simp only [naMatch]
    exact ⟨Nat.le_refl _, by omega, Nat.le_refl _, fun i hi => by omega, Or.inl (by omega)⟩
  | succ n ih =>
    unfold naMatch
    split
    · rename_i h
      obtain ⟨a1, a2, a3, a4, a5⟩ := ih (q + 1) (j + 1) (by omega)
      refine ⟨by omega, by omega, by omega, ?_, a5⟩
      intro i hi
      cases i with
      | zero => exact h
      | succ i =>
        have := a4 i (by omega)
        rw [show q + (i + 1) = q + 1 + i by omega, show j + (i + 1) = j + 1 + i by omega]
        exact this
    · rename_i h
      refine ⟨Nat.le_refl _, by omega, Nat.le_refl _, fun i hi => by omega, ?_⟩
      by_cases h1 : q < c.eof
      · right; intro h2; exact h ⟨h1, h2⟩
      · left; omega

/-- One NA string that equals the text of the field makes `naAny` answer true. -/
theorem naAny_of_mem (c : Ctx) (p : Nat) (f : List Nat) (nas : List (List Nat))
    (hf : fieldAt c p f) (hz : ∀ b ∈ f, b ≠ 0) (heol : c.eol = 10 ∨ c.eol = 13)
    (hs0 : c.sep ≠ 0) (hmem : f ∈ nas) : naAny c p nas = true := by
  induction nas with
  | nil => simp at hmem
  | cons na rest ih =>
    unfold naAny
    simp only
    by_cases hna : na = f
    · subst hna
      obtain ⟨a1, a2, a3, a4, a5⟩ := naMatch_spec c na (c.eof - p) p 0 (Nat.le_refl _)
      generalize naMatch c na (c.eof - p) p 0 = m at a1 a2 a3 a4 a5 ⊢
      have hk : m.2 = na.length := by
        by_contra hne
        rcases Nat.lt_or_gt_of_ne hne with h | h
        · have hb := bytesAt_get c p na m.2 hf.1 h
          have h1 := hf.2.1
          rcases a5 with a5 | a5
          · omega
          · apply a5
            rw [show m.1 = p + m.2 by omega, hb, rdStr]
        · have := a4 na.length (by omega)
          simp only [Nat.zero_add] at this
          have h0 : rdStr na na.length = 0 := by simp [rdStr]
          rw [h0] at this
          rcases hf.2.2.2 with h3 | h3 | h3
          · omega
          · rw [this.2] at h3; exact hs0 h3.symm
          · rw [this.2] at h3; omega
      have hm1 : m.1 = p + na.length := by omega
      have h0 : rdStr na m.2 = 0 := by rw [hk]; simp [rdStr]
      have hsw : skip_white c m.1 = m.1 := by
        rw [hm1]; exact skip_white_onTerm c _ (by omega) hf.2.2.2
      rw [if_pos h0, hsw, hm1]
      exact if_pos hf.2.2.2
    · have := ih (by
        rcases List.mem_cons.1 hmem with h | h
        · exact absurd h.symm hna
        · exact h)
      split
      · split
        · rfl
        · exact this
      · exact this

/-- An NA string without NUL, `sep` or `eol` bytes that `naAny` matches against a field
made of bytes that are neither NUL nor blanks is the text of the field. -/
theorem naAny_imp_mem (c : Ctx) (p : Nat) (f : List Nat) (nas : List (List Nat))
    (hf : fieldAt c p f) (hne : f ≠ []) (hz : ∀ b ∈ f, b ≠ 0 ∧ b ≠ 32 ∧ b ≠ 9)
    (heol : c.eol = 10 ∨ c.eol = 13) (hs0 : c.sep ≠ 0)
    (hnas : ∀ na ∈ nas, ∀ b ∈ na, b ≠ c.sep ∧ b ≠ c.eol ∧ b ≠ 0)
    (h : naAny c p nas = true) : f ∈ nas := by
  induction nas with
  | nil => simp [naAny] at h
  | cons na rest ih =>
    have ihr := ih (fun x hx => hnas x (List.mem_cons_of_mem _ hx))
    unfold naAny at h
    simp only at h
    obtain ⟨a1, a2, a3, a4, a5⟩ := naMatch_spec c na (c.eof - p) p 0 (Nat.le_refl _)
    generalize naMatch c na (c.eof - p) p 0 = m at a1 a2 a3 a4 a5 h
    by_cases h0 : rdStr na m.2 = 0
    · rw [if_pos h0] at h
      by_cases hon : onTerm c (skip_white c m.1)
      · -- this NA string matched: it is the field
        have hna := hnas na (List.mem_cons_self _ _)
        have hk : na.length ≤ m.2 := by
          by_contra hlt
          have hlt : m.2 < na.length := by omega
          have hmem : na.getD m.2 0 ∈ na := by
            rw [List.getD_eq_getElem _ _ hlt]; exact List.getElem_mem _
          exact (hna _ hmem).2.2 h0
        have hm1e : m.1 ≤ c.eof := by
          by_cases hk0 : m.1 = p
          · have := hf.2.1; omega
          · have := (a4 (m.1 - p - 1) (by omega)).1; omega
        have hwe : skip_white c m.1 ≤ c.eof := scanWhile_le _ _ _ _ hm1e
        have hwg : m.1 ≤ skip_white c m.1 := skip_white_ge c m.1
        have hmid : ∀ i, p < i → i < skip_white c m.1 → rd c i ≠ c.sep ∧ rd c i ≠ c.eol := by
          intro i hi1 hi2
          by_cases hi3 : i < m.1
          · have hb := (a4 (i - p) (by omega)).2
            rw [show p + (i - p) = i by omega, Nat.zero_add] at hb
            by_cases hi4 : i - p < na.length
            · have hmem : na.getD (i - p) 0 ∈ na := by
                rw [List.getD_eq_getElem _ _ hi4]; exact List.getElem_mem _
              rw [hb, rdStr]
              exact ⟨(hna _ hmem).1, (hna _ hmem).2.1⟩
            · have : rdStr na (i - p) = 0 := by
                simp only [rdStr]; rw [List.getD_eq_default]; omega
              rw [hb, this]
              constructor
              · exact fun h => hs0 h.symm
              · omega
          · have := (scanWhile_all c.eof (isWhite c) (c.eof - m.1) m.1 i (by omega) hi2).2
            simp only [isWhite, ne_eq, Bool.decide_and, Bool.and_eq_true, decide_eq_true_eq,
              decide_not, Bool.not_eq_true', decide_eq_false_iff_not] at this
            refine ⟨this.2, ?_⟩
            intro he; rw [he] at this; omega
        have hend := field_end_of_cursor c p f hf hne (skip_white c m.1) (by omega) hwe hon hmid
        -- the field has no NUL or blank byte, so nothing follows the NA string
        have hlen : f.length ≤ na.length := by
          by_contra hlt
          have hlt : na.length < f.length := by omega
          have hb := bytesAt_get c p f na.length hf.1 hlt
          have hmem : f.getD na.length 0 ∈ f := by
            rw [List.getD_eq_getElem _ _ hlt]; exact List.getElem_mem _
          have hfz := hz _ hmem
          rw [← hb] at hfz
          by_cases hi3 : p + na.length < m.1
          · have hb2 := (a4 na.length (by omega)).2
            rw [Nat.zero_add] at hb2
            have : rdStr na na.length = 0 := by simp [rdStr]
            rw [this] at hb2
            exact hfz.1 hb2
          · have := (scanWhile_all c.eof (isWhite c) (c.eof - m.1) m.1 (p + na.length)
              (by omega) (by unfold skip_white at hend; omega)).2
            simp only [isWhite, ne_eq, Bool.decide_and, Bool.and_eq_true, decide_eq_true_eq,
              decide_not, Bool.not_eq_true', decide_eq_false_iff_not] at this
            rcases this.1 with h1 | h1
            · exact hfz.2.1 h1
            · exact hfz.2.2 h1
        have hlen2 : f.length = na.length := by omega
        have hby : bytesAt c p na = true := by
          apply bytesAt_of_get
          intro i hi
          have := (a4 i (by omega)).2
          rw [Nat.zero_add] at this
          rw [this, rdStr]
        have := bytesAt_unique c p f na hf.1 hby hlen2
        rw [this]; exact List.mem_cons_self _ _
      · have hon' : ¬ (skip_white c m.1 ≥ c.eof ∨ rd c (skip_white c m.1) = c.sep ∨
            rd c (skip_white c m.1) = c.eol) := hon
        rw [if_neg hon'] at h
        exact List.mem_cons_of_mem _ (ihr h)
    · rw [if_neg h0] at h
      exact List.mem_cons_of_mem _ (ihr h)

/-- The closing lines of a numeric scanner when the number ended on a terminator: the
missing value is stored when some NA string is number-like and `is_NAstring` recognises
the field, the parsed value is stored when `is_NAstring` does not recognise it; success
either way. -/
theorem numTail_NA {α : Type} (c : Ctx) (start ch : Nat) (v na : α)
    (h : onTerm c ch) (heol : c.eol = 10 ∨ c.eol = 13) :
    (c.any_number_like_NAstrings = true → is_NAstring c start = true →
      (numTail c true start ch true v na).ok = true ∧
      (numTail c true start ch true v na).cell = some na) ∧
    (is_NAstring c start = false →
      (numTail c true start ch true v na).ok = true ∧
      (numTail c true start ch true v na).cell = some v) := by
  have h1 : skip_white c ch = ch := skip_white_onTerm c ch (by omega) h
  have h2 : (on_sep c ch).1 = true := on_sep_of_onTerm c ch h
  constructor
  · intro ha hn
    simp [numTail, h1, h2, ha, hn, store]
  · intro hn
    by_cases ha : c.any_number_like_NAstrings = true
    · simp [numTail, h1, h2, ha, hn, store]
    · simp [numTail, h1, h2, ha, store]

/-- The bytes of an optional sign followed by digits are neither NUL nor blanks. -/
theorem sign_digits_bytes (s ds : List Nat) (hs : s = [] ∨ s = [43] ∨ s = [45])
    (hd : allDigits ds) : ∀ b ∈ s ++ ds, b ≠ 0 ∧ b ≠ 32 ∧ b ≠ 9 := by
  intro b hb
  rcases List.mem_append.1 hb with h | h
  · rcases hs with rfl | rfl | rfl
    · simp at h
    · simp at h; omega
    · simp at h; omega
  · have := hd b h; omega

/-- C7 (amended): for every unquoted field made of an optional sign and decimal digits
whose value the accumulator can hold, in a dialect whose `sep` is neither a decimal digit
nor NUL, `StrtoI32` (resp. `StrtoI64`) called with a destination returns success and: if
the field's text, sign included, equals one of the configured NA strings and some NA
string is number-like, it stores the INT32 (resp. INT64) missing value; if no configured
NA string equals the field's text and no NA string holds a `sep`, `eol` or NUL byte, it
stores the field's numeric value. -/
theorem StrtoI32_StrtoI64_NA_strings (c : Ctx) (p : Nat) (s ds : List Nat)
    (hs : s = [] ∨ s = [43] ∨ s = [45]) (hne : ds ≠ []) (hd : allDigits ds)
    (hf : fieldAt c p (s ++ ds)) (hq : (s ++ ds).head? ≠ some c.quote)
    (hsep : ¬ (48 ≤ c.sep ∧ c.sep ≤ 57)) (hs0 : c.sep ≠ 0)
    (heol : c.eol = 10 ∨ c.eol = 13) :
    (s ++ ds ∈ c.NAstrings → c.any_number_like_NAstrings = true →
      (digitsVal ds < 10 * ((INT32_MAX - 10) / 10) →
        (StrtoI32 c p true).ok = true ∧ (StrtoI32 c p true).cell = some NA_INT32) ∧
      (digitsVal ds < 10 * ((INT64_MAX - 10) / 10) →
        (StrtoI64 c p true).ok = true ∧ (StrtoI64 c p true).cell = some NA_INT64)) ∧
    (s ++ ds ∉ c.NAstrings →
      (∀ na ∈ c.NAstrings, ∀ b ∈ na, b ≠ c.sep ∧ b ≠ c.eol ∧ b ≠ 0) →
      (digitsVal ds < 10 * ((INT32_MAX - 10) / 10) →
        (StrtoI32 c p true).ok = true ∧
        (StrtoI32 c p true).cell = some (signOf s * (digitsVal ds : Int))) ∧
      (digitsVal ds < 10 * ((INT64_MAX - 10) / 10) →
        (StrtoI64 c p true).ok = true ∧
        (StrtoI64 c p true).cell = some (signOf s * (digitsVal ds : Int)))) := by
  have hterm := hf.2.2.2
  have hbytes := sign_digits_bytes s ds hs hd
  have hfne : s ++ ds ≠ [] := by simp [hne]
  obtain ⟨b0, r, hbr⟩ := List.exists_cons_of_ne_nil hfne
  have hsw : skip_white c p = p := by
    rw [hbr] at hf hbytes
    obtain ⟨hp, hb, -, -⟩ := fieldAt_head c p b0 r hf
    have := hbytes b0 (List.mem_cons_self _ _)
    apply skip_white_fix; rintro ⟨_, h2⟩
    simp only [isWhite, hb] at h2; simp at h2; omega
  have hisna : is_NAstring c p = naAny c p c.NAstrings := by
    unfold is_NAstring; rw [hsw]
  constructor
  · intro hmem hany
    have hna : is_NAstring c p = true := by
      rw [hisna]
      exact naAny_of_mem c p (s ++ ds) c.NAstrings hf (fun b hb => (hbytes b hb).1) heol hs0 hmem
    constructor
    · intro hv
      unfold StrtoI32
      rw [StrtoInt_signed_digits c _ NA_INT32 p s ds true hs hne hd hf hq hsep heol hv]
      exact (numTail_NA c p _ _ _ hterm heol).1 hany hna
    · intro hv
      unfold StrtoI64
      rw [StrtoInt_signed_digits c _ NA_INT64 p s ds true hs hne hd hf hq hsep heol hv]
      exact (numTail_NA c p _ _ _ hterm heol).1 hany hna
  · intro hmem hnas
    have hna : is_NAstring c p = false := by
      rw [hisna]
      by_contra h
      have h' : naAny c p c.NAstrings = true := by simpa using h
      exact hmem (naAny_imp_mem c p (s ++ ds) c.NAstrings hf hfne hbytes heol hs0 hnas h')
    constructor
    · intro hv
      unfold StrtoI32
      rw [StrtoInt_signed_digits c _ NA_INT32 p s ds true hs hne hd hf hq hsep heol hv]
      exact (numTail_NA c p _ _ _ hterm heol).2 hna
    · intro hv
      unfold StrtoI64
      rw [StrtoInt_signed_digits c _ NA_INT64 p s ds true hs hne hd hf hq hsep heol hv]
      exact (numTail_NA c p _ _ _ hterm heol).2 hna

/-- C7, an instance (scenario S5): in the comma dialect the field `-999` is stored by
`StrtoI32` as the INT32 missing value when the NA strings are `{"", "NA", "-999"}`, and as
-999 when they are `{""}`. -/
theorem StrtoI32_StrtoI64_NA_strings_witness :
    (StrtoI32 { csv [45, 57, 57, 57, 44] with
        NAstrings := [[], [78, 65], [45, 57, 57, 57]], any_number_like_NAstrings := true,
        blank_is_a_NAstring := true } 0 true).cell = some NA_INT32 ∧
    (StrtoI32 { csv [45, 57, 57, 57, 44] with
        NAstrings := [[]], blank_is_a_NAstring := true } 0 true).cell = some (-999) :=
  ⟨(((StrtoI32_StrtoI64_NA_strings { csv [45, 57, 57, 57, 44] with
        NAstrings := [[], [78, 65], [45, 57, 57, 57]], any_number_like_NAstrings := true,
        blank_is_a_NAstring := true } 0 [45] [57, 57, 57]
      (by decide) (by decide) (by decide) (by decide) (by decide) (by decide) (by decide)
      (by decide)).1 (by decide) (by decide)).1 (by decide)).2,
   (((StrtoI32_StrtoI64_NA_strings { csv [45, 57, 57, 57, 44] with
        NAstrings := [[]], blank_is_a_NAstring := true } 0 [45] [57, 57, 57]
      (by decide) (by decide) (by decide) (by decide) (by decide) (by decide) (by decide)
      (by decide)).2 (by decide) (by decide)).1 (by decide)).2⟩

/-- C7 as stated fails when an NA string runs across a separator: in the comma dialect
with the NA strings `{"1,2", "-999"}`, on the input `1,2\n` the first field is `1`, which
equals no NA string, and `StrtoI32` called with a destination stores the INT32 missing
value, because `is_NAstring` compares the NA string `1,2` past the end of the field. -/
theorem StrtoI32_NA_strings_counterexample :
    fieldAt { csv [49, 44, 50, 10] with
      NAstrings := [[49, 44, 50], [45, 57, 57, 57]], any_number_like_NAstrings := true } 0 [49] ∧
    [49] ∉ [[49, 44, 50], [45, 57, 57, 57]] ∧
    StrtoI32 { csv [49, 44, 50, 10] with
      NAstrings := [[49, 44, 50], [45, 57, 57, 57]], any_number_like_NAstrings := true } 0 true
      = ⟨true, 1, some NA_INT32⟩ := by
  decide

/-! ## C5 -/

theorem seg_length (c : Ctx) (a b : Nat) : (seg c a b).length = b - a := by simp [seg]

theorem seg_getD (c : Ctx) (a b i : Nat) (h : i < b - a) : (seg c a b).getD i 0 = rd c (a + i) := by
  rw [List.getD_eq_getElem _ _ (by rw [seg_length]; exact h)]
  simp [seg]

theorem bytesAt_seg (c : Ctx) (a b : Nat) : bytesAt c a (seg c a b) = true := by
  apply bytesAt_of_get
  intro i hi
  rw [seg_length] at hi
  rw [seg_getD c a b i hi]

theorem seg_append (c : Ctx) (a b d : Nat) (h1 : a ≤ b) (h2 : b ≤ d) :
    seg c a d = seg c a b ++ seg c b d := by
  apply bytesAt_unique c a
  · exact bytesAt_seg c a d
  · rw [bytesAt_append]
    refine ⟨bytesAt_seg c a b, ?_⟩
    rw [seg_length, show a + (b - a) = b by omega]
    exact bytesAt_seg c b d
  · simp only [List.length_append, seg_length]; omega

theorem seg_self (c : Ctx) (a : Nat) : seg c a a = [] := by simp [seg]

theorem seg_one (c : Ctx) (a : Nat) : seg c a (a + 1) = [rd c a] := by
  have : a + 1 - a = 1 := by omega
  simp [seg, this, List.range_succ]

theorem mem_seg (c : Ctx) (a b x : Nat) (h : x ∈ seg c a b) : ∃ i, a ≤ i ∧ i < b ∧ rd c i = x := by
  simp only [seg, List.mem_map, List.mem_range] at h
  obtain ⟨i, hi, hx⟩ := h
  exact ⟨a + i, by omega, by omega, hx⟩

/-- The field is the stretch of memory it lies in. -/
theorem fieldAt_eq_seg (c : Ctx) (p : Nat) (f : List Nat) (hf : fieldAt c p f) :
    f = seg c p (p + f.length) :=
  bytesAt_unique c p f _ hf.1 (bytesAt_seg c p _) (by rw [seg_length]; omega)

/-- The accumulation loop moves forward over digits that lie inside the window. -/
theorem accLoop_digits (c : Ctx) (limit n ch acc : Nat) :
    ch ≤ (accLoop c limit n ch acc).1 ∧
    ∀ i, ch ≤ i → i < (accLoop c limit n ch acc).1 → i < c.eof ∧ isDigit c i = true := by
  induction n generalizing ch acc with
  | zero => exact ⟨Nat.le_refl _, fun i h1 h2 => by simp [accLoop] at h2; omega⟩
  | succ n ih =>
    unfold accLoop
    split
    · rename_i h
      obtain ⟨a1, a2⟩ := ih (ch + 1) (acc * 10 + (rd c ch - 48))
      refine ⟨by omega, ?_⟩
      intro i h1 h2
      by_cases hi : i = ch
      · rw [hi]; exact ⟨h.1, h.2.1⟩
      · exact a2 i (by omega) h2
    · exact ⟨Nat.le_refl _, fun i h1 h2 => by omega⟩

theorem digitRun_inside (c : Ctx) (ch : Nat) (ds : List Nat) (h : digitRun c ch ds) (i : Nat)
    (h1 : ch ≤ i) (h2 : i < ch + ds.length) : i < c.eof ∧ isDigit c i = true := by
  obtain ⟨hb, hd, hw, _⟩ := h
  have := bytesAt_get c ch ds (i - ch) hb (by omega)
  rw [show ch + (i - ch) = i by omega] at this
  have hm : ds.getD (i - ch) 0 ∈ ds := by
    rw [List.getD_eq_getElem _ _ (by omega)]; exact List.getElem_mem _
  have := hd _ hm
  refine ⟨by omega, ?_⟩
  simp only [isDigit, Bool.decide_and, Bool.and_eq_true, decide_eq_true_eq]
  omega

/-- The accumulation loop started inside a run of digits stops inside it or at its end. -/
theorem accLoop_within (c : Ctx) (limit n x acc ch : Nat) (ds : List Nat)
    (h : digitRun c ch ds) (hx : x ≤ ch + ds.length) :
    (accLoop c limit n x acc).1 ≤ ch + ds.length := by
  by_contra hlt
  have := (accLoop_digits c limit n x acc).2 (ch + ds.length) hx (by omega)
  rcases h.2.2.2 with h1 | h1
  · omega
  · rw [h1] at this; exact Bool.false_ne_true this.2

/-- The loop `while (ch<eof && '0'<=*ch && *ch<='9') ch++` started inside a run of digits
stops at its end. -/
theorem scanDigits_end (c : Ctx) (x ch : Nat) (ds : List Nat) (h : digitRun c ch ds)
    (hx1 : ch ≤ x) (hx2 : x ≤ ch + ds.length) :
    scanWhile c.eof (isDigit c) (c.eof - x) x = ch + ds.length := by
  have hge := scanWhile_ge c.eof (isDigit c) (c.eof - x) x
  have hstop := scanWhile_stop c.eof (isDigit c) (c.eof - x) x (Nat.le_refl _)
  have hall := scanWhile_all c.eof (isDigit c) (c.eof - x) x
  generalize scanWhile c.eof (isDigit c) (c.eof - x) x = r at hge hstop hall
  have h1 : ¬ r < ch + ds.length := by
    intro hlt
    have := digitRun_inside c ch ds h r (by omega) hlt
    rcases hstop with h2 | h2
    · omega
    · rw [h2] at this; exact Bool.false_ne_true this.2
  have h2 : ¬ ch + ds.length < r := by
    intro hlt
    have := hall (ch + ds.length) hx2 hlt
    rcases h.2.2.2 with h3 | h3
    · omega
    · rw [h3] at this; exact Bool.false_ne_true this.2
  omega

/-- The mantissa stage of `StrtoD` run over the text `D1 [dec D2]`: it stops right after
the text, provided the integer digits fit the accumulator when a decimal part follows. -/
theorem StrtoD_mantissa_run (c : Ctx) (ch : Nat) (D1 : List Nat) (d : Option (List Nat))
    (hb : bytesAt c ch (D1 ++ decPart c.dec d) = true) (hd1 : allDigits D1)
    (hd2 : ∀ D2, d = some D2 → allDigits D2 ∧ digitsVal D1 < 10 * ((UINT64_MAX - 10) / 10))
    (hw : ch + (D1 ++ decPart c.dec d).length ≤ c.eof)
    (hdec : ¬ (48 ≤ c.dec ∧ c.dec ≤ 57))
    (hstop : ch + (D1 ++ decPart c.dec d).length ≥ c.eof ∨
      (isDigit c (ch + (D1 ++ decPart c.dec d).length) = false ∧
        (d = none → rd c (ch + (D1 ++ decPart c.dec d).length) ≠ c.dec))) :
    (StrtoD_mantissa c ch).1 = ch + (D1 ++ decPart c.dec d).length := by
  rw [bytesAt_append] at hb
  have hdecnd : ∀ q, rd c q = c.dec → isDigit c q = false := by
    intro q hq
    simp only [isDigit, hq, Bool.decide_and, Bool.and_eq_false_imp, decide_eq_true_eq,
      decide_eq_false_iff_not]
    omega
  cases d with
  | none =>
    simp only [decPart, List.append_nil, forall_true_left] at hb hw hstop ⊢
    have hrun : digitRun c ch D1 := by
      refine ⟨hb.1, hd1, hw, ?_⟩
      rcases hstop with h | h
      · left; exact h
      · right; exact h.1
    unfold StrtoD_mantissa
    simp only
    have a1 := (accLoop_digits c ((UINT64_MAX - 10) / 10) (c.eof - ch) ch 0)
    have a2 := accLoop_within c ((UINT64_MAX - 10) / 10) (c.eof - ch) ch 0 ch D1 hrun (by omega)
    generalize accLoop c ((UINT64_MAX - 10) / 10) (c.eof - ch) ch 0 = r1 at a1 a2 ⊢
    have hnd : ¬ (r1.1 < c.eof ∧ rd c r1.1 = c.dec) := by
      rintro ⟨b1, b2⟩
      by_cases hlt : r1.1 < ch + D1.length
      · have := (digitRun_inside c ch D1 hrun r1.1 a1.1 hlt).2
        rw [hdecnd _ b2] at this; exact Bool.false_ne_true this
      · have he : r1.1 = ch + D1.length := by omega
        rw [he] at b1 b2
        rcases hstop with h | h
        · omega
        · exact h.2 b2
    simp only [hnd, decide_False, Bool.false_eq_true, if_false]
    have a3 := (accLoop_digits c ((UINT64_MAX - 10) / 10) (c.eof - r1.1) r1.1 r1.2).1
    have a4 := accLoop_within c ((UINT64_MAX - 10) / 10) (c.eof - r1.1) r1.1 r1.2 ch D1 hrun a2
    generalize accLoop c ((UINT64_MAX - 10) / 10) (c.eof - r1.1) r1.1 r1.2 = r2 at a3 a4 ⊢
    exact scanDigits_end c r2.1 ch D1 hrun (by omega) a4
  | some D2 =>
    obtain ⟨hD2, hv⟩ := hd2 D2 rfl
    simp only [decPart, List.length_append, List.length_cons, bytesAt_cons] at hb hw hstop ⊢
    have hdecd : isDigit c (ch + D1.length) = false := hdecnd _ hb.2.1
    have hr1 := accLoop_run c ((UINT64_MAX - 10) / 10) D1 (c.eof - ch) ch 0 hb.1 hd1 (by omega)
      (Nat.le_refl _) (fun _ => hv) (Or.inr hdecd)
    have hrun2 : digitRun c (ch + D1.length + 1) D2 := by
      refine ⟨hb.2.2, hD2, by omega, ?_⟩
      rw [show ch + D1.length + 1 + D2.length = ch + (D1.length + (D2.length + 1)) by omega]
      rcases hstop with h | h
      · left; exact h
      · right; exact h.1
    unfold StrtoD_mantissa
    simp only [hr1]
    have hyd : (ch + D1.length < c.eof ∧ rd c (ch + D1.length) = c.dec) := ⟨by omega, hb.2.1⟩
    simp only [hyd, and_self, decide_True, if_true]
    have a3 := (accLoop_digits c ((UINT64_MAX - 10) / 10) (c.eof - (ch + D1.length + 1))
      (ch + D1.length + 1) (digitsValFrom 0 D1)).1
    have a4 := accLoop_within c ((UINT64_MAX - 10) / 10) (c.eof - (ch + D1.length + 1))
      (ch + D1.length + 1) (digitsValFrom 0 D1) (ch + D1.length + 1) D2 hrun2 (by omega)
    generalize accLoop c ((UINT64_MAX - 10) / 10) (c.eof - (ch + D1.length + 1))
      (ch + D1.length + 1) (digitsValFrom 0 D1) = r2 at a3 a4 ⊢
    rw [scanDigits_end c r2.1 (ch + D1.length + 1) D2 hrun2 a3 a4]
    omega

/-- The number branch of `StrtoD` run over the text `D1 [dec D2] [marker [sign] D3]`: it
stops right after the text, provided the integer digits fit the accumulator when a decimal
part follows, and the exponent digits fit the exponent accumulator. -/
theorem StrtoD_num_run (c : Ctx) (ch : Nat) (D1 : List Nat) (d : Option (List Nat))
    (x : Option (Nat × List Nat × List Nat))
    (hb : bytesAt c ch (D1 ++ (decPart c.dec d ++ expPart x)) = true) (hd1 : allDigits D1)
    (hd2 : ∀ D2, d = some D2 → allDigits D2 ∧ digitsVal D1 < 10 * ((UINT64_MAX - 10) / 10))
    (hx : ∀ m es D3, x = some (m, es, D3) → (m = 69 ∨ m = 101) ∧ isSign es ∧ allDigits D3 ∧
      digitsVal D3 < 10 * ((INT32_MAX - 10) / 10))
    (hw : ch + (D1 ++ (decPart c.dec d ++ expPart x)).length ≤ c.eof)
    (hdec : c.dec = 46 ∨ c.dec = 44)
    (hstop : ch + (D1 ++ (decPart c.dec d ++ expPart x)).length ≥ c.eof ∨
      (isDigit c (ch + (D1 ++ (decPart c.dec d ++ expPart x)).length) = false ∧
        rd c (ch + (D1 ++ (decPart c.dec d ++ expPart x)).length) ≠ c.dec ∧
        rd c (ch + (D1 ++ (decPart c.dec d ++ expPart x)).length) ≠ 69 ∧
        rd c (ch + (D1 ++ (decPart c.dec d ++ expPart x)).length) ≠ 101 ∧
        rd c (ch + (D1 ++ (decPart c.dec d ++ expPart x)).length) ≠ 43 ∧
        rd c (ch + (D1 ++ (decPart c.dec d ++ expPart x)).length) ≠ 45)) :
    (StrtoD_num c ch).1 = ch + (D1 ++ (decPart c.dec d ++ expPart x)).length := by
  have hlen : (D1 ++ (decPart c.dec d ++ expPart x)).length =
      (D1 ++ decPart c.dec d).length + (expPart x).length := by
    simp [Nat.add_assoc]
  rw [hlen] at hw hstop ⊢
  rw [← List.append_assoc, bytesAt_append] at hb
  obtain ⟨hbm, hbx⟩ := hb
  have hrun := StrtoD_mantissa_run c ch D1 d hbm hd1 hd2
  generalize (D1 ++ decPart c.dec d).length = ml at hw hstop hbx hrun ⊢
  cases x with
  | none =>
    simp only [expPart, List.length_nil, Nat.add_zero] at hw hstop ⊢
    have hm := hrun hw (by omega) (by
      rcases hstop with h | h
      · left; exact h
      · right; exact ⟨h.1, fun _ => h.2.1⟩)
    have hnE : ¬ ((StrtoD_mantissa c ch).1 < c.eof ∧
        (rd c (StrtoD_mantissa c ch).1 = 69 ∨ rd c (StrtoD_mantissa c ch).1 = 101)) := by
      rw [hm]
      rintro ⟨b1, b2⟩
      rcases hstop with h | h
      · omega
      · rcases b2 with b2 | b2
        · exact h.2.2.1 b2
        · exact h.2.2.2.1 b2
    unfold StrtoD_num
    simp only
    rw [if_neg hnE]
    exact hm
  | some t =>
    obtain ⟨mk, es, D3⟩ := t
    obtain ⟨hmk, hes, hD3, hv⟩ := hx mk es D3 rfl
    simp only [expPart, List.length_cons, List.length_append, bytesAt_cons] at hbx hw hstop ⊢
    have hmknd : isDigit c (ch + ml) = false := by
      simp only [isDigit, hbx.1, Bool.decide_and, Bool.and_eq_false_imp, decide_eq_true_eq,
        decide_eq_false_iff_not]
      omega
    have hm := hrun (by omega) (by omega) (by
      right; exact ⟨hmknd, fun _ => by rw [hbx.1]; omega⟩)
    have hE : ((StrtoD_mantissa c ch).1 < c.eof ∧
        (rd c (StrtoD_mantissa c ch).1 = 69 ∨ rd c (StrtoD_mantissa c ch).1 = 101)) := by
      rw [hm]; exact ⟨by omega, by rw [hbx.1]; exact hmk⟩
    have hb3 := hbx.2
    rw [bytesAt_append] at hb3
    have hfin : ∀ ch5, ch5 = ch + ml + 1 + es.length →
        (accLoop c ((INT32_MAX - 10) / 10) (c.eof - ch5) ch5 0).1 =
          ch + (ml + (es.length + D3.length + 1)) := by
      intro ch5 h5
      have := accLoop_run c ((INT32_MAX - 10) / 10) D3 (c.eof - ch5) ch5 0
        (by rw [h5]; exact hb3.2) hD3 (by rw [h5]; omega)
        (Nat.le_refl _) (fun _ => hv) (by
          rw [show ch5 + D3.length = ch + (ml + (es.length + D3.length + 1)) by
              rw [h5]; omega]
          rcases hstop with h | h
          · left; exact h
          · right; exact h.1)
      rw [this, h5]; simp only; omega
    unfold StrtoD_num
    simp only
    rw [if_pos hE]
    simp only [hm]
    rcases hes with rfl | rfl | rfl
    · have hns : ¬ (ch + ml + 1 < c.eof ∧
          (rd c (ch + ml + 1) = 45 ∨ rd c (ch + ml + 1) = 43)) := by
        have hb4 := hb3.2
        simp only [List.length_nil, Nat.add_zero] at hb4 hstop
        rcases D3 with _ | ⟨d0, D3'⟩
        · simp only [List.length_nil, Nat.zero_add] at hstop
          rw [show ch + (ml + 1) = ch + ml + 1 by omega] at hstop
          rcases hstop with h | h
          · omega
          · rintro ⟨_, h45 | h43⟩
            · exact h.2.2.2.2.2 h45
            · exact h.2.2.2.2.1 h43
        · have hd0 : 48 ≤ d0 ∧ d0 ≤ 57 := hD3 d0 (List.mem_cons_self _ _)
          simp only [bytesAt_cons] at hb4
          rw [hb4.1]; omega
      simp only [hns, decide_False, Bool.false_eq_true, if_false]
      exact hfin _ (by simp)
    · have hys : (ch + ml + 1 < c.eof ∧ (rd c (ch + ml + 1) = 45 ∨ rd c (ch + ml + 1) = 43)) := by
        simp only [bytesAt_cons] at hb3
        simp only [List.length_singleton] at hw
        exact ⟨by omega, Or.inr hb3.1.1⟩
      simp only [hys, and_self, decide_True, if_true]
      exact hfin _ (by simp)
    · have hys : (ch + ml + 1 < c.eof ∧ (rd c (ch + ml + 1) = 45 ∨ rd c (ch + ml + 1) = 43)) := by
        simp only [bytesAt_cons] at hb3
        simp only [List.length_singleton] at hw
        exact ⟨by omega, Or.inl hb3.1.1⟩
      simp only [hys, and_self, decide_True, if_true]
      exact hfin _ (by simp)

theorem allDigits_seg (c : Ctx) (a b : Nat)
    (h : ∀ i, a ≤ i → i < b → isDigit c i = true) : allDigits (seg c a b) := by
  intro x hx
  obtain ⟨i, h1, h2, rfl⟩ := mem_seg c a b x hx
  have := h i h1 h2
  simpa [isDigit] using this

theorem rd_mem_seg (c : Ctx) (a b i : Nat) (h1 : a ≤ i) (h2 : i < b) : rd c i ∈ seg c a b := by
  simp only [seg, List.mem_map, List.mem_range]
  exact ⟨i - a, by omega, by rw [show a + (i - a) = i by omega]⟩

/-- The value the accumulation loop holds after reading at least one digit is the value
of the digits read, and is below ten times the bound. -/
theorem accLoop_value (c : Ctx) (limit n ch acc : Nat)
    (h : ch < (accLoop c limit n ch acc).1) :
    digitsValFrom acc (seg c ch (accLoop c limit n ch acc).1) < 10 * limit := by
  induction n generalizing ch acc with
  | zero => simp [accLoop] at h
  | succ n ih =>
    unfold accLoop at h ⊢
    split at h
    · rename_i hc
      rw [if_pos hc]
      have hge := (accLoop_digits c limit n (ch + 1) (acc * 10 + (rd c ch - 48))).1
      rw [seg_append c ch (ch + 1) _ (by omega) hge, seg_one]
      simp only [digitsValFrom, List.singleton_append, List.foldl_cons]
      by_cases hlt : ch + 1 < (accLoop c limit n (ch + 1) (acc * 10 + (rd c ch - 48))).1
      · exact ih (ch + 1) _ hlt
      · have he : (accLoop c limit n (ch + 1) (acc * 10 + (rd c ch - 48))).1 = ch + 1 := by
          omega
        rw [he, seg_self]
        have hd := hc.2.1
        simp only [isDigit, Bool.decide_and, Bool.and_eq_true, decide_eq_true_eq] at hd
        simp only [List.foldl_nil]
        omega
    · omega

/-- What the mantissa stage of `StrtoD` has read when it stops: digits, then possibly the
decimal point and more digits, all inside the window. -/
theorem StrtoD_mantissa_shape (c : Ctx) (ch : Nat) (hch : ch ≤ c.eof) :
    ch ≤ (StrtoD_mantissa c ch).1 ∧ (StrtoD_mantissa c ch).1 ≤ c.eof ∧
    ∃ D1 d, seg c ch (StrtoD_mantissa c ch).1 = D1 ++ decPart c.dec d ∧ allDigits D1 ∧
      (∀ D2, d = some D2 → allDigits D2 ∧ digitsVal D1 < 10 * ((UINT64_MAX - 10) / 10)) ∧
      ((ch < c.eof ∧ (isDigit c ch = true ∨ rd c ch = c.dec)) → D1 ≠ [] ∨ d ≠ none) := by
  unfold StrtoD_mantissa
  simp only
  have a1 := accLoop_digits c ((UINT64_MAX - 10) / 10) (c.eof - ch) ch 0
  have av := accLoop_value c ((UINT64_MAX - 10) / 10) (c.eof - ch) ch 0
  generalize accLoop c ((UINT64_MAX - 10) / 10) (c.eof - ch) ch 0 = r1 at a1 av ⊢
  have hr1e : r1.1 ≤ c.eof := by
    by_contra h
    have := (a1.2 (r1.1 - 1) (by omega) (by omega)).1
    omega
  by_cases hD : r1.1 < c.eof ∧ rd c r1.1 = c.dec
  · simp only [hD, and_self, decide_True, if_true]
    have a2 := accLoop_digits c ((UINT64_MAX - 10) / 10) (c.eof - (r1.1 + 1)) (r1.1 + 1) r1.2
    generalize accLoop c ((UINT64_MAX - 10) / 10) (c.eof - (r1.1 + 1)) (r1.1 + 1) r1.2 = r2 at a2 ⊢
    have hr2e : r2.1 ≤ c.eof := by
      by_contra h
      have := (a2.2 (r2.1 - 1) (by omega) (by omega)).1
      omega
    have a3 := scanWhile_ge c.eof (isDigit c) (c.eof - r2.1) r2.1
    have a4 := scanWhile_all c.eof (isDigit c) (c.eof - r2.1) r2.1
    have a5 := scanWhile_le c.eof (isDigit c) (c.eof - r2.1) r2.1 hr2e
    generalize scanWhile c.eof (isDigit c) (c.eof - r2.1) r2.1 = ch3 at a3 a4 a5 ⊢
    refine ⟨by omega, a5, seg c ch r1.1, some (seg c (r1.1 + 1) ch3), ?_, ?_, ?_, ?_⟩
    · rw [seg_append c ch r1.1 ch3 a1.1 (by omega),
        seg_append c r1.1 (r1.1 + 1) ch3 (by omega) (by omega), seg_one, hD.2]
      rfl
    · exact allDigits_seg c _ _ (fun i h1 h2 => (a1.2 i h1 h2).2)
    · intro D2 hD2
      simp only [Option.some.injEq] at hD2
      subst hD2
      refine ⟨?_, ?_⟩
      · apply allDigits_seg
        intro i h1 h2
        by_cases hi : i < r2.1
        · exact (a2.2 i h1 hi).2
        · exact (a4 i (by omega) h2).2
      · by_cases hlt : ch < r1.1
        · exact av hlt
        · have he : r1.1 = ch := by omega
          rw [he, seg_self]
          decide
    · intro _; right; simp
  · simp only [hD, decide_False, Bool.false_eq_true, if_false]
    have a2 := accLoop_digits c ((UINT64_MAX - 10) / 10) (c.eof - r1.1) r1.1 r1.2
    generalize accLoop c ((UINT64_MAX - 10) / 10) (c.eof - r1.1) r1.1 r1.2 = r2 at a2 ⊢
    have hr2e : r2.1 ≤ c.eof := by
      by_contra h
      have := (a2.2 (r2.1 - 1) (by omega) (by omega)).1
      omega
    have a3 := scanWhile_ge c.eof (isDigit c) (c.eof - r2.1) r2.1
    have a4 := scanWhile_all c.eof (isDigit c) (c.eof - r2.1) r2.1
    have a5 := scanWhile_le c.eof (isDigit c) (c.eof - r2.1) r2.1 hr2e
    have a6 := scanWhile_stop c.eof (isDigit c) (c.eof - r2.1) r2.1 (Nat.le_refl _)
    generalize scanWhile c.eof (isDigit c) (c.eof - r2.1) r2.1 = ch3 at a3 a4 a5 a6 ⊢
    have hall : ∀ i, ch ≤ i → i < ch3 → isDigit c i = true := by
      intro i h1 h2
      by_cases hi : i < r1.1
      · exact (a1.2 i h1 hi).2
      · by_cases hi2 : i < r2.1
        · exact (a2.2 i (by omega) hi2).2
        · exact (a4 i (by omega) h2).2
    refine ⟨by omega, a5, seg c ch ch3, none, by simp [decPart], allDigits_seg c _ _ hall,
      fun D2 h => by simp at h, ?_⟩
    rintro ⟨h1, h2⟩
    left
    have hgt : ch < ch3 := by
      by_contra hle
      have he : ch3 = ch := by omega
      rcases h2 with h2 | h2
      · rcases a6 with a6 | a6
        · omega
        · rw [he, h2] at a6; exact Bool.noConfusion a6
      · -- the first byte is the decimal point: the first loop stops on it
        have hr1 : r1.1 = ch := by omega
        exact hD ⟨by omega, by rw [hr1]; exact h2⟩
    intro hnil
    have := seg_length c ch ch3
    rw [hnil] at this
    simp at this
    omega

/-- What the number branch of `StrtoD` has read when it stops, when entered on a digit or
on the decimal point. -/
theorem StrtoD_num_shape (c : Ctx) (ch : Nat)
    (hok : ch < c.eof ∧ (isDigit c ch = true ∨ rd c ch = c.dec)) :
    ch ≤ (StrtoD_num c ch).1 ∧ (StrtoD_num c ch).1 ≤ c.eof ∧
    numBody c.dec (seg c ch (StrtoD_num c ch).1) := by
  obtain ⟨m1, m2, D1, d, hseg, hD1, hD2, hnz⟩ := StrtoD_mantissa_shape c ch (by omega)
  have hnz' := hnz hok
  unfold StrtoD_num
  simp only
  generalize StrtoD_mantissa c ch = m at m1 m2 hseg ⊢
  by_cases hE : m.1 < c.eof ∧ (rd c m.1 = 69 ∨ rd c m.1 = 101)
  · rw [if_pos hE]
    simp only
    have hsg : ∀ b : Bool, b = decide (m.1 + 1 < c.eof ∧ (rd c (m.1 + 1) = 45 ∨ rd c (m.1 + 1) = 43)) →
        isSign (seg c (m.1 + 1) (if b = true then m.1 + 1 + 1 else m.1 + 1)) := by
      intro b hb
      cases b with
      | false => simp [seg_self, isSign]
      | true =>
        have : m.1 + 1 < c.eof ∧ (rd c (m.1 + 1) = 45 ∨ rd c (m.1 + 1) = 43) := by
          simpa using hb.symm
        simp only [if_true, seg_one, isSign]
        rcases this.2 with h | h
        · right; right; rw [h]
        · right; left; rw [h]
    have hsg' := hsg _ rfl
    have hch5 : m.1 + 1 ≤ (if decide (m.1 + 1 < c.eof ∧ (rd c (m.1 + 1) = 45 ∨ rd c (m.1 + 1) = 43)) = true
        then m.1 + 1 + 1 else m.1 + 1) ∧
        (if decide (m.1 + 1 < c.eof ∧ (rd c (m.1 + 1) = 45 ∨ rd c (m.1 + 1) = 43)) = true
        then m.1 + 1 + 1 else m.1 + 1) ≤ c.eof := by
      split
      · rename_i h; simp at h; omega
      · omega
    generalize (if decide (m.1 + 1 < c.eof ∧ (rd c (m.1 + 1) = 45 ∨ rd c (m.1 + 1) = 43)) = true
        then m.1 + 1 + 1 else m.1 + 1) = ch5 at hsg' hch5 ⊢
    have a1 := accLoop_digits c ((INT32_MAX - 10) / 10) (c.eof - ch5) ch5 0
    have av := accLoop_value c ((INT32_MAX - 10) / 10) (c.eof - ch5) ch5 0
    generalize accLoop c ((INT32_MAX - 10) / 10) (c.eof - ch5) ch5 0 = r3 at a1 av ⊢
    have hr3e : r3.1 ≤ c.eof := by
      by_contra h
      have := (a1.2 (r3.1 - 1) (by omega) (by omega)).1
      omega
    refine ⟨by omega, hr3e, D1, d, some (rd c m.1, seg c (m.1 + 1) ch5, seg c ch5 r3.1), ?_, hD1,
      hD2, hnz', ?_⟩
    · rw [seg_append c ch m.1 r3.1 m1 (by omega), hseg,
        seg_append c m.1 (m.1 + 1) r3.1 (by omega) (by omega), seg_one,
        seg_append c (m.1 + 1) ch5 r3.1 (by omega) (by omega)]
      simp [expPart]
    · intro mk es D3 h
      simp only [Option.some.injEq, Prod.mk.injEq] at h
      obtain ⟨rfl, rfl, rfl⟩ := h
      refine ⟨hE.2, hsg', allDigits_seg c _ _ (fun i h1 h2 => (a1.2 i h1 h2).2), ?_⟩
      by_cases hlt : ch5 < r3.1
      · exact av hlt
      · have he : r3.1 = ch5 := by omega
        rw [he, seg_self]
        decide
  · rw [if_neg hE]
    refine ⟨m1, m2, D1, d, none, by simp [expPart, hseg], hD1, hD2, hnz', ?_⟩
    intro mk es D3 h
    simp at h

/-- What `StrtoD` has read between the sign and the closing lines when it sets `ok`, on
an input that is followed by NUL bytes. -/
theorem StrtoD_value_shape (c : Ctx) (sign : Int) (ch : Nat)
    (hpad : ∀ i, c.eof ≤ i → rd c i = 0)
    (hok : (StrtoD_value c sign ch).2.2 = true) :
    ch ≤ (StrtoD_value c sign ch).1 ∧ (StrtoD_value c sign ch).1 ≤ c.eof ∧
    (numBody c.dec (seg c ch (StrtoD_value c sign ch).1) ∨
      seg c ch (StrtoD_value c sign ch).1 = [73, 110, 102] ∨
      seg c ch (StrtoD_value c sign ch).1 = [78, 65, 78]) := by
  unfold StrtoD_value at hok ⊢
  simp only at hok ⊢
  by_cases h0 : ch < c.eof ∧ (isDigit c ch = true ∨ rd c ch = c.dec)
  · have hn := StrtoD_num_shape c ch h0
    simp only [h0, and_self, decide_True, not_true_eq_false, if_false] at hok ⊢
    exact ⟨hn.1, hn.2.1, Or.inl hn.2.2⟩
  · have hdf : decide (ch < c.eof ∧ (isDigit c ch = true ∨ rd c ch = c.dec)) = false := by
      simpa using h0
    simp only [hdf, Bool.false_eq_true, not_false_eq_true, if_true] at hok ⊢
    have hin : ∀ k b, rd c (ch + k) = b → b ≠ 0 → ch + k < c.eof := by
      intro k b h1 h2
      by_contra hge
      rw [hpad _ (by omega)] at h1
      exact h2 h1.symm
    have hs3 : ∀ a b d : Nat, rd c ch = a → rd c (ch + 1) = b → rd c (ch + 2) = d →
        seg c ch (ch + 3) = [a, b, d] := by
      intro a b d h1 h2 h3
      have : ch + 3 - ch = 3 := by omega
      simp [seg, this, List.range_succ, h1, h2, h3]
    by_cases hI : ch < c.eof ∧ rd c ch = 73 ∧ rd c (ch + 1) = 110 ∧ rd c (ch + 2) = 102
    · rw [if_pos hI]
      have := hin 2 102 hI.2.2.2 (by omega)
      exact ⟨by omega, by omega, Or.inr (Or.inl (hs3 _ _ _ hI.2.1 hI.2.2.1 hI.2.2.2))⟩
    · rw [if_neg hI] at hok ⊢
      by_cases hN : ch < c.eof ∧ rd c ch = 78 ∧ rd c (ch + 1) = 65 ∧ rd c (ch + 2) = 78
      · rw [if_pos hN]
        have := hin 2 78 hN.2.2.2 (by omega)
        exact ⟨by omega, by omega, Or.inr (Or.inr (hs3 _ _ _ hN.2.1 hN.2.2.1 hN.2.2.2))⟩
      · rw [if_neg hN] at hok
        simp at hok

/-- The closing lines of the numeric scanners accept a value whose scan stopped on a
terminator, whatever the NA strings are. -/
theorem numTail_ok {α : Type} (c : Ctx) (tgt : Bool) (start ch : Nat) (v na : α)
    (h : onTerm c ch) (heol : c.eol = 10 ∨ c.eol = 13) :
    (numTail c tgt start ch true v na).ok = true := by
  have h1 : skip_white c ch = ch := skip_white_onTerm c ch (by omega) h
  have h2 := on_sep_of_onTerm c ch h
  unfold numTail
  simp only [h1, if_true, h2, true_and]
  split
  · rfl
  · split
    · rfl
    · rename_i h3
      simpa using h3

/-- With no NA strings, the closing lines of the numeric scanners accept only a value
that was scanned (`ok` set) and is followed, after blanks, by a terminator. -/
theorem numTail_accepts {α : Type} (c : Ctx) (tgt : Bool) (start ch : Nat) (ok : Bool)
    (v na : α) (hna : c.NAstrings = [])
    (h : (numTail c tgt start ch ok v na).ok = true) :
    ok = true ∧ onTerm c (skip_white c ch) := by
  have hna' : is_NAstring c start = false := by simp [is_NAstring, hna, naAny]
  unfold numTail at h
  simp only [hna', Bool.false_eq_true, not_false_eq_true, and_true] at h
  cases ok with
  | false => simp at h
  | true =>
    simp only [if_true] at h
    refine ⟨rfl, (on_sep_fst_iff c _).1 ?_⟩
    by_contra h3
    simp [h3] at h

/-- On an unquoted field that does not begin with a blank, `StrtoD` is its closing lines
applied to what lines 372-406 read after the optional sign. -/
theorem StrtoD_unquoted (c : Ctx) (p : Nat) (tgt : Bool) (h1 : skip_white c p = p)
    (h2 : on_sep c p = (false, p)) (hq : ¬ rd c p = c.quote) :
    ∃ sign : Int, StrtoD c p tgt =
      numTail c tgt (if p < c.eof ∧ (rd c p = 45 ∨ rd c p = 43) then p + 1 else p)
        (StrtoD_value c sign
          (if p < c.eof ∧ (rd c p = 45 ∨ rd c p = 43) then p + 1 else p)).1
        (StrtoD_value c sign
          (if p < c.eof ∧ (rd c p = 45 ∨ rd c p = 43) then p + 1 else p)).2.2
        (StrtoD_value c sign
          (if p < c.eof ∧ (rd c p = 45 ∨ rd c p = 43) then p + 1 else p)).2.1 F64.na := by
  refine ⟨if (p < c.eof ∧ (rd c p = 45 ∨ rd c p = 43)) ∧ rd c p = 45 then -1 else 1, ?_⟩
  simp [StrtoD, h1, h2, hq]

/-- Every byte of a number text is a byte float texts are made of. -/
theorem numBody_bytes (dec : Nat) (body : List Nat) (h : numBody dec body) :
    ∀ b ∈ body, isFloatByte dec b := by
  obtain ⟨D1, d, x, rfl, hD1, hD2, _, hx⟩ := h
  intro b hb
  simp only [List.mem_append] at hb
  rcases hb with hb | hb | hb
  · left; exact hD1 b hb
  · cases d with
    | none => simp [decPart] at hb
    | some D2 =>
      simp only [decPart, List.mem_cons] at hb
      rcases hb with hb | hb
      · right; left; exact hb
      · left; exact (hD2 D2 rfl).1 b hb
  · rcases x with _ | ⟨m, es, D3⟩
    · simp [expPart] at hb
    · obtain ⟨hm, hes, hD3, _⟩ := hx m es D3 rfl
      simp only [expPart, List.mem_cons, List.mem_append] at hb
      rcases hb with hb | hb | hb
      · right; right; rcases hm with hm | hm <;> simp [hb, hm]
      · right; right
        rcases hes with rfl | rfl | rfl <;> simp at hb <;> simp [hb]
      · left; exact hD3 b hb

/-- A terminator is not a byte float texts are made of, in a dialect whose `sep` is not
one. -/
theorem onTerm_not_float (c : Ctx) (q : Nat) (h : onTerm c q)
    (hsep : ¬ isFloatByte c.dec c.sep) (heol : c.eol = 10 ∨ c.eol = 13)
    (hdec : c.dec = 46 ∨ c.dec = 44) : q ≥ c.eof ∨ ¬ isFloatByte c.dec (rd c q) := by
  rcases h with h | h | h
  · left; exact h
  · right; rw [h]; exact hsep
  · right; rw [h]
    simp only [isFloatByte, List.mem_cons, List.mem_singleton, List.mem_nil_iff, or_false]
    omega

/-- On an unquoted field made of an optional sign and a body that begins with neither a
sign nor a blank, `StrtoD` is its closing lines applied to what lines 372-406 read from
the first byte of the body. -/
theorem StrtoD_after_sign (c : Ctx) (p : Nat) (tgt : Bool) (s body : List Nat)
    (hs : isSign s) (hf : fieldAt c p (s ++ body))
    (hq : (s ++ body).head? ≠ some c.quote)
    (hb : ∃ b0, body.head? = some b0 ∧ b0 ≠ 43 ∧ b0 ≠ 45 ∧ b0 ≠ 32 ∧ b0 ≠ 9) :
    ∃ sign : Int, StrtoD c p tgt =
      numTail c tgt (p + s.length) (StrtoD_value c sign (p + s.length)).1
        (StrtoD_value c sign (p + s.length)).2.2
        (StrtoD_value c sign (p + s.length)).2.1 F64.na := by
  obtain ⟨b0, hb0, hb1⟩ := hb
  rcases body with _ | ⟨b, rest⟩
  · simp at hb0
  simp only [List.head?_cons, Option.some.injEq] at hb0
  subst hb0
  rcases hs with rfl | rfl | rfl
  · simp only [List.nil_append, List.length_nil, Nat.add_zero] at hf hq ⊢
    obtain ⟨hp, hbp, hns, hne'⟩ := fieldAt_head c p b rest hf
    have hq' : rd c p ≠ c.quote := by
      intro h; apply hq; simp [← h, hbp]
    have h1 : skip_white c p = p := by
      apply skip_white_fix; rintro ⟨_, h2⟩
      simp only [isWhite, hbp] at h2; simp at h2; omega
    have h2 : on_sep c p = (false, p) := on_sep_false c p hp (hbp ▸ hns) (hbp ▸ hne')
    obtain ⟨sign, h⟩ := StrtoD_unquoted c p tgt h1 h2 hq'
    have hc : ¬ (p < c.eof ∧ (rd c p = 45 ∨ rd c p = 43)) := by rw [hbp]; omega
    simp only [if_neg hc] at h
    exact ⟨sign, h⟩
  · simp only [List.singleton_append, List.length_singleton] at hf hq ⊢
    obtain ⟨hp, hbp, hns, hne'⟩ := fieldAt_head c p 43 (b :: rest) hf
    have hq' : rd c p ≠ c.quote := by
      intro h; apply hq; simp [← h, hbp]
    have h1 : skip_white c p = p := by
      apply skip_white_fix; rintro ⟨_, h2⟩
      simp only [isWhite, hbp] at h2; simp at h2
    have h2 : on_sep c p = (false, p) := on_sep_false c p hp (hbp ▸ hns) (hbp ▸ hne')
    obtain ⟨sign, h⟩ := StrtoD_unquoted c p tgt h1 h2 hq'
    have hc : (p < c.eof ∧ (rd c p = 45 ∨ rd c p = 43)) := ⟨hp, Or.inr hbp⟩
    simp only [if_pos hc] at h
    exact ⟨sign, h⟩
  · simp only [List.singleton_append, List.length_singleton] at hf hq ⊢
    obtain ⟨hp, hbp, hns, hne'⟩ := fieldAt_head c p 45 (b :: rest) hf
    have hq' : rd c p ≠ c.quote := by
      intro h; apply hq; simp [← h, hbp]
    have h1 : skip_white c p = p := by
      apply skip_white_fix; rintro ⟨_, h2⟩
      simp only [isWhite, hbp] at h2; simp at h2
    have h2 : on_sep c p = (false, p) := on_sep_false c p hp (hbp ▸ hns) (hbp ▸ hne')
    obtain ⟨sign, h⟩ := StrtoD_unquoted c p tgt h1 h2 hq'
    have hc : (p < c.eof ∧ (rd c p = 45 ∨ rd c p = 43)) := ⟨hp, Or.inl hbp⟩
    simp only [if_pos hc] at h
    exact ⟨sign, h⟩

/-- A number text begins with a digit or with the decimal point. -/
theorem numBody_head (dec : Nat) (body : List Nat) (h : numBody dec body) :
    ∃ b0, body.head? = some b0 ∧ ((48 ≤ b0 ∧ b0 ≤ 57) ∨ b0 = dec) := by
  obtain ⟨D1, d, x, rfl, hD1, hD2, hnz, _⟩ := h
  rcases D1 with _ | ⟨d0, D1'⟩
  · rcases d with _ | D2
    · simp at hnz
    · exact ⟨dec, by simp [decPart], Or.inr rfl⟩
  · exact ⟨d0, by simp, Or.inl (hD1 d0 (List.mem_cons_self _ _))⟩

/-- Lines 372-406 of `StrtoD` entered on a number text that ends on a terminator: `ok` is
set and the cursor stops right after the text. -/
theorem StrtoD_value_number (c : Ctx) (sign : Int) (st : Nat) (body : List Nat)
    (hn : numBody c.dec body) (hb : bytesAt c st body = true)
    (hw : st + body.length ≤ c.eof) (hon : onTerm c (st + body.length))
    (hsep : ¬ isFloatByte c.dec c.sep) (heol : c.eol = 10 ∨ c.eol = 13)
    (hdec : c.dec = 46 ∨ c.dec = 44) :
    (StrtoD_value c sign st).1 = st + body.length ∧ (StrtoD_value c sign st).2.2 = true := by
  obtain ⟨b0, hb0, hb1⟩ := numBody_head c.dec body hn
  have hstop := onTerm_not_float c _ hon hsep heol hdec
  obtain ⟨D1, d, x, rfl, hD1, hD2, hnz, hx⟩ := hn
  have hrun := StrtoD_num_run c st D1 d x hb hD1 hD2 hx hw hdec (by
    rcases hstop with h | h
    · left; exact h
    · right
      simp only [isFloatByte, List.mem_cons, List.mem_singleton, List.mem_nil_iff, or_false,
        not_or] at h
      refine ⟨?_, h.2.1, h.2.2.1, h.2.2.2.1, h.2.2.2.2.1, h.2.2.2.2.2.1⟩
      simp only [isDigit, Bool.decide_and, Bool.and_eq_false_imp, decide_eq_true_eq,
        decide_eq_false_iff_not]
      have := h.1
      omega)
  generalize D1 ++ (decPart c.dec d ++ expPart x) = body at hb hw hon hb0 hrun ⊢
  rcases body with _ | ⟨b, rest⟩
  · simp at hb0
  simp only [List.head?_cons, Option.some.injEq] at hb0
  subst hb0
  rw [bytesAt_cons] at hb
  simp only [List.length_cons] at hw
  have hok : st < c.eof ∧ (isDigit c st = true ∨ rd c st = c.dec) := by
    refine ⟨by omega, ?_⟩
    rcases hb1 with h | h
    · left; simp [isDigit, hb.1, h]
    · right; rw [hb.1, h]
  unfold StrtoD_value
  simp only [hok, and_self, decide_True, not_true_eq_false, if_false]
  exact ⟨hrun, trivial⟩

/-- Every unquoted field that is an optional sign followed by a number text is accepted
by `StrtoD`, whatever the NA strings are. -/
theorem StrtoD_accepts_number (c : Ctx) (p : Nat) (tgt : Bool) (s body : List Nat)
    (hs : isSign s) (hf : fieldAt c p (s ++ body)) (hq : (s ++ body).head? ≠ some c.quote)
    (hn : numBody c.dec body) (hsep : ¬ isFloatByte c.dec c.sep)
    (heol : c.eol = 10 ∨ c.eol = 13) (hdec : c.dec = 46 ∨ c.dec = 44) :
    (StrtoD c p tgt).ok = true := by
  obtain ⟨b0, hb0, hb1⟩ := numBody_head c.dec body hn
  obtain ⟨sign, h⟩ := StrtoD_after_sign c p tgt s body hs hf hq
    ⟨b0, hb0, by omega, by omega, by omega, by omega⟩
  have hby := hf.1
  rw [bytesAt_append] at hby
  have hlen : p + (s ++ body).length = p + s.length + body.length := by
    simp [Nat.add_assoc]
  have hw := hf.2.1
  have hon := hf.2.2.2
  rw [hlen] at hw hon
  obtain ⟨v1, v2⟩ := StrtoD_value_number c sign (p + s.length) body hn hby.2 hw hon hsep heol hdec
  rw [h, v1, v2]
  exact numTail_ok c tgt _ _ _ _ hon heol

/-- Lines 372-406 of `StrtoD` entered on the literal `Inf` or `NAN`: `ok` is set and the
cursor stops right after the literal. -/
theorem StrtoD_value_literal (c : Ctx) (sign : Int) (st : Nat) (body : List Nat)
    (hl : body = [73, 110, 102] ∨ body = [78, 65, 78]) (hb : bytesAt c st body = true)
    (hw : st + body.length ≤ c.eof) (hdec : c.dec = 46 ∨ c.dec = 44) :
    (StrtoD_value c sign st).1 = st + body.length ∧ (StrtoD_value c sign st).2.2 = true := by
  rcases hl with rfl | rfl
  · simp only [bytesAt_cons, List.length_cons, List.length_nil] at hb hw
    have h0 : ¬ (st < c.eof ∧ (isDigit c st = true ∨ rd c st = c.dec)) := by
      rintro ⟨_, h | h⟩
      · simp [isDigit, hb.1] at h
      · rw [hb.1] at h; omega
    have hI : st < c.eof ∧ rd c st = 73 ∧ rd c (st + 1) = 110 ∧ rd c (st + 2) = 102 :=
      ⟨by omega, hb.1, hb.2.1, hb.2.2.1⟩
    unfold StrtoD_value
    simp only [h0, decide_False, Bool.false_eq_true, not_false_eq_true, if_true, if_pos hI]
    exact ⟨rfl, trivial⟩
  · simp only [bytesAt_cons, List.length_cons, List.length_nil] at hb hw
    have h0 : ¬ (st < c.eof ∧ (isDigit c st = true ∨ rd c st = c.dec)) := by
      rintro ⟨_, h | h⟩
      · simp [isDigit, hb.1] at h
      · rw [hb.1] at h; omega
    have hI : ¬ (st < c.eof ∧ rd c st = 73 ∧ rd c (st + 1) = 110 ∧ rd c (st + 2) = 102) := by
      rintro ⟨_, h, _⟩
      rw [hb.1] at h; omega
    have hN : st < c.eof ∧ rd c st = 78 ∧ rd c (st + 1) = 65 ∧ rd c (st + 2) = 78 :=
      ⟨by omega, hb.1, hb.2.1, hb.2.2.1⟩
    unfold StrtoD_value
    simp only [h0, decide_False, Bool.false_eq_true, not_false_eq_true, if_true, if_neg hI,
      if_pos hN]
    exact ⟨rfl, trivial⟩

/-- Every unquoted field that is an optional sign followed by `Inf` or `NAN` is accepted
by `StrtoD`, whatever the NA strings are. -/
theorem StrtoD_accepts_literal (c : Ctx) (p : Nat) (tgt : Bool) (s body : List Nat)
    (hs : isSign s) (hf : fieldAt c p (s ++ body)) (hq : (s ++ body).head? ≠ some c.quote)
    (hl : body = [73, 110, 102] ∨ body = [78, 65, 78])
    (heol : c.eol = 10 ∨ c.eol = 13) (hdec : c.dec = 46 ∨ c.dec = 44) :
    (StrtoD c p tgt).ok = true := by
  obtain ⟨sign, h⟩ := StrtoD_after_sign c p tgt s body hs hf hq (by
    rcases hl with rfl | rfl
    · exact ⟨73, rfl, by omega, by omega, by omega, by omega⟩
    · exact ⟨78, rfl, by omega, by omega, by omega, by omega⟩)
  have hby := hf.1
  rw [bytesAt_append] at hby
  have hlen : p + (s ++ body).length = p + s.length + body.length := by
    simp [Nat.add_assoc]
  have hw := hf.2.1
  have hon := hf.2.2.2
  rw [hlen] at hw hon
  obtain ⟨v1, v2⟩ := StrtoD_value_literal c sign (p + s.length) body hl hby.2 hw hdec
  rw [h, v1, v2]
  exact numTail_ok c tgt _ _ _ _ hon heol

theorem seg_getLast (c : Ctx) (a b : Nat) (h : a < b) :
    (seg c a b).getLast? = some (rd c (b - 1)) := by
  rw [seg_append c a (b - 1) b (by omega) (by omega)]
  have : seg c (b - 1) b = [rd c (b - 1)] := by
    have h1 := seg_one c (b - 1)
    rw [show b - 1 + 1 = b by omega] at h1
    exact h1
  rw [this]
  simp

/-- With no NA strings and NUL bytes after the window, an unquoted field without
surrounding blanks that `StrtoD` accepts is an optional sign followed by a number text or
by `Inf` or `NAN`. -/
theorem StrtoD_accepted_text (c : Ctx) (p : Nat) (tgt : Bool) (f : List Nat)
    (hf : fieldAt c p f) (hne : f ≠ []) (hq : f.head? ≠ some c.quote)
    (hw1 : ∀ b, f.head? = some b → b ≠ 32 ∧ b ≠ 9)
    (hw2 : ∀ b, f.getLast? = some b → b ≠ 32 ∧ b ≠ 9)
    (hna : c.NAstrings = []) (hpad : ∀ i, c.eof ≤ i → rd c i = 0)
    (hsep : ¬ isFloatByte c.dec c.sep) (heol : c.eol = 10 ∨ c.eol = 13)
    (hdec : c.dec = 46 ∨ c.dec = 44) (hok : (StrtoD c p tgt).ok = true) :
    floatText c.dec f := by
  obtain ⟨b, rest, rfl⟩ := List.exists_cons_of_ne_nil hne
  obtain ⟨hp, hbp, hns, hne'⟩ := fieldAt_head c p b rest hf
  have hb1 := hw1 b rfl
  have hq' : rd c p ≠ c.quote := by
    intro h; apply hq; simp [← h, hbp]
  have h1 : skip_white c p = p := by
    apply skip_white_fix; rintro ⟨_, h2⟩
    simp only [isWhite, hbp] at h2; simp at h2; omega
  have h2 : on_sep c p = (false, p) := on_sep_false c p hp (hbp ▸ hns) (hbp ▸ hne')
  obtain ⟨sign, h⟩ := StrtoD_unquoted c p tgt h1 h2 hq'
  have hst : ∀ st, st = (if p < c.eof ∧ (rd c p = 45 ∨ rd c p = 43) then p + 1 else p) →
      p ≤ st ∧ st ≤ p + 1 ∧ isSign (seg c p st) := by
    intro st hst
    split at hst
    · rename_i hc
      subst hst
      refine ⟨by omega, by omega, ?_⟩
      rw [seg_one]
      rcases hc.2 with h | h
      · right; right; rw [h]
      · right; left; rw [h]
    · rw [hst]
      exact ⟨by omega, by omega, Or.inl (seg_self c p)⟩
  have hst' := hst _ rfl
  generalize (if p < c.eof ∧ (rd c p = 45 ∨ rd c p = 43) then p + 1 else p) = st at h hst'
  rw [h] at hok
  obtain ⟨hV, hon⟩ := numTail_accepts c tgt _ _ _ _ _ hna hok
  obtain ⟨g1, g2, hshape⟩ := StrtoD_value_shape c sign st hpad hV
  generalize (StrtoD_value c sign st).1 = v at hon g1 g2 hshape
  have k1 := skip_white_ge c v
  have k2 : skip_white c v ≤ c.eof := scanWhile_le _ _ _ _ g2
  have k3 : ∀ i, v ≤ i → i < skip_white c v → isWhite c i = true :=
    fun i i1 i2 => (scanWhile_all _ _ _ _ i i1 i2).2
  generalize skip_white c v = w at hon k1 k2 k3
  have hfb : ∀ x ∈ seg c st v, isFloatByte c.dec x := by
    rcases hshape with hs | hs | hs
    · exact numBody_bytes c.dec _ hs
    · rw [hs]; intro x hx; right; right
      simp only [List.mem_cons, List.mem_singleton, List.mem_nil_iff, or_false] at hx ⊢
      omega
    · rw [hs]; intro x hx; right; right
      simp only [List.mem_cons, List.mem_singleton, List.mem_nil_iff, or_false] at hx ⊢
      omega
  have hmid : ∀ i, p < i → i < w → rd c i ≠ c.sep ∧ rd c i ≠ c.eol := by
    intro i i1 i2
    by_cases hi : i < v
    · have hx := hfb _ (rd_mem_seg c st v i (by omega) hi)
      refine ⟨fun e => hsep (e ▸ hx), fun e => ?_⟩
      rw [e] at hx
      simp only [isFloatByte, List.mem_cons, List.mem_singleton, List.mem_nil_iff,
        or_false] at hx
      omega
    · have hx := k3 i (by omega) i2
      simp only [isWhite, Bool.decide_and, Bool.and_eq_true, decide_eq_true_eq,
        decide_not, Bool.not_eq_true', decide_eq_false_iff_not] at hx
      refine ⟨hx.2, fun e => ?_⟩
      rw [e] at hx
      omega
  have hend := field_end_of_cursor c p (b :: rest) hf (by simp) w (by omega) k2 hon hmid
  have hfs := fieldAt_eq_seg c p (b :: rest) hf
  rw [← hend] at hfs
  have hvw : v = w := by
    by_contra hvw
    have hlt : v < w := by omega
    have hwh := k3 (w - 1) (by omega) (by omega)
    have hl := seg_getLast c p w (by omega)
    rw [← hfs] at hl
    have := hw2 _ hl
    simp only [isWhite, Bool.decide_and, Bool.and_eq_true, decide_eq_true_eq] at hwh
    omega
  rw [← hvw] at hfs
  refine ⟨seg c p st, seg c st v, ?_, hst'.2.2, hshape⟩
  rw [hfs]
  exact seg_append c p st v hst'.1 g1

/-- The return value that `StrtoD` computes, which does not depend on the value it stores:
with no NA strings configured, NUL bytes after the window, `dec` a dot or a comma, `eol` a
line feed or carriage return and `sep` not a byte float texts are made of, it is `true` on
a non-empty unquoted field without surrounding blanks if and only if the field is a
`floatText`. For the fields on which line 405 reads outside the table the C call has no
defined return value (`StrtoD_checked`). -/
theorem StrtoD_ok_iff_floatText (c : Ctx) (p : Nat) (tgt : Bool) (f : List Nat)
    (hf : fieldAt c p f) (hne : f ≠ []) (hq : f.head? ≠ some c.quote)
    (hw1 : ∀ b, f.head? = some b → b ≠ 32 ∧ b ≠ 9)
    (hw2 : ∀ b, f.getLast? = some b → b ≠ 32 ∧ b ≠ 9)
    (hna : c.NAstrings = []) (hpad : ∀ i, c.eof ≤ i → rd c i = 0)
    (hsep : ¬ isFloatByte c.dec c.sep) (heol : c.eol = 10 ∨ c.eol = 13)
    (hdec : c.dec = 46 ∨ c.dec = 44) :
    (StrtoD c p tgt).ok = true ↔ floatText c.dec f := by
  constructor
  · exact StrtoD_accepted_text c p tgt f hf hne hq hw1 hw2 hna hpad hsep heol hdec
  · rintro ⟨s, body, rfl, hs, hn | hl⟩
    · exact StrtoD_accepts_number c p tgt s body hs hf hq hn hsep heol hdec
    · exact StrtoD_accepts_literal c p tgt s body hs hf hq hl heol hdec

/-- What is left after the bytes that satisfy `p` begins with a byte that does not. -/
theorem dropWhile_head_not (p : Nat → Bool) (l : List Nat) (b : Nat)
    (h : (l.dropWhile p).head? = some b) : p b = false := by
  induction l with
  | nil => simp at h
  | cons a l ih =>
    rw [List.dropWhile_cons] at h
    split at h
    · exact ih h
    · rename_i hp
      simp only [List.head?_cons, Option.some.injEq] at h
      subst h
      simpa using hp

/-- The leading digits of a text are digits. -/
theorem takeWhile_digits (l : List Nat) : allDigits (l.takeWhile isDigitByte) := by
  intro x hx
  have := List.mem_takeWhile_imp hx
  simpa [isDigitByte] using this

/-- Digits followed by a text that begins with no digit are the leading digits of the whole. -/
theorem takeWhile_dropWhile_of (ds rest : List Nat) (hd : allDigits ds)
    (hr : ∀ b, rest.head? = some b → isDigitByte b = false) :
    (ds ++ rest).takeWhile isDigitByte = ds ∧ (ds ++ rest).dropWhile isDigitByte = rest := by
  induction ds with
  | nil =>
    rcases rest with _ | ⟨b, rest⟩
    · simp
    · have := hr b rfl
      simp [List.takeWhile_cons, List.dropWhile_cons, this]
  | cons a ds ih =>
    have ha : isDigitByte a = true := by
      have := hd a (List.mem_cons_self _ _)
      simp [isDigitByte, this]
    obtain ⟨i1, i2⟩ := ih (fun x hx => hd x (List.mem_cons_of_mem _ hx))
    simp [List.takeWhile_cons, List.dropWhile_cons, ha, i1, i2]

/-- The text after the optional sign is made of the parts. -/
theorem floatParts_text (dec : Nat) (f : List Nat) :
    stripSign f = (floatParts dec f).D1 ++
      (decPart dec (if (floatParts dec f).hasDec = true then some (floatParts dec f).D2
        else none) ++ (floatParts dec f).rest) ∧
    allDigits (floatParts dec f).D1 ∧ allDigits (floatParts dec f).D2 ∧
    (∀ b, (floatParts dec f).rest.head? = some b → isDigitByte b = false) ∧
    ((floatParts dec f).hasDec = false →
      (floatParts dec f).rest.head? ≠ some dec ∧ (floatParts dec f).D2 = []) := by
  unfold floatParts
  simp only
  generalize stripSign f = body
  have hsplit := List.takeWhile_append_dropWhile isDigitByte body
  by_cases hd : (body.dropWhile isDigitByte).head? = some dec
  · simp only [hd, decide_True, if_true]
    have hr1 : body.dropWhile isDigitByte = dec :: (body.dropWhile isDigitByte).tail := by
      generalize body.dropWhile isDigitByte = r1 at hd
      rcases r1 with _ | ⟨a, r⟩
      · simp at hd
      · simp only [List.head?_cons, Option.some.injEq] at hd
        simp [hd]
    have hsplit2 := List.takeWhile_append_dropWhile isDigitByte
      (body.dropWhile isDigitByte).tail
    refine ⟨?_, takeWhile_digits _, takeWhile_digits _,
      fun b hb => dropWhile_head_not _ _ b hb, fun h => by simp at h⟩
    simp only [decPart]
    rw [List.cons_append, hsplit2, ← hr1, hsplit]
  · simp only [hd, decide_False, if_false, Bool.false_eq_true]
    refine ⟨?_, takeWhile_digits _, fun x hx => by simp at hx,
      fun b hb => dropWhile_head_not _ _ b hb, fun _ => ⟨hd, trivial⟩⟩
    simp only [decPart, List.nil_append]
    exact hsplit.symm

/-- A text `D1 [dec D2] rest` whose `rest` begins with no digit, nor with the decimal
point when there is none before it, has these parts. -/
theorem floatParts_of_text (dec : Nat) (f D1 : List Nat) (d : Option (List Nat))
    (rest : List Nat) (hdec : dec = 46 ∨ dec = 44)
    (ht : stripSign f = D1 ++ (decPart dec d ++ rest)) (h1 : allDigits D1)
    (h2 : ∀ D2, d = some D2 → allDigits D2)
    (hr : ∀ b, rest.head? = some b → isDigitByte b = false)
    (hn : d = none → rest.head? ≠ some dec) :
    floatParts dec f = ⟨D1, d.isSome, d.getD [], rest⟩ := by
  have hdd : isDigitByte dec = false := by
    rcases hdec with h | h <;> simp [isDigitByte, h]
  unfold floatParts
  simp only
  rw [ht]
  cases d with
  | none =>
    simp only [decPart, List.nil_append] at hn ⊢
    obtain ⟨a1, a2⟩ := takeWhile_dropWhile_of D1 rest h1 hr
    have : ¬ rest.head? = some dec := hn trivial
    simp [a1, a2, this]
  | some D2 =>
    simp only [decPart, List.cons_append]
    obtain ⟨a1, a2⟩ := takeWhile_dropWhile_of D1 (dec :: (D2 ++ rest)) h1 (by
      intro b hb
      simp only [List.head?_cons, Option.some.injEq] at hb
      rw [← hb]; exact hdd)
    obtain ⟨b1, b2⟩ := takeWhile_dropWhile_of D2 rest (h2 D2 rfl) hr
    simp [a1, a2, b1, b2]

/-- The grammar of the specification, read off the parts of the field. -/
theorem specFloat_parts (dec : Nat) (f : List Nat) :
    specFloat dec f =
      if f = [73, 110, 102] ∨ f = [78, 65, 78] then true
      else if (floatParts dec f).D1.length + (floatParts dec f).D2.length = 0 then false
      else
        match (floatParts dec f).rest with
        | [] => true
        | m :: r3 =>
          if m = 69 ∨ m = 101 then
            decide (stripSign r3 ≠ []) && (stripSign r3).all isDigitByte
          else false := by
  rfl

/-- A text is an optional sign followed by the text without it. -/
theorem stripSign_split (f : List Nat) : ∃ s, isSign s ∧ f = s ++ stripSign f := by
  rcases f with _ | ⟨b, r⟩
  · exact ⟨[], Or.inl rfl, rfl⟩
  · by_cases hb : b = 43 ∨ b = 45
    · rcases hb with rfl | rfl
      · exact ⟨[43], Or.inr (Or.inl rfl), by simp [stripSign]⟩
      · exact ⟨[45], Or.inr (Or.inr rfl), by simp [stripSign]⟩
    · exact ⟨[], Or.inl rfl, by simp [stripSign, hb]⟩

/-- An optional sign before a text that begins with no sign is what `stripSign` removes. -/
theorem stripSign_of_sign (s body : List Nat) (hs : isSign s)
    (hb : ∀ b, body.head? = some b → b ≠ 43 ∧ b ≠ 45) : stripSign (s ++ body) = body := by
  rcases hs with rfl | rfl | rfl
  · rcases body with _ | ⟨b, r⟩
    · rfl
    · have := hb b rfl
      simp [stripSign, this.1, this.2]
  · simp [stripSign]
  · simp [stripSign]

/-- The leading digits of a text of digits are the text. -/
theorem takeWhile_all_digits (l : List Nat) (h : l.all isDigitByte = true) :
    l.takeWhile isDigitByte = l := by
  rw [List.takeWhile_eq_self_iff]
  intro x hx
  exact (List.all_eq_true.mp h) x hx

/-- The two ways of saying that a text is made of digits. -/
theorem allDigits_all (l : List Nat) : allDigits l ↔ l.all isDigitByte = true := by
  simp [allDigits, isDigitByte, List.all_eq_true]

/-- On the fields of `floatScope` the texts that `StrtoD` accepts are the grammar of the
specification with the sign allowed before the literals too. -/
theorem floatText_iff_spec (dec : Nat) (f : List Nat) (hdec : dec = 46 ∨ dec = 44)
    (hs : floatScope dec f = true) :
    floatText dec f ↔
      (specFloat dec f = true ∨ f = [43, 73, 110, 102] ∨ f = [45, 73, 110, 102] ∨
        f = [43, 78, 65, 78] ∨ f = [45, 78, 65, 78]) := by
  have h32 : 350 < 10 * ((INT32_MAX - 10) / 10) := by decide
  constructor
  · rintro ⟨s, body, rfl, hs', hn | hl | hl⟩
    · left
      obtain ⟨b0, hb0, hb1⟩ := numBody_head dec body hn
      have hstrip : stripSign (s ++ body) = body := by
        apply stripSign_of_sign s body hs'
        intro b hb
        rw [hb0] at hb
        simp only [Option.some.injEq] at hb
        subst hb
        rcases hb1 with h | h
        · omega
        · rcases hdec with h2 | h2 <;> omega
      obtain ⟨D1, d, x, hbody, hD1, hD2, hnz, hx⟩ := hn
      have hq := floatParts_of_text dec (s ++ body) D1 d (expPart x) hdec
        (by rw [hstrip, hbody]) hD1 (fun D2 h => (hD2 D2 h).1)
        (by
          intro b hb
          rcases x with _ | ⟨m, es, D3⟩
          · simp [expPart] at hb
          · simp only [expPart, List.head?_cons, Option.some.injEq] at hb
            rw [← hb]
            rcases (hx m es D3 rfl).1 with h | h <;> simp [isDigitByte, h])
        (by
          intro _ hb
          rcases x with _ | ⟨m, es, D3⟩
          · simp [expPart] at hb
          · simp only [expPart, List.head?_cons, Option.some.injEq] at hb
            rcases (hx m es D3 rfl).1 with h | h <;> rcases hdec with h2 | h2 <;> omega)
      unfold floatScope at hs
      simp only [hq, Bool.and_eq_true, Bool.or_eq_true, Bool.not_eq_true', decide_eq_true_eq]
        at hs
      rw [specFloat_parts]
      split
      · rfl
      · simp only [hq]
        have hne : ¬ (D1.length + (d.getD []).length = 0) := by
          rcases hnz with h | h
          · have : D1.length ≠ 0 := by
              intro h0; exact h (List.length_eq_zero.mp h0)
            omega
          · rcases d with _ | D2
            · exact absurd rfl h
            · rcases hs.1 with h2 | h2
              · simp at h2
              · exact h2.1
        rw [if_neg hne]
        rcases x with _ | ⟨m, es, D3⟩
        · simp [expPart]
        · obtain ⟨hm, hes, hD3, _⟩ := hx m es D3 rfl
          have hst : stripSign (es ++ D3) = D3 := by
            apply stripSign_of_sign es D3 hes
            intro b hb
            rcases D3 with _ | ⟨d0, D3'⟩
            · simp at hb
            · simp only [List.head?_cons, Option.some.injEq] at hb
              have := hD3 d0 (List.mem_cons_self _ _)
              omega
          have hall : D3.all isDigitByte = true := (allDigits_all D3).mp hD3
          have h3 := hs.2
          simp only [expPart, expDigits, hm, if_true, hst, takeWhile_all_digits D3 hall,
            Bool.and_eq_true, decide_eq_true_eq] at h3
          simp only [expPart, hm, if_true, hst, hall, Bool.and_true, decide_eq_true_eq]
          exact h3.1
    · rcases hs' with rfl | rfl | rfl
      · left; subst hl; simp [specFloat]
      · right; left; subst hl; rfl
      · right; right; left; subst hl; rfl
    · rcases hs' with rfl | rfl | rfl
      · left; subst hl; simp [specFloat]
      · right; right; right; left; subst hl; rfl
      · right; right; right; right; subst hl; rfl
  · rintro (h | h | h | h | h)
    · by_cases hlit : f = [73, 110, 102] ∨ f = [78, 65, 78]
      · exact ⟨[], f, rfl, Or.inl rfl, Or.inr hlit⟩
      · rw [specFloat_parts, if_neg hlit] at h
        obtain ⟨s, hs1, hs2⟩ := stripSign_split f
        obtain ⟨t1, t2, t3, t4, t5⟩ := floatParts_text dec f
        unfold floatScope at hs
        simp only [Bool.and_eq_true, Bool.or_eq_true, Bool.not_eq_true', decide_eq_true_eq]
          at hs
        generalize floatParts dec f = q at h hs t1 t2 t3 t4 t5
        obtain ⟨D1, hasDec, D2, rest⟩ := q
        simp only at h hs t1 t2 t3 t4 t5
        have hnz : ¬ (D1.length + D2.length = 0) := by
          intro h0; rw [if_pos h0] at h; exact Bool.false_ne_true h
        rw [if_neg hnz] at h
        have hd2 : ∀ D2', (if hasDec = true then some D2 else none) = some D2' →
            allDigits D2' ∧ digitsVal D1 < 10 * ((UINT64_MAX - 10) / 10) := by
          intro D2' hD
          cases hasDec with
          | false => simp at hD
          | true =>
            simp only [if_true, Option.some.injEq] at hD
            subst hD
            rcases hs.1 with h2 | h2
            · simp at h2
            · exact ⟨t3, h2.2⟩
        have hnz2 : D1 ≠ [] ∨ (if hasDec = true then some D2 else none) ≠ none := by
          cases hasDec with
          | true => right; simp
          | false =>
            left
            intro h0
            subst h0
            have : D2 = [] := (t5 rfl).2
            subst this
            simp at hnz
        refine ⟨s, stripSign f, hs2, hs1, Or.inl ?_⟩
        rcases rest with _ | ⟨m, r3⟩
        · refine ⟨D1, _, none, ?_, t2, hd2, hnz2, fun m es D3 hx => by cases hx⟩
          simpa [expPart] using t1
        · simp only at h
          by_cases hm : m = 69 ∨ m = 101
          · rw [if_pos hm] at h
            simp only [Bool.and_eq_true, decide_eq_true_eq] at h
            obtain ⟨es, hes1, hes2⟩ := stripSign_split r3
            have h3 := hs.2
            simp only [expDigits, hm, if_true, takeWhile_all_digits _ h.2,
              Bool.and_eq_true, decide_eq_true_eq] at h3
            refine ⟨D1, _, some (m, es, stripSign r3), ?_, t2, hd2, hnz2, ?_⟩
            · rw [t1]
              simp only [expPart]
              rw [← hes2]
            · intro m' es' D3' hx
              simp only [Option.some.injEq, Prod.mk.injEq] at hx
              obtain ⟨rfl, rfl, rfl⟩ := hx
              exact ⟨hm, hes1, (allDigits_all _).mpr h.2, by omega⟩
          · rw [if_neg hm] at h
            exact absurd h Bool.false_ne_true
    · subst h; exact ⟨[43], [73, 110, 102], rfl, Or.inr (Or.inl rfl), Or.inr (Or.inl rfl)⟩
    · subst h; exact ⟨[45], [73, 110, 102], rfl, Or.inr (Or.inr rfl), Or.inr (Or.inl rfl)⟩
    · subst h; exact ⟨[43], [78, 65, 78], rfl, Or.inr (Or.inl rfl), Or.inr (Or.inr rfl)⟩
    · subst h; exact ⟨[45], [78, 65, 78], rfl, Or.inr (Or.inr rfl), Or.inr (Or.inr rfl)⟩

/-- The exponent that the mantissa stage of `StrtoD` hands on is not positive and not
below minus the number of bytes the stage read. -/
theorem StrtoD_mantissa_exp (c : Ctx) (ch : Nat)
    (h : (StrtoD_mantissa c ch).1 - ch < 2147483648) :
    -(((StrtoD_mantissa c ch).1 - ch : Nat) : Int) ≤ (StrtoD_mantissa c ch).2.2 ∧
    (StrtoD_mantissa c ch).2.2 ≤ 0 := by
  unfold StrtoD_mantissa at h ⊢
  simp only at h ⊢
  have a1 := (accLoop_digits c ((UINT64_MAX - 10) / 10) (c.eof - ch) ch 0).1
  generalize accLoop c ((UINT64_MAX - 10) / 10) (c.eof - ch) ch 0 = r1 at a1 h ⊢
  by_cases hd : r1.1 < c.eof ∧ rd c r1.1 = c.dec
  · simp only [hd, and_self, decide_True, if_true] at h ⊢
    have a2 := (accLoop_digits c ((UINT64_MAX - 10) / 10) (c.eof - (r1.1 + 1)) (r1.1 + 1)
      r1.2).1
    generalize accLoop c ((UINT64_MAX - 10) / 10) (c.eof - (r1.1 + 1)) (r1.1 + 1) r1.2 = r2
      at a2 h ⊢
    have a3 := scanWhile_ge c.eof (isDigit c) (c.eof - r2.1) r2.1
    generalize scanWhile c.eof (isDigit c) (c.eof - r2.1) r2.1 = ch3 at a3 h ⊢
    unfold toInt32
    omega
  · simp only [hd, decide_False, Bool.false_eq_true, if_false] at h ⊢
    have a2 := (accLoop_digits c ((UINT64_MAX - 10) / 10) (c.eof - r1.1) r1.1 r1.2).1
    generalize accLoop c ((UINT64_MAX - 10) / 10) (c.eof - r1.1) r1.1 r1.2 = r2 at a2 h ⊢
    have a3 := scanWhile_ge c.eof (isDigit c) (c.eof - r2.1) r2.1
    generalize scanWhile c.eof (isDigit c) (c.eof - r2.1) r2.1 = ch3 at a3 h ⊢
    omega

/-- What the byte at the start of a tail of a field is: the first byte of the tail, or,
after the last byte, no byte that a float text is made of. -/
theorem tail_peek (c : Ctx) (q : Nat) (L : List Nat) (hb : bytesAt c q L = true)
    (hw : q + L.length ≤ c.eof) (hon : onTerm c (q + L.length))
    (hsep : ¬ isFloatByte c.dec c.sep) (heol : c.eol = 10 ∨ c.eol = 13)
    (hdec : c.dec = 46 ∨ c.dec = 44) :
    (∀ b, L.head? = some b → q < c.eof ∧ rd c q = b) ∧
    (L = [] → q ≥ c.eof ∨ ¬ isFloatByte c.dec (rd c q)) := by
  constructor
  · intro b hL
    rcases L with _ | ⟨a, r⟩
    · simp at hL
    · simp only [List.head?_cons, Option.some.injEq] at hL
      rw [bytesAt_cons] at hb
      simp only [List.length_cons] at hw
      exact ⟨by omega, by rw [hb.1, hL]⟩
  · intro hL
    subst hL
    simp only [List.length_nil, Nat.add_zero] at hon
    exact onTerm_not_float c q hon hsep heol hdec

/-- A byte outside `0`..`9` is no digit. -/
theorem isDigit_false_of (c : Ctx) (q : Nat) (h : ¬ (48 ≤ rd c q ∧ rd c q ≤ 57)) :
    isDigit c q = false := by
  simp only [isDigit, Bool.decide_and, Bool.and_eq_false_imp, decide_eq_true_eq,
    decide_eq_false_iff_not]
  omega

/-- The byte after a tail position is no digit when the tail begins with no digit. -/
theorem tail_no_digit (c : Ctx) (q : Nat) (L : List Nat) (hb : bytesAt c q L = true)
    (hw : q + L.length ≤ c.eof) (hon : onTerm c (q + L.length))
    (hsep : ¬ isFloatByte c.dec c.sep) (heol : c.eol = 10 ∨ c.eol = 13)
    (hdec : c.dec = 46 ∨ c.dec = 44)
    (hL : ∀ b, L.head? = some b → isDigitByte b = false) :
    q ≥ c.eof ∨ isDigit c q = false := by
  obtain ⟨p1, p2⟩ := tail_peek c q L hb hw hon hsep heol hdec
  rcases L with _ | ⟨a, r⟩
  · rcases p2 rfl with h | h
    · left; exact h
    · right
      apply isDigit_false_of
      intro hd
      exact h (Or.inl hd)
  · right
    have := hL a rfl
    obtain ⟨_, h2⟩ := p1 a rfl
    apply isDigit_false_of
    rw [h2]
    simpa [isDigitByte] using this

/-- The length of the mantissa text `D1 [dec D2]`. -/
theorem mantissa_text_length (dec : Nat) (D1 D2 rest : List Nat) (hasDec : Bool) :
    (D1 ++ decPart dec (if hasDec = true then some D2 else none)).length
      = mantissaLength ⟨D1, hasDec, D2, rest⟩ := by
  cases hasDec
  · simp [decPart, mantissaLength]
  · simp [decPart, mantissaLength]
    omega

/-- On a field of `floatScope` the number branch of `StrtoD` comes to line 405 with an
exponent `e` between -350 and 350. -/
theorem StrtoD_num_in_table (c : Ctx) (st : Nat) (f : List Nat)
    (hb : bytesAt c st (stripSign f) = true) (hw : st + (stripSign f).length ≤ c.eof)
    (hon : onTerm c (st + (stripSign f).length))
    (hsep : ¬ isFloatByte c.dec c.sep) (heol : c.eol = 10 ∨ c.eol = 13)
    (hdec : c.dec = 46 ∨ c.dec = 44) (hs : floatScope c.dec f = true) :
    -350 ≤ (StrtoD_num c st).2.2 ∧ (StrtoD_num c st).2.2 ≤ 350 := by
  have h32 : 350 < 10 * ((INT32_MAX - 10) / 10) := by decide
  obtain ⟨t1, t2, t3, t4, t5⟩ := floatParts_text c.dec f
  unfold floatScope at hs
  simp only [Bool.and_eq_true, Bool.or_eq_true, Bool.not_eq_true', decide_eq_true_eq] at hs
  have hml := mantissa_text_length c.dec (floatParts c.dec f).D1 (floatParts c.dec f).D2
    (floatParts c.dec f).rest (floatParts c.dec f).hasDec
  generalize floatParts c.dec f = q at hs t1 t2 t3 t4 t5 hml
  obtain ⟨D1, hasDec, D2, rest⟩ := q
  simp only at hs t1 t2 t3 t4 t5 hml
  rw [t1] at hb hw hon
  rw [← List.append_assoc] at hb hw hon
  rw [bytesAt_append] at hb
  obtain ⟨hbm, hbr⟩ := hb
  rw [List.length_append] at hw hon
  generalize hd : (if hasDec = true then some D2 else none) = d at hbm hbr hw hon hml
  -- the byte after the mantissa
  have hnd := tail_no_digit c _ rest hbr (by omega) (by rw [Nat.add_assoc]; exact hon)
    hsep heol hdec t4
  obtain ⟨p1, p2⟩ := tail_peek c _ rest hbr (by omega) (by rw [Nat.add_assoc]; exact hon)
    hsep heol hdec
  have hm := StrtoD_mantissa_run c st D1 d hbm t2
    (by
      intro D2' hD
      cases hasDec with
      | false => rw [← hd] at hD; simp at hD
      | true =>
        rw [← hd] at hD
        simp only [if_true, Option.some.injEq] at hD
        subst hD
        rcases hs.1 with h2 | h2
        · simp at h2
        · exact ⟨t3, h2.2⟩)
    (by omega) (by rcases hdec with h | h <;> omega)
    (by
      rcases hnd with h | h
      · left; exact h
      · rcases rest with _ | ⟨a, r⟩
        · rcases p2 rfl with h2 | h2
          · left; exact h2
          · right; exact ⟨h, fun _ h3 => h2 (Or.inr (Or.inl h3))⟩
        · right
          refine ⟨h, fun hn => ?_⟩
          have hf : hasDec = false := by
            cases hasDec with
            | false => rfl
            | true => rw [← hd] at hn; simp at hn
          obtain ⟨_, h2⟩ := p1 a rfl
          rw [h2]
          intro h3
          exact (t5 hf).1 (by rw [h3]; rfl))
  have hmlen : (D1 ++ decPart c.dec d).length ≤ 350 := by
    have h2 := hs.2
    rw [hml]
    split at h2
    · simp only [Bool.and_eq_true, decide_eq_true_eq] at h2; omega
    · simpa using h2
  have hme := StrtoD_mantissa_exp c st (by rw [hm]; omega)
  rw [hm] at hme
  have hsub : st + (D1 ++ decPart c.dec d).length - st = (D1 ++ decPart c.dec d).length := by
    omega
  rw [hsub] at hme
  generalize (D1 ++ decPart c.dec d).length = ml at hbr hw hon hml hm hmlen hme p1 p2 hnd
  by_cases hmk : ∃ mk r3, rest = mk :: r3 ∧ (mk = 69 ∨ mk = 101)
  · obtain ⟨mk, r3, rfl, hmk⟩ := hmk
    have h2 := hs.2
    simp only [expDigits, hmk, if_true, Bool.and_eq_true, decide_eq_true_eq] at h2
    rw [← hml] at h2
    obtain ⟨hD3ne, hval⟩ := h2
    obtain ⟨es, hes1, hes2⟩ := stripSign_split r3
    have hsplit := List.takeWhile_append_dropWhile isDigitByte (stripSign r3)
    have hD3 := takeWhile_digits (stripSign r3)
    have hRh : ∀ b, ((stripSign r3).dropWhile isDigitByte).head? = some b →
        isDigitByte b = false := fun b hb => dropWhile_head_not _ _ b hb
    generalize (stripSign r3).takeWhile isDigitByte = D3 at hD3ne hval hsplit hD3
    generalize (stripSign r3).dropWhile isDigitByte = R at hsplit hRh
    rw [← hsplit] at hes2
    subst hes2
    rw [bytesAt_cons, bytesAt_append, bytesAt_append] at hbr
    obtain ⟨hb1, hb2, hb3, hb4⟩ := hbr
    simp only [List.length_cons, List.length_append] at hw hon
    have hE : ((StrtoD_mantissa c st).1 < c.eof ∧
        (rd c (StrtoD_mantissa c st).1 = 69 ∨ rd c (StrtoD_mantissa c st).1 = 101)) := by
      rw [hm]; exact ⟨by omega, by rw [hb1]; exact hmk⟩
    have hfin : ∀ ch5, ch5 = st + ml + 1 + es.length →
        accLoop c ((INT32_MAX - 10) / 10) (c.eof - ch5) ch5 0
          = (ch5 + D3.length, digitsVal D3) := by
      intro ch5 h5
      subst h5
      exact accLoop_run c ((INT32_MAX - 10) / 10) D3 _ _ 0 hb3 hD3 (by omega)
        (Nat.le_refl _) (fun _ => by unfold digitsVal at hval; omega)
        (tail_no_digit c _ R hb4 (by omega)
          (by
            rw [show st + ml + 1 + es.length + D3.length + R.length
              = st + (ml + (es.length + (D3.length + R.length) + 1)) by omega]
            exact hon) hsep heol hdec hRh)
    have hd0 : ∃ d0 D3', D3 = d0 :: D3' ∧ 48 ≤ d0 ∧ d0 ≤ 57 := by
      rcases D3 with _ | ⟨d0, D3'⟩
      · exact absurd rfl hD3ne
      · exact ⟨d0, D3', rfl, hD3 d0 (List.mem_cons_self _ _)⟩
    unfold StrtoD_num
    simp only
    rw [if_pos hE]
    simp only [hm]
    rcases hes1 with rfl | rfl | rfl
    · have hns : ¬ (st + ml + 1 < c.eof ∧
          (rd c (st + ml + 1) = 45 ∨ rd c (st + ml + 1) = 43)) := by
        obtain ⟨d0, D3', rfl, h0⟩ := hd0
        simp only [List.length_nil, Nat.add_zero, bytesAt_cons] at hb3
        rw [hb3.1]; omega
      simp only [hns, decide_False, Bool.false_eq_true, if_false, false_and]
      rw [hfin _ (by simp)]
      simp only
      omega
    · have hlt : st + ml + 1 < c.eof := by
        simp only [List.length_singleton] at hw
        omega
      have hrd : rd c (st + ml + 1) = 43 := by
        simp only [bytesAt_cons] at hb2
        exact hb2.1
      simp only [hlt, hrd, true_and, or_true, decide_True, if_true,
        show ¬ ((43 : Nat) = 45) by decide, and_false, if_false]
      rw [hfin _ (by simp)]
      simp only
      omega
    · have hlt : st + ml + 1 < c.eof := by
        simp only [List.length_singleton] at hw
        omega
      have hrd : rd c (st + ml + 1) = 45 := by
        simp only [bytesAt_cons] at hb2
        exact hb2.1
      simp only [hlt, hrd, true_and, true_or, decide_True, if_true, and_self]
      rw [hfin _ (by simp)]
      simp only
      omega
  · have hnE : ¬ ((StrtoD_mantissa c st).1 < c.eof ∧
        (rd c (StrtoD_mantissa c st).1 = 69 ∨ rd c (StrtoD_mantissa c st).1 = 101)) := by
      rw [hm]
      rintro ⟨b1, b2⟩
      rcases rest with _ | ⟨a, r⟩
      · rcases p2 rfl with h | h
        · omega
        · apply h
          right; right
          rcases b2 with b2 | b2 <;> simp [b2]
      · obtain ⟨_, h2⟩ := p1 a rfl
        rw [h2] at b2
        exact hmk ⟨a, r, rfl, b2⟩
    unfold StrtoD_num
    simp only
    rw [if_neg hnE]
    omega

/-- Lines 372-406 read `pow10lookup` inside the table when the number branch comes to
line 405 with an exponent between -350 and 350. -/
theorem pow10InTable_value (c : Ctx) (sign : Int) (st : Nat)
    (h : -350 ≤ (StrtoD_num c st).2.2 ∧ (StrtoD_num c st).2.2 ≤ 350) :
    pow10InTable (StrtoD_value c sign st).2.1 = true := by
  unfold StrtoD_value
  simp only
  by_cases hok : (decide (st < c.eof ∧ (isDigit c st = true ∨ rd c st = c.dec))) = true
  · rw [if_neg (by simp only [hok, not_true_eq_false, not_false_eq_true])]
    simp only [pow10InTable, pow10Index, POW10_ENTRIES, decide_eq_true_eq]
    omega
  · rw [if_pos hok]
    split
    · rfl
    · split <;> rfl

/-- On a field of `floatScope` the call of `StrtoD` does not read outside the table. -/
theorem StrtoD_checked_in_scope (c : Ctx) (p : Nat) (tgt : Bool) (f : List Nat)
    (hf : fieldAt c p f) (hne : f ≠ []) (hq : f.head? ≠ some c.quote)
    (hw1 : ∀ b, f.head? = some b → b ≠ 32 ∧ b ≠ 9)
    (hsep : ¬ isFloatByte c.dec c.sep) (heol : c.eol = 10 ∨ c.eol = 13)
    (hdec : c.dec = 46 ∨ c.dec = 44) (hs : floatScope c.dec f = true) :
    StrtoD_checked c p tgt = some (StrtoD c p tgt) := by
  rcases f with _ | ⟨b, r⟩
  · exact absurd rfl hne
  obtain ⟨hp, hbp, hns, hne'⟩ := fieldAt_head c p b r hf
  have hb1 := hw1 b rfl
  have hq' : rd c p ≠ c.quote := by
    intro h; apply hq; simp [← h, hbp]
  have h1 : skip_white c p = p := by
    apply skip_white_fix; rintro ⟨_, h2⟩
    simp only [isWhite, hbp] at h2; simp at h2; omega
  have h2 : on_sep c p = (false, p) := on_sep_false c p hp (hbp ▸ hns) (hbp ▸ hne')
  obtain ⟨hfb, hfw, _, hfon⟩ := hf
  have key : ∀ sign : Int, pow10InTable (StrtoD_value c sign
      (if p < c.eof ∧ (rd c p = 45 ∨ rd c p = 43) then p + 1 else p)).2.1 = true := by
    intro sign
    apply pow10InTable_value
    by_cases hsg : b = 43 ∨ b = 45
    · have hst : stripSign (b :: r) = r := by simp [stripSign, hsg]
      rw [if_pos ⟨hp, by rw [hbp]; tauto⟩]
      rw [bytesAt_cons] at hfb
      simp only [List.length_cons] at hfw hfon
      exact StrtoD_num_in_table c (p + 1) (b :: r) (by rw [hst]; exact hfb.2)
        (by rw [hst]; omega) (by rw [hst, show p + 1 + r.length = p + (r.length + 1) by omega];
                                 exact hfon) hsep heol hdec hs
    · have hst : stripSign (b :: r) = b :: r := by simp [stripSign, hsg]
      rw [if_neg (by rw [hbp]; tauto)]
      exact StrtoD_num_in_table c p (b :: r) (by rw [hst]; exact hfb)
        (by rw [hst]; exact hfw) (by rw [hst]; exact hfon) hsep heol hdec hs
  unfold StrtoD_checked
  simp only [h1, h2, Bool.false_eq_true, if_false, hq', and_false, decide_False]
  have hstart : (if (decide (p < c.eof) && (decide (rd c p = 45) || decide (rd c p = 43)))
      = true then p + 1 else p)
      = (if p < c.eof ∧ (rd c p = 45 ∨ rd c p = 43) then p + 1 else p) := by
    simp
  simp only [Bool.decide_and, Bool.decide_or]
  rw [hstart, if_pos (key _)]

/-- C4 (amended): with no NA strings configured, NUL bytes after the end of the window,
`dec` a dot or a comma, `eol` `\n` or `\r` and `sep` not a byte float texts are made of,
on a non-empty unquoted field without surrounding whitespace that lies in `floatScope`
(a decimal point has a digit before or after it and integer digits worth less than
`10*((UINT64_MAX-10)/10)` before it, an exponent marker is followed by a digit, and the
length of the mantissa plus the value of the exponent digits is at most 350): the call of
`StrtoD` reads `pow10lookup` inside the table if it reads it, and it returns success if
and only if the field matches `[sign] digits [dec digits] [E [sign] digits]` (at least one
digit in the mantissa, at least one digit after an exponent marker) or is `Inf` or `NAN`
with an optional sign before it. -/
theorem StrtoD_accepts_iff (c : Ctx) (p : Nat) (tgt : Bool) (f : List Nat)
    (hf : fieldAt c p f) (hne : f ≠ []) (hq : f.head? ≠ some c.quote)
    (hw1 : ∀ b, f.head? = some b → b ≠ 32 ∧ b ≠ 9)
    (hw2 : ∀ b, f.getLast? = some b → b ≠ 32 ∧ b ≠ 9)
    (hna : c.NAstrings = []) (hpad : ∀ i, c.eof ≤ i → rd c i = 0)
    (hsep : ¬ isFloatByte c.dec c.sep) (heol : c.eol = 10 ∨ c.eol = 13)
    (hdec : c.dec = 46 ∨ c.dec = 44) (hs : floatScope c.dec f = true) :
    StrtoD_checked c p tgt = some (StrtoD c p tgt) ∧
    ((StrtoD c p tgt).ok = true ↔
      (specFloat c.dec f = true ∨ f = [43, 73, 110, 102] ∨ f = [45, 73, 110, 102] ∨
        f = [43, 78, 65, 78] ∨ f = [45, 78, 65, 78])) :=
  ⟨StrtoD_checked_in_scope c p tgt f hf hne hq hw1 hsep heol hdec hs,
    (StrtoD_ok_iff_floatText c p tgt f hf hne hq hw1 hw2 hna hpad hsep heol hdec).trans
      (floatText_iff_spec c.dec f hdec hs)⟩

/-- C4, two instances in the comma dialect: the field `12.5e-3` lies in the scope, the
call reads the table inside its entries and accepts the field; the field `1e5x` lies in
the scope and is rejected. -/
theorem StrtoD_accepts_iff_witness :
    fieldAt (csv [49, 50, 46, 53, 101, 45, 51, 44]) 0 [49, 50, 46, 53, 101, 45, 51] ∧
    floatScope 46 [49, 50, 46, 53, 101, 45, 51] = true ∧
    StrtoD_checked (csv [49, 50, 46, 53, 101, 45, 51, 44]) 0 true
      = some (StrtoD (csv [49, 50, 46, 53, 101, 45, 51, 44]) 0 true) ∧
    (StrtoD (csv [49, 50, 46, 53, 101, 45, 51, 44]) 0 true).ok = true ∧
    (fieldAt (csv [49, 101, 53, 120, 44]) 0 [49, 101, 53, 120] ∧
      floatScope 46 [49, 101, 53, 120] = true ∧
      (StrtoD (csv [49, 101, 53, 120, 44]) 0 true).ok = false) :=
  ⟨by decide, by decide,
    (StrtoD_accepts_iff (csv [49, 50, 46, 53, 101, 45, 51, 44]) 0 true
      [49, 50, 46, 53, 101, 45, 51] (by decide) (by decide) (by decide) (by decide)
      (by decide) rfl (fun i hi => List.getD_eq_default _ _ hi)
      (by decide) (by decide) (by decide) (by decide)).1,
    (StrtoD_accepts_iff (csv [49, 50, 46, 53, 101, 45, 51, 44]) 0 true
      [49, 50, 46, 53, 101, 45, 51] (by decide) (by decide) (by decide) (by decide)
      (by decide) rfl (fun i hi => List.getD_eq_default _ _ hi)
      (by decide) (by decide) (by decide) (by decide)).2.2 (Or.inl (by decide)),
    by decide, by decide,
    Bool.eq_false_iff.mpr (fun h =>
      absurd ((StrtoD_accepts_iff (csv [49, 101, 53, 120, 44]) 0 true
        [49, 101, 53, 120] (by decide) (by decide) (by decide) (by decide)
        (by decide) rfl (fun i hi => List.getD_eq_default _ _ hi)
        (by decide) (by decide) (by decide) (by decide)).2.1 h) (by decide))⟩

/-- C4 as stated fails: in the comma dialect the fields `-Inf` and `+NAN` are not in the
grammar of the specification, which allows the sign before a number only, and `StrtoD`
accepts them, storing `-INFINITY` for the first. -/
theorem StrtoD_accepts_iff_counterexample :
    fieldAt (csv [45, 73, 110, 102, 44]) 0 [45, 73, 110, 102] ∧
    specFloat 46 [45, 73, 110, 102] = false ∧
    floatScope 46 [45, 73, 110, 102] = true ∧
    StrtoD_checked (csv [45, 73, 110, 102, 44]) 0 true = some ⟨true, 4, some (F64.inf (-1))⟩ ∧
    (fieldAt (csv [43, 78, 65, 78, 44]) 0 [43, 78, 65, 78] ∧
      specFloat 46 [43, 78, 65, 78] = false ∧
      StrtoD_checked (csv [43, 78, 65, 78, 44]) 0 true = some ⟨true, 4, some F64.nan⟩) := by
  decide

/-! ## C11 -/

theorem next_sep_ge (c : Ctx) (ch : Nat) : ch ≤ next_sep c ch := by
  unfold next_sep
  have h1 := scanWhile_ge c.eof (notSepEol c) (c.eof - ch) ch
  have h2 := (on_sep_run c (scanWhile c.eof (notSepEol c) (c.eof - ch) ch)).1
  omega

/-- When the closing lines of the numeric scanners return failure, they leave the cursor
on the terminator that `next_sep` finds, at or after the place where the scan stopped. -/
theorem numTail_fail {α : Type} (c : Ctx) (tgt : Bool) (start ch : Nat) (ok : Bool) (v na : α)
    (h : (numTail c tgt start ch ok v na).ok = false) :
    ch ≤ (numTail c tgt start ch ok v na).ch ∧ onTerm c (numTail c tgt start ch ok v na).ch := by
  unfold numTail at h ⊢
  simp only at h ⊢
  have h1 := skip_white_ge c ch
  have h2 := (on_sep_run c (skip_white c ch)).1
  generalize hos : (if ok = true then on_sep c (skip_white c ch)
      else (false, skip_white c ch)) = os at h ⊢
  have hge : ch ≤ os.2 := by
    cases ok with
    | false => simp at hos; rw [← hos]; exact h1
    | true => simp at hos; rw [← hos]; omega
  split at h
  · simp at h
  · split at h
    · simp at h
    · rename_i h3 h4
      rw [if_neg h3, if_neg h4]
      exact ⟨Nat.le_trans hge (next_sep_ge c os.2), next_sep_onTerm c os.2⟩

/-- When `StrtoI64` or `StrtoI32` returns failure, the cursor is where it was (the field
opened with a quote that is not closed after the digits) or has moved forward to a
terminator. -/
theorem StrtoInt_fail (c : Ctx) (limit : Nat) (na : Int) (this : Nat) (tgt : Bool)
    (h : (StrtoInt c limit na this tgt).ok = false) :
    (StrtoInt c limit na this tgt).ch = this ∨
      (this ≤ (StrtoInt c limit na this tgt).ch ∧ onTerm c (StrtoInt c limit na this tgt).ch) := by
  have g1 := skip_white_ge c this
  have g2 := (on_sep_run c (skip_white c this)).1
  generalize hr : StrtoInt c limit na this tgt = r at h ⊢
  unfold StrtoInt at hr
  lift_lets at hr
  extract_lets os start quoted ch sg sign ch2 ok r0 at hr
  have g3 : start ≤ ch2 := by
    have a : start ≤ ch := by
      show start ≤ (if quoted = true then start + 1 else start)
      split <;> omega
    have b : ch ≤ ch2 := by
      show ch ≤ (if sg = true then ch + 1 else ch)
      split <;> omega
    omega
  have g4 : ch2 ≤ r0.1 := (accLoop_digits c limit (c.eof - ch2) ch2 0).1
  split at hr
  · subst hr; simp at h
  · split at hr
    · subst hr; left; rfl
    · subst hr
      right
      obtain ⟨a, b⟩ := numTail_fail c tgt start (if quoted = true then r0.1 + 1 else r0.1) ok
        (sign * (r0.2 : Int)) na h
      refine ⟨?_, b⟩
      have g5 : r0.1 ≤ (if quoted = true then r0.1 + 1 else r0.1) := by split <;> omega
      have g6 : skip_white c this ≤ start := g2
      omega

/-- C11 (amended): when `StrtoI32` or `StrtoI64` returns failure, the caller's cursor is
left exactly where it was only when the field opened with a quote that is not closed after
the digits; on every other failure the scanner has moved the cursor forward onto the
terminator (`sep`, `eol` or `eof`) that `next_sep` finds.  The retry with the next wider
type is made possible by the caller: after a failed call the sampling loop resumes from
`fieldStart` (type bump) or from `lineStart` (quote rule bump). -/
theorem StrtoI_failure_cursor (c : Ctx) (this : Nat) (tgt : Bool) :
    ((StrtoI32 c this tgt).ok = false →
      (StrtoI32 c this tgt).ch = this ∨
        (this ≤ (StrtoI32 c this tgt).ch ∧ onTerm c (StrtoI32 c this tgt).ch)) ∧
    ((StrtoI64 c this tgt).ok = false →
      (StrtoI64 c this tgt).ch = this ∨
        (this ≤ (StrtoI64 c this tgt).ch ∧ onTerm c (StrtoI64 c this tgt).ch)) ∧
    (∀ s s2 : Sampler, sampleStep s = SampleStep.again s2 →
      s2.ch = s.fieldStart ∨ s2.ch = s.lineStart) := by
  refine ⟨StrtoInt_fail c _ _ this tgt, StrtoInt_fail c _ _ this tgt, ?_⟩
  intro s s2 h
  unfold sampleStep at h
  simp only at h
  split at h
  · split at h
    · simp at h
    · simp at h
    · split at h
      · simp only [SampleStep.again.injEq] at h
        subst h; left; rfl
      · split at h
        · simp only [SampleStep.again.injEq] at h
          subst h; right; rfl
        · simp at h
  · simp at h

/-- C11, an instance: on the unquoted field `abc` of `abc,` the scanner `StrtoI32` fails
and the cursor it hands back is at or after the start and on a terminator. -/
theorem StrtoI_failure_cursor_witness :
    (StrtoI32 (csv [97, 98, 99, 44]) 0 false).ch = 0 ∨
      (0 ≤ (StrtoI32 (csv [97, 98, 99, 44]) 0 false).ch ∧
        onTerm (csv [97, 98, 99, 44]) (StrtoI32 (csv [97, 98, 99, 44]) 0 false).ch) :=
  (StrtoI_failure_cursor (csv [97, 98, 99, 44]) 0 false).1 (by decide)

/-- C11 as stated fails: on `abc,` in the comma dialect both `StrtoI32` and `StrtoI64`
return failure from the start cursor 0 and leave the caller's cursor on offset 3, the
comma; the same happens on `1.5,`, the field the next wider type is then tried on. -/
theorem StrtoI_failure_cursor_counterexample :
    ((StrtoI32 (csv [97, 98, 99, 44]) 0 false).ok = false ∧
      (StrtoI32 (csv [97, 98, 99, 44]) 0 false).ch = 3) ∧
    ((StrtoI64 (csv [97, 98, 99, 44]) 0 false).ok = false ∧
      (StrtoI64 (csv [97, 98, 99, 44]) 0 false).ch = 3) ∧
    ((StrtoI32 (csv [49, 46, 53, 44]) 0 false).ok = false ∧
      (StrtoI32 (csv [49, 46, 53, 44]) 0 false).ch = 3) := by
  decide

/-! ## C12 -/

/-- C12, the code at the failing inputs: in the comma dialect `StrtoI32` rejects the field
`2147483647` and `StrtoI64` rejects the field `9223372036854775807`, because the guards
`acc<(INT32_MAX-10)/10` and `acc<(INT64_MAX-10)/10` stop the accumulation with the last
digit unread; the largest magnitudes they accept are `2147483629` and
`9223372036854775789`. -/
theorem StrtoI_rejects_top_of_range :
    (StrtoI32 (csv [50, 49, 52, 55, 52, 56, 51, 54, 52, 55, 44]) 0 true).ok = false ∧
    (StrtoI64 (csv [57, 50, 50, 51, 51, 55, 50, 48, 51, 54, 56, 53, 52, 55, 55, 53, 56, 48,
      55, 44]) 0 true).ok = false ∧
    StrtoI32 (csv [50, 49, 52, 55, 52, 56, 51, 54, 50, 57, 44]) 0 true
      = ⟨true, 10, some 2147483629⟩ ∧
    (StrtoI32 (csv [50, 49, 52, 55, 52, 56, 51, 54, 51, 48, 44]) 0 true).ok = false ∧
    StrtoI64 (csv [57, 50, 50, 51, 51, 55, 50, 48, 51, 54, 56, 53, 52, 55, 55, 53, 55, 56,
      57, 44]) 0 true = ⟨true, 19, some 9223372036854775789⟩ ∧
    (StrtoI64 (csv [57, 50, 50, 51, 51, 55, 50, 48, 51, 54, 56, 53, 52, 55, 55, 53, 55, 57,
      48, 44]) 0 true).ok = false := by
  decide

/-! ## C13 -/

/-- C13, the code at the failing input: in the comma dialect `StrtoB` accepts the field
`T` and stores 1, accepts it preceded by a blank, but rejects it followed by a blank
(`T ,`), because it calls `on_sep` right after the literal without the `skip_white` that
`StrtoI32`, `StrtoI64` and `StrtoD` call there: those accept ` 7 ` and store what they
store for `7`. -/
theorem StrtoB_rejects_trailing_blank :
    StrtoB (csv [84, 44]) 0 true = ⟨true, 1, some 1⟩ ∧
    StrtoB (csv [32, 84, 44]) 0 true = ⟨true, 2, some 1⟩ ∧
    (StrtoB (csv [84, 32, 44]) 0 true).ok = false ∧
    (StrtoB (csv [84, 9, 44]) 0 true).ok = false ∧
    (StrtoI32 (csv [32, 55, 32, 44]) 0 true = ⟨true, 3, some 7⟩ ∧
      StrtoI32 (csv [55, 44]) 0 true = ⟨true, 1, some 7⟩) ∧
    (StrtoI64 (csv [32, 55, 32, 44]) 0 true = ⟨true, 3, some 7⟩ ∧
      StrtoI64 (csv [55, 44]) 0 true = ⟨true, 1, some 7⟩) ∧
    (StrtoD (csv [32, 55, 32, 44]) 0 true = ⟨true, 3, some (F64.num 1 7 0)⟩ ∧
      StrtoD (csv [55, 44]) 0 true = ⟨true, 1, some (F64.num 1 7 0)⟩) := by
  decide

/-! ## C19 -/

theorem contiguousFrom_append (a : Nat) (ps : List (Nat × Nat)) (b n : Nat)
    (h : contiguousFrom a ps) (hb : b = a + (ps.map Prod.snd).sum) :
    contiguousFrom a (ps ++ [(b, n)]) := by
  induction ps generalizing a with
  | nil => simp [contiguousFrom] at hb ⊢; exact hb
  | cons p ps ih =>
    obtain ⟨b0, n0⟩ := p
    simp only [contiguousFrom, List.cons_append, List.map_cons, List.sum_cons] at h hb ⊢
    exact ⟨h.1, ih (a + n0) h.2 (by omega)⟩

/-- The invariant of the ordered merge: the rows pushed so far are contiguous from row 0
and `ansi` is their total. -/
theorem mergeStep_inv (nrowLimit : Nat) (m : MergeState) (k : ChunkResult)
    (h : contiguousFrom 0 m.pushes ∧ m.ansi = (m.pushes.map Prod.snd).sum) :
    contiguousFrom 0 (mergeStep nrowLimit m k).pushes ∧
      (mergeStep nrowLimit m k).ansi = ((mergeStep nrowLimit m k).pushes.map Prod.snd).sum := by
  unfold mergeStep
  split
  · split
    · exact h
    · simp only
      split
      · refine ⟨contiguousFrom_append 0 _ _ _ h.1 (by omega), ?_⟩
        simp only [List.map_append, List.map_cons, List.map_nil, List.sum_append,
          List.sum_cons, List.sum_nil]
        omega
      · exact h
  · split
    · exact h
    · exact h

theorem mergeFold_inv (nrowLimit : Nat) (ks : List ChunkResult) (m : MergeState)
    (h : contiguousFrom 0 m.pushes ∧ m.ansi = (m.pushes.map Prod.snd).sum) :
    contiguousFrom 0 (ks.foldl (mergeStep nrowLimit) m).pushes ∧
      (ks.foldl (mergeStep nrowLimit) m).ansi =
        ((ks.foldl (mergeStep nrowLimit) m).pushes.map Prod.snd).sum := by
  induction ks generalizing m with
  | nil => exact h
  | cons k ks ih => exact ih _ (mergeStep_inv nrowLimit m k h)

/-- With no stop reason, matching boundaries and a row limit above the total, every chunk
pushes all its rows at the running total. -/
theorem mergeFold_ranges (nrowLimit : Nat) (ks : List ChunkResult) (m : MergeState)
    (hs : ∀ k ∈ ks, k.myStopReason = 0) (hb : boundariesMatch m.prevThreadEnd ks)
    (hst : m.stopTeam = false)
    (hl : m.ansi + (ks.map ChunkResult.buffi).sum < nrowLimit) :
    (ks.foldl (mergeStep nrowLimit) m).pushes = m.pushes ++ rowRanges m.ansi ks ∧
    (ks.foldl (mergeStep nrowLimit) m).ansi = m.ansi + (ks.map ChunkResult.buffi).sum ∧
    (ks.foldl (mergeStep nrowLimit) m).stopTeam = false := by
  induction ks generalizing m with
  | nil => simp [rowRanges, hst]
  | cons k ks ih =>
    simp only [List.map_cons, List.sum_cons] at hl
    simp only [boundariesMatch] at hb
    have hk := hs k (List.mem_cons_self _ _)
    have hmin : min k.buffi (nrowLimit - m.ansi) = k.buffi := by omega
    have hstep : mergeStep nrowLimit m k =
        { ansi := m.ansi + k.buffi, prevThreadEnd := k.ch, stopTeam := false,
          stopErr := m.stopErr, pushes := m.pushes ++ [(m.ansi, k.buffi)] } := by
      unfold mergeStep
      have h3 : m.ansi < nrowLimit := by omega
      simp [hk, hst, hb.1, h3, hmin]
    rw [List.foldl_cons, hstep]
    obtain ⟨a1, a2, a3⟩ := ih
      { ansi := m.ansi + k.buffi, prevThreadEnd := k.ch, stopTeam := false,
        stopErr := m.stopErr, pushes := m.pushes ++ [(m.ansi, k.buffi)] }
      (fun k2 h2 => hs k2 (List.mem_cons_of_mem _ h2)) hb.2 rfl (by simp only; omega)
    refine ⟨?_, ?_, a3⟩
    · rw [a1]; simp [rowRanges]
    · rw [a2]; simp only [List.map_cons, List.sum_cons]; omega

/-- C19: in the ordered merge, for any sequence of chunk results taken in chunk-index
order with no stop reason and matching boundaries, the destination ranges handed to
`pushBuffer` are contiguous from row 0 (each chunk's `myansi` is where the chunk before it
ends) and the final `ansi` is the sum of the rows pushed; and when the row limit lies
above the total, chunk `i` is assigned `[a_i, a_i + n_i)` for its own row count `n_i`,
with `a_0 = 0` and `a_(i+1) = a_i + n_i`, and `ansi` ends as the sum of the `n_i`. -/
theorem ordered_merge_ranges (nrowLimit pos : Nat) (ks : List ChunkResult)
    (hs : ∀ k ∈ ks, k.myStopReason = 0) (hb : boundariesMatch pos ks) :
    contiguousFrom 0 (mergeAll nrowLimit pos ks).pushes ∧
    (mergeAll nrowLimit pos ks).ansi = ((mergeAll nrowLimit pos ks).pushes.map Prod.snd).sum ∧
    ((ks.map ChunkResult.buffi).sum < nrowLimit →
      (mergeAll nrowLimit pos ks).pushes = rowRanges 0 ks ∧
      (mergeAll nrowLimit pos ks).ansi = (ks.map ChunkResult.buffi).sum ∧
      (mergeAll nrowLimit pos ks).stopTeam = false) := by
  have h1 := mergeFold_inv nrowLimit ks ⟨0, pos, false, false, []⟩
    ⟨by simp [contiguousFrom], by simp⟩
  refine ⟨h1.1, h1.2, ?_⟩
  intro hl
  have h2 := mergeFold_ranges nrowLimit ks ⟨0, pos, false, false, []⟩ hs hb rfl
    (by simp only; omega)
  simp only [List.nil_append, Nat.zero_add] at h2
  exact h2

/-- C19, an instance: three chunks of 2, 3 and 4 rows whose boundaries match are assigned
the rows `[0,2)`, `[2,5)` and `[5,9)`, and `ansi` ends as 9; with the row limit 4 the
second chunk is cut to 2 rows and the third pushes nothing. -/
theorem ordered_merge_ranges_witness :
    (mergeAll 1000 7 [⟨0, 7, 20, 2⟩, ⟨0, 20, 41, 3⟩, ⟨0, 41, 60, 4⟩]).pushes
      = [(0, 2), (2, 3), (5, 4)] ∧
    (mergeAll 1000 7 [⟨0, 7, 20, 2⟩, ⟨0, 20, 41, 3⟩, ⟨0, 41, 60, 4⟩]).ansi = 9 ∧
    contiguousFrom 0 (mergeAll 4 7 [⟨0, 7, 20, 2⟩, ⟨0, 20, 41, 3⟩, ⟨0, 41, 60, 4⟩]).pushes ∧
    (mergeAll 4 7 [⟨0, 7, 20, 2⟩, ⟨0, 20, 41, 3⟩, ⟨0, 41, 60, 4⟩]).pushes = [(0, 2), (2, 2)] :=
  have h := ordered_merge_ranges 1000 7 [⟨0, 7, 20, 2⟩, ⟨0, 20, 41, 3⟩, ⟨0, 41, 60, 4⟩]
    (by decide) ⟨rfl, rfl, rfl, trivial⟩
  have h4 := ordered_merge_ranges 4 7 [⟨0, 7, 20, 2⟩, ⟨0, 20, 41, 3⟩, ⟨0, 41, 60, 4⟩]
    (by decide) ⟨rfl, rfl, rfl, trivial⟩
  ⟨(h.2.2 (by decide)).1, (h.2.2 (by decide)).2.1, h4.1, by decide⟩

/-! ## C18 -/

theorem funCall_some (c : Ctx) (k ch : Nat) (tgt : Bool) (r : Bool × Nat)
    (h : funCall c k ch tgt = some r) : k ≤ 5 := by
  unfold funCall at h
  split at h <;> first | omega | simp at h

/-- The retry loop of the body read leaves with the type it was entered with or with a
negative type of strictly larger magnitude, inside the table in both cases; seven rounds
always suffice. -/
theorem bodyRetry_spec (c : Ctx) (fieldStart : Nat) (n : Nat) (t : Int) (tgt : Bool)
    (hn : 6 ≤ n + t.natAbs) :
    bodyRetry c fieldStart (n + 1) t tgt ≠ Retry.fuel ∧
    ∀ t2 ch, bodyRetry c fieldStart (n + 1) t tgt = Retry.read t2 ch →
      t2.natAbs ≤ 5 ∧ (t2 = t ∨ (t2 < 0 ∧ t.natAbs < t2.natAbs)) := by
  induction n generalizing t tgt with
  | zero =>
    unfold bodyRetry
    cases hf : funCall c t.natAbs fieldStart tgt with
    | none => simp
    | some r =>
      have := funCall_some c _ _ _ _ hf
      omega
  | succ n ih =>
    unfold bodyRetry
    cases hf : funCall c t.natAbs fieldStart tgt with
    | none => simp
    | some r =>
      have h5 := funCall_some c _ _ _ _ hf
      obtain ⟨ok, ch0⟩ := r
      cases ok with
      | true =>
        simp only
        refine ⟨by simp, ?_⟩
        intro t2 ch h
        simp only [Retry.read.injEq] at h
        obtain ⟨rfl, _⟩ := h
        exact ⟨h5, Or.inl rfl⟩
      | false =>
        simp only
        obtain ⟨a, b⟩ := ih (if t < 0 then t - 1 else -t - 1) false (by split <;> omega)
        refine ⟨a, ?_⟩
        intro t2 ch h
        obtain ⟨b1, b2⟩ := b t2 ch h
        refine ⟨b1, Or.inr ?_⟩
        rcases b2 with b2 | b2
        · rw [b2]; split <;> omega
        · refine ⟨b2.1, ?_⟩
          have : t.natAbs < (if t < 0 then t - 1 else -t - 1).natAbs := by split <;> omega
          omega

/-- One round of the sampling retry loop changes no type entry, or raises one entry that
lies below `CT_STRING` by one. -/
theorem sampleStep_types (s s2 : Sampler)
    (h : sampleStep s = SampleStep.again s2 ∨ sampleStep s = SampleStep.done s2) (j : Nat) :
    s2.type.getD j 0 = s.type.getD j 0 ∨
      (s.type.getD j 0 < CT_STRING ∧ s2.type.getD j 0 = s.type.getD j 0 + 1) := by
  unfold sampleStep at h
  simp only at h
  split at h
  · split at h
    · rcases h with h | h <;> cases h
    · rcases h with h | h
      · cases h
      · cases h; left; rfl
    · split at h
      · rename_i hlt
        rcases h with h | h
        · cases h
          simp only
          by_cases hj : s.field = j
          · subst hj
            by_cases hl : s.field < s.type.length
            · right
              refine ⟨hlt, ?_⟩
              simp [List.getD_eq_getElem?_getD, List.getElem?_set, hl]
            · left
              have hn : s.type[s.field]? = none := List.getElem?_eq_none (by omega)
              simp [List.getD_eq_getElem?_getD, List.getElem?_set, hl, hn]
          · left
            simp [List.getD_eq_getElem?_getD, List.getElem?_set, hj]
        · cases h
      · split at h
        · rcases h with h | h
          · cases h; left; rfl
          · cases h
        · rcases h with h | h <;> cases h
  · rcases h with h | h
    · cases h
    · cases h; left; rfl

/-- The invariant of a column's shared type during the body read. -/
theorem bodyVisit_inv (T0 : Int) (s s2 : ColType) (v : Visit)
    (h : bodyVisit s v = some s2)
    (i1 : upwardHistory (s.shared :: s.older))
    (i2 : ∀ x ∈ s.shared :: s.older,
      s.shared = x ∨ (s.shared < 0 ∧ x.natAbs < s.shared.natAbs))
    (i3 : ∀ t ∈ s.used, t.natAbs ≤ s.shared.natAbs)
    (i4 : T0 ∈ s.shared :: s.older) :
    upwardHistory (s2.shared :: s2.older) ∧
    (∀ x ∈ s2.shared :: s2.older,
      s2.shared = x ∨ (s2.shared < 0 ∧ x.natAbs < s2.shared.natAbs)) ∧
    (∀ t ∈ s2.used, t.natAbs ≤ s2.shared.natAbs) ∧
    T0 ∈ s2.shared :: s2.older := by
  unfold bodyVisit at h
  simp only at h
  have hmem : (s.shared :: s.older).getD v.stale s.shared ∈ s.shared :: s.older := by
    rw [List.getD_eq_getElem?_getD]
    cases hg : (s.shared :: s.older)[v.stale]? with
    | none => simp
    | some y => simpa using List.getElem?_mem hg
  generalize (s.shared :: s.older).getD v.stale s.shared = oldType at h hmem
  have hold := i2 oldType hmem
  have hspec := (bodyRetry_spec v.c v.fieldStart 6 oldType (decide (oldType > 0))
    (by omega)).2
  cases hr : bodyRetry v.c v.fieldStart 7 oldType (decide (oldType > 0)) with
  | outOfTable => rw [hr] at h; simp at h
  | fuel => rw [hr] at h; simp at h
  | read thisType ch =>
    rw [hr] at h
    simp only [Option.some.injEq] at h
    obtain ⟨t5, tcase⟩ := hspec thisType ch hr
    subst h
    simp only
    -- what the update does to the shared type
    have key : (bodyTypeUpdate s.shared oldType thisType = s.shared ∧
          thisType.natAbs ≤ s.shared.natAbs) ∨
        (bodyTypeUpdate s.shared oldType thisType = thisType ∧ thisType < 0 ∧
          s.shared.natAbs < thisType.natAbs) := by
      unfold bodyTypeUpdate
      simp only [CT_STRING]
      split
      · left; refine ⟨rfl, ?_⟩
        rcases tcase with e | e
        · omega
        · omega
      · split
        · rename_i hne
          have hneg : thisType < 0 ∧ oldType.natAbs < thisType.natAbs := by
            rcases tcase with e | e
            · exact absurd e hne
            · exact e
          split
          · right; refine ⟨rfl, hneg.1, ?_⟩
            omega
          · left; refine ⟨rfl, ?_⟩
            omega
        · rename_i heq
          left; refine ⟨rfl, ?_⟩
          have : thisType = oldType := by omega
          omega
    generalize bodyTypeUpdate s.shared oldType thisType = new at key
    refine ⟨?_, ?_, ?_, ?_⟩
    · refine ⟨?_, i1⟩
      rcases key with k | k
      · left; exact k.1
      · right; rw [k.1]; exact ⟨k.2.1, k.2.2⟩
    · intro x hx
      simp only [List.mem_cons] at hx
      rcases hx with hx | hx
      · left; exact hx.symm
      · have := i2 x (by simpa using hx)
        rcases key with k | k
        · rw [k.1]; exact this
        · right; rw [k.1]; refine ⟨k.2.1, ?_⟩; omega
    · intro t ht
      simp only [List.mem_cons] at ht
      rcases ht with ht | ht
      · rcases key with k | k
        · rw [ht, k.1]; exact k.2
        · rw [ht, k.1]
      · have := i3 t ht
        rcases key with k | k
        · rw [k.1]; exact this
        · rw [k.1]; omega
    · exact List.mem_cons_of_mem _ i4

theorem bodyFold_inv (T0 : Int) (vs : List Visit) (s s2 : ColType)
    (h : vs.foldlM bodyVisit s = some s2)
    (i1 : upwardHistory (s.shared :: s.older))
    (i2 : ∀ x ∈ s.shared :: s.older,
      s.shared = x ∨ (s.shared < 0 ∧ x.natAbs < s.shared.natAbs))
    (i3 : ∀ t ∈ s.used, t.natAbs ≤ s.shared.natAbs)
    (i4 : T0 ∈ s.shared :: s.older) :
    upwardHistory (s2.shared :: s2.older) ∧
    (∀ x ∈ s2.shared :: s2.older,
      s2.shared = x ∨ (s2.shared < 0 ∧ x.natAbs < s2.shared.natAbs)) ∧
    (∀ t ∈ s2.used, t.natAbs ≤ s2.shared.natAbs) ∧
    T0 ∈ s2.shared :: s2.older := by
  induction vs generalizing s with
  | nil =>
    simp only [List.foldlM_nil, pure, Option.some.injEq] at h
    subst h
    exact ⟨i1, i2, i3, i4⟩
  | cons v vs ih =>
    rw [List.foldlM_cons] at h
    cases hv : bodyVisit s v with
    | none => rw [hv] at h; simp [bind] at h
    | some s1 =>
      rw [hv] at h
      simp only [bind, Option.bind] at h
      obtain ⟨j1, j2, j3, j4⟩ := bodyVisit_inv T0 s s1 v hv i1 i2 i3 i4
      exact ih s1 h j1 j2 j3 j4

/-- C18: a column's recorded type never moves downward.  During sampling one round of the
retry loop leaves every type entry as it is or raises one entry that lies below `CT_STRING`
by one, so no entry exceeds `CT_STRING`.  During the body read, whatever the order in
which the workers reach the critical section and however stale their fetch of the shared
type is, the shared type is only ever replaced by a negative type of strictly larger
magnitude, and the magnitude of the final type is at least the magnitude of the type the
column started the body read with and of the type of every scanner that read one of the
column's fields.  The retry loop of the body read ends within seven rounds. -/
theorem types_never_move_down :
    (∀ (s s2 : Sampler),
      (sampleStep s = SampleStep.again s2 ∨ sampleStep s = SampleStep.done s2) →
      ∀ j, s2.type.getD j 0 = s.type.getD j 0 ∨
        (s.type.getD j 0 < CT_STRING ∧ s2.type.getD j 0 = s.type.getD j 0 + 1)) ∧
    (∀ (T0 : Int) (vs : List Visit) (s : ColType), bodyVisits T0 vs = some s →
      upwardHistory (s.shared :: s.older) ∧
      (∀ t ∈ s.used, t.natAbs ≤ s.shared.natAbs) ∧
      T0.natAbs ≤ s.shared.natAbs) ∧
    (∀ (c : Ctx) (fieldStart : Nat) (t : Int) (tgt : Bool),
      bodyRetry c fieldStart 7 t tgt ≠ Retry.fuel) := by
  refine ⟨sampleStep_types, ?_, ?_⟩
  · intro T0 vs s h
    obtain ⟨j1, j2, j3, j4⟩ := bodyFold_inv T0 vs ⟨T0, [], []⟩ s h
      (by simp [upwardHistory]) (by simp) (by simp) (by simp)
    refine ⟨j1, j3, ?_⟩
    rcases j2 T0 j4 with e | e
    · rw [e]
    · omega
  · intro c fieldStart t tgt
    exact (bodyRetry_spec c fieldStart 6 t tgt (by omega)).1

/-- C18, an instance: a column of type `CT_INT32` whose field `1.5` is read by one worker
and whose field `7` is read by a worker that fetched the type before the first one's
critical section: the shared type goes from 2 to -4 and stays there. -/
theorem types_never_move_down_witness :
    bodyVisits 2 [⟨csv [49, 46, 53, 44], 0, 0⟩, ⟨csv [55, 44], 0, 1⟩]
      = some ⟨-4, [-4, 2], [2, -4]⟩ ∧
    upwardHistory [-4, -4, 2] :=
  ⟨by decide,
    (types_never_move_down.2.1 2 [⟨csv [49, 46, 53, 44], 0, 0⟩, ⟨csv [55, 44], 0, 1⟩]
      ⟨-4, [-4, 2], [2, -4]⟩ (by decide)).1⟩

/-! ## C15 and C16: the detector's choice -/

theorem aget_eq (a : List Int) (j : Nat) :
    aget a (j : Int) = if h : j < a.length then some a[j] else none := by
  unfold aget
  by_cases h : j < a.length
  · have h2 : (0 : Int) ≤ (j : Int) ∧ (j : Int) < (a.length : Int) := ⟨by omega, by omega⟩
    rw [if_pos h2, dif_pos h]
    simp [List.getD_eq_getElem?_getD, List.getElem?_eq_getElem h]
  · have h2 : ¬ ((0 : Int) ≤ (j : Int) ∧ (j : Int) < (a.length : Int)) := by omega
    rw [if_neg h2, dif_neg h]

/-- The scoring loop is the fold of `scoreStep` over the runs it visits. -/
theorem scoreRuns_fold (sep quoteRule ch : Nat) (nf nl : List Int) (hlen : nf.length = nl.length)
    (n j : Nat) (nmax : Int) (top T : Top)
    (h : scoreRuns sep quoteRule ch nf nl n ((j : Int) - 1) nmax top = some T) :
    T = ((((nf.zip nl).drop j).takeWhile (fun p => p.2 ≠ 0)).foldl
          (scoreStep sep quoteRule ch) (nmax, top)).2 := by
  induction n generalizing j nmax top with
  | zero => simp [scoreRuns] at h
  | succ n ih =>
    unfold scoreRuns at h
    rw [show (j : Int) - 1 + 1 = (j : Int) by omega] at h
    rw [aget_eq, aget_eq] at h
    by_cases hj : j < nl.length
    · have hj2 : j < nf.length := by omega
      have hz : j < (nf.zip nl).length := by simp; omega
      rw [dif_pos hj, dif_pos hj2] at h
      simp only at h
      rw [List.drop_eq_getElem_cons hz]
      have hget : (nf.zip nl)[j] = (nf[j], nl[j]) := by simp
      rw [hget]
      by_cases hl : nl[j] = 0
      · rw [if_pos hl] at h
        simp only [Option.some.injEq] at h
        rw [List.takeWhile_cons]
        simp [hl, h]
      · rw [if_neg hl] at h
        rw [List.takeWhile_cons]
        simp only [ne_eq, hl, not_false_eq_true, decide_True, if_true, List.foldl_cons]
        have := ih (j + 1) _ _ (by rw [show ((j + 1 : Nat) : Int) - 1 = (j : Int) by omega]; exact h)
        rw [this]
        rfl
    · rw [dif_neg hj] at h
      simp at h

theorem dominated_mono (s r : Nat) (runs : List (Int × Int)) (sep : Nat) (run : Int × Int)
    (top0 top1 : Top) (ha : advanced s r runs top0 top1) (hd : dominated sep run top0) :
    dominated sep run top1 := by
  unfold dominated at hd ⊢
  rcases ha with rfl | ⟨_, _, _, _, h⟩
  · exact hd
  · omega

/-- The scoring of one candidate: the best so far stays or is replaced through one of the
candidate's runs, and afterwards none of the candidate's runs of more than one field
beats it. -/
theorem scoreFold_spec (s r ch : Nat) (runs : List (Int × Int)) (nmax : Int) (top0 : Top) :
    advanced s r runs top0 (runs.foldl (scoreStep s r ch) (nmax, top0)).2 ∧
    ∀ run ∈ runs, run.1 > 1 →
      dominated s run (runs.foldl (scoreStep s r ch) (nmax, top0)).2 := by
  induction runs generalizing nmax top0 with
  | nil => exact ⟨Or.inl rfl, fun run h => by simp at h⟩
  | cons run rest ih =>
    rw [List.foldl_cons]
    obtain ⟨f, l⟩ := run
    -- the step on the first run
    have hstep : advanced s r [(f, l)] top0 (scoreStep s r ch (nmax, top0) (f, l)).2 ∧
        (f > 1 → dominated s (f, l) (scoreStep s r ch (nmax, top0) (f, l)).2) := by
      unfold scoreStep
      simp only
      by_cases hb : beats s f l top0
      · rw [if_pos hb]
        unfold beats at hb
        refine ⟨Or.inr ⟨rfl, rfl, by simp, hb.1, ?_⟩, fun _ => ?_⟩
        · simp only; omega
        · unfold dominated; simp
      · rw [if_neg hb]
        refine ⟨Or.inl rfl, fun hf => ?_⟩
        unfold beats at hb
        unfold dominated
        simp only
        omega
    generalize scoreStep s r ch (nmax, top0) (f, l) = mid at hstep
    obtain ⟨m1, m2⟩ := mid
    simp only at hstep
    obtain ⟨i1, i2⟩ := ih m1 m2
    generalize (List.foldl (scoreStep s r ch) (m1, m2) rest).2 = top1 at i1 i2
    refine ⟨?_, ?_⟩
    · rcases hstep.1 with e | ⟨a1, a2, a3, a4, a5⟩
      · subst e
        rcases i1 with e | ⟨b1, b2, b3, b4, b5⟩
        · left; exact e
        · right; exact ⟨b1, b2, List.mem_cons_of_mem _ b3, b4, b5⟩
      · rcases i1 with e | ⟨b1, b2, b3, b4, b5⟩
        · subst e
          right
          refine ⟨a1, a2, ?_, a4, a5⟩
          simp only [List.mem_singleton] at a3
          rw [a3]; exact List.mem_cons_self _ _
        · right
          refine ⟨b1, b2, List.mem_cons_of_mem _ b3, b4, ?_⟩
          omega
    · intro run hrun hf
      simp only [List.mem_cons] at hrun
      rcases hrun with e | hrun
      · subst e
        exact dominated_mono s r rest s _ m2 top1 i1 (hstep.2 hf)
      · exact i2 run hrun hf

theorem aset_length (a b : List Int) (i v : Int) (h : aset a i v = some b) :
    b.length = a.length := by
  unfold aset at h
  split at h
  · simp only [Option.some.injEq] at h
    subst h; simp
  · simp at h

theorem countRuns_len (c : Ctx) (n : Nat) (s s2 : Runs) (h : countRuns c n s = some s2)
    (hl : s.numFields.length = s.numLines.length) :
    s2.numFields.length = s2.numLines.length := by
  induction n generalizing s with
  | zero => simp only [countRuns, Option.some.injEq] at h; subst h; exact hl
  | succ n ih =>
    unfold countRuns at h
    simp only at h
    split at h
    · split at h
      · cases ha : aset s.numFields 0 (-1) with
        | none => rw [ha] at h; simp at h
        | some nf =>
          rw [ha] at h
          simp only [Option.map_some', Option.some.injEq] at h
          subst h
          simp only
          rw [aset_length _ _ _ _ ha]; exact hl
      · split at h
        · simp at h
        · rename_i nf hnf
          split at h
          · simp at h
          · split at h
            · simp at h
            · rename_i l hl1 nl hnl
              refine ih _ h ?_
              simp only
              rw [aset_length _ _ _ _ hnl]
              split at hnf
              · rw [aset_length _ _ _ _ hnf]; exact hl
              · simp only [Option.some.injEq] at hnf
                subst hnf; exact hl
    · simp only [Option.some.injEq] at h; subst h; exact hl

/-- What one candidate does to the best so far: nothing when a line does not parse,
otherwise the fold of `scoreStep` over its runs. -/
theorem tryCandidate_spec (c : Ctx) (pos : Nat) (top T : Top) (sr : Nat × Nat)
    (h : tryCandidate c pos top sr = some T) :
    (candRuns c pos sr = none ∧ T = top) ∨
    ∃ runs ch, candRuns c pos sr = some runs ∧
      T = (runs.foldl (scoreStep sr.1 sr.2 ch) (0, top)).2 := by
  unfold tryCandidate at h
  unfold candRuns
  cases hc : candidateRuns c pos sr.1 sr.2 with
  | none => rw [hc] at h; simp at h
  | some s =>
    rw [hc] at h
    simp only at h ⊢
    have hlen : s.numFields.length = s.numLines.length := by
      unfold candidateRuns at hc
      exact countRuns_len _ _ _ _ hc (by simp)
    split at h
    · rename_i h1
      simp only [Option.some.injEq] at h
      left
      rw [if_pos h1]
      exact ⟨rfl, h.symm⟩
    · rename_i h1
      right
      rw [if_neg h1]
      refine ⟨_, s.ch, rfl, ?_⟩
      have := scoreRuns_fold sr.1 sr.2 s.ch s.numFields s.numLines hlen (JUMPLINES + 2) 0 0 top T
        (by simpa using h)
      rw [this]
      simp [runsOf]

theorem detectInv_step (c : Ctx) (pos : Nat) (cs : List (Nat × Nat)) (top0 T : Top)
    (sr : Nat × Nat) (inv : detectInv c pos cs top0)
    (h : tryCandidate c pos top0 sr = some T) : detectInv c pos (cs ++ [sr]) T := by
  obtain ⟨ia, ib⟩ := inv
  rcases tryCandidate_spec c pos top0 T sr h with ⟨hn, rfl⟩ | ⟨runs, ch, hr, hT⟩
  · refine ⟨?_, ?_⟩
    · intro sr2 hm runs2 hr2 run hrun hf
      simp only [List.mem_append, List.mem_singleton] at hm
      rcases hm with hm | rfl
      · exact ia sr2 hm runs2 hr2 run hrun hf
      · rw [hn] at hr2; simp at hr2
    · rcases ib with e | ⟨pre, post, runs, h1, h2, h3, h4, h5⟩
      · left; exact e
      · right
        exact ⟨pre, post ++ [sr], runs, by rw [h1]; simp, h2, h3, h4, h5⟩
  · obtain ⟨adv, dom⟩ := scoreFold_spec sr.1 sr.2 ch runs 0 top0
    rw [← hT] at adv dom
    refine ⟨?_, ?_⟩
    · intro sr2 hm runs2 hr2 run hrun hf
      simp only [List.mem_append, List.mem_singleton] at hm
      rcases hm with hm | rfl
      · exact dominated_mono sr.1 sr.2 runs sr2.1 run top0 T adv
          (ia sr2 hm runs2 hr2 run hrun hf)
      · rw [hr] at hr2
        simp only [Option.some.injEq] at hr2
        subst hr2
        exact dom run hrun hf
    · rcases adv with e | ⟨a1, a2, a3, a4, a5⟩
      · rw [e]
        rcases ib with e2 | ⟨pre, post, runs0, h1, h2, h3, h4, h5⟩
        · left; exact e2
        · right
          exact ⟨pre, post ++ [sr], runs0, by rw [h1]; simp, h2, h3, h4, h5⟩
      · right
        have hsr : (T.topSep, T.topQuoteRule) = sr := by rw [a1, a2]
        refine ⟨cs, [], runs, by rw [hsr], by rw [hsr]; exact hr, a3, a4, ?_⟩
        intro sr2 hm runs2 hr2 run hrun hf
        have hd := ia sr2 hm runs2 hr2 run hrun hf
        unfold dominated at hd
        unfold strictlyWorse
        rw [a1]
        omega

theorem detectInv_fold (c : Ctx) (pos : Nat) (todo cs : List (Nat × Nat)) (top0 T : Top)
    (inv : detectInv c pos cs top0)
    (h : todo.foldlM (tryCandidate c pos) top0 = some T) : detectInv c pos (cs ++ todo) T := by
  induction todo generalizing cs top0 with
  | nil =>
    simp only [List.foldlM_nil, pure, Option.some.injEq] at h
    subst h
    simpa using inv
  | cons sr todo ih =>
    rw [List.foldlM_cons] at h
    cases hv : tryCandidate c pos top0 sr with
    | none => rw [hv] at h; simp [bind] at h
    | some t1 =>
      rw [hv] at h
      simp only [bind, Option.bind] at h
      have := ih (cs ++ [sr]) t1 (detectInv_step c pos cs top0 t1 sr inv hv) h
      simpa using this

/-- The invariant holds of what the detector returns, for all the candidates. -/
theorem detectTop_inv (c : Ctx) (pos : Nat) (seps : List Nat) (T : Top)
    (h : detectTop c pos seps = some T) : detectInv c pos (candidates seps) T := by
  have := detectInv_fold c pos (candidates seps) [] ⟨0, 1, 0, c.eol, 0, c.eof⟩ T
    ⟨fun sr hm => by simp at hm, Or.inl rfl⟩ h
  simpa using this

/-- C15 (amended): when the detector returns, no run of more than one field of any
candidate that parses the sample beats the selected run: such a run has fewer lines than
`topNumLines`, or as many lines and no more fields than `topNumFields`, or as many lines
and a space as separator (a space-separated run never wins a tie on the field count).
Runs of one field never compete.  Either no run was selected (one column, `sep = eol`,
rule 0), or the selected `(sep, quote rule)` is a candidate that owns a run of
`topNumFields` fields over `topNumLines` lines, and every run of more than one field of a
candidate tried before it is strictly worse: fewer lines, or as many lines while the
selected separator is not a space and the run has fewer fields or is space-separated. -/
theorem detector_selects_best_run (c : Ctx) (pos : Nat) (seps : List Nat) (T : Top)
    (h : detectTop c pos seps = some T) :
    (∀ sr ∈ candidates seps, ∀ runs, candRuns c pos sr = some runs →
      ∀ run ∈ runs, run.1 > 1 → dominated sr.1 run T) ∧
    (T = ⟨0, 1, 0, c.eol, 0, c.eof⟩ ∨
      ∃ pre post runs, candidates seps = pre ++ (T.topSep, T.topQuoteRule) :: post ∧
        candRuns c pos (T.topSep, T.topQuoteRule) = some runs ∧
        (T.topNumFields, T.topNumLines) ∈ runs ∧ T.topNumFields > 1 ∧
        ∀ sr ∈ pre, ∀ runs2, candRuns c pos sr = some runs2 →
          ∀ run ∈ runs2, run.1 > 1 → strictlyWorse sr.1 run T) :=
  detectTop_inv c pos seps T h

/-- C15, an instance: on `a,b,c\n1,2,3\n4,5,6\n` the detector selects the comma with rule
0 through its run of 3 fields over 3 lines, which no run of another candidate beats. -/
theorem detector_selects_best_run_witness :
    detectTop (csv [97, 44, 98, 44, 99, 10, 49, 44, 50, 44, 51, 10, 52, 44, 53, 44, 54, 10]) 0
      autoSeps = some ⟨3, 3, 3, 44, 0, 18⟩ ∧
    ∀ sr ∈ candidates autoSeps, ∀ runs,
      candRuns (csv [97, 44, 98, 44, 99, 10, 49, 44, 50, 44, 51, 10, 52, 44, 53, 44, 54, 10]) 0
        sr = some runs →
      ∀ run ∈ runs, run.1 > 1 → dominated sr.1 run ⟨3, 3, 3, 44, 0, 18⟩ :=
  ⟨by decide,
    (detector_selects_best_run
      (csv [97, 44, 98, 44, 99, 10, 49, 44, 50, 44, 51, 10, 52, 44, 53, 44, 54, 10]) 0 autoSeps
      ⟨3, 3, 3, 44, 0, 18⟩ (by decide)).1⟩

/-- C15 as stated fails in two ways, in the comma dialect.  On `a,b c d\na,b c d\n` the
longest runs of the comma and of the space are equally long (2 lines) and the space has
the larger field count (3 against 2), yet the comma is selected.  On `a,b\nc\nd\ne\n` the
selected comma has runs of 1 and 3 lines while the candidate `|` has a run of 4 lines (of
one field). -/
theorem detector_selects_best_run_counterexample :
    (detectTop (csv [97, 44, 98, 32, 99, 32, 100, 10, 97, 44, 98, 32, 99, 32, 100, 10]) 0
        autoSeps = some ⟨2, 2, 2, 44, 0, 16⟩ ∧
      candRuns (csv [97, 44, 98, 32, 99, 32, 100, 10, 97, 44, 98, 32, 99, 32, 100, 10]) 0
        (44, 0) = some [(2, 2)] ∧
      candRuns (csv [97, 44, 98, 32, 99, 32, 100, 10, 97, 44, 98, 32, 99, 32, 100, 10]) 0
        (32, 0) = some [(3, 2)]) ∧
    (detectTop (csv [97, 44, 98, 10, 99, 10, 100, 10, 101, 10]) 0 autoSeps
        = some ⟨1, 2, 2, 44, 0, 10⟩ ∧
      candRuns (csv [97, 44, 98, 10, 99, 10, 100, 10, 101, 10]) 0 (44, 0)
        = some [(2, 1), (1, 3)] ∧
      candRuns (csv [97, 44, 98, 10, 99, 10, 100, 10, 101, 10]) 0 (124, 0)
        = some [(1, 4)]) := by
  decide

theorem candidates_cons (s : Nat) (rest : List Nat) :
    candidates (s :: rest) = (s, 0) :: (s, 1) :: (s, 2) :: (s, 3) :: candidates rest := by
  simp [candidates]

/-- The candidate in place `k`: the separator in place `k / 4` with quote rule `k % 4`. -/
theorem candidates_get (seps : List Nat) (k : Nat) :
    (candidates seps)[k]? = (seps[k / 4]?).map (fun s => (s, k % 4)) := by
  induction seps generalizing k with
  | nil => simp [candidates]
  | cons s rest ih =>
    rw [candidates_cons]
    match k with
    | 0 => simp
    | 1 => simp
    | 2 => simp
    | 3 => simp
    | m + 4 =>
      simp only [List.getElem?_cons_succ]
      rw [ih m]
      have h1 : (m + 4) / 4 = m / 4 + 1 := by omega
      have h2 : (m + 4) % 4 = m % 4 := by omega
      rw [h1, h2]
      simp

/-- In the order of the candidates, `(s, r2)` with `r2 < r` comes before any place where
`(s, r)` stands. -/
theorem stricter_before (seps : List Nat) (pre post : List (Nat × Nat)) (s r r2 : Nat)
    (h : candidates seps = pre ++ (s, r) :: post) (hr : r2 < r) : (s, r2) ∈ pre := by
  have hw : (candidates seps)[pre.length]? = some (s, r) := by
    rw [h, List.getElem?_append_right (Nat.le_refl _)]; simp
  rw [candidates_get] at hw
  cases hs : seps[pre.length / 4]? with
  | none => rw [hs] at hw; simp at hw
  | some s0 =>
    rw [hs] at hw
    simp only [Option.map_some', Option.some.injEq, Prod.mk.injEq] at hw
    obtain ⟨rfl, hmod⟩ := hw
    have hk : (candidates seps)[pre.length - r + r2]? = some (s0, r2) := by
      rw [candidates_get]
      have h1 : (pre.length - r + r2) / 4 = pre.length / 4 := by omega
      have h2 : (pre.length - r + r2) % 4 = r2 := by omega
      rw [h1, h2, hs]
      simp
    rw [h, List.getElem?_append_left (by omega)] at hk
    exact List.getElem?_mem hk

theorem aget_set_ne (a b : List Int) (i v : Int) (h : aset a i v = some b) (hv : v ≠ -1)
    (h0 : aget a 0 ≠ some (-1)) : aget b 0 ≠ some (-1) := by
  unfold aset at h
  split at h
  · rename_i hi
    simp only [Option.some.injEq] at h
    subst h
    unfold aget at h0 ⊢
    simp only [List.length_set]
    by_cases hl : (0 : Int) ≤ 0 ∧ (0 : Int) < (a.length : Int)
    · rw [if_pos hl] at h0 ⊢
      simp only [Int.toNat_zero, ne_eq, Option.some.injEq] at h0 ⊢
      by_cases hz : i.toNat = 0
      · rw [hz]
        have : 0 < a.length := by omega
        simp [List.getD_eq_getElem?_getD, List.getElem?_set, this, hv]
      · have : (a.set i.toNat v).getD 0 0 = a.getD 0 0 := by
          simp [List.getD_eq_getElem?_getD, List.getElem?_set, hz]
        rw [this]; exact h0
    · rw [if_neg hl]; simp
  · simp at h

/-- The start of the line `k + 1` after `p` is the start of the line `k` after the end of
the line at `p`. -/
theorem rowStart_succ (c : Ctx) (p k : Nat) :
    rowStart c p (k + 1) = rowStart c (countfields c p).2 k := by
  induction k with
  | zero => rfl
  | succ k ih =>
    rw [rowStart, ih]
    rfl

/-- When the counting loop leaves the mark -1 in `numFields[0]`, `countfields` returned -1
on a line of the sample: on the line `k` after the start of the loop, the lines before it
having been counted. -/
theorem countRuns_mark_line (c : Ctx) (n : Nat) (s s2 : Runs) (h : countRuns c n s = some s2)
    (h0 : aget s.numFields 0 ≠ some (-1)) (hm : aget s2.numFields 0 = some (-1)) :
    ∃ k, k < n ∧ rowStart c s.ch k < c.eof ∧
      (∀ i, i < k → rowStart c s.ch i < c.eof ∧ 0 ≤ (countfields c (rowStart c s.ch i)).1) ∧
      (countfields c (rowStart c s.ch k)).1 < 0 := by
  induction n generalizing s with
  | zero =>
    simp only [countRuns, Option.some.injEq] at h
    subst h; exact absurd hm h0
  | succ n ih =>
    unfold countRuns at h
    simp only at h
    split at h
    · rename_i hlt
      split at h
      · rename_i hneg
        exact ⟨0, by omega, hlt, fun i hi => absurd hi (by omega), hneg⟩
      · rename_i hpos
        split at h
        · simp at h
        · rename_i nf hnf
          split at h
          · simp at h
          · split at h
            · simp at h
            · obtain ⟨k, k1, k2, k3, k4⟩ := ih _ h (by
                simp only
                split at hnf
                · exact aget_set_ne _ _ _ _ hnf (by omega) h0
                · simp only [Option.some.injEq] at hnf
                  subst hnf; exact h0)
              simp only at k2 k3 k4
              refine ⟨k + 1, by omega, ?_, ?_, ?_⟩
              · rw [rowStart_succ]; exact k2
              · intro i hi
                cases i with
                | zero => exact ⟨hlt, by simpa using hpos⟩
                | succ i =>
                  rw [rowStart_succ]
                  exact k3 i (by omega)
              · rw [rowStart_succ]; exact k4
    · simp only [Option.some.injEq] at h
      subst h; exact absurd hm h0

/-- C16 (amended): if the detector selects quote rule `r` for its separator `s`, then for
every stricter rule `r2 < r` either `countfields` returns -1 on a line of the sample under
`(s, r2)` (on one of the 101 lines counted from `pos`, the lines before it being counted
without failure), or every run of more than one field of `(s, r2)` is strictly worse than
the selected run: it has fewer lines, or as many lines and fewer fields. -/
theorem stricter_rule_loses (c : Ctx) (pos : Nat) (seps : List Nat) (T : Top)
    (h : detectTop c pos seps = some T) (r2 : Nat) (hr : r2 < T.topQuoteRule) :
    (∃ k, k ≤ JUMPLINES ∧
      rowStart { c with sep := T.topSep, quoteRule := r2 } pos k < c.eof ∧
      (∀ i, i < k → rowStart { c with sep := T.topSep, quoteRule := r2 } pos i < c.eof ∧
        0 ≤ (countfields { c with sep := T.topSep, quoteRule := r2 }
          (rowStart { c with sep := T.topSep, quoteRule := r2 } pos i)).1) ∧
      (countfields { c with sep := T.topSep, quoteRule := r2 }
        (rowStart { c with sep := T.topSep, quoteRule := r2 } pos k)).1 < 0) ∨
    ∃ runs, candRuns c pos (T.topSep, r2) = some runs ∧
      ∀ run ∈ runs, run.1 > 1 →
        run.2 < T.topNumLines ∨ (run.2 = T.topNumLines ∧ run.1 < T.topNumFields) := by
  obtain ⟨_, ib⟩ := detectTop_inv c pos seps T h
  rcases ib with e | ⟨pre, post, runs, h1, h2, h3, h4, h5⟩
  · rw [e] at hr; simp at hr
  · have hmem := stricter_before seps pre post T.topSep T.topQuoteRule r2 h1 hr
    -- the candidate `(s, r2)` was tried: its counting loop returned
    have hfold : ∀ (todo : List (Nat × Nat)) (t0 : Top),
        todo.foldlM (tryCandidate c pos) t0 = some T → ∀ sr ∈ todo,
          ∃ s, candidateRuns c pos sr.1 sr.2 = some s := by
      intro todo
      induction todo with
      | nil => intro t0 _ sr hsr; simp at hsr
      | cons a todo ih =>
        intro t0 hf sr hsr
        rw [List.foldlM_cons] at hf
        cases hv : tryCandidate c pos t0 a with
        | none => rw [hv] at hf; simp [bind] at hf
        | some t1 =>
          rw [hv] at hf
          simp only [bind, Option.bind] at hf
          simp only [List.mem_cons] at hsr
          rcases hsr with rfl | hsr
          · unfold tryCandidate at hv
            cases hc : candidateRuns c pos sr.1 sr.2 with
            | none => rw [hc] at hv; simp at hv
            | some s => exact ⟨s, rfl⟩
          · exact ih t1 hf sr hsr
    obtain ⟨s, hs⟩ := hfold (candidates seps) _ h (T.topSep, r2)
      (by rw [h1]; exact List.mem_append_left _ hmem)
    by_cases hmark : aget s.numFields 0 = some (-1)
    · left
      unfold candidateRuns at hs
      have h0 : aget (List.replicate (JUMPLINES + 1) 0) 0 ≠ some (-1) := by decide
      obtain ⟨k, k1, k2, k3, k4⟩ := countRuns_mark_line _ _ _ _ hs h0 hmark
      exact ⟨k, by omega, k2, k3, k4⟩
    · right
      have hc : candRuns c pos (T.topSep, r2) = some (runsOf s.numFields s.numLines) := by
        unfold candRuns
        simp only [hs, hmark, if_false]
      refine ⟨_, hc, ?_⟩
      intro run hrun hf
      have := h5 (T.topSep, r2) hmem _ hc run hrun hf
      unfold strictlyWorse at this
      simp only at this
      omega

/-- C16, an instance: on two lines `"a"b",c` the detector selects the comma with quote
rule 2 (2 fields on 2 lines); under the stricter rule 0, `countfields` returns -1 on the
first line of the sample. -/
theorem stricter_rule_loses_witness :
    detectTop (csv [34, 97, 34, 98, 34, 44, 99, 10, 34, 97, 34, 98, 34, 44, 99, 10]) 0
      autoSeps = some ⟨2, 2, 2, 44, 2, 16⟩ ∧
    ((∃ k, k ≤ JUMPLINES ∧
      rowStart { csv [34, 97, 34, 98, 34, 44, 99, 10, 34, 97, 34, 98, 34, 44, 99, 10] with
        sep := 44, quoteRule := 0 } 0 k < 16 ∧
      (∀ i, i < k → rowStart { csv [34, 97, 34, 98, 34, 44, 99, 10, 34, 97, 34, 98, 34, 44, 99, 10]
          with sep := 44, quoteRule := 0 } 0 i < 16 ∧
        0 ≤ (countfields { csv [34, 97, 34, 98, 34, 44, 99, 10, 34, 97, 34, 98, 34, 44, 99, 10]
            with sep := 44, quoteRule := 0 }
          (rowStart { csv [34, 97, 34, 98, 34, 44, 99, 10, 34, 97, 34, 98, 34, 44, 99, 10]
            with sep := 44, quoteRule := 0 } 0 i)).1) ∧
      (countfields { csv [34, 97, 34, 98, 34, 44, 99, 10, 34, 97, 34, 98, 34, 44, 99, 10] with
        sep := 44, quoteRule := 0 }
        (rowStart { csv [34, 97, 34, 98, 34, 44, 99, 10, 34, 97, 34, 98, 34, 44, 99, 10] with
          sep := 44, quoteRule := 0 } 0 k)).1 < 0) ∨
      ∃ runs, candRuns (csv [34, 97, 34, 98, 34, 44, 99, 10, 34, 97, 34, 98, 34, 44, 99, 10]) 0
          (44, 0) = some runs ∧
        ∀ run ∈ runs, run.1 > 1 → run.2 < 2 ∨ (run.2 = 2 ∧ run.1 < 2)) ∧
    (countfields { csv [34, 97, 34, 98, 34, 44, 99, 10, 34, 97, 34, 98, 34, 44, 99, 10] with
      sep := 44, quoteRule := 0 } 0).1 = -1 :=
  ⟨by decide,
    stricter_rule_loses (csv [34, 97, 34, 98, 34, 44, 99, 10, 34, 97, 34, 98, 34, 44, 99, 10]) 0
      autoSeps ⟨2, 2, 2, 44, 2, 16⟩ (by decide) 0 (by decide),
    by decide⟩

/-- C16 as stated fails.  On two lines `"a"",b",c` rule 0 parses every line under the
comma (2 fields over 2 lines), yet the detector selects rule 2 for the comma, whose 3
fields over 2 lines win the tie on the field count.  On `s\n"he said ""hi"""\n` rule 0
parses every line under the space (2 lines of 1 field), yet the detector selects the space
with rule 3, under which the second line splits into 3 fields. -/
theorem stricter_rule_loses_counterexample :
    (candRuns (csv [34, 97, 34, 34, 44, 98, 34, 44, 99, 10,
        34, 97, 34, 34, 44, 98, 34, 44, 99, 10]) 0 (44, 0) = some [(2, 2)] ∧
      detectTop (csv [34, 97, 34, 34, 44, 98, 34, 44, 99, 10,
        34, 97, 34, 34, 44, 98, 34, 44, 99, 10]) 0 autoSeps = some ⟨2, 3, 3, 44, 2, 20⟩) ∧
    (candRuns (csv [115, 10, 34, 104, 101, 32, 115, 97, 105, 100, 32, 34, 34, 104, 105, 34,
        34, 34, 10]) 0 (32, 0) = some [(1, 2)] ∧
      detectTop (csv [115, 10, 34, 104, 101, 32, 115, 97, 105, 100, 32, 34, 34, 104, 105, 34,
        34, 34, 10]) 0 autoSeps = some ⟨1, 3, 3, 32, 3, 19⟩) := by
  decide

/-! ## C17 -/

/-- The flag `allchar` after the loop over the fields of the first row: it stays set
exactly when every field is empty after its leading blanks or is rejected by `StrtoD`. -/
theorem headerScan_allchar (c : Ctx) (n start : Nat) (ac : Bool) :
    (headerScan c n start ac).1 = (ac && (fieldStarts c n start).all (emptyOrNotFloat c)) := by
  induction n generalizing start ac with
  | zero => simp [headerScan, fieldStarts]
  | succ n ih =>
    unfold headerScan fieldStarts
    simp only [List.all_cons]
    rw [ih]
    unfold emptyOrNotFloat
    cases ac <;> cases (on_sep c (skip_white c start)).1 <;>
      cases (StrtoD c (on_sep c (skip_white c start)).2 false).ok <;> simp

/-- C17 as stated fails: on `a,,c\n1,2,3\n` in the comma dialect `StrtoD` returns success
on the empty second field of the first row (at offset 2), yet with header = auto the row
is treated as the header. -/
theorem header_iff_no_float_field_counterexample :
    fieldStarts (csv [97, 44, 44, 99, 10, 49, 44, 50, 44, 51, 10]) 3 0 = [0, 2, 3] ∧
    (StrtoD (csv [97, 44, 44, 99, 10, 49, 44, 50, 44, 51, 10]) 2 false).ok = true ∧
    headerResolve (csv [97, 44, 44, 99, 10, 49, 44, 50, 44, 51, 10]) 0 0 3 3 none 0
      = HeaderResult.header [⟨1, 0⟩, ⟨0, 2⟩, ⟨1, 3⟩] 5 := by
  decide

/-! ## C20: scanners stay inside the field -/

/-- A byte that is neither `sep` nor `eol` lies before the terminator at `e`. -/
theorem byte_step (c : Ctx) (e ch : Nat) (hte : rd c e = c.sep ∨ rd c e = c.eol) (h : ch ≤ e)
    (h1 : rd c ch ≠ c.sep) (h2 : rd c ch ≠ c.eol) : ch + 1 ≤ e := by
  by_contra hc
  have : ch = e := by omega
  subst this
  rcases hte with h3 | h3
  · exact h1 h3
  · exact h2 h3

theorem skip_white_le (c : Ctx) (e ch : Nat) (hte : rd c e = c.sep ∨ rd c e = c.eol)
    (heol : c.eol = 10 ∨ c.eol = 13) (h : ch ≤ e) : skip_white c ch ≤ e := by
  unfold skip_white
  apply scanWhile_inv c.eof (isWhite c) (fun i => i ≤ e) _ _ h
  intro i _ hw hi
  simp only [isWhite, Bool.decide_and, Bool.and_eq_true, decide_eq_true_eq, decide_not,
    Bool.not_eq_true', decide_eq_false_iff_not] at hw
  exact byte_step c e i hte hi hw.2 (by omega)

theorem accLoop_le (c : Ctx) (e : Nat) (hte : rd c e = c.sep ∨ rd c e = c.eol)
    (heol : c.eol = 10 ∨ c.eol = 13) (hsep : ¬ (48 ≤ c.sep ∧ c.sep ≤ 57))
    (limit n ch acc : Nat) (h : ch ≤ e) : (accLoop c limit n ch acc).1 ≤ e := by
  by_contra hc
  have hd := ((accLoop_digits c limit n ch acc).2 e h (by omega)).2
  simp only [isDigit, Bool.decide_and, Bool.and_eq_true, decide_eq_true_eq] at hd
  rcases hte with h3 | h3
  · rw [h3] at hd; exact hsep hd
  · rw [h3] at hd; omega

theorem scanDigits_le (c : Ctx) (e : Nat) (hte : rd c e = c.sep ∨ rd c e = c.eol)
    (heol : c.eol = 10 ∨ c.eol = 13) (hsep : ¬ (48 ≤ c.sep ∧ c.sep ≤ 57))
    (n ch : Nat) (h : ch ≤ e) : scanWhile c.eof (isDigit c) n ch ≤ e := by
  by_contra hc
  have hd := (scanWhile_all c.eof (isDigit c) n ch e h (by omega)).2
  simp only [isDigit, Bool.decide_and, Bool.and_eq_true, decide_eq_true_eq] at hd
  rcases hte with h3 | h3
  · rw [h3] at hd; exact hsep hd
  · rw [h3] at hd; omega

/-- With a separator other than the space, `on_sep` leaves the cursor alone. -/
theorem on_sep_plain (c : Ctx) (ch : Nat) (hs : c.sep ≠ 32) :
    on_sep c ch = (decide (ch ≥ c.eof ∨ rd c ch = c.sep ∨ rd c ch = c.eol), ch) := by
  unfold on_sep
  simp [hs]

theorem fieldEnd_le (c : Ctx) (e ch : Nat) (hte : rd c e = c.sep ∨ rd c e = c.eol)
    (h : ch ≤ e) : fieldEnd c ch ≤ e := by
  by_contra hc
  unfold fieldEnd at hc
  have hd := (scanWhile_all c.eof (notSepEol c) (c.eof - ch) ch e h (by omega)).2
  simp only [notSepEol, ne_eq, Bool.decide_and, Bool.and_eq_true, decide_eq_true_eq,
    decide_not, Bool.not_eq_true', decide_eq_false_iff_not] at hd
  rcases hte with h3 | h3
  · exact hd.1 h3
  · exact hd.2 h3

theorem next_sep_plain (c : Ctx) (ch : Nat) (hs : c.sep ≠ 32) : next_sep c ch = fieldEnd c ch := by
  unfold next_sep fieldEnd
  rw [on_sep_plain c _ hs]

theorem fieldEnd_spec (c : Ctx) (p : Nat) :
    p ≤ fieldEnd c p ∧ onTerm c (fieldEnd c p) ∧
    ∀ i, p ≤ i → i < fieldEnd c p → ¬ onTerm c i :=
  scan_notSepEol_spec c p

/-- A cursor on a terminator, between the start of a field and the end of the field, is
on the end of the field. -/
theorem lands_on_fieldEnd (c : Ctx) (p ch : Nat) (h1 : p ≤ ch) (h2 : ch ≤ fieldEnd c p)
    (h3 : onTerm c ch) : ch = fieldEnd c p := by
  by_contra hne
  exact (fieldEnd_spec c p).2.2 ch h1 (by omega) h3

/-- The closing lines of the numeric scanners move the cursor forward, not past the
terminator at `e`. -/
theorem numTail_le {α : Type} (c : Ctx) (e : Nat) (hte : rd c e = c.sep ∨ rd c e = c.eol)
    (heol : c.eol = 10 ∨ c.eol = 13) (hs : c.sep ≠ 32)
    (tgt : Bool) (start ch : Nat) (ok : Bool) (v na : α) (h : ch ≤ e) :
    ch ≤ (numTail c tgt start ch ok v na).ch ∧ (numTail c tgt start ch ok v na).ch ≤ e := by
  have h1 := skip_white_ge c ch
  have h2 := skip_white_le c e ch hte heol h
  unfold numTail
  simp only
  have hos : (if ok = true then on_sep c (skip_white c ch) else (false, skip_white c ch)).2
      = skip_white c ch := by
    split
    · rw [on_sep_plain c _ hs]
    · rfl
  generalize (if ok = true then on_sep c (skip_white c ch) else (false, skip_white c ch)) = os
    at hos
  have h3 := next_sep_ge c os.2
  have h4 : next_sep c os.2 ≤ e := by
    rw [next_sep_plain c _ hs]; exact fieldEnd_le c e _ hte (by omega)
  split
  · simp only; omega
  · split
    · simp only; omega
    · simp only; omega

/-- What `plainDialect` says of `sep`, spelled out. -/
theorem plainDialect_sep (c : Ctx) (hd : plainDialect c) :
    ¬ (48 ≤ c.sep ∧ c.sep ≤ 57) ∧ c.sep ≠ c.dec ∧ c.sep ≠ 69 ∧ c.sep ≠ 101 ∧ c.sep ≠ 43 ∧
    c.sep ≠ 45 ∧ c.sep ≠ 73 ∧ c.sep ≠ 110 ∧ c.sep ≠ 102 ∧ c.sep ≠ 78 ∧ c.sep ≠ 65 := by
  obtain ⟨_, _, _, _, _, _, hfl, _⟩ := hd
  simp only [isFloatByte, List.mem_cons, List.mem_singleton, List.mem_nil_iff, or_false,
    not_or] at hfl
  exact ⟨hfl.1, hfl.2.1, hfl.2.2.1, hfl.2.2.2.1, hfl.2.2.2.2.1, hfl.2.2.2.2.2.1,
    hfl.2.2.2.2.2.2.1, hfl.2.2.2.2.2.2.2.1, hfl.2.2.2.2.2.2.2.2.1, hfl.2.2.2.2.2.2.2.2.2.1,
    hfl.2.2.2.2.2.2.2.2.2.2⟩

/-- `StrtoI64` and `StrtoI32` move the cursor forward, not past the terminator at `e`. -/
theorem StrtoInt_between (c : Ctx) (e : Nat) (hte : rd c e = c.sep ∨ rd c e = c.eol)
    (hd : plainDialect c) (limit : Nat) (na : Int) (this : Nat) (tgt : Bool) (h : this ≤ e) :
    this ≤ (StrtoInt c limit na this tgt).ch ∧ (StrtoInt c limit na this tgt).ch ≤ e := by
  obtain ⟨hdig, _, _, _, h43, h45, _⟩ := plainDialect_sep c hd
  obtain ⟨hs32, hsq, heq, heol, _⟩ := hd
  have g1 := skip_white_ge c this
  have g2 := skip_white_le c e this hte heol h
  generalize hr : StrtoInt c limit na this tgt = r
  unfold StrtoInt at hr
  rw [on_sep_plain c _ hs32] at hr
  lift_lets at hr
  extract_lets os start quoted ch sg sign ch2 ok r0 at hr
  have hstart : start = skip_white c this := rfl
  have g3 : start ≤ ch ∧ ch ≤ e := by
    show start ≤ (if quoted = true then start + 1 else start) ∧
      (if quoted = true then start + 1 else start) ≤ e
    by_cases hq : quoted = true
    · rw [if_pos hq]
      have hq2 : start < c.eof ∧ rd c start = c.quote := by simpa [quoted] using hq
      have := byte_step c e start hte (by omega) (by rw [hq2.2]; exact fun h => hsq h.symm)
        (by rw [hq2.2]; exact fun h => heq h.symm)
      omega
    · rw [if_neg hq]; omega
  have g4 : ch ≤ ch2 ∧ ch2 ≤ e := by
    show ch ≤ (if sg = true then ch + 1 else ch) ∧ (if sg = true then ch + 1 else ch) ≤ e
    by_cases hq : sg = true
    · rw [if_pos hq]
      have hq2 : ch < c.eof ∧ (rd c ch = 45 ∨ rd c ch = 43) := by simpa [sg] using hq
      have := byte_step c e ch hte g3.2 (by omega) (by omega)
      omega
    · rw [if_neg hq]; omega
  have g5 : ch2 ≤ r0.1 := (accLoop_digits c limit (c.eof - ch2) ch2 0).1
  have g6 : r0.1 ≤ e := accLoop_le c e hte heol hdig limit _ ch2 0 g4.2
  split at hr
  · subst hr; simp only [os]; omega
  · split at hr
    · subst hr; simp only; omega
    · rename_i hnq
      subst hr
      have g7 : r0.1 ≤ (if quoted = true then r0.1 + 1 else r0.1) ∧
          (if quoted = true then r0.1 + 1 else r0.1) ≤ e := by
        by_cases hq : quoted = true
        · rw [if_pos hq]
          have hcl : r0.1 < c.eof ∧ rd c r0.1 = c.quote := by
            simp only [hq, true_and, not_or, not_le, ne_eq, Decidable.not_not] at hnq
            simpa using hnq
          have := byte_step c e r0.1 hte g6 (by rw [hcl.2]; exact fun h => hsq h.symm)
            (by rw [hcl.2]; exact fun h => heq h.symm)
          omega
        · rw [if_neg hq]; omega
      obtain ⟨a, b⟩ := numTail_le c e hte heol hs32 tgt start
        (if quoted = true then r0.1 + 1 else r0.1) ok (sign * (r0.2 : Int)) na g7.2
      omega
theorem StrtoD_mantissa_between (c : Ctx) (e : Nat) (hte : rd c e = c.sep ∨ rd c e = c.eol)
    (hd : plainDialect c) (ch : Nat) (h : ch ≤ e) :
    ch ≤ (StrtoD_mantissa c ch).1 ∧ (StrtoD_mantissa c ch).1 ≤ e := by
  obtain ⟨hdig, hsd, _⟩ := plainDialect_sep c hd
  obtain ⟨_, _, _, heol, _, hdec, _⟩ := hd
  unfold StrtoD_mantissa
  simp only
  have a1 := (accLoop_digits c ((UINT64_MAX - 10) / 10) (c.eof - ch) ch 0).1
  have a2 := accLoop_le c e hte heol hdig ((UINT64_MAX - 10) / 10) (c.eof - ch) ch 0 h
  generalize accLoop c ((UINT64_MAX - 10) / 10) (c.eof - ch) ch 0 = r1 at a1 a2 ⊢
  by_cases hD : r1.1 < c.eof ∧ rd c r1.1 = c.dec
  · simp only [hD, and_self, decide_True, if_true]
    have hb := byte_step c e r1.1 hte a2 (by rw [hD.2]; exact fun h => hsd h.symm)
      (by rw [hD.2]; omega)
    have b1 := (accLoop_digits c ((UINT64_MAX - 10) / 10) (c.eof - (r1.1 + 1)) (r1.1 + 1) r1.2).1
    have b2 := accLoop_le c e hte heol hdig ((UINT64_MAX - 10) / 10) (c.eof - (r1.1 + 1))
      (r1.1 + 1) r1.2 hb
    generalize accLoop c ((UINT64_MAX - 10) / 10) (c.eof - (r1.1 + 1)) (r1.1 + 1) r1.2 = r2
      at b1 b2 ⊢
    have c1 := scanWhile_ge c.eof (isDigit c) (c.eof - r2.1) r2.1
    have c2 := scanDigits_le c e hte heol hdig (c.eof - r2.1) r2.1 b2
    omega
  · simp only [hD, decide_False, Bool.false_eq_true, if_false]
    have b1 := (accLoop_digits c ((UINT64_MAX - 10) / 10) (c.eof - r1.1) r1.1 r1.2).1
    have b2 := accLoop_le c e hte heol hdig ((UINT64_MAX - 10) / 10) (c.eof - r1.1) r1.1 r1.2 a2
    generalize accLoop c ((UINT64_MAX - 10) / 10) (c.eof - r1.1) r1.1 r1.2 = r2 at b1 b2 ⊢
    have c1 := scanWhile_ge c.eof (isDigit c) (c.eof - r2.1) r2.1
    have c2 := scanDigits_le c e hte heol hdig (c.eof - r2.1) r2.1 b2
    omega

theorem StrtoD_num_between (c : Ctx) (e : Nat) (hte : rd c e = c.sep ∨ rd c e = c.eol)
    (hd : plainDialect c) (ch : Nat) (h : ch ≤ e) :
    ch ≤ (StrtoD_num c ch).1 ∧ (StrtoD_num c ch).1 ≤ e := by
  obtain ⟨m1, m2⟩ := StrtoD_mantissa_between c e hte hd ch h
  obtain ⟨hdig, _, h69, h101, h43, h45, _⟩ := plainDialect_sep c hd
  obtain ⟨_, _, _, heol, _⟩ := hd
  unfold StrtoD_num
  simp only
  generalize StrtoD_mantissa c ch = m at m1 m2 ⊢
  by_cases hE : m.1 < c.eof ∧ (rd c m.1 = 69 ∨ rd c m.1 = 101)
  · rw [if_pos hE]
    simp only
    have hb := byte_step c e m.1 hte m2 (by omega) (by omega)
    have hsg : m.1 + 1 ≤ (if decide (m.1 + 1 < c.eof ∧ (rd c (m.1 + 1) = 45 ∨ rd c (m.1 + 1) = 43))
          = true then m.1 + 1 + 1 else m.1 + 1) ∧
        (if decide (m.1 + 1 < c.eof ∧ (rd c (m.1 + 1) = 45 ∨ rd c (m.1 + 1) = 43)) = true
          then m.1 + 1 + 1 else m.1 + 1) ≤ e := by
      split
      · rename_i hs
        simp only [decide_eq_true_eq] at hs
        have := byte_step c e (m.1 + 1) hte hb (by omega) (by omega)
        omega
      · omega
    generalize (if decide (m.1 + 1 < c.eof ∧ (rd c (m.1 + 1) = 45 ∨ rd c (m.1 + 1) = 43)) = true
      then m.1 + 1 + 1 else m.1 + 1) = ch5 at hsg ⊢
    have a1 := (accLoop_digits c ((INT32_MAX - 10) / 10) (c.eof - ch5) ch5 0).1
    have a2 := accLoop_le c e hte heol hdig ((INT32_MAX - 10) / 10) (c.eof - ch5) ch5 0 hsg.2
    omega
  · rw [if_neg hE]
    exact ⟨m1, m2⟩

theorem StrtoD_value_between (c : Ctx) (e : Nat) (hte : rd c e = c.sep ∨ rd c e = c.eol)
    (hd : plainDialect c) (sign : Int) (ch : Nat) (h : ch ≤ e) :
    ch ≤ (StrtoD_value c sign ch).1 ∧ (StrtoD_value c sign ch).1 ≤ e := by
  have hn := StrtoD_num_between c e hte hd ch h
  obtain ⟨_, _, _, _, _, _, h73, h110, h102, h78, h65⟩ := plainDialect_sep c hd
  obtain ⟨_, _, _, heol, _⟩ := hd
  unfold StrtoD_value
  simp only
  split
  · split
    · rename_i hI
      have b1 := byte_step c e ch hte h (by omega) (by omega)
      have b2 := byte_step c e (ch + 1) hte b1 (by omega) (by omega)
      have b3 := byte_step c e (ch + 2) hte b2 (by omega) (by omega)
      simp only; omega
    · split
      · rename_i hN
        have b1 := byte_step c e ch hte h (by omega) (by omega)
        have b2 := byte_step c e (ch + 1) hte b1 (by omega) (by omega)
        have b3 := byte_step c e (ch + 2) hte b2 (by omega) (by omega)
        simp only; omega
      · simp only; omega
  · exact hn

/-- `StrtoD` moves the cursor forward, not past the terminator at `e`. -/
theorem StrtoD_between (c : Ctx) (e : Nat) (hte : rd c e = c.sep ∨ rd c e = c.eol)
    (hd : plainDialect c) (this : Nat) (tgt : Bool) (h : this ≤ e) :
    this ≤ (StrtoD c this tgt).ch ∧ (StrtoD c this tgt).ch ≤ e := by
  have hpd := hd
  obtain ⟨hdig, _, _, _, h43, h45, _⟩ := plainDialect_sep c hd
  obtain ⟨hs32, hsq, heq, heol, _⟩ := hd
  have g1 := skip_white_ge c this
  have g2 := skip_white_le c e this hte heol h
  generalize hr : StrtoD c this tgt = r
  unfold StrtoD at hr
  rw [on_sep_plain c _ hs32] at hr
  lift_lets at hr
  extract_lets os ch0 quoted ch sg sign start p at hr
  have hch0 : ch0 = skip_white c this := rfl
  have g3 : ch0 ≤ ch ∧ ch ≤ e := by
    show ch0 ≤ (if quoted = true then ch0 + 1 else ch0) ∧
      (if quoted = true then ch0 + 1 else ch0) ≤ e
    by_cases hq : quoted = true
    · rw [if_pos hq]
      have hq2 : ch0 < c.eof ∧ rd c ch0 = c.quote := by simpa [quoted] using hq
      have := byte_step c e ch0 hte (by omega) (by rw [hq2.2]; exact fun h => hsq h.symm)
        (by rw [hq2.2]; exact fun h => heq h.symm)
      omega
    · rw [if_neg hq]; omega
  have g4 : ch ≤ start ∧ start ≤ e := by
    show ch ≤ (if sg = true then ch + 1 else ch) ∧ (if sg = true then ch + 1 else ch) ≤ e
    by_cases hq : sg = true
    · rw [if_pos hq]
      have hq2 : ch < c.eof ∧ (rd c ch = 45 ∨ rd c ch = 43) := by simpa [sg] using hq
      have := byte_step c e ch hte g3.2 (by omega) (by omega)
      omega
    · rw [if_neg hq]; omega
  have g5 : start ≤ p.1 ∧ p.1 ≤ e := StrtoD_value_between c e hte hpd sign start g4.2
  split at hr
  · subst hr; simp only [os]; omega
  · split at hr
    · subst hr; simp only; omega
    · rename_i hnq
      subst hr
      have g7 : p.1 ≤ (if quoted = true then p.1 + 1 else p.1) ∧
          (if quoted = true then p.1 + 1 else p.1) ≤ e := by
        by_cases hq : quoted = true
        · rw [if_pos hq]
          have hcl : p.1 < c.eof ∧ rd c p.1 = c.quote := by
            simp only [hq, true_and, not_or, not_le, ne_eq, Decidable.not_not] at hnq
            simpa using hnq
          have := byte_step c e p.1 hte g5.2 (by rw [hcl.2]; exact fun h => hsq h.symm)
            (by rw [hcl.2]; exact fun h => heq h.symm)
          omega
        · rw [if_neg hq]; omega
      obtain ⟨a, b⟩ := numTail_le c e hte heol hs32 tgt start
        (if quoted = true then p.1 + 1 else p.1) p.2.2 p.2.1 F64.na g7.2
      omega
theorem byte_step_eq (c : Ctx) (e ch b : Nat) (hte : rd c e = c.sep ∨ rd c e = c.eol)
    (h : ch ≤ e) (hb : rd c ch = b) (h1 : ¬ c.sep = b) (h2 : ¬ c.eol = b) : ch + 1 ≤ e :=
  byte_step c e ch hte h (by rw [hb]; exact fun x => h1 x.symm) (by rw [hb]; exact fun x => h2 x.symm)

theorem StrtoB_literal_between (c : Ctx) (e : Nat) (hte : rd c e = c.sep ∨ rd c e = c.eol)
    (hd : plainDialect c) (tgt : Bool) (cell0 : Option Int) (ch : Nat) (h : ch ≤ e) :
    ch ≤ (StrtoB_literal c tgt cell0 ch).1 ∧ (StrtoB_literal c tgt cell0 ch).1 ≤ e := by
  obtain ⟨_, _, _, heol, _, _, _, hbt, h84, h70, h78, _⟩ := hd
  have he : ∀ b, 65 ≤ b → ¬ c.eol = b := by intro b hb; omega
  clear heol
  simp only [boolTailLetters, List.mem_cons, List.mem_singleton, List.mem_nil_iff, or_false,
    not_or] at hbt
  obtain ⟨l65, l82, l85, l69, l76, l83, l114, l117, l101, l97, l108, l115⟩ := hbt
  unfold StrtoB_literal
  simp only [logical01, Bool.false_eq_true, and_false, false_or, if_false]
  split
  · rename_i hN
    have b1 := byte_step_eq c e ch _ hte h hN.1 h78 (he _ (by decide))
    have b2 := byte_step_eq c e (ch + 1) _ hte b1 hN.2.2 l65 (he _ (by decide))
    exact ⟨by simp only; omega, by simp only; exact b2⟩
  · split
    · rename_i hT
      have b1 := byte_step_eq c e ch _ hte h hT h84 (he _ (by decide))
      split
      · rename_i hR
        have b4 : ch + 1 + 3 ≤ e := by
          rcases hR.2 with ⟨r1, r2, r3⟩ | ⟨r1, r2, r3⟩
          · have b2 := byte_step_eq c e (ch + 1) _ hte b1 r1 l82 (he _ (by decide))
            have b3 := byte_step_eq c e (ch + 1 + 1) _ hte b2 r2 l85 (he _ (by decide))
            exact byte_step_eq c e (ch + 1 + 2) _ hte b3 r3 l69 (he _ (by decide))
          · have b2 := byte_step_eq c e (ch + 1) _ hte b1 r1 l114 (he _ (by decide))
            have b3 := byte_step_eq c e (ch + 1 + 1) _ hte b2 r2 l117 (he _ (by decide))
            exact byte_step_eq c e (ch + 1 + 2) _ hte b3 r3 l101 (he _ (by decide))
        exact ⟨by simp only; omega, by simp only; exact b4⟩
      · exact ⟨by simp only; omega, by simp only; exact b1⟩
    · split
      · rename_i hF
        have b1 := byte_step_eq c e ch _ hte h hF h70 (he _ (by decide))
        split
        · rename_i hR
          have b5 : ch + 1 + 4 ≤ e := by
            rcases hR.2 with ⟨r1, r2, r3, r4⟩ | ⟨r1, r2, r3, r4⟩
            · have b2 := byte_step_eq c e (ch + 1) _ hte b1 r1 l65 (he _ (by decide))
              have b3 := byte_step_eq c e (ch + 1 + 1) _ hte b2 r2 l76 (he _ (by decide))
              have b4 := byte_step_eq c e (ch + 1 + 2) _ hte b3 r3 l83 (he _ (by decide))
              exact byte_step_eq c e (ch + 1 + 3) _ hte b4 r4 l69 (he _ (by decide))
            · have b2 := byte_step_eq c e (ch + 1) _ hte b1 r1 l97 (he _ (by decide))
              have b3 := byte_step_eq c e (ch + 1 + 1) _ hte b2 r2 l108 (he _ (by decide))
              have b4 := byte_step_eq c e (ch + 1 + 2) _ hte b3 r3 l115 (he _ (by decide))
              exact byte_step_eq c e (ch + 1 + 3) _ hte b4 r4 l101 (he _ (by decide))
          exact ⟨by simp only; omega, by simp only; exact b5⟩
        · exact ⟨by simp only; omega, by simp only; exact b1⟩
      · exact ⟨Nat.le_refl _, h⟩

/-- `StrtoB` moves the cursor forward, not past the terminator at `e`. -/
theorem StrtoB_between (c : Ctx) (e : Nat) (hte : rd c e = c.sep ∨ rd c e = c.eol)
    (hd : plainDialect c) (this : Nat) (tgt : Bool) (h : this ≤ e) :
    this ≤ (StrtoB c this tgt).ch ∧ (StrtoB c this tgt).ch ≤ e := by
  have hpd := hd
  obtain ⟨hs32, hsq, heq, heol, _⟩ := hd
  have g1 := skip_white_ge c this
  have g2 := skip_white_le c e this hte heol h
  generalize hr : StrtoB c this tgt = r
  unfold StrtoB at hr
  lift_lets at hr
  extract_lets cell0 os start quoted ch os2 p os3 at hr
  have hos : os = (_, skip_white c this) := on_sep_plain c _ hs32
  have hos2 : os2 = (_, ch + 1) := on_sep_plain c _ hs32
  have hos3 : os3 = (_, if quoted = true then p.1 + 1 else p.1) := on_sep_plain c _ hs32
  have hst : start = skip_white c this := by show os.2 = _; rw [hos]
  have g3 : start ≤ ch ∧ ch ≤ e := by
    show start ≤ (if quoted = true then start + 1 else start) ∧
      (if quoted = true then start + 1 else start) ≤ e
    by_cases hq : quoted = true
    · rw [if_pos hq]
      have hq2 : start < c.eof ∧ rd c start = c.quote := by simpa [quoted] using hq
      have := byte_step_eq c e start _ hte (by omega) hq2.2 hsq heq
      omega
    · rw [if_neg hq]; omega
  have g5 : ch ≤ p.1 ∧ p.1 ≤ e := StrtoB_literal_between c e hte hpd tgt cell0 ch g3.2
  split at hr
  · subst hr; simp only [hos]; omega
  · split at hr
    · rename_i hqq
      have b1 := byte_step_eq c e ch _ hte g3.2 hqq.2 hsq heq
      split at hr
      · subst hr; simp only [hos2]; omega
      · subst hr; simp only; omega
    · split at hr
      · subst hr; simp only; omega
      · rename_i hnq
        have g7 : p.1 ≤ (if quoted = true then p.1 + 1 else p.1) ∧
            (if quoted = true then p.1 + 1 else p.1) ≤ e := by
          by_cases hq : quoted = true
          · rw [if_pos hq]
            have hcl : p.1 < c.eof ∧ rd c p.1 = c.quote := by
              simp only [hq, true_and, not_or, not_le, ne_eq, Decidable.not_not] at hnq
              simpa using hnq
            have := byte_step_eq c e p.1 _ hte g5.2 hcl.2 hsq heq
            omega
          · rw [if_neg hq]; omega
        generalize (if quoted = true then p.1 + 1 else p.1) = q at g7 hos3
        split at hr
        · subst hr; simp only [hos3]; omega
        · subst hr
          simp only [hos3]
          rw [next_sep_plain c _ hs32]
          have := (fieldEnd_spec c q).1
          have := fieldEnd_le c e q hte g7.2
          omega
theorem skip_white_idem (c : Ctx) (p : Nat) : skip_white c (skip_white c p) = skip_white c p := by
  apply skip_white_fix
  rintro ⟨h1, h2⟩
  rcases skip_white_stop c p with h | h
  · omega
  · rw [h] at h2; exact Bool.noConfusion h2

theorem skip_white_blank (c : Ctx) (p : Nat) (h : skip_white c p ≠ p) :
    rd c p = 32 ∨ rd c p = 9 := by
  by_contra hc
  apply h
  apply skip_white_fix
  rintro ⟨_, h2⟩
  simp only [isWhite, Bool.decide_and, Bool.and_eq_true, decide_eq_true_eq] at h2
  exact hc (by simpa using h2.1)

/-- The leading blanks of a field belong to the field. -/
theorem fieldEnd_skip_white (c : Ctx) (p : Nat) (heol : c.eol = 10 ∨ c.eol = 13)
    (hfe : fieldEnd c p < c.eof) : fieldEnd c (skip_white c p) = fieldEnd c p := by
  obtain ⟨h1, h2, h3⟩ := fieldEnd_spec c p
  have hte : rd c (fieldEnd c p) = c.sep ∨ rd c (fieldEnd c p) = c.eol := by
    rcases h2 with h | h
    · omega
    · exact h
  have g1 := skip_white_ge c p
  have g2 := skip_white_le c (fieldEnd c p) p hte heol h1
  obtain ⟨k1, k2, k3⟩ := fieldEnd_spec c (skip_white c p)
  have g3 := fieldEnd_le c (fieldEnd c p) (skip_white c p) hte g2
  exact lands_on_fieldEnd c p _ (by omega) g3 k2

/-- On an unquoted field `Field` succeeds and leaves the cursor on the end of the field. -/
theorem Field_unquoted (c : Ctx) (p : Nat) (tgt : Bool) (hd : plainDialect c)
    (hu : unquotedAt c p = true) (hfe : fieldEnd c p < c.eof) :
    (Field c p tgt).ok = true ∧ (Field c p tgt).ch = fieldEnd c p := by
  obtain ⟨hs32, _, _, heol, _, _, _, _, _, _, _, hq32, hq9⟩ := hd
  have hsw := fieldEnd_skip_white c p heol hfe
  have hon : onTerm c (fieldEnd c p) := (fieldEnd_spec c p).2.1
  have hcond : rd c (if c.stripWhite = true then skip_white c p else p) ≠ c.quote ∨
      c.quoteRule = 3 := by
    simp only [unquotedAt, ne_eq, Bool.decide_or, Bool.or_eq_true, decide_eq_true_eq,
      decide_not, Bool.not_eq_true', decide_eq_false_iff_not] at hu
    rcases hu with hu | hu
    · left
      by_cases hsw : c.stripWhite = true
      · rw [if_pos hsw]; exact hu
      · rw [if_neg hsw]
        by_cases hp : skip_white c p = p
        · rw [hp] at hu; exact hu
        · rcases skip_white_blank c p hp with hb | hb
          · rw [hb]; exact fun x => hq32 x.symm
          · rw [hb]; exact fun x => hq9 x.symm
    · right; exact hu
  have hend : scanWhile c.eof (notSepEol c)
      (c.eof - (if c.stripWhite = true then skip_white c p else p))
      (if c.stripWhite = true then skip_white c p else p) = fieldEnd c p := by
    by_cases hsw2 : c.stripWhite = true
    · rw [if_pos hsw2]; exact hsw
    · rw [if_neg hsw2]; rfl
  unfold Field
  simp only
  rw [if_pos hcond, hend]
  unfold Field_finish
  simp only [on_sep_plain c _ hs32, Bool.false_eq_true, if_false]
  have : decide (fieldEnd c p ≥ c.eof ∨ rd c (fieldEnd c p) = c.sep ∨
      rd c (fieldEnd c p) = c.eol) = true := decide_eq_true hon
  simp only [this, not_true_eq_false, if_false, and_self]

/-- A scanner that succeeds on a field of a plain dialect leaves the cursor on the end of
the field; `Field` and `SkipField` succeed on an unquoted field. -/
theorem funCall_lands (c : Ctx) (t p : Nat) (tgt : Bool) (hd : plainDialect c) (ht : t ≤ 5)
    (hu : unquotedAt c p = true) (hfe : fieldEnd c p < c.eof) :
    ∃ ok ch, funCall c t p tgt = some (ok, ch) ∧ (ok = true → ch = fieldEnd c p) ∧
      ((t = 0 ∨ t = 5) → ok = true) := by
  obtain ⟨h1, h2, h3⟩ := fieldEnd_spec c p
  have hte : rd c (fieldEnd c p) = c.sep ∨ rd c (fieldEnd c p) = c.eol := by
    rcases h2 with h | h
    · omega
    · exact h
  have hF := Field_unquoted c p tgt hd hu hfe
  have hF0 := Field_unquoted c p false hd hu hfe
  rcases (by omega : t = 0 ∨ t = 1 ∨ t = 2 ∨ t = 3 ∨ t = 4 ∨ t = 5) with
    rfl | rfl | rfl | rfl | rfl | rfl
  · exact ⟨_, _, rfl, fun _ => hF0.2, fun _ => hF0.1⟩
  · obtain ⟨a, b⟩ := StrtoB_between c _ hte hd p tgt h1
    exact ⟨_, _, rfl, fun h => lands_on_fieldEnd c p _ a b (StrtoB_onTerm c p tgt h),
      fun h => by omega⟩
  · obtain ⟨a, b⟩ := StrtoInt_between c _ hte hd ((INT32_MAX - 10) / 10) NA_INT32 p tgt h1
    exact ⟨_, _, rfl, fun h => lands_on_fieldEnd c p _ a b (StrtoInt_onTerm c _ _ p tgt h),
      fun h => by omega⟩
  · obtain ⟨a, b⟩ := StrtoInt_between c _ hte hd ((INT64_MAX - 10) / 10) NA_INT64 p tgt h1
    exact ⟨_, _, rfl, fun h => lands_on_fieldEnd c p _ a b (StrtoInt_onTerm c _ _ p tgt h),
      fun h => by omega⟩
  · obtain ⟨a, b⟩ := StrtoD_between c _ hte hd p tgt h1
    exact ⟨_, _, rfl, fun h => lands_on_fieldEnd c p _ a b (StrtoD_onTerm c p tgt h),
      fun h => by omega⟩
  · exact ⟨_, _, rfl, fun _ => hF.2, fun _ => hF.1⟩

/-- The retry loop of the body read, on an unquoted field of a plain dialect, leaves the
cursor on the end of the field and stays inside the table `fun`. -/
theorem bodyRetry_lands (c : Ctx) (p : Nat) (hd : plainDialect c)
    (hu : unquotedAt c p = true) (hfe : fieldEnd c p < c.eof) (n : Nat) (t : Int) (tgt : Bool)
    (ht : t.natAbs ≤ 5) (hn : 6 ≤ n + 1 + t.natAbs) :
    ∃ t2, bodyRetry c p (n + 1) t tgt = Retry.read t2 (fieldEnd c p) := by
  induction n generalizing t tgt with
  | zero =>
    obtain ⟨ok, ch, h1, h2, h3⟩ := funCall_lands c t.natAbs p tgt hd ht hu hfe
    have hok : ok = true := h3 (by omega)
    subst hok
    refine ⟨t, ?_⟩
    simp only [bodyRetry, h1, h2 rfl]
  | succ n ih =>
    obtain ⟨ok, ch, h1, h2, h3⟩ := funCall_lands c t.natAbs p tgt hd ht hu hfe
    cases ok with
    | true =>
      refine ⟨t, ?_⟩
      rw [bodyRetry]
      simp only [h1, h2 rfl]
    | false =>
      have h5 : t.natAbs ≠ 5 := fun h => Bool.noConfusion (h3 (Or.inr h))
      obtain ⟨t2, e2⟩ := ih (if t < 0 then t - 1 else -t - 1) false
        (by split <;> omega) (by split <;> omega)
      refine ⟨t2, ?_⟩
      rw [bodyRetry]
      simp only [h1]
      exact e2

/-- What `rowEnd` says of the row: it ends on an `eol` byte inside the window and holds no
`eol` byte before it. -/
theorem rowEnd_spec (c : Ctx) (n p e : Nat) (h : rowEnd c n p = some e) :
    p ≤ e ∧ e < c.eof ∧ rd c e = c.eol ∧ (∀ i, p ≤ i → i < e → rd c i ≠ c.eol) ∧ 1 ≤ n := by
  induction n generalizing p with
  | zero => simp [rowEnd] at h
  | succ n ih =>
    obtain ⟨f1, f2, f3⟩ := fieldEnd_spec c p
    have hin : ∀ i, p ≤ i → i < fieldEnd c p → rd c i ≠ c.eol :=
      fun i h1 h2 h3 => f3 i h1 h2 (Or.inr (Or.inr h3))
    rw [rowEnd] at h
    split at h
    · rename_i hc
      split at h
      · rename_i heol
        split at h
        · cases h
          exact ⟨f1, hc.2, heol, hin, by omega⟩
        · cases h
      · rename_i hne
        obtain ⟨a, b, d, g, _⟩ := ih (fieldEnd c p + 1) h
        refine ⟨by omega, b, d, ?_, by omega⟩
        intro i h1 h2
        by_cases hi : i < fieldEnd c p
        · exact hin i h1 hi
        · by_cases hi2 : i = fieldEnd c p
          · rw [hi2]; exact hne
          · exact g i (by omega) h2
    · cases h

/-- The leading blanks of a row belong to its first field. -/
theorem rowEnd_skip_white (c : Ctx) (hd : plainDialect c) (n p e : Nat)
    (h : rowEnd c n p = some e) : rowEnd c n (skip_white c p) = some e := by
  obtain ⟨_, _, _, heol, _⟩ := hd
  cases n with
  | zero => simp [rowEnd] at h
  | succ n =>
    rw [rowEnd] at h ⊢
    split at h
    · rename_i hc
      have hf := fieldEnd_skip_white c p heol hc.2
      have hu : unquotedAt c (skip_white c p) = unquotedAt c p := by
        simp only [unquotedAt, skip_white_idem]
      rw [hf, hu, if_pos hc]
      exact h
    · cases h

/-- The loop over the fields of the body read, on a row of `n` unquoted fields, reads the
`n` fields and leaves the cursor on the `eol` byte that ends the row. -/
theorem workerFields_regular (c : Ctx) (hd : plainDialect c) (typ : Nat → Int)
    (htyp : ∀ j, (typ j).natAbs ≤ 5) (n j p e : Nat) (h : rowEnd c n p = some e) :
    workerFields c typ n j p = some (j + n, e) := by
  induction n generalizing j p with
  | zero => simp [rowEnd] at h
  | succ n ih =>
    rw [rowEnd] at h
    split at h
    · rename_i hc
      obtain ⟨t2, hb⟩ := bodyRetry_lands c p hd hc.1 hc.2 6 (typ j) (decide (typ j > 0))
        (htyp j) (by omega)
      rw [workerFields]
      simp only [hb]
      split at h
      · rename_i heol
        split at h
        · rename_i hn0
          cases h
          subst hn0
          rw [if_pos (Or.inr heol)]
        · cases h
      · rename_i hne
        rw [if_neg (by rintro (h1 | h1); exact absurd hc.2 (by omega); exact hne h1)]
        rw [ih (j + 1) (fieldEnd c p + 1) h]
        congr 2
        omega
    · cases h

/-- The loop of `countfields`, on a row of `n + 1` unquoted fields, counts `n` separators
and leaves the cursor on the `eol` byte that ends the row. -/
theorem countLoop_regular (c : Ctx) (hd : plainDialect c) (n : Nat) (p e : Nat) (fuel : Nat)
    (k : Int) (h : rowEnd c (n + 1) p = some e) (hf : c.eof - p + 1 ≤ fuel) :
    countLoop c fuel p k = (k + n, e) := by
  induction n generalizing p fuel k with
  | zero =>
    rw [rowEnd] at h
    split at h
    · rename_i hc
      obtain ⟨f1, f2, f3⟩ := fieldEnd_spec c p
      split at h
      · rename_i heol
        simp only [if_true, Option.some.injEq] at h
        subst h
        have hF := Field_unquoted c p false hd hc.1 hc.2
        obtain ⟨m, rfl⟩ : ∃ m, fuel = m + 1 := ⟨fuel - 1, by omega⟩
        rw [countLoop]
        by_cases hp : p < c.eof ∧ rd c p ≠ c.eol
        · rw [if_pos hp]
          simp only [hF.1, hF.2, Bool.true_eq_false, if_false]
          rw [if_neg (by rintro ⟨_, h2⟩; exact h2 heol)]
          have hlt : p < fieldEnd c p := by
            rcases Nat.lt_or_ge p (fieldEnd c p) with h1 | h1
            · exact h1
            · have : p = fieldEnd c p := by omega
              rw [← this] at heol
              exact absurd heol hp.2
          obtain ⟨m2, rfl⟩ : ∃ m2, m = m2 + 1 := ⟨m - 1, by omega⟩
          rw [countLoop, if_neg (by rintro ⟨_, h2⟩; exact h2 heol)]
          simp
        · rw [if_neg hp]
          have hpe : p = fieldEnd c p := by
            apply lands_on_fieldEnd c p p (Nat.le_refl _) f1
            by_cases h1 : p < c.eof
            · right; right
              by_contra h2
              exact hp ⟨h1, h2⟩
            · left; omega
          rw [← hpe]
          simp
      · rename_i hne
        simp [rowEnd] at h
    · cases h
  | succ n ih =>
    rw [rowEnd] at h
    split at h
    · rename_i hc
      obtain ⟨f1, f2, f3⟩ := fieldEnd_spec c p
      split at h
      · rename_i heol
        simp at h
      · rename_i hne
        have hF := Field_unquoted c p false hd hc.1 hc.2
        obtain ⟨m, rfl⟩ : ∃ m, fuel = m + 1 := ⟨fuel - 1, by omega⟩
        have hp : p < c.eof ∧ rd c p ≠ c.eol := by
          refine ⟨by omega, ?_⟩
          by_cases hpe : p = fieldEnd c p
          · rw [hpe]; exact hne
          · exact fun h3 => f3 p (Nat.le_refl _) (by omega) (Or.inr (Or.inr h3))
        rw [countLoop, if_pos hp]
        simp only [hF.1, hF.2, Bool.true_eq_false, if_false]
        rw [if_pos ⟨hc.2, hne⟩, ih (fieldEnd c p + 1) m (k + 1) h (by omega)]
        congr 1
        push_cast
        omega
    · cases h

/-- The function `countfields` on a row of `n` unquoted fields gives `n` and the start of
the next line. -/
theorem countfields_regular (c : Ctx) (hd : plainDialect c) (n p e : Nat)
    (h : rowEnd c n p = some e) : countfields c p = ((n : Int), e + c.eolLen) := by
  obtain ⟨_, _, _, _, hn⟩ := rowEnd_spec c n p e h
  obtain ⟨m, rfl⟩ : ∃ m, n = m + 1 := ⟨n - 1, by omega⟩
  unfold countfields
  simp only [hd.1, if_false]
  rw [countLoop_regular c hd m p e _ 1 h (Nat.le_refl _)]
  have : ¬ ((1 : Int) + (m : Int) < 0) := by omega
  simp only [this, if_false]
  congr 1
  push_cast
  omega
theorem firstEol_spec (c : Ctx) (B : Nat) :
    B ≤ firstEol c B ∧ (firstEol c B < c.eof → rd c (firstEol c B) = c.eol) ∧
    ∀ i, B ≤ i → i < firstEol c B → rd c i ≠ c.eol := by
  refine ⟨scanWhile_ge _ _ _ _, ?_, ?_⟩
  · intro hlt
    rcases scanWhile_stop c.eof (fun i => decide (rd c i ≠ c.eol)) (c.eof - B) B (Nat.le_refl _)
      with h | h
    · exact absurd hlt (by unfold firstEol; omega)
    · simpa [firstEol] using h
  · intro i h1 h2
    have := (scanWhile_all c.eof (fun i => decide (rd c i ≠ c.eol)) (c.eof - B) B i h1 h2).2
    simpa using this

theorem firstEol_eq (c : Ctx) (B e : Nat) (h1 : B ≤ e) (h2 : e < c.eof) (h3 : rd c e = c.eol)
    (h4 : ∀ i, B ≤ i → i < e → rd c i ≠ c.eol) : firstEol c B = e := by
  obtain ⟨a, b, d⟩ := firstEol_spec c B
  rcases Nat.lt_trichotomy (firstEol c B) e with h | h | h
  · exact absurd (b (by omega)) (h4 _ a h)
  · exact h
  · exact absurd h3 (d e h1 h)

/-- One round of the worker's loop on a regular row reads the row (or skips it, when it
is blank and blank lines are skipped) and leaves the cursor on the next line start. -/
theorem workerRow_regular (c : Ctx) (hd : plainDialect c) (typ : Nat → Int)
    (htyp : ∀ j, (typ j).natAbs ≤ 5) (ncol S e : Nat) (h : rowEnd c ncol S = some e)
    (hb : c.skipEmptyLines = true ∨ c.fill = true ∨ rd c (skip_white c S) ≠ c.eol) :
    workerRow c typ ncol S = RowResult.row (e + c.eolLen) ∨
    workerRow c typ ncol S = RowResult.skipped (e + c.eolLen) := by
  have hs := rowEnd_skip_white c hd ncol S e h
  obtain ⟨a1, a2, a3, a4, a5⟩ := rowEnd_spec c ncol _ e hs
  have hw := workerFields_regular c hd typ htyp ncol 0 _ e hs
  unfold workerRow
  simp only [hd.1, if_false]
  have hrow : (match workerFields c typ ncol 0 (skip_white c S) with
      | none => RowResult.outOfTable
      | some (j, ch3) =>
        if j < ncol ∧ c.fill = false then RowResult.stop 2 ch3
        else if ch3 < c.eof ∧ rd c ch3 ≠ c.eol then RowResult.stop 3 ch3
        else RowResult.row (ch3 + c.eolLen)) = RowResult.row (e + c.eolLen) := by
    rw [hw]
    simp only
    rw [if_neg (by omega), if_neg (by rintro ⟨_, h2⟩; exact h2 a3)]
  by_cases hblank : rd c (skip_white c S) = c.eol
  · have he : skip_white c S = e := by
      by_contra hne
      exact a4 _ (Nat.le_refl _) (by omega) hblank
    by_cases hsk : c.skipEmptyLines = true
    · right
      rw [if_pos ⟨Or.inr hblank, hsk⟩, he]
    · left
      have hfill : c.fill = true := by
        rcases hb with h1 | h1 | h1
        · exact absurd h1 hsk
        · exact h1
        · exact absurd hblank h1
      rw [if_neg (by rintro ⟨_, h2⟩; exact hsk h2),
        if_neg (by rintro ⟨_, h2⟩; rw [hfill] at h2; exact Bool.noConfusion h2)]
      exact hrow
  · left
    rw [if_neg (by rintro ⟨h1 | h1, _⟩; exact absurd a2 (by omega); exact hblank h1),
      if_neg (by rintro ⟨h1 | h1, _⟩; exact absurd a2 (by omega); exact hblank h1)]
    exact hrow

theorem goodLines_regular (c : Ctx) (hd : plainDialect c) (ncol : Nat) (n : Nat) :
    ∀ S i, Regular c ncol S → n + i = 5 →
      (goodLines c (ncol : Int) n S i).1 = 5 ∨ (goodLines c (ncol : Int) n S i).2 ≥ c.eof := by
  induction n with
  | zero =>
    intro S i _ hi
    left
    simp only [goodLines]
    omega
  | succ n ih =>
    intro S i hreg hi
    cases hreg with
    | done _ h =>
      right
      rw [goodLines, if_neg (by omega)]
      exact h
    | row _ e h h2 hb hn =>
      obtain ⟨a1, a2, _⟩ := rowEnd_spec c ncol S e h
      rw [goodLines, if_pos (by omega)]
      simp only [countfields_regular c hd ncol S e h, true_or, if_true]
      exact ih _ _ hn (by omega)

theorem goodLineLoop_first (c : Ctx) (ncol : Int) (n B : Nat) (hB : B < c.eof)
    (hg : (goodLines c ncol 5 (if firstEol c B < c.eof then firstEol c B + c.eolLen
        else firstEol c B) 0).1 = 5 ∨
      (goodLines c ncol 5 (if firstEol c B < c.eof then firstEol c B + c.eolLen
        else firstEol c B) 0).2 ≥ c.eof) :
    goodLineLoop c ncol (n + 1) B 0 =
      (if firstEol c B < c.eof then firstEol c B + c.eolLen else firstEol c B, 1) := by
  rw [goodLineLoop, if_pos hB, if_pos (show 0 < 30 by decide)]
  unfold firstEol at hg ⊢
  simp only
  rw [if_pos hg]

/-- Where `nextGoodLine` lands on a window of regular rows: on the byte after the
terminator of the line that holds `B`, at the first attempt. -/
theorem nextGoodLine_regular (c : Ctx) (hd : plainDialect c) (ncol B L : Nat)
    (hreg : firstEol c B < c.eof → Regular c ncol (firstEol c B + c.eolLen))
    (h : nextGoodLine c B (ncol : Int) = (true, L)) :
    firstEol c B < c.eof ∧ L = firstEol c B + c.eolLen ∧ L < c.eof := by
  unfold nextGoodLine at h
  by_cases hB : B < c.eof
  · have hg := goodLines_regular c hd ncol 5
      (if firstEol c B < c.eof then firstEol c B + c.eolLen else firstEol c B) 0
      (by
        by_cases hf : firstEol c B < c.eof
        · rw [if_pos hf]; exact hreg hf
        · rw [if_neg hf]; exact Regular.done _ (by omega)) rfl
    rw [show (31 : Nat) = 30 + 1 from rfl, goodLineLoop_first c _ 30 B hB hg] at h
    simp only at h
    by_cases hf : firstEol c B < c.eof
    · rw [if_pos hf] at h
      split at h
      · rename_i hlt
        simp only [Prod.mk.injEq, true_and] at h
        exact ⟨hf, h.symm, by omega⟩
      · simp at h
    · rw [if_neg hf] at h
      rw [if_neg (by rintro ⟨h1, _⟩; exact hf h1)] at h
      simp at h
  · rw [show (31 : Nat) = 30 + 1 from rfl, goodLineLoop, if_neg hB] at h
    simp only [hB, false_and, if_false, Prod.mk.injEq, Bool.false_eq_true] at h

/-- The line that holds `B`, in a window of regular rows from `S`, is one of the rows. -/
theorem regular_after_firstEol (c : Ctx) (ncol B S : Nat) (hreg : Regular c ncol S)
    (hno : ∀ i, B ≤ i → i < S → rd c i ≠ c.eol) (hlt : firstEol c B < c.eof) :
    Regular c ncol (firstEol c B + c.eolLen) ∧
    ∀ i, firstEol c B < i → i < firstEol c B + c.eolLen → rd c i ≠ c.eol := by
  obtain ⟨f1, f2, f3⟩ := firstEol_spec c B
  induction hreg with
  | done S h => exact absurd (f2 hlt) (hno _ f1 (by omega))
  | row S e h h2 hb hn ih =>
    obtain ⟨a1, a2, a3, a4, _⟩ := rowEnd_spec c ncol S e h
    by_cases hBe : B ≤ e
    · have : firstEol c B = e := by
        apply firstEol_eq c B e hBe a2 a3
        intro i h1 h3
        by_cases hi : i < S
        · exact hno i h1 hi
        · exact a4 i (by omega) h3
      rw [this]
      exact ⟨hn, h2⟩
    · apply ih
      intro i h1 h3
      exact h2 i (by omega) h3

theorem workerLoop_stop (c : Ctx) (typ : Nat → Nat → Int) (ncol nextJump nrowLimit : Nat)
    (fuel ch buffi : Nat) (h : ¬ (ch < nextJump ∧ buffi < nrowLimit)) :
    workerLoop c typ ncol nextJump nrowLimit fuel ch buffi = some (0, ch, buffi) := by
  cases fuel with
  | zero => rfl
  | succ n => rw [workerLoop, if_neg h]

/-- The worker's loop over a window of regular rows, started on a row start before
`B + eolLen`, stops on the byte after the terminator of the line that holds `B`. -/
theorem workerLoop_regular (c : Ctx) (hd : plainDialect c) (typ : Nat → Nat → Int)
    (htyp : ∀ i j, (typ i j).natAbs ≤ 5) (ncol B nrowLimit S : Nat)
    (hlt : firstEol c B < c.eof) (hreg : Regular c ncol S) :
    ∀ fuel buffi, S < B + c.eolLen → (∀ i, B ≤ i → i < S → rd c i ≠ c.eol) →
      c.eof - S + 1 ≤ fuel → buffi + (c.eof - S) ≤ nrowLimit →
      ∃ b, workerLoop c typ ncol (B + c.eolLen) nrowLimit fuel S buffi =
        some (0, firstEol c B + c.eolLen, b) := by
  obtain ⟨f1, f2, f3⟩ := firstEol_spec c B
  have hlen : 1 ≤ c.eolLen := by
    rcases hd.2.2.2.2.1 with h | h <;> omega
  induction hreg with
  | done S h =>
    intro fuel buffi h1 hno _ _
    exact absurd (f2 hlt) (hno _ f1 (by omega))
  | row S e h h2 hb hn ih =>
    intro fuel buffi h1 hno hfuel hlim
    obtain ⟨a1, a2, a3, a4, _⟩ := rowEnd_spec c ncol S e h
    obtain ⟨m, rfl⟩ : ∃ m, fuel = m + 1 := ⟨fuel - 1, by omega⟩
    rw [workerLoop, if_pos ⟨h1, by omega⟩]
    have hnext : ∀ b2, b2 ≤ buffi + 1 →
        ∃ b, workerLoop c typ ncol (B + c.eolLen) nrowLimit m (e + c.eolLen) b2 =
          some (0, firstEol c B + c.eolLen, b) := by
      intro b2 hb2
      by_cases hBe : B ≤ e
      · have : firstEol c B = e := by
          apply firstEol_eq c B e hBe a2 a3
          intro i h3 h4
          by_cases hi : i < S
          · exact hno i h3 hi
          · exact a4 i (by omega) h4
        rw [this]
        exact ⟨b2, workerLoop_stop c typ ncol _ nrowLimit m _ b2 (by omega)⟩
      · exact ih m b2 (by omega) (fun i h3 h4 => h2 i (by omega) h4) (by omega) (by omega)
    rcases workerRow_regular c hd (typ buffi) (htyp buffi) ncol S e h hb with hw | hw
    · rw [hw]
      exact hnext (buffi + 1) (Nat.le_refl _)
    · rw [hw]
      exact hnext buffi (by omega)

/-- C20 (amended): in a plain dialect, on a window of regular rows from `pos` (rows of
exactly `ncol` unquoted fields, none blank unless blank lines are skipped or filled), with
every fetched type inside the table and the row limit out of reach: the worker of a chunk
that starts on `pos`, or on the offset `nextGoodLine` returned for an earlier boundary
`B0 ≤ B`, and reads rows while its cursor is below `B + eolLen`, stops with no stop reason
exactly on the offset `L` that `nextGoodLine` returns when started at `B`. -/
theorem chunk_end_meets_next_start (c : Ctx) (typ : Nat → Nat → Int)
    (ncol pos B0 B nrowLimit S L : Nat) (hd : plainDialect c) (hreg : Regular c ncol pos)
    (h0 : pos ≤ B0) (h1 : B0 ≤ B)
    (hS : S = pos ∨ nextGoodLine c B0 (ncol : Int) = (true, S))
    (hL : nextGoodLine c B (ncol : Int) = (true, L))
    (htyp : ∀ i j, (typ i j).natAbs ≤ 5) (hlim : c.eof ≤ nrowLimit) :
    ∃ buffi, workerChunk c typ ncol B nrowLimit S = some (0, L, buffi) := by
  have hlen : 1 ≤ c.eolLen := by
    rcases hd.2.2.2.2.1 with h | h <;> omega
  have hB := regular_after_firstEol c ncol B pos hreg (fun i a b => absurd b (by omega))
  obtain ⟨l1, l2, l3⟩ := nextGoodLine_regular c hd ncol B L (fun h => (hB h).1) hL
  subst l2
  unfold workerChunk
  rcases hS with hS | hS
  · subst hS
    exact workerLoop_regular c hd typ htyp ncol B nrowLimit S l1 hreg _ 0 (by omega)
      (fun i a b => absurd b (by omega)) (Nat.le_refl _) (by omega)
  · have hB0 := regular_after_firstEol c ncol B0 pos hreg (fun i a b => absurd b (by omega))
    obtain ⟨k1, k2, k3⟩ := nextGoodLine_regular c hd ncol B0 S (fun h => (hB0 h).1) hS
    obtain ⟨g1, g2, g3⟩ := firstEol_spec c B0
    by_cases hge : B ≤ firstEol c B0
    · have : firstEol c B = firstEol c B0 :=
        firstEol_eq c B _ hge k1 (g2 k1) (fun i a b => g3 i (by omega) b)
      rw [this, ← k2]
      exact ⟨0, workerLoop_stop c typ ncol _ nrowLimit _ S 0 (by omega)⟩
    · exact workerLoop_regular c hd typ htyp ncol B nrowLimit S l1 (k2 ▸ (hB0 k1).1) _ 0
        (by omega) (fun i a b => (hB0 k1).2 i (by omega) (by omega)) (Nat.le_refl _) (by omega)

theorem chunk_end_meets_next_start_witness :
    nextGoodLine (csv [49, 44, 50, 10, 51, 44, 52, 10, 53, 44, 54, 10, 55, 44, 56, 10]) 2 2
      = (true, 4) ∧
    nextGoodLine (csv [49, 44, 50, 10, 51, 44, 52, 10, 53, 44, 54, 10, 55, 44, 56, 10]) 9 2
      = (true, 12) ∧
    ∃ buffi, workerChunk (csv [49, 44, 50, 10, 51, 44, 52, 10, 53, 44, 54, 10, 55, 44, 56, 10])
      (fun _ _ => 2) 2 9 16 4 = some (0, 12, buffi) :=
  ⟨by decide, by decide,
    chunk_end_meets_next_start
      (csv [49, 44, 50, 10, 51, 44, 52, 10, 53, 44, 54, 10, 55, 44, 56, 10])
      (fun _ _ => 2) 2 0 2 9 16 4 12 (by decide)
      (Regular.row 0 3 (by decide) (fun i a b => absurd b (by simp only [csv]; omega))
        (Or.inr (Or.inr (by decide)))
        (Regular.row 4 7 (by decide) (fun i a b => absurd b (by simp only [csv]; omega))
          (Or.inr (Or.inr (by decide)))
          (Regular.row 8 11 (by decide) (fun i a b => absurd b (by simp only [csv]; omega))
            (Or.inr (Or.inr (by decide)))
            (Regular.row 12 15 (by decide)
              (fun i a b => absurd b (by simp only [csv]; omega))
              (Or.inr (Or.inr (by decide)))
              (Regular.done 16 (by decide))))))
      (by decide) (by decide) (Or.inr (by decide)) (by decide) (fun _ _ => by show (2 : Int).natAbs ≤ 5; decide)
      (by decide)⟩

/-- C20 (as stated) fails on the one-column body `1\n\n2\n3\n` read with neither
`skipEmptyLines` nor `fill`: every line is a row of exactly one unquoted field (the second
one of an empty field), `nextGoodLine` started at `B = 2` succeeds and returns 3, and the
worker started on the line start 0 stops on 2 with `myStopReason = 1`. -/
theorem chunk_end_counterexample :
    plainDialect (csv [49, 10, 10, 50, 10, 51, 10]) ∧
    rowEnd (csv [49, 10, 10, 50, 10, 51, 10]) 1 0 = some 1 ∧
    rowEnd (csv [49, 10, 10, 50, 10, 51, 10]) 1 2 = some 2 ∧
    rowEnd (csv [49, 10, 10, 50, 10, 51, 10]) 1 3 = some 4 ∧
    rowEnd (csv [49, 10, 10, 50, 10, 51, 10]) 1 5 = some 6 ∧
    nextGoodLine (csv [49, 10, 10, 50, 10, 51, 10]) 2 1 = (true, 3) ∧
    workerChunk (csv [49, 10, 10, 50, 10, 51, 10]) (fun _ _ => 2) 1 2 100 0 = some (1, 2, 1) ∧
    ¬ ∃ buffi, workerChunk (csv [49, 10, 10, 50, 10, 51, 10]) (fun _ _ => 2) 1 2 100 0
      = some (0, 3, buffi) := by
  refine ⟨by decide, by decide, by decide, by decide, by decide, by decide, by decide, ?_⟩
  rintro ⟨b, hb⟩
  rw [show workerChunk (csv [49, 10, 10, 50, 10, 51, 10]) (fun _ _ => 2) 1 2 100 0
    = some (1, 2, 1) by decide] at hb
  cases hb

/-! ## C14: the layout of a regular table of integers -/

theorem skip_white_none (c : Ctx) (p : Nat) (h : rd c p ≠ 32 ∧ rd c p ≠ 9) :
    skip_white c p = p := by
  apply skip_white_fix
  rintro ⟨_, h2⟩
  simp only [isWhite, Bool.decide_and, Bool.and_eq_true, decide_eq_true_eq, Bool.decide_or,
    Bool.or_eq_true] at h2
  rcases h2.1 with h3 | h3
  · exact h.1 h3
  · exact h.2 h3

theorem sizeDiff_eq (a b : Nat) (h1 : b ≤ a) (h2 : a < 2 ^ 57) : sizeDiff a b = a - b := by
  unfold sizeDiff
  norm_num at h2 ⊢
  omega

theorem accLoop_bound (c : Ctx) (limit B : Nat) (hB : 10 * limit ≤ B + 1) (n ch acc : Nat)
    (h : acc ≤ B) : (accLoop c limit n ch acc).2 ≤ B := by
  induction n generalizing ch acc with
  | zero => simpa [accLoop] using h
  | succ n ih =>
    rw [accLoop]
    split
    · rename_i hc
      have hd : rd c ch ≤ 57 := by
        have := hc.2.1
        simp only [isDigit, Bool.decide_and, Bool.and_eq_true, decide_eq_true_eq] at this
        exact this.2
      exact ih _ _ (by omega)
    · exact h

/-- C27: no accumulation step of the number scanners leaves its integer type. With any
number of iterations `n` (and `k` for the second mantissa loop) run from any cursor over
any bytes, the accumulator of `StrtoI32` stays at or below `INT32_MAX`, the accumulator of
`StrtoI64` at or below `INT64_MAX`, and the mantissa accumulator of `StrtoD`, which its
second loop continues from the value its first loop left, at or below `UINT64_MAX`; so do
the accumulators with which the scanners leave their loops. -/
theorem accumulators_stay_in_range (c : Ctx) (n k ch ch2 : Nat) :
    (accLoop c ((INT32_MAX - 10) / 10) n ch 0).2 ≤ INT32_MAX ∧
    (accLoop c ((INT64_MAX - 10) / 10) n ch 0).2 ≤ INT64_MAX ∧
    (accLoop c ((UINT64_MAX - 10) / 10) n ch 0).2 ≤ UINT64_MAX ∧
    (accLoop c ((UINT64_MAX - 10) / 10) k ch2
      (accLoop c ((UINT64_MAX - 10) / 10) n ch 0).2).2 ≤ UINT64_MAX ∧
    (StrtoD_mantissa c ch).2.1 ≤ UINT64_MAX := by
  have h3 : ∀ n ch acc, acc ≤ UINT64_MAX →
      (accLoop c ((UINT64_MAX - 10) / 10) n ch acc).2 ≤ UINT64_MAX :=
    fun n ch acc h => accLoop_bound c _ _ (by decide) n ch acc h
  refine ⟨accLoop_bound c _ _ (by decide) n ch 0 (Nat.zero_le _),
    accLoop_bound c _ _ (by decide) n ch 0 (Nat.zero_le _), h3 _ _ _ (Nat.zero_le _),
    h3 _ _ _ (h3 _ _ _ (Nat.zero_le _)), ?_⟩
  unfold StrtoD_mantissa
  exact h3 _ _ _ (h3 _ _ _ (Nat.zero_le _))

/-- C29: on the fields `1e400` and `1e-999` (comma dialect, called at offset 0) `StrtoD`
reaches the table multiplication with `e = 400` and `e = -999`, and reads the 701-entry
table `pow10lookup` at the indices 750 and -649, outside `[0, 700]`. -/
theorem StrtoD_table_index_leaves_table :
    StrtoD (csv [49, 101, 52, 48, 48, 44]) 0 true = ⟨true, 5, some (F64.num 1 1 400)⟩ ∧
    pow10Index (F64.num 1 1 400) = some 750 ∧ ¬ (750 : Int) < POW10_ENTRIES ∧
    StrtoD (csv [49, 101, 45, 57, 57, 57, 44]) 0 true
      = ⟨true, 6, some (F64.num 1 1 (-999))⟩ ∧
    pow10Index (F64.num 1 1 (-999)) = some (-649) := by
  decide

/-- C28: on the 24-digit field `123456789012345678901234` (comma dialect, called at offset
0) the mantissa loop of `StrtoD` accumulates the first 20 digits and skips the other four
with `e--` each, so the scanner holds `m = 12345678901234567890` and `e = -4` before the
table multiplication: `m * 10^e` is not the literal with its last four digits replaced by
0, which is `m * 10^4`. -/
theorem StrtoD_excess_integer_digits_lose_scale :
    StrtoD_mantissa (csv [49, 50, 51, 52, 53, 54, 55, 56, 57, 48, 49, 50, 51, 52, 53, 54,
      55, 56, 57, 48, 49, 50, 51, 52, 44]) 0 = (24, 12345678901234567890, -4) ∧
    StrtoD (csv [49, 50, 51, 52, 53, 54, 55, 56, 57, 48, 49, 50, 51, 52, 53, 54,
      55, 56, 57, 48, 49, 50, 51, 52, 44]) 0 true
      = ⟨true, 24, some (F64.num 1 12345678901234567890 (-4))⟩ ∧
    (12345678901234567890 : ℚ) * 10 ^ (-4 : Int) ≠ 123456789012345678900000 := by
  refine ⟨by decide, by decide, ?_⟩
  norm_num

/-- C25: on the input `1,5;2,5\n3,5;4,5\n` read with `dec = ','`, the quote `"` and the
separator left to the detection (`args.sep` NUL), the tests on the dialect pass and the
detection completes with `sep = ','`: the dialect in force has `sep = dec`, neither of
them NUL. -/
theorem detected_sep_equals_dec :
    (detectDialect { csv [49, 44, 53, 59, 50, 44, 53, 10, 51, 44, 53, 59, 52, 44, 53, 10]
        with dec := 44 } 0 0).map (fun c => (c.sep, c.quote, c.dec, c.quoteRule))
      = some (44, 34, 44, 0) := by
  decide

theorem firstBareEol_quoted (c : Ctx) (m j : Nat) (hm : c.eof - j ≤ m) :
    firstBareEol c m j true =
      if scanWhile c.eof (fun i => rd c i ≠ c.quote) (c.eof - j) j < c.eof then
        firstBareEol c
          (m - (scanWhile c.eof (fun i => rd c i ≠ c.quote) (c.eof - j) j + 1 - j))
          (scanWhile c.eof (fun i => rd c i ≠ c.quote) (c.eof - j) j + 1) false
      else BareEol.unclosed := by
  induction m generalizing j with
  | zero =>
    have hj : c.eof - j = 0 := by omega
    rw [hj]
    simp only [scanWhile, firstBareEol]
    rw [if_neg (show ¬ j < c.eof by omega)]
    rfl
  | succ m ih =>
    rw [firstBareEol]
    by_cases hje : j ≥ c.eof
    · have hj : c.eof - j = 0 := by omega
      rw [hj]
      simp only [scanWhile]
      rw [if_pos hje, if_neg (show ¬ j < c.eof by omega)]
      rfl
    · rw [if_neg hje]
      simp only [if_true]
      obtain ⟨k, hk⟩ : ∃ k, c.eof - j = k + 1 := ⟨c.eof - j - 1, by omega⟩
      rw [hk, scanWhile]
      by_cases hq : rd c j = c.quote
      · have : ¬ (j < c.eof ∧ (decide (rd c j ≠ c.quote)) = true) := by simp [hq]
        rw [if_neg this, if_pos (show j < c.eof by omega)]
        simp only [hq, ne_eq, not_true_eq_false, decide_False]
        congr 1
        omega
      · have : (j < c.eof ∧ (decide (rd c j ≠ c.quote)) = true) := by
          refine ⟨by omega, by simpa using hq⟩
        rw [if_pos this]
        have hk2 : k = c.eof - (j + 1) := by omega
        have e1 : decide (rd c j ≠ c.quote) = true := by simpa using hq
        rw [e1, ih (j + 1) (by omega), hk2]
        have hge := scanWhile_ge c.eof (fun i => rd c i ≠ c.quote) (c.eof - (j + 1)) (j + 1)
        split
        · congr 1
          omega
        · rfl

/-- The offset on which the loop of the detection stops, for each outcome of the scan for
the first line ending outside quotes. -/
theorem eolLoop_spec (c : Ctx) (n m i : Nat) (hi : i ≤ c.eof) (hn : c.eof - i ≤ n)
    (hm : c.eof - i ≤ m) :
    (∀ p, firstBareEol c m i false = BareEol.found p →
      eolLoop c n i = p ∧ p < c.eof ∧ (rd c p = 10 ∨ rd c p = 13)) ∧
    (firstBareEol c m i false = BareEol.unclosed → eolLoop c n i = c.eof + 1) ∧
    (firstBareEol c m i false = BareEol.absent → eolLoop c n i = c.eof) := by
  induction n using Nat.strong_induction_on generalizing m i with
  | _ n ih =>
    cases n with
    | zero =>
      have hie : i = c.eof := by omega
      subst hie
      cases m with
      | zero => simp [firstBareEol, eolLoop]
      | succ m => simp [firstBareEol, eolLoop]
    | succ n =>
      by_cases hie : i ≥ c.eof
      · have hie2 : i = c.eof := by omega
        subst hie2
        cases m with
        | zero => simp [firstBareEol, eolLoop]
        | succ m => simp [firstBareEol, eolLoop]
      · obtain ⟨m, rfl⟩ : ∃ k, m = k + 1 := ⟨m - 1, by omega⟩
        rw [firstBareEol, eolLoop, if_neg hie]
        simp only [Bool.false_eq_true, if_false]
        by_cases he : rd c i = 10 ∨ rd c i = 13
        · rw [if_pos he, if_neg (by
            rintro ⟨_, h1, h2⟩
            rcases he with he | he
            · exact h1 he
            · exact h2 he)]
          refine ⟨fun p hp => ?_, ?_, ?_⟩
          · cases hp
            exact ⟨rfl, by omega, he⟩
          · intro h; cases h
          · intro h; cases h
        · rw [if_neg he, if_pos ⟨by omega, fun h => he (Or.inl h), fun h => he (Or.inr h)⟩]
          by_cases hq : rd c i = c.quote
          · simp only [hq, if_true, decide_True]
            rw [firstBareEol_quoted c m (i + 1) (by omega)]
            have hge := scanWhile_ge c.eof (fun i => rd c i ≠ c.quote) (c.eof - (i + 1)) (i + 1)
            have hle := scanWhile_le c.eof (fun i => rd c i ≠ c.quote) (c.eof - (i + 1)) (i + 1)
              (by omega)
            generalize scanWhile c.eof (fun i => rd c i ≠ c.quote) (c.eof - (i + 1)) (i + 1)
              = q at hge hle
            by_cases hqe : q < c.eof
            · rw [if_pos hqe]
              exact ih n (Nat.lt_succ_self n) _ (q + 1) (by omega) (by omega) (by omega)
            · rw [if_neg hqe]
              have hq2 : q = c.eof := by omega
              subst hq2
              refine ⟨?_, ?_, ?_⟩
              · intro p hp; cases hp
              · intro _
                cases n with
                | zero => simp [eolLoop]
                | succ n => simp [eolLoop]
              · intro h; cases h
          · simp only [hq, if_false, decide_False]
            exact ih n (Nat.lt_succ_self n) _ (i + 1) (by omega) (by omega) (by omega)

/-- C26: the input `a,"b` holds no `\n` or `\r` at all, so that `(\n, \n, 1)` is due, and
its quote is never closed: the scan ends with its cursor one past `eof` and the detection
ends with the terminal error 'Internal error: ch>eof when detecting eol'. The same input
with the quote closed, `a,"b"`, gives `(\n, \n, 1)`. -/
theorem detectEol_unclosed_quote_stops :
    firstBareEol (csv [97, 44, 34, 98]) 4 0 false = BareEol.unclosed ∧
    (∀ i, i < 4 → rd (csv [97, 44, 34, 98]) i ≠ 10 ∧ rd (csv [97, 44, 34, 98]) i ≠ 13) ∧
    detectEol (csv [97, 44, 34, 98]) 0 = EolResult.stopPastEof ∧
    detectEol (csv [97, 44, 34, 98]) 0 ≠ EolResult.ok 10 10 1 false ∧
    detectEol (csv [97, 44, 34, 98, 34]) 0 = EolResult.ok 10 10 1 false := by
  decide

theorem cell_getD_set_self (l : List (Option Cell)) (i : Nat) (v : Option Cell)
    (h : i < l.length) : (l.set i v).getD i none = v := by
  simp [List.getD, h]

theorem cell_getD_set_other (l : List (Option Cell)) (i j : Nat) (v : Option Cell)
    (h : i ≠ j) : (l.set i v).getD j none = l.getD j none := by
  simp [List.getD, List.getElem?_set_ne h]

theorem resjOf_mono (typ : Nat → Int) (i j : Nat) (h : i ≤ j) : resjOf typ i ≤ resjOf typ j := by
  induction j with
  | zero =>
    have : i = 0 := by omega
    subst this
    exact le_refl _
  | succ j ih =>
    rcases Nat.lt_or_ge i (j + 1) with h1 | h1
    · have := ih (by omega)
      rw [resjOf]
      omega
    · have : i = j + 1 := by omega
      subst this
      exact le_refl _

theorem fillCell_not_drop (c : Ctx) (t : Int) (v : Cell) (h : fillCell c t = some v) :
    t ≠ (CT_DROP : Int) := by
  intro h0
  rw [h0] at h
  simp [fillCell, CT_DROP, CT_BOOL8, CT_INT32, CT_INT64, CT_FLOAT64, CT_STRING] at h

/-- The fill loop on one row of the buffers, entered with column `j` and buffer index
`resj`: it keeps the length of the row and the cells before `resj`, and leaves in the cell
of every column `i` from `j` on, which lies `resjOf typ i - resjOf typ j` cells after
`resj`, what the `switch` stores for the type of the column. -/
theorem fillLoop_spec (c : Ctx) (typ : Nat → Int) (ncol : Nat) (n j resj : Nat)
    (row : List (Option Cell)) (hn : ncol - j ≤ n)
    (hlen : resj + (resjOf typ ncol - resjOf typ j) ≤ row.length) :
    (fillLoop c typ ncol n j resj row).length = row.length ∧
    (∀ r, r < resj → (fillLoop c typ ncol n j resj row).getD r none = row.getD r none) ∧
    (∀ i v, j ≤ i → i < ncol → fillCell c (typ i) = some v →
      (fillLoop c typ ncol n j resj row).getD (resj + (resjOf typ i - resjOf typ j)) none
        = some v) := by
  induction n generalizing j resj row with
  | zero =>
    refine ⟨rfl, fun r _ => rfl, fun i v h1 h2 _ => ?_⟩
    omega
  | succ n ih =>
    rw [fillLoop]
    by_cases hj : j < ncol
    · rw [if_pos hj]
      have hmono : resjOf typ (j + 1) ≤ resjOf typ ncol := resjOf_mono typ (j + 1) ncol (by omega)
      have hstep : resjOf typ (j + 1)
          = resjOf typ j + (if typ j ≠ (CT_DROP : Int) then 1 else 0) := by
        rw [resjOf]
      cases hf : fillCell c (typ j) with
      | none =>
        simp only []
        by_cases hd : typ j = (CT_DROP : Int)
        · rw [if_neg (not_not.mpr hd)] at hstep ⊢
          obtain ⟨a1, a2, a3⟩ := ih (j + 1) resj row (by omega) (by omega)
          refine ⟨a1, fun r hr => a2 r hr, fun i v h1 h2 h3 => ?_⟩
          rcases Nat.eq_or_lt_of_le h1 with h4 | h4
          · subst h4
            rw [hf] at h3
            cases h3
          · have hm2 : resjOf typ (j + 1) ≤ resjOf typ i := resjOf_mono typ (j + 1) i (by omega)
            have := a3 i v (by omega) h2 h3
            have e : resj + (resjOf typ i - resjOf typ (j + 1))
                = resj + (resjOf typ i - resjOf typ j) := by omega
            rw [e] at this
            exact this
        · rw [if_pos hd] at hstep ⊢
          obtain ⟨a1, a2, a3⟩ := ih (j + 1) (resj + 1) row (by omega) (by omega)
          refine ⟨a1, fun r hr => a2 r (by omega), fun i v h1 h2 h3 => ?_⟩
          rcases Nat.eq_or_lt_of_le h1 with h4 | h4
          · subst h4
            rw [hf] at h3
            cases h3
          · have hm2 : resjOf typ (j + 1) ≤ resjOf typ i := resjOf_mono typ (j + 1) i (by omega)
            have := a3 i v (by omega) h2 h3
            have e : resj + 1 + (resjOf typ i - resjOf typ (j + 1))
                = resj + (resjOf typ i - resjOf typ j) := by omega
            rw [e] at this
            exact this
      | some w =>
        simp only []
        have hd := fillCell_not_drop c (typ j) w hf
        rw [if_pos hd] at hstep
        rw [if_pos hd]
        obtain ⟨a1, a2, a3⟩ := ih (j + 1) (resj + 1) (row.set resj (some w)) (by omega)
          (by rw [List.length_set]; omega)
        rw [List.length_set] at a1
        refine ⟨a1, fun r hr => ?_, fun i v h1 h2 h3 => ?_⟩
        · rw [a2 r (by omega), cell_getD_set_other _ _ _ _ (by omega)]
        · rcases Nat.eq_or_lt_of_le h1 with h4 | h4
          · subst h4
            rw [hf] at h3
            cases h3
            have hl : resj < row.length := by omega
            rw [Nat.sub_self, a2 _ (by omega), Nat.add_zero, cell_getD_set_self _ _ _ hl]
          · have hm2 : resjOf typ (j + 1) ≤ resjOf typ i := resjOf_mono typ (j + 1) i (by omega)
            have := a3 i v (by omega) h2 h3
            have e : resj + 1 + (resjOf typ i - resjOf typ (j + 1))
                = resj + (resjOf typ i - resjOf typ j) := by omega
            rw [e] at this
            exact this
    · rw [if_neg hj]
      refine ⟨rfl, fun r _ => rfl, fun i v h1 h2 _ => ?_⟩
      omega

/-- A loop over the fields that ends before the last column ends on the end of the line
or of the input. -/
theorem workerFields_short (c : Ctx) (typ : Nat → Int) (n j0 ch j ch3 : Nat)
    (h : workerFields c typ n j0 ch = some (j, ch3)) :
    j ≤ j0 + n ∧ (j < j0 + n → ch3 ≥ c.eof ∨ rd c ch3 = c.eol) := by
  induction n generalizing j0 ch with
  | zero =>
    simp only [workerFields, Option.some.injEq, Prod.mk.injEq] at h
    omega
  | succ n ih =>
    rw [workerFields] at h
    split at h
    · split at h
      · rename_i hc
        simp only [Option.some.injEq, Prod.mk.injEq] at h
        obtain ⟨h1, h2⟩ := h
        subst h1 h2
        exact ⟨by omega, fun _ => by simpa using hc⟩
      · have := ih (j0 + 1) _ h
        exact ⟨by omega, fun hlt => this.2 (by omega)⟩
    · cases h

/-- Once the team is stopped, an iteration of the loop over the jumps changes none of
`ansi`, `prevThreadEnd`, `stopTeam`, `stopErr` and the pushed ranges. -/
theorem jumpStep_stopped (nrowLimit ncol row1Line : Nat) (s : Shared) (r : Bool × JumpRun)
    (h : s.stopTeam = true) :
    (jumpStep nrowLimit ncol row1Line s r).stopTeam = true ∧
    (jumpStep nrowLimit ncol row1Line s r).ansi = s.ansi ∧
    (jumpStep nrowLimit ncol row1Line s r).prevThreadEnd = s.prevThreadEnd ∧
    (jumpStep nrowLimit ncol row1Line s r).stopErr = s.stopErr ∧
    (jumpStep nrowLimit ncol row1Line s r).pushes = s.pushes := by
  unfold jumpStep
  split
  · exact ⟨h, rfl, rfl, rfl, rfl⟩
  · split
    · exact ⟨rfl, rfl, rfl, rfl, rfl⟩
    · exact ⟨rfl, rfl, rfl, rfl, rfl⟩
    · unfold orderedStep
      simp only [h]
      simp

theorem jumps_stopped (nrowLimit ncol row1Line : Nat) (runs : List (Bool × JumpRun))
    (s : Shared) (h : s.stopTeam = true) :
    (runs.foldl (jumpStep nrowLimit ncol row1Line) s).stopTeam = true ∧
    (runs.foldl (jumpStep nrowLimit ncol row1Line) s).ansi = s.ansi ∧
    (runs.foldl (jumpStep nrowLimit ncol row1Line) s).prevThreadEnd = s.prevThreadEnd ∧
    (runs.foldl (jumpStep nrowLimit ncol row1Line) s).stopErr = s.stopErr ∧
    (runs.foldl (jumpStep nrowLimit ncol row1Line) s).pushes = s.pushes := by
  induction runs generalizing s with
  | nil => exact ⟨h, rfl, rfl, rfl, rfl⟩
  | cons r rest ih =>
    obtain ⟨a1, a2, a3, a4, a5⟩ := jumpStep_stopped nrowLimit ncol row1Line s r h
    obtain ⟨b1, b2, b3, b4, b5⟩ := ih (jumpStep nrowLimit ncol row1Line s r) a1
    rw [List.foldl_cons]
    exact ⟨b1, b2.trans a2, b3.trans a3, b4.trans a4, b5.trans a5⟩

/-- What lines 1357-1367 do depends on `stopTeam`, `stopErr` and `ansi` only. -/
theorem passEnd_congr (nrowLimit allocnrow : Nat) (s t : Shared)
    (h1 : s.stopTeam = t.stopTeam) (h2 : s.stopErr = t.stopErr) (h3 : s.ansi = t.ansi) :
    passEnd nrowLimit allocnrow s = passEnd nrowLimit allocnrow t := by
  unfold passEnd
  rw [h1, h2, h3]

/-- Lines 1357-1367 after a pass that wrote no message and committed no more rows than
are allocated: no `STOP`, and the table has the `ansi` rows. -/
theorem passEnd_quiet (nrowLimit allocnrow : Nat) (s : Shared) (h : s.stopErr = StopErr.empty)
    (ha : s.ansi ≤ allocnrow) : passEnd nrowLimit allocnrow s = PassEnd.rows s.ansi := by
  unfold passEnd
  rw [if_neg (by rw [h]; simp), if_neg (by omega)]
  split
  · rename_i h; rw [h]
  · rfl

/-- A pass whose team starts with `stopTeam` not set runs its jumps. -/
theorem readPass_ready (nrowLimit ncol row1Line : Nat) (s : Shared)
    (runs : List (Bool × JumpRun)) (h : s.stopTeam = false) :
    readPass nrowLimit ncol row1Line s TeamStart.ready runs
      = runs.foldl (jumpStep nrowLimit ncol row1Line) s := by
  unfold readPass
  simp [h]

/-- A pass that starts with `stopTeam` set skips every jump. -/
theorem readPass_stopped (nrowLimit ncol row1Line : Nat) (s : Shared)
    (runs : List (Bool × JumpRun)) (h : s.stopTeam = true) :
    readPass nrowLimit ncol row1Line s TeamStart.ready runs = s := by
  unfold readPass
  simp [h]

/-- A jump that ends without a result on shared variables that are not stopped sets
`stopTeam` and leaves `ansi` and `stopErr` as they are. -/
theorem jumpStep_flag (nrowLimit ncol row1Line : Nat) (s : Shared) (e : Bool) (r : JumpRun)
    (h : s.stopTeam = false) (hr : ∀ k j b, r ≠ JumpRun.chunk k j b) :
    (jumpStep nrowLimit ncol row1Line s (e, r)).stopTeam = true ∧
    (jumpStep nrowLimit ncol row1Line s (e, r)).ansi = s.ansi ∧
    (jumpStep nrowLimit ncol row1Line s (e, r)).stopErr = s.stopErr := by
  unfold jumpStep
  rw [if_neg (by rw [h]; simp)]
  cases r with
  | noGoodLine => exact ⟨rfl, rfl, rfl⟩
  | reallocFailed b => exact ⟨rfl, rfl, rfl⟩
  | chunk k j b => exact absurd rfl (hr k j b)

/-- A pass whose first jump to act ends without a result: the team is stopped with `ansi`
and `stopErr` as they were. -/
theorem jumps_flag_first (nrowLimit ncol row1Line : Nat) (s : Shared) (e : Bool) (r : JumpRun)
    (rest : List (Bool × JumpRun))
    (h : s.stopTeam = false) (hr : ∀ k j b, r ≠ JumpRun.chunk k j b) :
    (((e, r) :: rest).foldl (jumpStep nrowLimit ncol row1Line) s).stopTeam = true ∧
    (((e, r) :: rest).foldl (jumpStep nrowLimit ncol row1Line) s).ansi = s.ansi ∧
    (((e, r) :: rest).foldl (jumpStep nrowLimit ncol row1Line) s).stopErr = s.stopErr := by
  obtain ⟨a1, a2, a3⟩ := jumpStep_flag nrowLimit ncol row1Line s e r h hr
  obtain ⟨b1, b2, _, b4, _⟩ := jumps_stopped nrowLimit ncol row1Line rest _ a1
  rw [List.foldl_cons]
  exact ⟨b1, b2.trans a2, b4.trans a3⟩

/-- The lists of length 3 that name 0, 1 and 2. -/
theorem order3 (order : List Nat) (hl : order.length = 3)
    (h0 : 0 ∈ order) (h1 : 1 ∈ order) (h2 : 2 ∈ order) :
    order = [0, 1, 2] ∨ order = [0, 2, 1] ∨ order = [1, 0, 2] ∨ order = [1, 2, 0] ∨
    order = [2, 0, 1] ∨ order = [2, 1, 0] := by
  match order, hl with
  | [x, y, z], _ =>
    simp only [List.mem_cons, List.mem_singleton, List.not_mem_nil, or_false] at h0 h1 h2
    rcases h0 with h0 | h0 | h0 <;> rcases h1 with h1 | h1 | h1 <;>
      rcases h2 with h2 | h2 | h2 <;> subst_vars <;> simp_all

/-- The orders in which three jumps can act name each of them once. -/
theorem validOrder3 (js : List JumpRun) (order : List Nat) (hj : js.length = 3)
    (h : validOrder js order = true) :
    order = [0, 1, 2] ∨ order = [0, 2, 1] ∨ order = [1, 0, 2] ∨ order = [1, 2, 0] ∨
    order = [2, 0, 1] ∨ order = [2, 1, 0] := by
  unfold validOrder at h
  simp only [Bool.and_eq_true, decide_eq_true_eq, List.all_eq_true, List.mem_range, hj] at h
  exact order3 order h.1.1 (h.1.2 0 (by omega)) (h.1.2 1 (by omega)) (h.1.2 2 (by omega))

/-- A third jump that comes to the ordered section with a result acts last. -/
theorem validOrder_chunk_last (r1 r2 : JumpRun) (k : ChunkResult) (j b : Nat)
    (order : List Nat) (h : validOrder [r1, r2, JumpRun.chunk k j b] order = true) :
    order = [0, 1, 2] ∨ order = [1, 0, 2] := by
  rcases validOrder3 [r1, r2, JumpRun.chunk k j b] order rfl h with ho | ho | ho | ho | ho | ho
  · exact Or.inl ho
  · subst ho; exact absurd h (by simp [validOrder, List.range, List.range.loop])
  · exact Or.inr ho
  · subst ho; exact absurd h (by simp [validOrder, List.range, List.range.loop])
  · subst ho; exact absurd h (by simp [validOrder, List.range, List.range.loop])
  · subst ho; exact absurd h (by simp [validOrder, List.range, List.range.loop])

/-- A pass over three jumps of which the first reads 37334 rows and the second finds no
good line: in whatever order the jumps act, the team ends stopped with `stopErr` empty,
with the 37334 rows committed when jump 0 acts first and with none otherwise. -/
theorem first_pass_stopped (r3 : JumpRun) (early : Nat → Bool) (order : List Nat)
    (h : validOrder [JumpRun.chunk ⟨0, 0, 1120020, 37334⟩ 2 0, JumpRun.noGoodLine, r3] order
      = true) :
    ((scheduled [JumpRun.chunk ⟨0, 0, 1120020, 37334⟩ 2 0, JumpRun.noGoodLine, r3]
        early order).foldl (jumpStep 2147483647 2 1)
        ⟨0, 0, false, StopErr.empty, 0, []⟩).stopTeam = true ∧
    ((scheduled [JumpRun.chunk ⟨0, 0, 1120020, 37334⟩ 2 0, JumpRun.noGoodLine, r3]
        early order).foldl (jumpStep 2147483647 2 1)
        ⟨0, 0, false, StopErr.empty, 0, []⟩).stopErr = StopErr.empty ∧
    (order.head? = some 0 →
      ((scheduled [JumpRun.chunk ⟨0, 0, 1120020, 37334⟩ 2 0, JumpRun.noGoodLine, r3]
        early order).foldl (jumpStep 2147483647 2 1)
        ⟨0, 0, false, StopErr.empty, 0, []⟩).ansi = 37334) ∧
    (order.head? ≠ some 0 →
      ((scheduled [JumpRun.chunk ⟨0, 0, 1120020, 37334⟩ 2 0, JumpRun.noGoodLine, r3]
        early order).foldl (jumpStep 2147483647 2 1)
        ⟨0, 0, false, StopErr.empty, 0, []⟩).ansi = 0) := by
  have hJ0 : ∀ e : Bool, jumpStep 2147483647 2 1 ⟨0, 0, false, StopErr.empty, 0, []⟩
      (e, JumpRun.chunk ⟨0, 0, 1120020, 37334⟩ 2 0)
      = ⟨37334, 1120020, false, StopErr.empty, 0, [(0, 37334)]⟩ := by
    intro e; cases e <;> decide
  have hno : ∀ k j b, JumpRun.noGoodLine ≠ JumpRun.chunk k j b := by
    intro k j b hc; cases hc
  -- the first jump to act is jump 0, the second ends without a result
  have L2 : ∀ (e0 e : Bool) (r : JumpRun) (rest : List (Bool × JumpRun)),
      (∀ k j b, r ≠ JumpRun.chunk k j b) →
      (((e0, JumpRun.chunk ⟨0, 0, 1120020, 37334⟩ 2 0) :: (e, r) :: rest).foldl
        (jumpStep 2147483647 2 1) ⟨0, 0, false, StopErr.empty, 0, []⟩).stopTeam = true ∧
      (((e0, JumpRun.chunk ⟨0, 0, 1120020, 37334⟩ 2 0) :: (e, r) :: rest).foldl
        (jumpStep 2147483647 2 1) ⟨0, 0, false, StopErr.empty, 0, []⟩).stopErr
        = StopErr.empty ∧
      (((e0, JumpRun.chunk ⟨0, 0, 1120020, 37334⟩ 2 0) :: (e, r) :: rest).foldl
        (jumpStep 2147483647 2 1) ⟨0, 0, false, StopErr.empty, 0, []⟩).ansi = 37334 := by
    intro e0 e r rest hr
    rw [List.foldl_cons, hJ0]
    obtain ⟨a1, a2, a3⟩ := jumps_flag_first 2147483647 2 1
      ⟨37334, 1120020, false, StopErr.empty, 0, [(0, 37334)]⟩ e r rest rfl hr
    exact ⟨a1, a3, a2⟩
  -- the first jump to act ends without a result
  have L1 : ∀ (e : Bool) (r : JumpRun) (rest : List (Bool × JumpRun)),
      (∀ k j b, r ≠ JumpRun.chunk k j b) →
      (((e, r) :: rest).foldl
        (jumpStep 2147483647 2 1) ⟨0, 0, false, StopErr.empty, 0, []⟩).stopTeam = true ∧
      (((e, r) :: rest).foldl
        (jumpStep 2147483647 2 1) ⟨0, 0, false, StopErr.empty, 0, []⟩).stopErr
        = StopErr.empty ∧
      (((e, r) :: rest).foldl
        (jumpStep 2147483647 2 1) ⟨0, 0, false, StopErr.empty, 0, []⟩).ansi = 0 := by
    intro e r rest hr
    obtain ⟨a1, a2, a3⟩ := jumps_flag_first 2147483647 2 1
      ⟨0, 0, false, StopErr.empty, 0, []⟩ e r rest rfl hr
    exact ⟨a1, a3, a2⟩
  by_cases hc : ∃ k j b, r3 = JumpRun.chunk k j b
  · obtain ⟨k, j, b, rfl⟩ := hc
    rcases validOrder_chunk_last _ _ k j b order h with ho | ho
    · subst ho
      obtain ⟨a1, a2, a3⟩ := L2 (early 0) (early 1) JumpRun.noGoodLine [(early 2, JumpRun.chunk k j b)] hno
      exact ⟨a1, a2, fun _ => a3, fun hh => absurd rfl hh⟩
    · subst ho
      obtain ⟨a1, a2, a3⟩ := L1 (early 1) JumpRun.noGoodLine
        [(early 0, JumpRun.chunk ⟨0, 0, 1120020, 37334⟩ 2 0), (early 2, JumpRun.chunk k j b)] hno
      exact ⟨a1, a2, fun hh => by simp at hh, fun _ => a3⟩
  · have hr3 : ∀ k j b, r3 ≠ JumpRun.chunk k j b := fun k j b hh => hc ⟨k, j, b, hh⟩
    rcases validOrder3 _ order (by rfl) h with ho | ho | ho | ho | ho | ho
    · subst ho
      obtain ⟨a1, a2, a3⟩ := L2 (early 0) (early 1) JumpRun.noGoodLine [(early 2, r3)] hno
      exact ⟨a1, a2, fun _ => a3, fun hh => absurd rfl hh⟩
    · subst ho
      obtain ⟨a1, a2, a3⟩ := L2 (early 0) (early 2) r3 [(early 1, JumpRun.noGoodLine)] hr3
      exact ⟨a1, a2, fun _ => a3, fun hh => absurd rfl hh⟩
    · subst ho
      obtain ⟨a1, a2, a3⟩ := L1 (early 1) JumpRun.noGoodLine
        [(early 0, JumpRun.chunk ⟨0, 0, 1120020, 37334⟩ 2 0), (early 2, r3)] hno
      exact ⟨a1, a2, fun hh => by simp at hh, fun _ => a3⟩
    · subst ho
      obtain ⟨a1, a2, a3⟩ := L1 (early 1) JumpRun.noGoodLine
        [(early 2, r3), (early 0, JumpRun.chunk ⟨0, 0, 1120020, 37334⟩ 2 0)] hno
      exact ⟨a1, a2, fun hh => by simp at hh, fun _ => a3⟩
    · subst ho
      obtain ⟨a1, a2, a3⟩ := L1 (early 2) r3
        [(early 0, JumpRun.chunk ⟨0, 0, 1120020, 37334⟩ 2 0), (early 1, JumpRun.noGoodLine)] hr3
      exact ⟨a1, a2, fun hh => by simp at hh, fun _ => a3⟩
    · subst ho
      obtain ⟨a1, a2, a3⟩ := L1 (early 2) r3
        [(early 1, JumpRun.noGoodLine), (early 0, JumpRun.chunk ⟨0, 0, 1120020, 37334⟩ 2 0)] hr3
      exact ⟨a1, a2, fun hh => by simp at hh, fun _ => a3⟩

/-- C21: a read of 2400 rows in two chunks of 1201 and 1199 rows with `nrowLimit = 1500`,
in which a worker meets one out-of-sample type exception in the first chunk. The first
pass commits rows `[0, 1201)` and `[1201, 1500)`, so `ansi = 1500 = min(1500, 2400)`, and
stops the team for the row limit. The reread pass starts with `stopTeam` still set and
`ansi = 0`, commits nothing whatever its workers are, and the table is returned with 0
rows. -/
theorem reread_after_row_limit_commits_no_rows :
    (readPass 1500 2 1 ⟨0, 0, false, StopErr.empty, 0, []⟩ TeamStart.ready
      [(false, JumpRun.chunk ⟨0, 0, 1201000, 1201⟩ 2 1),
       (false, JumpRun.chunk ⟨0, 1201000, 2400000, 1199⟩ 2 0)])
      = ⟨1500, 2400000, true, StopErr.empty, 1, [(0, 1201), (1201, 299)]⟩ ∧
    ∀ runs2 : List (Bool × JumpRun),
      readBody 1500 2 1 0 1500 TeamStart.ready
        [(false, JumpRun.chunk ⟨0, 0, 1201000, 1201⟩ 2 1),
         (false, JumpRun.chunk ⟨0, 1201000, 2400000, 1199⟩ 2 0)]
        TeamStart.ready runs2 = ReadOutcome.table 0 2 := by
  have h1 : (readPass 1500 2 1 ⟨0, 0, false, StopErr.empty, 0, []⟩ TeamStart.ready
      [(false, JumpRun.chunk ⟨0, 0, 1201000, 1201⟩ 2 1),
       (false, JumpRun.chunk ⟨0, 1201000, 2400000, 1199⟩ 2 0)])
      = ⟨1500, 2400000, true, StopErr.empty, 1, [(0, 1201), (1201, 299)]⟩ := by decide
  refine ⟨h1, fun runs2 => ?_⟩
  unfold readBody
  simp only [h1]
  rw [show passEnd 1500 1500 ⟨1500, 2400000, true, StopErr.empty, 1, [(0, 1201), (1201, 299)]⟩
    = PassEnd.rows 1500 by decide]
  simp only [ne_eq, one_ne_zero, not_false_eq_true, if_true]
  rw [readPass_stopped _ _ _ ⟨0, 0, true, StopErr.empty, 1, [(0, 1201), (1201, 299)]⟩ _ rfl]
  decide

/-- The fill loop writes no cell before the buffer index it is entered with. -/
theorem fillLoop_keeps (c : Ctx) (typ : Nat → Int) (ncol : Nat) (n j resj : Nat)
    (row : List (Option Cell)) (r : Nat) (hr : r < resj) :
    (fillLoop c typ ncol n j resj row).getD r none = row.getD r none := by
  induction n generalizing j resj row with
  | zero => rfl
  | succ n ih =>
    rw [fillLoop]
    split
    · have hres : r < (if typ j ≠ (CT_DROP : Int) then resj + 1 else resj) := by
        split <;> omega
      rw [ih _ _ _ hres]
      split
      · exact cell_getD_set_other _ _ _ _ (by omega)
      · rfl
    · rfl

/-- The fill loop leaves alone the cell of every column from `j` on for which the `switch`
stores nothing and which is not dropped. -/
theorem fillLoop_skips (c : Ctx) (typ : Nat → Int) (ncol : Nat) (n j resj : Nat)
    (row : List (Option Cell)) (hn : ncol - j ≤ n) :
    ∀ i, j ≤ i → i < ncol → fillCell c (typ i) = none → typ i ≠ (CT_DROP : Int) →
      (fillLoop c typ ncol n j resj row).getD (resj + (resjOf typ i - resjOf typ j)) none
        = row.getD (resj + (resjOf typ i - resjOf typ j)) none := by
  induction n generalizing j resj row with
  | zero => intro i h1 h2; omega
  | succ n ih =>
    intro i h1 h2 h3 h4
    rw [fillLoop, if_pos (show j < ncol by omega)]
    have hstep : resjOf typ (j + 1)
        = resjOf typ j + (if typ j ≠ (CT_DROP : Int) then 1 else 0) := by
      rw [resjOf]
    rcases Nat.eq_or_lt_of_le h1 with h5 | h5
    · subst h5
      rw [h3, if_pos h4, Nat.sub_self, Nat.add_zero]
      simp only []
      exact fillLoop_keeps c typ ncol n (j + 1) (resj + 1) row resj (by omega)
    · have hm2 : resjOf typ (j + 1) ≤ resjOf typ i := resjOf_mono typ (j + 1) i (by omega)
      by_cases hd : typ j = (CT_DROP : Int)
      · rw [if_neg (not_not.mpr hd)] at hstep ⊢
        have hf : fillCell c (typ j) = none := by
          rw [hd]
          simp [fillCell, CT_DROP, CT_BOOL8, CT_INT32, CT_INT64, CT_FLOAT64, CT_STRING]
        rw [hf]
        simp only []
        have := ih (j + 1) resj row (by omega) i (by omega) h2 h3 h4
        have e : resj + (resjOf typ i - resjOf typ (j + 1))
            = resj + (resjOf typ i - resjOf typ j) := by omega
        rw [e] at this
        exact this
      · rw [if_pos hd] at hstep ⊢
        have e : resj + 1 + (resjOf typ i - resjOf typ (j + 1))
            = resj + (resjOf typ i - resjOf typ j) := by omega
        cases hf : fillCell c (typ j) with
        | none =>
          simp only []
          have := ih (j + 1) (resj + 1) row (by omega) i (by omega) h2 h3 h4
          rw [e] at this
          exact this
        | some w =>
          simp only []
          have := ih (j + 1) (resj + 1) (row.set resj (some w)) (by omega) i (by omega) h2 h3 h4
          rw [e] at this
          rw [this, cell_getD_set_other _ _ _ _ (by omega)]

theorem fillCell_neg (c : Ctx) (t : Int) (h : t < 0) : fillCell c t = none := by
  unfold fillCell
  simp only [CT_BOOL8, CT_INT32, CT_INT64, CT_FLOAT64, CT_STRING]
  rw [if_neg (by omega), if_neg (by omega), if_neg (by omega), if_neg (by omega),
    if_neg (by omega)]

/-- C22: a line of the body that is not blank and on which the loop over the fields ends
after `j < ncol` fields, on `ch3`. With `fill` set the worker goes on with the next line,
and the fill loop, entered at the buffer index `resj` the fields left, keeps the cells
before `resj` and stores, for every column `i` from `j` on, `NA_BOOL8`, `NA_INT32`,
`NA_INT64` or `NA_FLOAT64` when the type entry of the column is `CT_BOOL8`, `CT_INT32`,
`CT_INT64` or `CT_FLOAT64`, the empty string (length 0, offset 0) when it is `CT_STRING`
and the blank is not an NA string, and nothing when it is negative. With `fill` unset the worker leaves its
loop with stop reason 2 and the rows `buffi` it has read; when it comes to the ordered
section before the team is stopped, `stopErr` gets the message that names the line
`ansi + buffi + row1Line`, and the pass ends with `STOP(stopErr)` whatever the later
jumps do. -/
theorem short_row_filled_or_stopped (c : Ctx) (typ : Nat → Nat → Int)
    (ncol nextJump nrowLimit n ch buffi ch2 j ch3 : Nat)
    (hin : ch < nextJump ∧ buffi < nrowLimit)
    (h2 : ch2 = skip_white c
      (if c.sep = 32 then scanWhile c.eof (fun i => rd c i = 32) (c.eof - ch) ch else ch))
    (hnb : ch2 < c.eof ∧ rd c ch2 ≠ c.eol)
    (hf : workerFields c (typ buffi) ncol 0 ch2 = some (j, ch3)) (hj : j < ncol) :
    (c.fill = true →
      workerLoop c typ ncol nextJump nrowLimit (n + 1) ch buffi
        = workerLoop c typ ncol nextJump nrowLimit n (ch3 + c.eolLen) (buffi + 1) ∧
      ∀ (resj : Nat) (row : List (Option Cell)),
        resj + (resjOf (typ buffi) ncol - resjOf (typ buffi) j) ≤ row.length →
        (∀ r, r < resj →
          (fillLoop c (typ buffi) ncol (ncol - j) j resj row).getD r none = row.getD r none) ∧
        ∀ i, j ≤ i → i < ncol →
          (typ buffi i = (CT_BOOL8 : Int) →
            (fillLoop c (typ buffi) ncol (ncol - j) j resj row).getD
              (resj + (resjOf (typ buffi) i - resjOf (typ buffi) j)) none
              = some (Cell.bool8 NA_BOOL8)) ∧
          (typ buffi i = (CT_INT32 : Int) →
            (fillLoop c (typ buffi) ncol (ncol - j) j resj row).getD
              (resj + (resjOf (typ buffi) i - resjOf (typ buffi) j)) none
              = some (Cell.int32 NA_INT32)) ∧
          (typ buffi i = (CT_INT64 : Int) →
            (fillLoop c (typ buffi) ncol (ncol - j) j resj row).getD
              (resj + (resjOf (typ buffi) i - resjOf (typ buffi) j)) none
              = some (Cell.int64 NA_INT64)) ∧
          (typ buffi i = (CT_FLOAT64 : Int) →
            (fillLoop c (typ buffi) ncol (ncol - j) j resj row).getD
              (resj + (resjOf (typ buffi) i - resjOf (typ buffi) j)) none
              = some (Cell.float64 F64.na)) ∧
          (typ buffi i = (CT_STRING : Int) → c.blank_is_a_NAstring = false →
            (fillLoop c (typ buffi) ncol (ncol - j) j resj row).getD
              (resj + (resjOf (typ buffi) i - resjOf (typ buffi) j)) none
              = some (Cell.string ⟨0, 0⟩)) ∧
          (typ buffi i < 0 →
            (fillLoop c (typ buffi) ncol (ncol - j) j resj row).getD
              (resj + (resjOf (typ buffi) i - resjOf (typ buffi) j)) none
              = row.getD (resj + (resjOf (typ buffi) i - resjOf (typ buffi) j)) none)) ∧
    (c.fill = false →
      workerLoop c typ ncol nextJump nrowLimit (n + 1) ch buffi = some (2, ch3, buffi) ∧
      ∀ (row1Line start bumps allocnrow : Nat) (early : Bool) (s : Shared)
        (rest : List (Bool × JumpRun)), s.stopTeam = false →
        (jumpStep nrowLimit ncol row1Line s
          (early, JumpRun.chunk ⟨2, start, ch3, buffi⟩ j bumps)).stopErr
          = StopErr.tooFew ncol (s.ansi + buffi + row1Line) j ∧
        passEnd nrowLimit allocnrow
          (rest.foldl (jumpStep nrowLimit ncol row1Line)
            (jumpStep nrowLimit ncol row1Line s
              (early, JumpRun.chunk ⟨2, start, ch3, buffi⟩ j bumps)))
          = PassEnd.stop (StopErr.tooFew ncol (s.ansi + buffi + row1Line) j)) := by
  have hshort := (workerFields_short c (typ buffi) ncol 0 ch2 j ch3 hf).2 (by omega)
  have hrow : ∀ b : Bool, c.fill = b → workerRow c (typ buffi) ncol ch =
      if b = false then RowResult.stop 2 ch3 else RowResult.row (ch3 + c.eolLen) := by
    intro b hb
    unfold workerRow
    simp only [← h2]
    rw [if_neg (by rintro ⟨h, _⟩; rcases h with h | h; exact absurd hnb.1 (by omega); exact hnb.2 h),
      if_neg (by rintro ⟨h, _⟩; rcases h with h | h; exact absurd hnb.1 (by omega); exact hnb.2 h)]
    simp only [hf, hb]
    cases b
    · simp [hj]
    · simp only [Bool.true_eq_false, and_false, if_false]
      rw [if_neg (by rintro ⟨h1, h2⟩; rcases hshort with h | h; omega; exact h2 h)]
  refine ⟨fun hfill => ⟨?_, ?_⟩, fun hfill => ⟨?_, ?_⟩⟩
  · rw [workerLoop, if_pos hin, hrow true hfill]
    rfl
  · intro resj row hlen
    obtain ⟨_, a2, a3⟩ := fillLoop_spec c (typ buffi) ncol (ncol - j) j resj row (le_refl _) hlen
    refine ⟨a2, fun i h1 h2 => ⟨fun ht => ?_, fun ht => ?_, fun ht => ?_, fun ht => ?_,
      fun ht hb => ?_, fun ht => ?_⟩⟩
    · exact a3 i _ h1 h2 (by rw [ht]; rfl)
    · exact a3 i _ h1 h2 (by rw [ht]; rfl)
    · exact a3 i _ h1 h2 (by rw [ht]; rfl)
    · exact a3 i _ h1 h2 (by rw [ht]; rfl)
    · exact a3 i _ h1 h2 (by
        rw [ht]; simp [fillCell, hb, CT_STRING, CT_BOOL8, CT_INT32, CT_INT64, CT_FLOAT64])
    · exact fillLoop_skips c (typ buffi) ncol (ncol - j) j resj row (le_refl _) i h1 h2
        (fillCell_neg c _ ht) (by simp only [CT_DROP]; omega)
  · rw [workerLoop, if_pos hin, hrow false hfill]
    rfl
  · intro row1Line start bumps allocnrow early s rest hs
    have hstep : jumpStep nrowLimit ncol row1Line s
        (early, JumpRun.chunk ⟨2, start, ch3, buffi⟩ j bumps)
        = { s with nTypeBump := s.nTypeBump + bumps,
                   stopErr := StopErr.tooFew ncol (s.ansi + buffi + row1Line) j,
                   stopTeam := true } := by
      unfold jumpStep
      rw [if_neg (by rw [hs]; simp)]
      simp only [orderedStep, hs, stopMessage]
      simp
    rw [hstep]
    refine ⟨rfl, ?_⟩
    obtain ⟨a1, a2, _, a4, _⟩ := jumps_stopped nrowLimit ncol row1Line rest
      { s with nTypeBump := s.nTypeBump + bumps,
               stopErr := StopErr.tooFew ncol (s.ansi + buffi + row1Line) j,
               stopTeam := true } rfl
    unfold passEnd
    rw [a1, a4]
    simp

theorem short_row_filled_or_stopped_witness :
    (workerLoop { csv [49, 44, 50, 10, 51, 10] with fill := true } (fun _ _ => 2) 2 6 100
        4 4 1 = workerLoop { csv [49, 44, 50, 10, 51, 10] with fill := true } (fun _ _ => 2)
          2 6 100 3 6 2 ∧
      (fillLoop { csv [49, 44, 50, 10, 51, 10] with fill := true } (fun _ => 2) 2 1 1 1
        [some (Cell.int32 3), none]).getD 1 none = some (Cell.int32 NA_INT32)) ∧
    (workerLoop (csv [49, 44, 50, 10, 51, 10]) (fun _ _ => 2) 2 6 100 4 4 1 = some (2, 5, 1) ∧
      passEnd 100 2 (jumpStep 100 2 1 ⟨0, 0, false, StopErr.empty, 0, []⟩
        (false, JumpRun.chunk ⟨2, 0, 5, 1⟩ 1 0)) = PassEnd.stop (StopErr.tooFew 2 2 1)) :=
  ⟨⟨((short_row_filled_or_stopped { csv [49, 44, 50, 10, 51, 10] with fill := true }
        (fun _ _ => 2) 2 6 100 3 4 1 4 1 5 (by decide) (by decide) (by decide) (by decide)
        (by decide)).1 rfl).1,
      ((((short_row_filled_or_stopped { csv [49, 44, 50, 10, 51, 10] with fill := true }
        (fun _ _ => 2) 2 6 100 3 4 1 4 1 5 (by decide) (by decide) (by decide) (by decide)
        (by decide)).1 rfl).2 1 [some (Cell.int32 3), none] (by decide)).2 1 (by decide)
        (by decide)).2.1 rfl⟩,
    ⟨((short_row_filled_or_stopped (csv [49, 44, 50, 10, 51, 10])
        (fun _ _ => 2) 2 6 100 3 4 1 4 1 5 (by decide) (by decide) (by decide) (by decide)
        (by decide)).2 rfl).1,
      (((short_row_filled_or_stopped (csv [49, 44, 50, 10, 51, 10])
        (fun _ _ => 2) 2 6 100 3 4 1 4 1 5 (by decide) (by decide) (by decide) (by decide)
        (by decide)).2 rfl).2 1 0 0 2 false ⟨0, 0, false, StopErr.empty, 0, []⟩ [] rfl).2⟩⟩

/-- C22, as stated, fails on the body `a,b\nc\n` read with `fill` set into two string
columns, the blank not being an NA string: the second line ends after one field, and the
fill loop stores in the second column the empty string, of length 0, which is not the
missing value of a string column, the length `INT_MIN`. -/
theorem fill_string_counterexample :
    workerFields { csv [97, 44, 98, 10, 99, 10] with fill := true } (fun _ => 5) 2 0 4
      = some (1, 5) ∧
    workerRow { csv [97, 44, 98, 10, 99, 10] with fill := true } (fun _ => 5) 2 4
      = RowResult.row 6 ∧
    fillLoop { csv [97, 44, 98, 10, 99, 10] with fill := true } (fun _ => 5) 2 1 1 1
      [some (Cell.string ⟨1, 0⟩), none]
      = [some (Cell.string ⟨1, 0⟩), some (Cell.string ⟨0, 0⟩)] ∧
    isMissing (Cell.string ⟨0, 0⟩) = false := by
  decide

/-- C23: a read in one chunk of 3151 rows whose first pass met one out-of-sample type
exception, the first column going from `CT_BOOL8` to `CT_FLOAT64`. In the reread pass the
scanner `StrtoD` fails on the field `T` of the first row, the retry loop reads the field
with `Field` and the critical section replaces the column type 4 by -5. No `STOP` is
made for it: whatever the number `b + 1` of such replacements in the reread pass and the
rows `a` allocated beyond the 3151, the critical section calls `realloc` on the
`typeBumpMsg` that was freed after the first pass. -/
theorem reread_type_exception_reallocs_freed :
    (StrtoD (csv [84, 44, 49, 10]) 0 true).ok = false ∧
    bodyRetry (csv [84, 44, 49, 10]) 0 7 4 true = Retry.read (-5) 1 ∧
    bodyTypeUpdate 4 4 (-5) = -5 ∧
    ∀ a b : Nat,
      readBody 2147483647 2 1 0 (3151 + a) TeamStart.ready
        [(false, JumpRun.chunk ⟨0, 0, 9606, 3151⟩ 2 1)]
        TeamStart.ready [(false, JumpRun.chunk ⟨0, 0, 9606, 3151⟩ 2 (b + 1))]
        = ReadOutcome.reallocFreed := by
  refine ⟨by decide, by decide, by decide, fun a b => ?_⟩
  have h1 : readPass 2147483647 2 1 ⟨0, 0, false, StopErr.empty, 0, []⟩ TeamStart.ready
      [(false, JumpRun.chunk ⟨0, 0, 9606, 3151⟩ 2 1)]
      = ⟨3151, 9606, false, StopErr.empty, 1, [(0, 3151)]⟩ := by decide
  have h2 : readPass 2147483647 2 1 ⟨0, 0, false, StopErr.empty, 1, [(0, 3151)]⟩
      TeamStart.ready [(false, JumpRun.chunk ⟨0, 0, 9606, 3151⟩ 2 (b + 1))]
      = ⟨3151, 9606, false, StopErr.empty, 1 + (b + 1), [(0, 3151), (0, 3151)]⟩ := by
    simp [readPass, jumpStep, orderedStep]
  unfold readBody
  rw [h1]
  dsimp only
  rw [passEnd_quiet _ _ _ rfl (by dsimp only; omega)]
  dsimp only
  rw [if_pos (by decide), h2]
  dsimp only
  rw [if_pos (by omega)]

/-- C24: a read in three chunks in which the worker of the second jump finds no good line
start (`nextGoodLine` returns false) while the first reads 37334 rows. In whatever order
the three jumps act on the shared variables, and whichever of them were started before
the flag was set, the pass ends with `stopTeam` set and `stopErr` empty, and the body read
ends without a `STOP`: the table is returned, with the 37334 rows of the first chunk, or
with no row when the first jump is not the first to act (or after a reread, every jump of
which is skipped). Likewise a team that fails to allocate its buffers sets `stopTeam`
only, and the table is returned with 0 rows. -/
theorem stop_without_cause_returns_table (a : Nat) (r3 : JumpRun) (early : Nat → Bool)
    (order : List Nat) (runs2 : List (Bool × JumpRun))
    (h : validOrder [JumpRun.chunk ⟨0, 0, 1120020, 37334⟩ 2 0, JumpRun.noGoodLine, r3] order
      = true) :
    ((readPass 2147483647 2 1 ⟨0, 0, false, StopErr.empty, 0, []⟩ TeamStart.ready
      (scheduled [JumpRun.chunk ⟨0, 0, 1120020, 37334⟩ 2 0, JumpRun.noGoodLine, r3]
        early order)).stopTeam = true ∧
     (readPass 2147483647 2 1 ⟨0, 0, false, StopErr.empty, 0, []⟩ TeamStart.ready
      (scheduled [JumpRun.chunk ⟨0, 0, 1120020, 37334⟩ 2 0, JumpRun.noGoodLine, r3]
        early order)).stopErr = StopErr.empty ∧
     ∃ n p, readBody 2147483647 2 1 0 (37334 + a) TeamStart.ready
        (scheduled [JumpRun.chunk ⟨0, 0, 1120020, 37334⟩ 2 0, JumpRun.noGoodLine, r3]
          early order) TeamStart.ready runs2 = ReadOutcome.table n p ∧
      (n = 0 ∨ n = 37334) ∧ (order.head? ≠ some 0 → n = 0)) ∧
    (∀ (nrowLimit ncol row1Line pos allocnrow : Nat) (t2 : TeamStart)
      (runs : List (Bool × JumpRun)),
      readBody nrowLimit ncol row1Line pos allocnrow TeamStart.allocFailed runs t2 runs2
        = ReadOutcome.table 0 1) := by
  constructor
  · obtain ⟨a1, a2, a3, a4⟩ := first_pass_stopped r3 early order h
    rw [← readPass_ready _ _ _ _ _ rfl] at a1 a2 a3 a4
    refine ⟨a1, a2, ?_⟩
    have hn : (readPass 2147483647 2 1 ⟨0, 0, false, StopErr.empty, 0, []⟩ TeamStart.ready
        (scheduled [JumpRun.chunk ⟨0, 0, 1120020, 37334⟩ 2 0, JumpRun.noGoodLine, r3]
          early order)).ansi = 0 ∨
        (readPass 2147483647 2 1 ⟨0, 0, false, StopErr.empty, 0, []⟩ TeamStart.ready
        (scheduled [JumpRun.chunk ⟨0, 0, 1120020, 37334⟩ 2 0, JumpRun.noGoodLine, r3]
          early order)).ansi = 37334 := by
      by_cases hh : order.head? = some 0
      · exact Or.inr (a3 hh)
      · exact Or.inl (a4 hh)
    unfold readBody
    generalize readPass 2147483647 2 1 ⟨0, 0, false, StopErr.empty, 0, []⟩ TeamStart.ready
        (scheduled [JumpRun.chunk ⟨0, 0, 1120020, 37334⟩ 2 0, JumpRun.noGoodLine, r3]
          early order) = s1 at a1 a2 a3 a4 hn
    dsimp only
    rw [passEnd_quiet _ _ _ a2 (by omega)]
    dsimp only
    split
    · rw [readPass_stopped _ _ _ { s1 with ansi := 0, prevThreadEnd := 0 } _ a1]
      dsimp only
      rw [if_neg (by simp),
        passEnd_quiet _ _ { s1 with ansi := 0, prevThreadEnd := 0 } a2 (Nat.zero_le _)]
      exact ⟨0, 2, rfl, Or.inl rfl, fun _ => rfl⟩
    · exact ⟨s1.ansi, 1, rfl, hn, a4⟩
  · intro nrowLimit ncol row1Line pos allocnrow t2 runs
    unfold readBody
    have h1 : readPass nrowLimit ncol row1Line ⟨0, pos, false, StopErr.empty, 0, []⟩
        TeamStart.allocFailed runs = ⟨0, pos, true, StopErr.empty, 0, []⟩ := by
      simp [readPass]
    simp only [h1]
    rw [passEnd_quiet _ _ _ rfl (Nat.zero_le _)]
    simp

/-- C24, an instance: the second jump fails before the first comes to its ordered section,
and the table is returned with 0 rows; when the first jump passes its ordered section
before, the table is returned with its 37334 rows. -/
theorem stop_without_cause_returns_table_witness :
    validOrder [JumpRun.chunk ⟨0, 0, 1120020, 37334⟩ 2 0, JumpRun.noGoodLine,
      JumpRun.chunk ⟨0, 2240010, 3360000, 37333⟩ 2 0] [1, 0, 2] = true ∧
    (((readPass 2147483647 2 1 ⟨0, 0, false, StopErr.empty, 0, []⟩ TeamStart.ready
      (scheduled [JumpRun.chunk ⟨0, 0, 1120020, 37334⟩ 2 0, JumpRun.noGoodLine,
        JumpRun.chunk ⟨0, 2240010, 3360000, 37333⟩ 2 0] (fun _ => true) [1, 0, 2])).stopTeam
        = true ∧
     (readPass 2147483647 2 1 ⟨0, 0, false, StopErr.empty, 0, []⟩ TeamStart.ready
      (scheduled [JumpRun.chunk ⟨0, 0, 1120020, 37334⟩ 2 0, JumpRun.noGoodLine,
        JumpRun.chunk ⟨0, 2240010, 3360000, 37333⟩ 2 0] (fun _ => true) [1, 0, 2])).stopErr
        = StopErr.empty ∧
     ∃ n p, readBody 2147483647 2 1 0 (37334 + 2666) TeamStart.ready
        (scheduled [JumpRun.chunk ⟨0, 0, 1120020, 37334⟩ 2 0, JumpRun.noGoodLine,
          JumpRun.chunk ⟨0, 2240010, 3360000, 37333⟩ 2 0] (fun _ => true) [1, 0, 2])
        TeamStart.ready [] = ReadOutcome.table n p ∧
      (n = 0 ∨ n = 37334) ∧ ([1, 0, 2].head? ≠ some 0 → n = 0)) ∧
    (∀ (nrowLimit ncol row1Line pos allocnrow : Nat) (t2 : TeamStart)
      (runs : List (Bool × JumpRun)),
      readBody nrowLimit ncol row1Line pos allocnrow TeamStart.allocFailed runs t2 []
        = ReadOutcome.table 0 1)) ∧
    readBody 2147483647 2 1 0 40000 TeamStart.ready
      [(true, JumpRun.noGoodLine), (true, JumpRun.chunk ⟨0, 0, 1120020, 37334⟩ 2 0),
       (true, JumpRun.chunk ⟨0, 2240010, 3360000, 37333⟩ 2 0)] TeamStart.ready []
      = ReadOutcome.table 0 1 ∧
    readBody 2147483647 2 1 0 40000 TeamStart.ready
      [(true, JumpRun.chunk ⟨0, 0, 1120020, 37334⟩ 2 0), (true, JumpRun.noGoodLine),
       (true, JumpRun.chunk ⟨0, 2240010, 3360000, 37333⟩ 2 0)] TeamStart.ready []
      = ReadOutcome.table 37334 1 :=
  ⟨by decide,
    stop_without_cause_returns_table 2666 (JumpRun.chunk ⟨0, 2240010, 3360000, 37333⟩ 2 0)
      (fun _ => true) [1, 0, 2] [] (by decide),
    by decide, by decide⟩

/-- The return value of the tail shared by the number scanners. -/
theorem numTail_ok_iff {α : Type} (c : Ctx) (tgt : Bool) (start ch : Nat) (ok : Bool)
    (v na : α) :
    (numTail c tgt start ch ok v na).ok = true ↔
      (ok = true ∧ (on_sep c (skip_white c ch)).1 = true) ∨ is_NAstring c start = true := by
  unfold numTail
  cases ok <;> cases h1 : (on_sep c (skip_white c ch)).1 <;>
    cases h2 : c.any_number_like_NAstrings <;> cases h3 : is_NAstring c start <;>
    simp [h1, h2, h3]

/-- A digit loop with a larger limit gives the same result, unless the loop with the
smaller limit stopped on a digit. -/
theorem accLoop_limit_mono (c : Ctx) (l1 l2 : Nat) (h : l1 ≤ l2) (n ch acc : Nat) :
    accLoop c l1 n ch acc = accLoop c l2 n ch acc ∨
    ((accLoop c l1 n ch acc).1 < c.eof ∧ isDigit c (accLoop c l1 n ch acc).1 = true) := by
  induction n generalizing ch acc with
  | zero => left; rfl
  | succ n ih =>
    rw [accLoop, accLoop]
    by_cases h1 : ch < c.eof ∧ isDigit c ch = true ∧ acc < l1
    · rw [if_pos h1, if_pos ⟨h1.1, h1.2.1, by omega⟩]
      exact ih _ _
    · rw [if_neg h1]
      by_cases h2 : ch < c.eof ∧ isDigit c ch = true ∧ acc < l2
      · right
        exact ⟨h2.1, h2.2.1⟩
      · rw [if_neg h2]
        left; rfl

/-- A digit loop that starts off a digit does nothing. -/
theorem accLoop_fix (c : Ctx) (limit n ch acc : Nat)
    (h : ¬ (ch < c.eof ∧ isDigit c ch = true)) : accLoop c limit n ch acc = (ch, acc) := by
  cases n with
  | zero => rfl
  | succ n =>
    rw [accLoop, if_neg (fun hc => h ⟨hc.1, hc.2.1⟩)]

/-- A digit loop run with enough fuel stops at the end of the input, off a digit, or at
its limit. -/
theorem accLoop_stop (c : Ctx) (limit n ch acc : Nat) (hn : c.eof - ch ≤ n) :
    (accLoop c limit n ch acc).1 ≥ c.eof ∨ isDigit c (accLoop c limit n ch acc).1 = false ∨
      limit ≤ (accLoop c limit n ch acc).2 := by
  induction n generalizing ch acc with
  | zero => left; simp only [accLoop]; omega
  | succ n ih =>
    rw [accLoop]
    by_cases h1 : ch < c.eof ∧ isDigit c ch = true ∧ acc < limit
    · rw [if_pos h1]
      exact ih _ _ (by omega)
    · rw [if_neg h1]
      by_cases h2 : ch < c.eof
      · by_cases h3 : isDigit c ch = true
        · right; right
          show limit ≤ acc
          by_contra h4
          exact h1 ⟨h2, h3, by omega⟩
        · right; left
          simpa using h3
      · left
        show ch ≥ c.eof
        omega

/-- An NA string that matches at `s` holds every byte from `s` up to a byte `q` before
which, and on which, the input has no blank and no field end. -/
theorem naAny_through (c : Ctx) (s q : Nat) (nas : List (List Nat))
    (h : naAny c s nas = true) (hsq : s ≤ q) (hq : q < c.eof)
    (hb : ∀ i, s ≤ i → i ≤ q →
      rd c i ≠ 32 ∧ rd c i ≠ 9 ∧ rd c i ≠ c.sep ∧ rd c i ≠ c.eol) :
    ∃ na ∈ nas, rdStr na (q - s) = rd c q := by
  induction nas with
  | nil => simp [naAny] at h
  | cons na rest ih =>
    rw [naAny] at h
    obtain ⟨m1, m2, m3, m4, m5⟩ := naMatch_spec c na (c.eof - s) s 0 (le_refl _)
    by_cases hm : rdStr na (naMatch c na (c.eof - s) s 0).2 = 0 ∧
        (skip_white c (naMatch c na (c.eof - s) s 0).1 ≥ c.eof ∨
          rd c (skip_white c (naMatch c na (c.eof - s) s 0).1) = c.sep ∨
          rd c (skip_white c (naMatch c na (c.eof - s) s 0).1) = c.eol)
    · by_cases hle : (naMatch c na (c.eof - s) s 0).1 ≤ q
      · exfalso
        obtain ⟨b1, b2, b3, b4⟩ := hb _ m1 hle
        rw [skip_white_none c _ ⟨b1, b2⟩] at hm
        rcases hm.2 with h1 | h1 | h1
        · omega
        · exact b3 h1
        · exact b4 h1
      · refine ⟨na, List.mem_cons_self _ _, ?_⟩
        have := (m4 (q - s) (by omega)).2
        rw [show s + (q - s) = q by omega, Nat.zero_add] at this
        exact this.symm
    · have hrest : naAny c s rest = true := by
        simp only [] at h
        split at h
        · split at h
          · rename_i h1 h2
            exact absurd ⟨h1, h2⟩ hm
          · exact h
        · exact h
      obtain ⟨na2, hmem, he⟩ := ih hrest
      exact ⟨na2, List.mem_cons_of_mem _ hmem, he⟩

/-- After the closing quote of a quoted field, `Field` returns what `on_sep` returns past
the blanks. -/
theorem Field_finish_ok (c : Ctx) (this : Nat) (tgt : Bool) (fs e : Nat)
    (hs : c.stripWhite = true) :
    (Field_finish c this tgt fs true e).ok = (on_sep c (skip_white c (e + 1))).1 := by
  unfold Field_finish
  simp only [hs, if_true]
  cases h : (on_sep c (skip_white c (e + 1))).1 <;> simp [h]

/-- A field that `Field` takes as not quoted is accepted. -/
theorem Field_finish_unquoted_ok (c : Ctx) (this : Nat) (tgt : Bool) (fs e : Nat)
    (h : onTerm c e) : (Field_finish c this tgt fs false e).ok = true := by
  unfold Field_finish
  have := on_sep_of_onTerm c e h
  simp [this]

/-- Under quote rule 0 the loop over a quoted field stops on the first quote when no line
ending comes before it and no quote follows it. -/
theorem quoteLoop0_plain (c : Ctx) (q : Nat) (hq : q < c.eof) (hrq : rd c q = c.quote)
    (hnext : ¬ (q + 1 < c.eof ∧ rd c (q + 1) = c.quote)) (fuel ch eolCount : Nat)
    (hch : ch < q) (hb : ∀ i, ch < i → i < q → rd c i ≠ c.quote ∧ rd c i ≠ c.eol)
    (hc : eolCount < 100) (hf : q - ch ≤ fuel) :
    quoteLoop0 c fuel ch eolCount = q := by
  induction fuel generalizing ch with
  | zero => omega
  | succ n ih =>
    rw [quoteLoop0]
    simp only []
    rw [if_pos ⟨by omega, hc⟩]
    by_cases h1 : ch + 1 = q
    · rw [h1, if_pos hrq, if_neg hnext]
    · obtain ⟨b1, b2⟩ := hb (ch + 1) (by omega) (by omega)
      rw [if_neg b1, if_neg b2]
      exact ih (ch + 1) (by omega) (fun i h2 h3 => hb i (by omega) h3) (by omega)

/-- Under quote rule 1 the loop over a quoted field stops on the first quote when no line
ending and no backslash come before it. -/
theorem quoteLoop1_plain (c : Ctx) (q : Nat) (hq : q < c.eof) (hrq : rd c q = c.quote)
    (fuel ch eolCount : Nat) (hch : ch < q)
    (hb : ∀ i, ch < i → i < q → rd c i ≠ c.quote ∧ rd c i ≠ c.eol ∧ rd c i ≠ 92)
    (hc : eolCount < 100) (hf : q - ch ≤ fuel) :
    quoteLoop1 c fuel ch eolCount = q := by
  induction fuel generalizing ch with
  | zero => omega
  | succ n ih =>
    rw [quoteLoop1]
    by_cases h1 : ch + 1 = q
    · rw [h1, if_neg (by rintro ⟨_, h2, _⟩; exact h2 hrq)]
    · obtain ⟨b1, b2, b3⟩ := hb (ch + 1) (by omega) (by omega)
      rw [if_pos ⟨by omega, b1, hc⟩, if_neg b3, if_neg b2]
      exact ih (ch + 1) (by omega) (fun i h2 h3 => hb i (by omega) h3) (by omega)

theorem quoteLoop2inner_spec (c : Ctx) (n ch2 : Nat) :
    ch2 < (quoteLoop2inner c n ch2).2 ∧
    ((quoteLoop2inner c n ch2).1 = true → quoteThenSep c (quoteLoop2inner c n ch2).2 = true) := by
  induction n generalizing ch2 with
  | zero => simp [quoteLoop2inner]
  | succ n ih =>
    rw [quoteLoop2inner]
    split
    · split
      · rename_i h
        exact ⟨by simp, fun _ => h⟩
      · obtain ⟨a1, a2⟩ := ih (ch2 + 1)
        exact ⟨by omega, a2⟩
    · exact ⟨by simp, by simp⟩

/-- Under quote rule 2 the loop over a field that starts with a quote ends either on a
quote that a field end follows, or on a field end. -/
theorem quoteLoop2_spec (c : Ctx) (fuel ch ch2 : Nat) (h2 : ch2 ≤ ch)
    (hf : c.eof - ch ≤ fuel) :
    ((quoteLoop2 c fuel ch ch2).1 = (quoteLoop2 c fuel ch ch2).2 ∧
      quoteThenSep c (quoteLoop2 c fuel ch ch2).1 = true) ∨
    ((quoteLoop2 c fuel ch ch2).1 ≠ (quoteLoop2 c fuel ch ch2).2 ∧
      onTerm c (quoteLoop2 c fuel ch ch2).1) := by
  induction fuel generalizing ch with
  | zero =>
    right
    simp only [quoteLoop2]
    exact ⟨by omega, Or.inl (by omega)⟩
  | succ n ih =>
    rw [quoteLoop2]
    simp only []
    by_cases h1 : ch + 1 < c.eof ∧ rd c (ch + 1) ≠ c.eol
    · rw [if_pos h1]
      by_cases h3 : quoteThenSep c (ch + 1) = true
      · rw [if_pos h3]
        left
        exact ⟨rfl, h3⟩
      · rw [if_neg h3]
        by_cases h4 : rd c (ch + 1) = c.sep
        · rw [if_pos h4]
          obtain ⟨a1, a2⟩ := quoteLoop2inner_spec c (c.eof - (ch + 1)) (ch + 1)
          split
          · rename_i h5
            left
            exact ⟨rfl, a2 h5⟩
          · right
            exact ⟨by simp only []; omega, Or.inr (Or.inl h4)⟩
        · rw [if_neg h4]
          exact ih (ch + 1) (by omega) (by omega)
    · rw [if_neg h1]
      right
      refine ⟨by simp only []; omega, ?_⟩
      by_cases h5 : ch + 1 < c.eof
      · right; right
        by_contra h6
        exact h1 ⟨h5, h6⟩
      · left
        show ch + 1 ≥ c.eof
        omega

/-- A field end is no blank: `skip_white` stays on it. -/
theorem skip_white_onTerm_fix (c : Ctx) (p : Nat) (h : onTerm c p)
    (heol : c.eol = 10 ∨ c.eol = 13) : skip_white c p = p := by
  apply skip_white_fix
  rintro ⟨h1, h2⟩
  simp only [isWhite, Bool.decide_and, Bool.and_eq_true, decide_eq_true_eq,
    Bool.decide_or, Bool.or_eq_true] at h2
  rcases h with h | h | h
  · omega
  · exact h2.2 h
  · rw [h] at h2
    rcases heol with e | e <;> rw [e] at h2 <;> omega

/-- Under quote rules 2 and 3, and on every field that does not start with the quote,
`Field` accepts. -/
theorem Field_total (c : Ctx) (this : Nat) (tgt : Bool) (hs : c.stripWhite = true)
    (heol : c.eol = 10 ∨ c.eol = 13)
    (h : rd c (skip_white c this) ≠ c.quote ∨ c.quoteRule = 3 ∨ c.quoteRule = 2) :
    (Field c this tgt).ok = true := by
  unfold Field
  simp only [hs, if_true]
  by_cases hu : rd c (skip_white c this) ≠ c.quote ∨ c.quoteRule = 3
  · rw [if_pos hu]
    exact Field_finish_unquoted_ok c this tgt _ _ (scan_notSepEol_spec c _).2.1
  · rw [if_neg hu]
    have h2 : c.quoteRule = 2 := by
      rcases h with h | h | h
      · exact absurd (Or.inl h) hu
      · exact absurd (Or.inr h) hu
      · exact h
    rw [h2]
    simp only []
    rcases quoteLoop2_spec c (c.eof - skip_white c this + 1) (skip_white c this)
      (skip_white c this) (le_refl _) (by omega) with ⟨a1, a2⟩ | ⟨a1, a2⟩
    · rw [if_neg (not_not.mpr a1), Field_finish_ok c this tgt _ _ hs]
      simp only [quoteThenSep, Bool.decide_and, Bool.and_eq_true, decide_eq_true_eq,
        Bool.decide_or, Bool.or_eq_true] at a2
      have ht : onTerm c ((quoteLoop2 c (c.eof - skip_white c this + 1) (skip_white c this)
          (skip_white c this)).1 + 1) := a2.2
      rw [skip_white_onTerm_fix c _ ht heol]
      exact on_sep_of_onTerm c _ ht
    · rw [if_pos a1]
      exact Field_finish_unquoted_ok c this tgt _ _ a2

/-- A digit is no blank and no field end in a dialect whose separator is no digit. -/
theorem digit_not_term (c : Ctx) (p : Nat) (hp : p < c.eof) (hd : isDigit c p = true)
    (hsep : ¬ isFloatByte c.dec c.sep) (heol : c.eol = 10 ∨ c.eol = 13) :
    skip_white c p = p ∧ (on_sep c p).1 = false := by
  simp only [isDigit, Bool.decide_and, Bool.and_eq_true, decide_eq_true_eq] at hd
  have h1 : rd c p ≠ c.sep := by
    intro h
    apply hsep
    left
    rw [← h]
    exact hd
  have h2 : rd c p ≠ c.eol := by
    rcases heol with e | e <;> rw [e] <;> omega
  refine ⟨skip_white_none c p ⟨by omega, by omega⟩, ?_⟩
  rw [on_sep_false c p hp h1 h2]

/-- The acceptance of an integer scanner carries over to a larger limit. -/
theorem StrtoInt_limit_mono (c : Ctx) (l1 l2 : Nat) (hl : l1 ≤ l2) (na1 na2 : Int)
    (this : Nat) (tgt : Bool) (hsep : ¬ isFloatByte c.dec c.sep)
    (hq : ¬ isFloatByte c.dec c.quote) (heol : c.eol = 10 ∨ c.eol = 13)
    (h : (StrtoInt c l1 na1 this tgt).ok = true) :
    (StrtoInt c l2 na2 this tgt).ok = true := by
  unfold StrtoInt at h ⊢
  lift_lets at h
  extract_lets os start quoted ch0 signed sign ch ok r1 at h
  show (if os.1 = true then (⟨true, os.2, store tgt na2 none⟩ : Res Int)
    else if quoted = true ∧ ((accLoop c l2 (c.eof - ch) ch 0).1 ≥ c.eof ∨
        rd c (accLoop c l2 (c.eof - ch) ch 0).1 ≠ c.quote) then ⟨false, this, none⟩
    else numTail c tgt start (if quoted = true then (accLoop c l2 (c.eof - ch) ch 0).1 + 1
        else (accLoop c l2 (c.eof - ch) ch 0).1) ok
      (sign * ((accLoop c l2 (c.eof - ch) ch 0).2 : Int)) na2).ok = true
  generalize hr2 : accLoop c l2 (c.eof - ch) ch 0 = r2
  by_cases hos : os.1 = true
  · rw [if_pos hos]
  · rw [if_neg hos] at h ⊢
    rcases accLoop_limit_mono c l1 l2 hl (c.eof - ch) ch 0 with he | ⟨hd1, hd2⟩
    · have he2 : r1 = r2 := he.trans hr2
      rw [← he2]
      by_cases hqc : quoted = true ∧ (r1.1 ≥ c.eof ∨ rd c r1.1 ≠ c.quote)
      · rw [if_pos hqc] at h
        cases h
      · rw [if_neg hqc] at h ⊢
        rw [numTail_ok_iff] at h ⊢
        exact h
    · have hd1' : r1.1 < c.eof := hd1
      have hd2' : isDigit c r1.1 = true := hd2
      have hnq : rd c r1.1 ≠ c.quote := by
        intro hh
        apply hq
        left
        rw [← hh]
        simpa [isDigit] using hd2'
      by_cases hqd : quoted = true
      · rw [if_pos ⟨hqd, Or.inr hnq⟩] at h
        cases h
      · rw [if_neg (fun hh => hqd hh.1)] at h
        have hqf : quoted = false := by simpa using hqd
        simp only [hqf, Bool.false_eq_true, if_false, false_and] at h ⊢
        rw [numTail_ok_iff] at h
        rcases h with ⟨_, h2⟩ | h2
        · obtain ⟨a1, a2⟩ := digit_not_term c r1.1 hd1' hd2' hsep heol
          rw [a1, a2] at h2
          cases h2
        · rw [numTail_ok_iff]
          exact Or.inr h2

/-- A blank is no byte of a number. -/
theorem blank_not_float (dec b : Nat) (hdec : dec = 46 ∨ dec = 44) (hb : b = 32 ∨ b = 9) :
    ¬ isFloatByte dec b := by
  unfold isFloatByte
  rcases hdec with e | e <;> rcases hb with f | f <;> subst e <;> subst f <;> decide

/-- The byte on which a number scanner may stop with success is no byte of a number: a
quote, a blank before the field end, or the field end. -/
theorem stop_byte_not_float (c : Ctx) (p : Nat) (hd : chainDialect c)
    (h : rd c p = c.quote ∨ (on_sep c (skip_white c p)).1 = true) :
    p ≥ c.eof ∨ ¬ isFloatByte c.dec (rd c p) := by
  obtain ⟨heol, hdec, hsep, hq, _⟩ := hd
  rcases h with h | h
  · right
    rw [h]
    exact hq
  · by_cases hw : rd c p = 32 ∨ rd c p = 9
    · right
      exact blank_not_float c.dec _ hdec hw
    · rw [skip_white_none c p ⟨fun e => hw (Or.inl e), fun e => hw (Or.inr e)⟩] at h
      exact onTerm_not_float c p ((on_sep_fst_iff c p).mp h) hsep heol hdec

/-- On a run of digits that ends off the bytes of a number, `StrtoD` stops where the digit
loop of the integer scanners stops. -/
theorem StrtoD_value_digits (c : Ctx) (sign : Int) (limit ch : Nat)
    (hdec : c.dec = 46 ∨ c.dec = 44) (hch : ch < c.eof) (hdig : isDigit c ch = true)
    (hstop : (accLoop c limit (c.eof - ch) ch 0).1 ≥ c.eof ∨
      ¬ isFloatByte c.dec (rd c (accLoop c limit (c.eof - ch) ch 0).1)) :
    (StrtoD_value c sign ch).1 = (accLoop c limit (c.eof - ch) ch 0).1 ∧
    (StrtoD_value c sign ch).2.2 = true := by
  obtain ⟨a1, a2⟩ := accLoop_digits c limit (c.eof - ch) ch 0
  generalize accLoop c limit (c.eof - ch) ch 0 = r at hstop a1 a2
  have hle : r.1 ≤ c.eof := by
    by_contra hgt
    have := (a2 (r.1 - 1) (by omega) (by omega)).1
    omega
  have hlen : ch + (seg c ch r.1 ++ (decPart c.dec none ++ expPart none)).length = r.1 := by
    simp only [decPart, expPart, List.append_nil, seg_length]
    omega
  have hrun := StrtoD_num_run c ch (seg c ch r.1) none none
    (by simp only [decPart, expPart, List.append_nil]; exact bytesAt_seg c ch r.1)
    (allDigits_seg c ch r.1 (fun i h1 h2 => (a2 i h1 h2).2))
    (fun D2 h => by cases h) (fun m es D3 h => by cases h)
    (by rw [hlen]; exact hle) hdec
    (by
      rw [hlen]
      rcases hstop with h | h
      · exact Or.inl h
      · right
        unfold isFloatByte at h
        simp only [List.mem_cons, List.mem_singleton, not_or, List.not_mem_nil, or_false] at h
        refine ⟨?_, h.2.1, h.2.2.1, h.2.2.2.1, h.2.2.2.2.1, h.2.2.2.2.2.1⟩
        simp only [isDigit, Bool.decide_and, Bool.and_eq_false_iff, decide_eq_false_iff_not]
        by_contra hh
        exact h.1 (by omega))
  rw [hlen] at hrun
  unfold StrtoD_value
  simp only [hch, hdig, true_or, and_self, decide_True, not_true_eq_false, if_false]
  exact ⟨hrun, trivial⟩

/-- No NA string matches at a quote or at a sign, in a dialect whose NA strings do not
begin with a sign and do not hold the quote. -/
theorem NA_not_at (c : Ctx) (hd : chainDialect c) (s : Nat) (hs : s < c.eof)
    (hb : rd c s = c.quote ∨ rd c s = 43 ∨ rd c s = 45)
    (hnt : rd c s ≠ c.sep ∧ rd c s ≠ c.eol) : is_NAstring c s = false := by
  obtain ⟨heol, hdec, hsep, hq, _, _, _, hq32, hq9, hq0, hqs, hqe, hna⟩ := hd
  have hw : rd c s ≠ 32 ∧ rd c s ≠ 9 := by
    rcases hb with e | e | e <;> rw [e] <;> first | exact ⟨hq32, hq9⟩ | decide
  by_contra hc
  have hc2 : is_NAstring c s = true := by simpa using hc
  unfold is_NAstring at hc2
  rw [skip_white_none c s hw] at hc2
  obtain ⟨na, hmem, he⟩ := naAny_through c s s c.NAstrings hc2 (le_refl _) hs
    (fun i h1 h2 => by
      have : i = s := by omega
      subst this
      exact ⟨hw.1, hw.2, hnt.1, hnt.2⟩)
  rw [Nat.sub_self] at he
  obtain ⟨n1, n2, n3⟩ := hna na hmem
  cases na with
  | nil =>
    simp only [rdStr, List.getD_nil] at he
    rcases hb with e | e | e
    · exact hq0 (by rw [← e, ← he])
    · omega
    · omega
  | cons a rest =>
    simp only [rdStr, List.getD_cons_zero] at he
    rcases hb with e | e | e
    · apply n3
      rw [← e, ← he]
      exact List.mem_cons_self _ _
    · apply n1
      rw [he, e]
      rfl
    · apply n2
      rw [he, e]
      rfl

/-- What `StrtoI64` accepts, `StrtoD` accepts. -/
theorem StrtoInt_StrtoD (c : Ctx) (hd : chainDialect c) (limit : Nat) (na : Int)
    (this : Nat) (tgt : Bool) (h : (StrtoInt c limit na this tgt).ok = true) :
    (StrtoD c this tgt).ok = true := by
  have hd0 := hd
  obtain ⟨heol, hdec, hsep, hq, _, _, _, hq32, hq9, hq0, hqs, hqe, hna⟩ := hd
  unfold StrtoInt at h
  unfold StrtoD
  lift_lets at h
  extract_lets os start quoted ch0 signed sign ch ok r at h
  show (if os.1 = true then (⟨true, os.2, store tgt F64.na none⟩ : Res F64)
    else if quoted = true ∧ ((StrtoD_value c sign ch).1 ≥ c.eof ∨
        rd c (StrtoD_value c sign ch).1 ≠ c.quote) then ⟨false, this, none⟩
    else numTail c tgt ch (if quoted = true then (StrtoD_value c sign ch).1 + 1
        else (StrtoD_value c sign ch).1) (StrtoD_value c sign ch).2.2
      (StrtoD_value c sign ch).2.1 F64.na).ok = true
  by_cases hos : os.1 = true
  · rw [if_pos hos]
  · rw [if_neg hos] at h ⊢
    -- the field starts on `start`, which is no field end
    have hstart : start < c.eof ∧ rd c start ≠ c.sep ∧ rd c start ≠ c.eol := by
      have h1 : ¬ onTerm c os.2 := fun ht => hos ((on_sep_iff c (skip_white c this)).mpr ht)
      unfold onTerm at h1
      simp only [not_or] at h1
      exact ⟨by omega, h1.2.1, h1.2.2⟩
    by_cases hqc : quoted = true ∧ (r.1 ≥ c.eof ∨ rd c r.1 ≠ c.quote)
    · rw [if_pos hqc] at h
      cases h
    · rw [if_neg hqc] at h
      rw [numTail_ok_iff] at h
      rcases h with ⟨hok, hsepok⟩ | hisna
      · -- the digits were read and the field end follows
        have hok2 : ch < c.eof ∧ isDigit c ch = true := by simpa [ok] using hok
        have hstop : r.1 ≥ c.eof ∨ ¬ isFloatByte c.dec (rd c r.1) := by
          by_cases hqd : quoted = true
          · have : ¬ (r.1 ≥ c.eof ∨ rd c r.1 ≠ c.quote) := fun hh => hqc ⟨hqd, hh⟩
            simp only [not_or, not_not] at this
            exact stop_byte_not_float c r.1 hd0 (Or.inl this.2)
          · have hqf : quoted = false := by simpa using hqd
            simp only [hqf, Bool.false_eq_true, if_false] at hsepok
            exact stop_byte_not_float c r.1 hd0 (Or.inr hsepok)
        obtain ⟨v1, v2⟩ := StrtoD_value_digits c sign limit ch hdec hok2.1 hok2.2 hstop
        have hr : (accLoop c limit (c.eof - ch) ch 0) = r := rfl
        rw [hr] at v1
        rw [v1, v2, if_neg hqc, numTail_ok_iff]
        exact Or.inl ⟨rfl, hsepok⟩
      · -- the field is an NA string
        have hnq : quoted = false := by
          by_contra hqd
          have hqd2 : quoted = true := by simpa using hqd
          have : start < c.eof ∧ rd c start = c.quote := by simpa [quoted] using hqd2
          rw [NA_not_at c hd0 start hstart.1 (Or.inl this.2) hstart.2] at hisna
          cases hisna
        have hch0 : ch0 = start := by simp [ch0, hnq]
        have hns : signed = false := by
          by_contra hsd
          have hsd2 : signed = true := by simpa using hsd
          have : ch0 < c.eof ∧ (rd c ch0 = 45 ∨ rd c ch0 = 43) := by simpa [signed] using hsd2
          rw [hch0] at this
          rw [NA_not_at c hd0 start hstart.1
            (by rcases this.2 with e | e; exact Or.inr (Or.inr e); exact Or.inr (Or.inl e))
            hstart.2] at hisna
          cases hisna
        have hch : ch = start := by simp [ch, hns, hch0]
        rw [if_neg (by rw [hnq]; simp), numTail_ok_iff, hch]
        exact Or.inr hisna

/-- Under quote rules 0 and 1 `Field` accepts a field that starts with a quote when the
next quote is followed, after blanks, by the field end, and no line ending and no
backslash lie between the two quotes. -/
theorem Field_quoted_ok (c : Ctx) (this : Nat) (tgt : Bool) (hs : c.stripWhite = true)
    (hr : c.quoteRule = 0 ∨ c.quoteRule = 1) (q : Nat)
    (hq0 : rd c (skip_white c this) = c.quote) (h1 : skip_white c this < q) (h2 : q < c.eof)
    (h3 : rd c q = c.quote)
    (hb : ∀ i, skip_white c this < i → i < q →
      rd c i ≠ c.quote ∧ rd c i ≠ c.eol ∧ rd c i ≠ 92)
    (hterm : (on_sep c (skip_white c (q + 1))).1 = true)
    (hnext : ¬ (q + 1 < c.eof ∧ rd c (q + 1) = c.quote)) :
    (Field c this tgt).ok = true := by
  unfold Field
  simp only [hs, if_true]
  rw [if_neg (by
    rintro (h | h)
    · exact h hq0
    · rcases hr with e | e <;> omega)]
  rcases hr with e | e
  · rw [e]
    simp only []
    rw [quoteLoop0_plain c q h2 h3 hnext _ _ 0 h1 (fun i a b => ⟨(hb i a b).1, (hb i a b).2.1⟩)
      (by decide) (by omega)]
    rw [if_neg (by simp only [not_or, not_not]; exact ⟨by omega, h3⟩),
      Field_finish_ok c this tgt _ _ hs]
    exact hterm
  · rw [e]
    simp only []
    rw [quoteLoop1_plain c q h2 h3 _ _ 0 h1 hb (by decide) (by omega)]
    rw [if_neg (by simp only [not_or, not_not]; exact ⟨by omega, h3⟩),
      Field_finish_ok c this tgt _ _ hs]
    exact hterm

/-- A byte of a number is no quote, no line ending, no backslash, no blank and no
separator. -/
theorem float_byte_plain (c : Ctx) (hd : chainDialect c) (b : Nat)
    (h : isFloatByte c.dec b) :
    b ≠ c.quote ∧ b ≠ c.eol ∧ b ≠ 92 ∧ b ≠ 32 ∧ b ≠ 9 ∧ b ≠ c.sep := by
  obtain ⟨heol, hdec, hsep, hq, _⟩ := hd
  refine ⟨fun e => hq (e ▸ h), ?_, ?_, ?_, ?_, fun e => hsep (e ▸ h)⟩
  · intro e
    rw [e] at h
    unfold isFloatByte at h
    rcases heol with e1 | e1 <;> rcases hdec with e2 | e2 <;> rw [e1, e2] at h <;>
      simp at h
  · intro e
    rw [e] at h
    unfold isFloatByte at h
    rcases hdec with e2 | e2 <;> rw [e2] at h <;> simp at h
  · intro e
    exact blank_not_float c.dec b hdec (Or.inl e) h
  · intro e
    exact blank_not_float c.dec b hdec (Or.inr e) h

/-- The bytes that `StrtoD` reads after the sign are bytes of a number. -/
theorem StrtoD_value_bytes (c : Ctx) (sign : Int) (ch : Nat)
    (hpad : ∀ i, c.eof ≤ i → rd c i = 0) :
    ch ≤ (StrtoD_value c sign ch).1 ∧
    ∀ i, ch ≤ i → i < (StrtoD_value c sign ch).1 → isFloatByte c.dec (rd c i) := by
  by_cases hok : (StrtoD_value c sign ch).2.2 = true
  · obtain ⟨a1, a2, a3⟩ := StrtoD_value_shape c sign ch hpad hok
    refine ⟨a1, fun i h1 h2 => ?_⟩
    have hm := rd_mem_seg c ch _ i h1 h2
    rcases a3 with a3 | a3 | a3
    · exact numBody_bytes c.dec _ a3 _ hm
    · rw [a3] at hm
      unfold isFloatByte
      right; right
      simp only [List.mem_cons, List.mem_singleton, List.not_mem_nil, or_false] at hm ⊢
      rcases hm with e | e | e <;> rw [e] <;> simp
    · rw [a3] at hm
      unfold isFloatByte
      right; right
      simp only [List.mem_cons, List.mem_singleton, List.not_mem_nil, or_false] at hm ⊢
      rcases hm with e | e | e <;> rw [e] <;> simp
  · have : (StrtoD_value c sign ch).1 = ch := by
      unfold StrtoD_value at hok ⊢
      dsimp only at hok ⊢
      by_cases h0 : ¬ (decide (ch < c.eof ∧ (isDigit c ch = true ∨ rd c ch = c.dec))) = true
      · rw [if_pos h0] at hok ⊢
        by_cases h1 : ch < c.eof ∧ rd c ch = 73 ∧ rd c (ch + 1) = 110 ∧ rd c (ch + 2) = 102
        · rw [if_pos h1] at hok
          exact absurd rfl hok
        · rw [if_neg h1] at hok ⊢
          by_cases h2 : ch < c.eof ∧ rd c ch = 78 ∧ rd c (ch + 1) = 65 ∧ rd c (ch + 2) = 78
          · rw [if_pos h2] at hok
            exact absurd rfl hok
          · rw [if_neg h2]
      · rw [if_neg h0] at hok
        exact absurd rfl hok
    rw [this]
    exact ⟨le_refl _, fun i h1 h2 => by omega⟩

theorem rdStr_mem (na : List Nat) (k b : Nat) (h : rdStr na k = b) (hb : b ≠ 0) : b ∈ na := by
  unfold rdStr at h
  by_cases hk : k < na.length
  · rw [List.getD_eq_getElem _ _ hk] at h
    rw [← h]
    exact List.getElem_mem _
  · rw [List.getD_eq_default _ _ (by omega)] at h
    exact absurd h.symm hb

/-- A quote that a field end follows after blanks is followed by no second quote. -/
theorem no_quote_after (c : Ctx) (hd : chainDialect c) (q : Nat)
    (h : (on_sep c (skip_white c (q + 1))).1 = true) :
    ¬ (q + 1 < c.eof ∧ rd c (q + 1) = c.quote) := by
  obtain ⟨heol, hdec, hsep, hq, _, _, _, hq32, hq9, hq0, hqs, hqe, hna⟩ := hd
  rintro ⟨h1, h2⟩
  rw [skip_white_none c (q + 1) (by rw [h2]; exact ⟨hq32, hq9⟩),
    on_sep_false c (q + 1) h1 (by rw [h2]; exact hqs) (by rw [h2]; exact hqe)] at h
  cases h

/-- The field starts with a quote inside the input, and `on_sep` fails on it. -/
theorem quote_start (c : Ctx) (hd : chainDialect c) (hpad : ∀ i, c.eof ≤ i → rd c i = 0)
    (s0 : Nat) (h : rd c s0 = c.quote) : s0 < c.eof ∧ on_sep c s0 = (false, s0) := by
  obtain ⟨heol, hdec, hsep, hq, _, _, _, hq32, hq9, hq0, hqs, hqe, hna⟩ := hd
  have h1 : s0 < c.eof := by
    by_contra hge
    exact hq0 (by rw [← h, hpad s0 (by omega)])
  exact ⟨h1, on_sep_false c s0 h1 (by rw [h]; exact hqs) (by rw [h]; exact hqe)⟩

/-- What `StrtoD` accepts, `Field` accepts. -/
theorem StrtoD_Field (c : Ctx) (hd : chainDialect c) (hs : c.stripWhite = true)
    (hrule : c.quoteRule ≤ 3) (hpad : ∀ i, c.eof ≤ i → rd c i = 0) (this : Nat) (tgt : Bool)
    (h : (StrtoD c this tgt).ok = true) : (Field c this tgt).ok = true := by
  have hd0 := hd
  obtain ⟨heol, hdec, hsep, hq, _, _, _, hq32, hq9, hq0, hqs, hqe, hna⟩ := hd
  by_cases hu : rd c (skip_white c this) ≠ c.quote ∨ c.quoteRule = 3 ∨ c.quoteRule = 2
  · exact Field_total c this tgt hs heol hu
  · simp only [not_or, not_not] at hu
    obtain ⟨hq0', hr3, hr2⟩ := hu
    have hr : c.quoteRule = 0 ∨ c.quoteRule = 1 := by omega
    obtain ⟨hs0, hos⟩ := quote_start c hd0 hpad _ hq0'
    unfold StrtoD at h
    lift_lets at h
    extract_lets os ch0 quoted ch1 signed sign start p at h
    have hos' : os = (false, skip_white c this) := hos
    rw [if_neg (by rw [hos']; simp)] at h
    have hch0 : ch0 = skip_white c this := by simp [ch0, hos']
    have hquoted : quoted = true := by simp [quoted, hch0, hs0, hq0']
    have hch1 : ch1 = skip_white c this + 1 := by simp [ch1, hquoted, hch0]
    by_cases hqc : quoted = true ∧ (p.1 ≥ c.eof ∨ rd c p.1 ≠ c.quote)
    · rw [if_pos hqc] at h
      cases h
    · rw [if_neg hqc, numTail_ok_iff] at h
      have hq2 : p.1 < c.eof ∧ rd c p.1 = c.quote := by
        have : ¬ (p.1 ≥ c.eof ∨ rd c p.1 ≠ c.quote) := fun hh => hqc ⟨hquoted, hh⟩
        simp only [not_or, not_not] at this
        exact ⟨by omega, this.2⟩
      obtain ⟨b1, b2⟩ := StrtoD_value_bytes c sign start hpad
      have b1' : start ≤ p.1 := b1
      have hstart : ch1 ≤ start ∧ start ≤ ch1 + 1 ∧
          (start = ch1 + 1 → rd c ch1 = 45 ∨ rd c ch1 = 43) := by
        have hdef : start = if signed = true then ch1 + 1 else ch1 := rfl
        by_cases hsg : signed = true
        · have : ch1 < c.eof ∧ (rd c ch1 = 45 ∨ rd c ch1 = 43) := by simpa [signed] using hsg
          rw [if_pos hsg] at hdef
          exact ⟨by omega, by omega, fun _ => this.2⟩
        · rw [if_neg hsg] at hdef
          exact ⟨by omega, by omega, fun hh => by omega⟩
      have hbytes : ∀ i, skip_white c this < i → i < p.1 → isFloatByte c.dec (rd c i) := by
        intro i h1 h2
        by_cases h3 : start ≤ i
        · exact b2 i h3 h2
        · have hi : i = ch1 := by omega
          have := hstart.2.2 (by omega)
          rw [hi]
          unfold isFloatByte
          right; right
          rcases this with e | e <;> rw [e] <;> simp
      have hplain : ∀ i, skip_white c this < i → i ≤ p.1 →
          rd c i ≠ 32 ∧ rd c i ≠ 9 ∧ rd c i ≠ c.sep ∧ rd c i ≠ c.eol := by
        intro i h1 h2
        by_cases h3 : i < p.1
        · obtain ⟨f1, f2, f3, f4, f5, f6⟩ := float_byte_plain c hd0 _ (hbytes i h1 h3)
          exact ⟨f4, f5, f6, f2⟩
        · have : i = p.1 := by omega
          rw [this, hq2.2]
          exact ⟨hq32, hq9, hqs, hqe⟩
      have hterm : (on_sep c (skip_white c (p.1 + 1))).1 = true := by
        rcases h with ⟨_, h2⟩ | h2
        · simpa [hquoted] using h2
        · exfalso
          unfold is_NAstring at h2
          rw [skip_white_none c start (by
            obtain ⟨f1, f2, _, _⟩ := hplain start (by omega) b1'
            exact ⟨f1, f2⟩)] at h2
          obtain ⟨na, hmem, he⟩ := naAny_through c start p.1 c.NAstrings h2 b1' hq2.1
            (fun i h1 h2 => hplain i (by omega) h2)
          rw [hq2.2] at he
          exact (hna na hmem).2.2 (rdStr_mem na _ _ he hq0)
      exact Field_quoted_ok c this tgt hs hr p.1 hq0' (by omega) hq2.1 hq2.2
        (fun i h1 h2 => by
          obtain ⟨f1, f2, f3, _⟩ := float_byte_plain c hd0 _ (hbytes i h1 h2)
          exact ⟨f1, f2, f3⟩)
        hterm (no_quote_after c hd0 p.1 hterm)

/-- The bytes that `StrtoB` reads as a literal are letters of its literals. -/
theorem StrtoB_literal_bytes (c : Ctx) (tgt : Bool) (cell0 : Option Int) (ch : Nat) :
    ch ≤ (StrtoB_literal c tgt cell0 ch).1 ∧
    ∀ i, ch ≤ i → i < (StrtoB_literal c tgt cell0 ch).1 →
      rd c i = 78 ∨ rd c i = 65 ∨ rd c i = 84 ∨ rd c i = 70 ∨ rd c i ∈ boolTailLetters := by
  unfold StrtoB_literal
  simp only [logical01, Bool.false_eq_true, and_false, false_or, if_false]
  split
  · rename_i h
    refine ⟨by show ch ≤ _; omega, fun i h1 h2 => ?_⟩
    have h2' : i < ch + 1 + 1 := h2
    rcases Nat.eq_or_lt_of_le h1 with e | e
    · rw [← e]; exact Or.inl h.1
    · have : i = ch + 1 := by omega
      rw [this]; exact Or.inr (Or.inl h.2.2)
  · split
    · rename_i hT
      split
      · rename_i h
        refine ⟨by show ch ≤ _; omega, fun i h1 h2 => ?_⟩
        have h2' : i < ch + 1 + 3 := h2
        have hi : i = ch ∨ i = ch + 1 ∨ i = ch + 1 + 1 ∨ i = ch + 1 + 2 := by omega
        rcases hi with e | e | e | e
        · rw [e]; exact Or.inr (Or.inr (Or.inl hT))
        all_goals
          rw [e]
          right; right; right; right
          rcases h.2 with ⟨a, b, d⟩ | ⟨a, b, d⟩ <;> simp [boolTailLetters, a, b, d]
      · refine ⟨by show ch ≤ _; omega, fun i h1 h2 => ?_⟩
        have h2' : i < ch + 1 := h2
        have : i = ch := by omega
        rw [this]; exact Or.inr (Or.inr (Or.inl hT))
    · split
      · rename_i hF
        split
        · rename_i h
          refine ⟨by show ch ≤ _; omega, fun i h1 h2 => ?_⟩
          have h2' : i < ch + 1 + 4 := h2
          have hi : i = ch ∨ i = ch + 1 ∨ i = ch + 1 + 1 ∨ i = ch + 1 + 2 ∨ i = ch + 1 + 3 := by
            omega
          rcases hi with e | e | e | e | e
          · rw [e]; exact Or.inr (Or.inr (Or.inr (Or.inl hF)))
          all_goals
            rw [e]
            right; right; right; right
            rcases h.2 with ⟨a, b, d, f⟩ | ⟨a, b, d, f⟩ <;> simp [boolTailLetters, a, b, d, f]
        · refine ⟨by show ch ≤ _; omega, fun i h1 h2 => ?_⟩
          have h2' : i < ch + 1 := h2
          have : i = ch := by omega
          rw [this]; exact Or.inr (Or.inr (Or.inr (Or.inl hF)))
      · exact ⟨le_refl _, fun i h1 h2 => by
          have h2' : i < ch := h2
          omega⟩

/-- A letter of the literals of `StrtoB` is no quote, no line ending and no backslash. -/
theorem bool_letter_plain (c : Ctx) (hd : chainDialect c) (b : Nat)
    (h : b = 78 ∨ b = 65 ∨ b = 84 ∨ b = 70 ∨ b ∈ boolTailLetters) :
    b ≠ c.quote ∧ b ≠ c.eol ∧ b ≠ 92 := by
  obtain ⟨heol, hdec, hsep, hq, hqb, hqT, hqF, _⟩ := hd
  refine ⟨?_, ?_, ?_⟩
  · intro e
    rw [e] at h
    rcases h with h | h | h | h | h
    · exact hq (by unfold isFloatByte; right; right; rw [h]; simp)
    · exact hq (by unfold isFloatByte; right; right; rw [h]; simp)
    · exact hqT h
    · exact hqF h
    · exact hqb h
  · intro e
    rw [e] at h
    simp only [boolTailLetters, List.mem_cons, List.mem_singleton, List.not_mem_nil,
      or_false] at h
    rcases heol with e1 | e1 <;> rw [e1] at h <;> omega
  · intro e
    rw [e] at h
    simp [boolTailLetters] at h

/-- What `StrtoB` accepts, `Field` accepts. -/
theorem StrtoB_Field (c : Ctx) (hd : chainDialect c) (hs : c.stripWhite = true)
    (hrule : c.quoteRule ≤ 3) (hpad : ∀ i, c.eof ≤ i → rd c i = 0) (this : Nat) (tgt : Bool)
    (h : (StrtoB c this tgt).ok = true) : (Field c this tgt).ok = true := by
  have hd0 := hd
  obtain ⟨heol, hdec, hsep, hq, _, _, _, hq32, hq9, hq0, hqs, hqe, hna⟩ := hd
  by_cases hu : rd c (skip_white c this) ≠ c.quote ∨ c.quoteRule = 3 ∨ c.quoteRule = 2
  · exact Field_total c this tgt hs heol hu
  · simp only [not_or, not_not] at hu
    obtain ⟨hq0', hr3, hr2⟩ := hu
    have hr : c.quoteRule = 0 ∨ c.quoteRule = 1 := by omega
    obtain ⟨hs0, hos⟩ := quote_start c hd0 hpad _ hq0'
    unfold StrtoB at h
    lift_lets at h
    extract_lets cell0 os start quoted ch os2 p os3 at h
    have hos' : os = (false, skip_white c this) := hos
    rw [if_neg (by rw [hos']; simp)] at h
    have hstart : start = skip_white c this := by simp [start, hos']
    have hquoted : quoted = true := by simp [quoted, hstart, hs0, hq0']
    have hch : ch = skip_white c this + 1 := by simp [ch, hquoted, hstart]
    by_cases he : quoted = true ∧ rd c ch = c.quote
    · rw [if_pos he] at h
      by_cases ho : os2.1 = true
      · have hterm : onTerm c (ch + 1) := (on_sep_fst_iff c (ch + 1)).mp ho
        have hterm2 : (on_sep c (skip_white c (ch + 1))).1 = true := by
          rw [skip_white_onTerm_fix c _ hterm heol]
          exact ho
        obtain ⟨hlt, _⟩ := quote_start c hd0 hpad _ he.2
        exact Field_quoted_ok c this tgt hs hr ch hq0' (by omega) hlt he.2
          (fun i h1 h2 => by omega) hterm2 (no_quote_after c hd0 ch hterm2)
      · rw [if_neg ho] at h
        cases h
    · rw [if_neg he] at h
      by_cases hqc : quoted = true ∧ (p.1 ≥ c.eof ∨ rd c p.1 ≠ c.quote)
      · rw [if_pos hqc] at h
        cases h
      · rw [if_neg hqc] at h
        have hq2 : p.1 < c.eof ∧ rd c p.1 = c.quote := by
          have : ¬ (p.1 ≥ c.eof ∨ rd c p.1 ≠ c.quote) := fun hh => hqc ⟨hquoted, hh⟩
          simp only [not_or, not_not] at this
          exact ⟨by omega, this.2⟩
        obtain ⟨b1, b2⟩ := StrtoB_literal_bytes c tgt cell0 ch
        have b1' : ch ≤ p.1 := b1
        by_cases ho : os3.1 = true
        · have ho' : (on_sep c (p.1 + 1)).1 = true := by simpa [os3, hquoted] using ho
          have hterm : onTerm c (p.1 + 1) := (on_sep_fst_iff c (p.1 + 1)).mp ho'
          have hterm2 : (on_sep c (skip_white c (p.1 + 1))).1 = true := by
            rw [skip_white_onTerm_fix c _ hterm heol]
            exact ho'
          exact Field_quoted_ok c this tgt hs hr p.1 hq0' (by omega) hq2.1 hq2.2
            (fun i h1 h2 => bool_letter_plain c hd0 _ (b2 i (by omega) h2))
            hterm2 (no_quote_after c hd0 p.1 hterm2)
        · rw [if_neg ho] at h
          have hna2 : is_NAstring c start = true := h
          rw [hstart, NA_not_at c hd0 _ hs0 (Or.inl hq0')
            ⟨by rw [hq0']; exact hqs, by rw [hq0']; exact hqe⟩] at hna2
          cases hna2

/-- C30: in a dialect in which no byte of a number or of a logical literal is the
separator, the quote or the line ending, and no NA string begins with a sign or holds the
quote, the scanners of the number types accept in the order of the types: what `StrtoI32`
accepts, `StrtoI64` accepts, and what `StrtoI64` accepts, `StrtoD` accepts; when blanks are
stripped, the quote rule is one of 0 to 3 and NUL bytes follow the input, `Field` accepts
whatever `StrtoB`, `StrtoI32`, `StrtoI64` or `StrtoD` accepts. -/
theorem scanner_acceptance_chain (c : Ctx) (this : Nat) (tgt : Bool) (hd : chainDialect c) :
    ((StrtoI32 c this tgt).ok = true → (StrtoI64 c this tgt).ok = true) ∧
    ((StrtoI32 c this tgt).ok = true → (StrtoD c this tgt).ok = true) ∧
    ((StrtoI64 c this tgt).ok = true → (StrtoD c this tgt).ok = true) ∧
    (c.stripWhite = true → c.quoteRule ≤ 3 → (∀ i, c.eof ≤ i → rd c i = 0) →
      ((StrtoB c this tgt).ok = true → (Field c this tgt).ok = true) ∧
      ((StrtoI32 c this tgt).ok = true → (Field c this tgt).ok = true) ∧
      ((StrtoI64 c this tgt).ok = true → (Field c this tgt).ok = true) ∧
      ((StrtoD c this tgt).ok = true → (Field c this tgt).ok = true)) := by
  have t1 : (StrtoI32 c this tgt).ok = true → (StrtoI64 c this tgt).ok = true :=
    fun h => StrtoInt_limit_mono c _ _ (by decide) _ _ this tgt hd.2.2.1 hd.2.2.2.1 hd.1 h
  have t2 : (StrtoI64 c this tgt).ok = true → (StrtoD c this tgt).ok = true :=
    fun h => StrtoInt_StrtoD c hd _ _ this tgt h
  refine ⟨t1, fun h => t2 (t1 h), t2, fun hs hr hpad => ?_⟩
  have t3 : (StrtoD c this tgt).ok = true → (Field c this tgt).ok = true :=
    fun h => StrtoD_Field c hd hs hr hpad this tgt h
  exact ⟨fun h => StrtoB_Field c hd hs hr hpad this tgt h, fun h => t3 (t2 (t1 h)),
    fun h => t3 (t2 h), t3⟩

theorem scanner_acceptance_chain_witness :
    chainDialect (csv [34, 45, 49, 50, 34, 32, 44]) ∧
    (StrtoI32 (csv [34, 45, 49, 50, 34, 32, 44]) 0 true).ok = true ∧
    (StrtoI64 (csv [34, 45, 49, 50, 34, 32, 44]) 0 true).ok = true ∧
    (StrtoD (csv [34, 45, 49, 50, 34, 32, 44]) 0 true).ok = true ∧
    (Field (csv [34, 45, 49, 50, 34, 32, 44]) 0 true).ok = true :=
  ⟨by decide, by decide,
    (scanner_acceptance_chain (csv [34, 45, 49, 50, 34, 32, 44]) 0 true (by decide)).1
      (by decide),
    (scanner_acceptance_chain (csv [34, 45, 49, 50, 34, 32, 44]) 0 true (by decide)).2.1
      (by decide),
    ((scanner_acceptance_chain (csv [34, 45, 49, 50, 34, 32, 44]) 0 true (by decide)).2.2.2
      rfl (by decide) (fun i hi => List.getD_eq_default _ _ hi)).2.1 (by decide)⟩

/-- C30, as stated, fails on the field `T` in the comma dialect: `StrtoB` accepts it and
the scanners of the wider types INT32, INT64 and FLOAT64 reject it. It also fails from
INT64 to FLOAT64 on the field `-` when `-` is an NA string, and from FLOAT64 to STRING on
the field `"1" ` followed by a comma when blanks are not stripped. -/
theorem scanner_order_counterexample :
    (chainDialect (csv [84, 44]) ∧
      (StrtoB (csv [84, 44]) 0 true).ok = true ∧
      (StrtoI32 (csv [84, 44]) 0 true).ok = false ∧
      (StrtoI64 (csv [84, 44]) 0 true).ok = false ∧
      (StrtoD (csv [84, 44]) 0 true).ok = false) ∧
    ((StrtoI64 { csv [45, 44] with NAstrings := [[45]] } 0 true).ok = true ∧
      (StrtoD { csv [45, 44] with NAstrings := [[45]] } 0 true).ok = false) ∧
    ((StrtoD { csv [34, 49, 34, 32, 44] with stripWhite := false } 0 true).ok = true ∧
      (Field { csv [34, 49, 34, 32, 44] with stripWhite := false } 0 true).ok = false) := by
  decide

/-! ## C37: the count of fields is never zero -/

/-- The loop of `countfields` gives -1 or a count between the count it started with and
that count plus the number of its iterations. -/
theorem countLoop_range (c : Ctx) (n ch : Nat) (ncol : Int) :
    (countLoop c n ch ncol).1 = -1 ∨
    (ncol ≤ (countLoop c n ch ncol).1 ∧ (countLoop c n ch ncol).1 ≤ ncol + n) := by
  induction n generalizing ch ncol with
  | zero => right; simp [countLoop]
  | succ n ih =>
    rw [countLoop]
    split
    · simp only []
      split
      · left; rfl
      · split
        · rcases ih ((Field c ch false).ch + 1) (ncol + 1) with h | h
          · exact Or.inl h
          · right
            push_cast
            omega
        · rcases ih (Field c ch false).ch ncol with h | h
          · exact Or.inl h
          · right
            push_cast
            omega
    · right
      push_cast
      omega

/-- C37: for every input, dialect and start cursor `countfields` returns -1 or a count of
at least 1, and at most the number of bytes from the cursor to `eof` plus 2, so that the
C `int` holds it for inputs below 2^31 - 2 bytes; it never returns 0, and the test
`thisNcol==0 && (skipEmptyLines || fill)` of `nextGoodLine` never holds. -/
theorem countfields_never_zero (c : Ctx) (this : Nat) :
    ((countfields c this).1 = -1 ∨
      (1 ≤ (countfields c this).1 ∧ (countfields c this).1 ≤ (c.eof - this : Nat) + 2)) ∧
    (countfields c this).1 ≠ 0 ∧
    ¬ ((countfields c this).1 = 0 ∧ (c.skipEmptyLines = true ∨ c.fill = true)) := by
  have key : (countfields c this).1 = -1 ∨
      (1 ≤ (countfields c this).1 ∧ (countfields c this).1 ≤ (c.eof - this : Nat) + 2) := by
    unfold countfields
    lift_lets
    intro ch r
    have hch : this ≤ ch := by
      show this ≤ (if c.sep = 32 then _ else this)
      split
      · exact scanWhile_ge _ _ _ _
      · exact le_refl _
    rcases countLoop_range c (c.eof - ch + 1) ch 1 with h | h
    · left
      have hr : r.1 = -1 := h
      rw [if_pos (by rw [hr]; decide)]
    · have hr : 1 ≤ r.1 ∧ r.1 ≤ 1 + ((c.eof - ch + 1 : Nat) : Int) := h
      right
      rw [if_neg (by omega)]
      refine ⟨hr.1, ?_⟩
      show r.1 ≤ _
      have : ((c.eof - ch + 1 : Nat) : Int) ≤ ((c.eof - this : Nat) : Int) + 1 := by
        have : c.eof - ch + 1 ≤ c.eof - this + 1 := by omega
        exact_mod_cast this
      omega
  refine ⟨key, ?_, ?_⟩
  · rcases key with h | h
    · rw [h]; decide
    · omega
  · rintro ⟨h0, _⟩
    rcases key with h | h
    · rw [h] at h0; cases h0
    · omega

/-! ## C33: the sampling jump points -/

/-- C33: the number of sampling jump points, for a first window of `J` bytes with
`200 * J` below 2^64 and the first data row at or before `eof`, itself below 2^57: 101
when `J` is not zero and the bytes from the first data row to `eof` exceed `200 * J`, 11
when `J` is not zero and they exceed `20 * J` but not `200 * J`, and 1 otherwise. -/
theorem sampling_jump_points (c : Ctx) (pos J : Nat) (hp : pos ≤ c.eof)
    (he : c.eof < 2 ^ 57) (hJ : 200 * J < 2 ^ 64) :
    nJumps c pos J =
      if 0 < J ∧ 200 * J < c.eof - pos then 101
      else if 0 < J ∧ 20 * J < c.eof - pos then 11
      else 1 := by
  have e2 : sizeDiff c.eof pos = c.eof - pos := sizeDiff_eq c.eof pos hp he
  have k1 : J * 100 * 2 % 2 ^ 64 = 200 * J := by
    rw [Nat.mod_eq_of_lt (by norm_num at hJ ⊢; omega)]
    omega
  have k2 : J * 10 * 2 % 2 ^ 64 = 20 * J := by
    rw [Nat.mod_eq_of_lt (by norm_num at hJ ⊢; omega)]
    omega
  unfold nJumps
  rw [e2, k1, k2]
  split_ifs <;> first | rfl | omega

theorem sampling_jump_points_witness :
    nJumps (csv (List.replicate 50 10)) 0 2 = 11 := by
  rw [sampling_jump_points (csv (List.replicate 50 10)) 0 2 (by decide) (by decide)
    (by decide)]
  decide

/-- C33, as stated, fails on an input of two bytes whose first window is the whole input:
neither threshold is exceeded and the number of sampling jump points is 1, not 2. -/
theorem sampling_jump_points_counterexample :
    ¬ (20 * 2 < (csv [49, 10]).eof - 0) ∧ nJumps (csv [49, 10]) 0 2 = 1 ∧
    nJumps (csv [49, 10]) 0 2 ≠ 2 := by
  decide

/-! ## C40: where the scan for the line ending stops -/

/-- C40: on the six bytes `a,"b` line feed `c` the quote opened in the first line is never
closed: the scan ends with its cursor at 7, one past `eof` = 6, and the detection stops
with the error 'Internal error: ch>eof when detecting eol'. -/
theorem eol_scan_passes_eof :
    (csv [97, 44, 34, 98, 10, 99]).eof = 6 ∧
    eolLoop (csv [97, 44, 34, 98, 10, 99]) 6 0 = 7 ∧
    ¬ (eolLoop (csv [97, 44, 34, 98, 10, 99]) 6 0 ≤ (csv [97, 44, 34, 98, 10, 99]).eof) ∧
    detectEol (csv [97, 44, 34, 98, 10, 99]) 0 = EolResult.stopPastEof := by
  decide

/-! ## C36: reads at `eof` -/

/-- C36: three scanners read at offsets at or beyond `eof`: for a window that ends with a
separator, `Field` started at `eof` succeeds or fails with the byte at offset `eof`; for a
window that ends with `I`, `StrtoD` fails or stores an infinity, leaving the cursor two
past `eof`, with the bytes at `eof` and `eof + 1`; for a window that ends with an opening
quote, `StrtoB` fails or succeeds with the byte at `eof`. In each pair the two windows hold
the same bytes below `eof`. -/
theorem scanners_read_at_eof :
    (∀ i, i < 10 →
      rd { csv [97, 44, 98, 10, 49, 44, 120, 10, 50, 44, 0] with eof := 10 } i =
      rd { csv [97, 44, 98, 10, 49, 44, 120, 10, 50, 44, 34] with eof := 10 } i) ∧
    Field { csv [97, 44, 98, 10, 49, 44, 120, 10, 50, 44, 0] with eof := 10 } 10 true =
      ⟨true, 10, some ⟨0, 0⟩⟩ ∧
    Field { csv [97, 44, 98, 10, 49, 44, 120, 10, 50, 44, 34] with eof := 10 } 10 true =
      ⟨false, 10, none⟩ ∧
    (∀ i, i < 7 →
      rd { csv [97, 10, 49, 46, 53, 10, 73, 0, 0] with eof := 7 } i =
      rd { csv [97, 10, 49, 46, 53, 10, 73, 110, 102] with eof := 7 } i) ∧
    (StrtoD { csv [97, 10, 49, 46, 53, 10, 73, 0, 0] with eof := 7 } 6 true).ok = false ∧
    StrtoD { csv [97, 10, 49, 46, 53, 10, 73, 110, 102] with eof := 7 } 6 true =
      ⟨true, 9, some (F64.inf 1)⟩ ∧
    (∀ i, i < 5 →
      rd { csv [97, 10, 84, 10, 34, 0] with eof := 5 } i =
      rd { csv [97, 10, 84, 10, 34, 34] with eof := 5 } i) ∧
    (StrtoB { csv [97, 10, 84, 10, 34, 0] with eof := 5 } 4 true).ok = false ∧
    StrtoB { csv [97, 10, 84, 10, 34, 34] with eof := 5 } 4 true =
      ⟨true, 6, some NA_BOOL8⟩ := by
  decide

/-! ## C38: the retry loop and the table of scanners -/

/-- C38: on the field `"a"b` followed by a comma, under quote rule 0, the string scanner
fails (the closing quote is followed by `b`), the escalation after its failure steps from
STRING to type -6, and the retry loop indexes the six-entry table `fun` at 6; the same
happens from every starting column type, since no scanner accepts the field. -/
theorem retry_escalates_past_STRING :
    (Field (csv [34, 97, 34, 98, 44, 49, 10]) 0 true).ok = false ∧
    (Field (csv [34, 97, 34, 98, 44, 49, 10]) 0 false).ok = false ∧
    funCall (csv [34, 97, 34, 98, 44, 49, 10]) (-6 : Int).natAbs 0 false = none ∧
    bodyRetry (csv [34, 97, 34, 98, 44, 49, 10]) 0 7 CT_STRING true = Retry.outOfTable ∧
    (∀ t : Int, t ∈ [1, 2, 3, 4, 5, -1, -2, -3, -4, -5] →
      bodyRetry (csv [34, 97, 34, 98, 44, 49, 10]) 0 7 t (decide (t > 0)) =
        Retry.outOfTable) := by
  decide

/-! ## C39: the run arrays of the detector -/

/-- C39: on 101 lines that alternate between one field and two fields (`1` and `1,2`),
with the comma as separator and quote rule 0, every line starts a new run, the counting
loop fills all 101 slots of `numLines` with 1, and the scan `while (numLines[++i])` finds no
zero in slots 0 to 100 and reads slot 101, outside the array. -/
theorem run_scan_reads_slot_101 :
    (candidateRuns (csv ((List.replicate 50 [49, 10, 49, 44, 50, 10]).flatten ++ [49, 10]))
      0 44 0).map (fun s => (s.i, s.numLines)) = some (100, List.replicate 101 1) ∧
    aget (List.replicate 101 1) 101 = none ∧
    tryCandidate (csv ((List.replicate 50 [49, 10, 49, 44, 50, 10]).flatten ++ [49, 10]))
      0 ⟨0, 1, 0, 10, 0, 302⟩ (44, 0) = none ∧
    detectTop (csv ((List.replicate 50 [49, 10, 49, 44, 50, 10]).flatten ++ [49, 10]))
      0 [44] = none := by
  set_option maxRecDepth 100000 in decide

/-! ## C34: the number of chunks -/

theorem toInt32_id (x : Int) (h1 : -2147483648 ≤ x) (h2 : x < 2147483648) : toInt32 x = x := by
  unfold toInt32
  omega

theorem toSize_id (x : Int) (h1 : 0 ≤ x) (h2 : x < 2 ^ 64) : ((toSize x : Nat) : Int) = x := by
  unfold toSize
  rw [Int.emod_eq_of_lt h1 h2]
  exact Int.toNat_of_nonneg h1

/-- With `nth` and `q` at least 1 and below 2^30, the `int` expression
`nth*(1+(q-1)/nth)` is the least multiple of `nth` that is at least `q`. -/
theorem roundUp_spec (nth q : Int) (hn : 1 ≤ nth) (hn2 : nth < 2 ^ 30) (hq : 1 ≤ q)
    (hq2 : q < 2 ^ 30) :
    q ≤ toInt32 (nth * toInt32 (1 + Int.tdiv (toInt32 (q - 1)) nth)) ∧
    toInt32 (nth * toInt32 (1 + Int.tdiv (toInt32 (q - 1)) nth)) < q + nth ∧
    nth ∣ toInt32 (nth * toInt32 (1 + Int.tdiv (toInt32 (q - 1)) nth)) := by
  norm_num at hn2 hq2
  rw [toInt32_id (q - 1) (by omega) (by omega),
    Int.tdiv_eq_ediv (show (0 : Int) ≤ q - 1 by omega) (show (0 : Int) ≤ nth by omega)]
  have hd0 : 0 ≤ (q - 1) / nth := Int.ediv_nonneg (by omega) (by omega)
  have hd1 : (q - 1) / nth ≤ q - 1 := Int.ediv_le_self _ (by omega)
  have hm := Int.emod_add_ediv (q - 1) nth
  have hm0 : 0 ≤ (q - 1) % nth := Int.emod_nonneg _ (by omega)
  have hm1 : (q - 1) % nth < nth := Int.emod_lt_of_pos _ (by omega)
  rw [toInt32_id (1 + (q - 1) / nth) (by omega) (by omega)]
  have e : nth * (1 + (q - 1) / nth) = nth + nth * ((q - 1) / nth) := by ring
  have hdvd : nth ∣ nth * (1 + (q - 1) / nth) := Dvd.intro _ rfl
  rw [e] at hdvd ⊢
  generalize nth * ((q - 1) / nth) = P at hm hdvd ⊢
  rw [toInt32_id (nth + P) (by omega) (by omega)]
  exact ⟨by omega, by omega, hdvd⟩

/-- C34: for a body below 2^50 bytes and a configured thread count `nth` of at least 1 and
below 2^30, whatever the sampled line length: the number of chunks is at least 1; the
number of threads used is the smaller of the number of chunks and `nth`, and it divides
the number of chunks; the number of chunks is a multiple of `nth` exactly when it is at
least `nth`; it is 1 when the sampling used one jump point or `nth` is 1; otherwise, with
`q` the body size divided by the larger of one megabyte and 1000 times the line length, it
is `q` (or 1 for `q` = 0) when `q` is at most `nth`, and `q` rounded up to a multiple of
`nth` when `q` exceeds `nth`. -/
theorem chunk_count_multiple_of_threads_used (sj nth maxLen : Int) (lastRowEnd pos : Nat)
    (hn : 1 ≤ nth) (hn2 : nth < 2 ^ 30) (hp : pos ≤ lastRowEnd) (hl : lastRowEnd < 2 ^ 50) :
    1 ≤ (chunkSizing sj nth maxLen lastRowEnd pos).nJumps ∧
    (chunkSizing sj nth maxLen lastRowEnd pos).nth =
      min (chunkSizing sj nth maxLen lastRowEnd pos).nJumps nth ∧
    (chunkSizing sj nth maxLen lastRowEnd pos).nth ∣
      (chunkSizing sj nth maxLen lastRowEnd pos).nJumps ∧
    (nth ∣ (chunkSizing sj nth maxLen lastRowEnd pos).nJumps ↔
      nth ≤ (chunkSizing sj nth maxLen lastRowEnd pos).nJumps) ∧
    (sj ≤ 1 ∨ nth = 1 → (chunkSizing sj nth maxLen lastRowEnd pos).nJumps = 1) ∧
    (1 < sj → 1 < nth →
      ∀ q : Nat, q = (lastRowEnd - pos) /
          umax (toSize (toInt32 (1000 * maxLen))) (1 * 1024 * 1024) →
        ((q : Int) ≤ nth →
          (chunkSizing sj nth maxLen lastRowEnd pos).nJumps = max (q : Int) 1) ∧
        (nth < (q : Int) →
          (q : Int) ≤ (chunkSizing sj nth maxLen lastRowEnd pos).nJumps ∧
          (chunkSizing sj nth maxLen lastRowEnd pos).nJumps < (q : Int) + nth)) := by
  have hB : sizeDiff lastRowEnd pos = lastRowEnd - pos :=
    sizeDiff_eq lastRowEnd pos hp (by norm_num at hl ⊢; omega)
  have hC : 1048576 ≤ umax (toSize (toInt32 (1000 * maxLen))) (1 * 1024 * 1024) := by
    unfold umax
    split <;> omega
  have hq : (lastRowEnd - pos) / umax (toSize (toInt32 (1000 * maxLen))) (1 * 1024 * 1024)
      < 2 ^ 30 := by
    generalize umax (toSize (toInt32 (1000 * maxLen))) (1 * 1024 * 1024) = C at hC
    apply Nat.div_lt_of_lt_mul
    norm_num at hl ⊢
    have : 1048576 * 1073741824 ≤ C * 1073741824 := Nat.mul_le_mul_right _ hC
    omega
  -- the value of `nJumps` and of `nth`
  have key : ∀ n : Int, 1 ≤ n → n < 2 ^ 31 →
      toInt32 ((umin (toSize n) (toSize nth) : Nat) : Int) = min n nth := by
    intro n h1 h2
    norm_num at h2 hn2
    have e1 := toSize_id n (by omega) (by norm_num; omega)
    have e2 := toSize_id nth (by omega) (by norm_num; omega)
    unfold umin
    by_cases hlt : toSize n < toSize nth
    · rw [if_pos hlt, e1, toInt32_id n (by omega) (by omega)]
      have : n < nth := by rw [← e1, ← e2]; exact_mod_cast hlt
      omega
    · rw [if_neg hlt, e2, toInt32_id nth (by omega) (by omega)]
      have : nth ≤ n := by
        rw [← e1, ← e2]
        exact_mod_cast Nat.le_of_not_lt hlt
      omega
  unfold chunkSizing
  dsimp only
  rw [hB]
  generalize (lastRowEnd - pos) / umax (toSize (toInt32 (1000 * maxLen))) (1 * 1024 * 1024)
    = q at hq
  norm_num at hq
  have hqi : toInt32 ((q : Nat) : Int) = (q : Int) := toInt32_id _ (by omega) (by omega)
  rw [hqi]
  by_cases hs : sj > 1 ∧ nth > 1
  · rw [if_pos hs]
    dsimp only
    by_cases h0 : (q : Int) = 0
    · rw [if_pos h0, key 1 (by omega) (by norm_num)]
      refine ⟨le_refl _, rfl, ?_, ?_, ?_, ?_⟩
      · rw [min_eq_left hn]
      · constructor
        · intro h
          have := Int.le_of_dvd (by omega) h
          omega
        · intro h; omega
      · intro h; omega
      · intro _ _ q2 hq2
        subst hq2
        refine ⟨fun _ => ?_, fun h => ?_⟩
        · rw [h0]; rfl
        · omega
    · rw [if_neg h0]
      by_cases hgt : (q : Int) > nth
      · rw [if_pos hgt]
        obtain ⟨r1, r2, r3⟩ := roundUp_spec nth q hn hn2 (by omega) (by norm_num; omega)
        generalize toInt32 (nth * toInt32 (1 + Int.tdiv (toInt32 ((q : Int) - 1)) nth)) = J
          at r1 r2 r3
        norm_num at hn2
        rw [key J (by omega) (by norm_num; omega)]
        refine ⟨by omega, rfl, ?_, ?_, ?_, ?_⟩
        · rw [min_eq_right (by omega)]
          exact r3
        · exact ⟨fun _ => by omega, fun _ => r3⟩
        · intro h; omega
        · intro _ _ q2 hq2
          subst hq2
          exact ⟨fun h => by omega, fun _ => ⟨r1, r2⟩⟩
      · rw [if_neg hgt]
        norm_num at hn2
        rw [key q (by omega) (by norm_num; omega)]
        refine ⟨by omega, rfl, ?_, ?_, ?_, ?_⟩
        · rw [min_eq_left (by omega)]
        · constructor
          · intro h
            exact Int.le_of_dvd (by omega) h
          · intro h
            have : (q : Int) = nth := by omega
            rw [this]
        · intro h; omega
        · intro _ _ q2 hq2
          subst hq2
          refine ⟨fun _ => ?_, fun h => ?_⟩
          · rw [max_eq_left (by omega)]
          · omega
  · rw [if_neg hs]
    dsimp only
    rw [key 1 (by omega) (by norm_num)]
    refine ⟨le_refl _, rfl, ?_, ?_, ?_, ?_⟩
    · rw [min_eq_left hn]
    · constructor
      · intro h
        have := Int.le_of_dvd (by omega) h
        omega
      · intro h
        have : nth = 1 := by omega
        rw [this]
    · intro _; rfl
    · intro h1 h2
      exact absurd ⟨h1, h2⟩ hs

theorem chunk_count_multiple_of_threads_used_witness :
    chunkSizing 101 4 100 10485765 0 = ⟨12, 873813, 4⟩ ∧
    (chunkSizing 101 4 100 10485765 0).nth ∣ (chunkSizing 101 4 100 10485765 0).nJumps :=
  ⟨by decide, (chunk_count_multiple_of_threads_used 101 4 100 10485765 0 (by decide)
    (by decide) (by decide) (by decide)).2.2.1⟩

/-- C34, as stated, fails for a body of 2.5 megabytes with lines of at most 100 bytes,
101 sampling jump points and a configured thread count of 4: the body holds two chunks of
one megabyte, the number of chunks is 2, which is not a multiple of 4, and 2 threads are
used. -/
theorem chunk_count_counterexample :
    chunkSizing 101 4 100 2621440 0 = ⟨2, 1310720, 2⟩ ∧
    ¬ ((4 : Int) ∣ (chunkSizing 101 4 100 2621440 0).nJumps) := by
  decide

/-! ## C35: where `nextGoodLine` lands -/

/-- The count that `countfields` returns is -1 or at least 1. -/
theorem countfields_pos_or_fail (c : Ctx) (this : Nat) :
    (countfields c this).1 = -1 ∨ 1 ≤ (countfields c this).1 := by
  unfold countfields
  lift_lets
  intro ch r
  rcases countLoop_range c (c.eof - ch + 1) ch 1 with h | h
  · left
    have hr : r.1 = -1 := h
    rw [if_pos (by rw [hr]; decide)]
  · have hr : 1 ≤ r.1 ∧ r.1 ≤ 1 + ((c.eof - ch + 1 : Nat) : Int) := h
    right
    rw [if_neg (by omega)]
    exact hr.1

/-- A call of `countfields` that returns -1 leaves the cursor where it was. -/
theorem countfields_fail_cursor (c : Ctx) (this : Nat) (h : (countfields c this).1 = -1) :
    (countfields c this).2 = this := by
  revert h
  unfold countfields
  lift_lets
  intro ch r
  split
  · intro _; rfl
  · intro h
    have h2 : r.1 = -1 := h
    omega

/-- What the loop over the next rows of `nextGoodLine` finds: `m` rows with `ncol` fields,
and then the limit of the loop, `eof`, or a row with another count of fields. -/
theorem goodLines_spec (c : Ctx) (ncol : Int) (n ch2 i : Nat) :
    ∃ m, m ≤ n ∧ (goodLines c ncol n ch2 i).1 = i + m ∧
      (∀ k, k < m → rowStart c ch2 k < c.eof ∧ (countfields c (rowStart c ch2 k)).1 = ncol) ∧
      ((m = n ∧ (goodLines c ncol n ch2 i).2 = rowStart c ch2 m) ∨
       (c.eof ≤ rowStart c ch2 m ∧ (goodLines c ncol n ch2 i).2 = rowStart c ch2 m) ∨
       (rowStart c ch2 m < c.eof ∧ (countfields c (rowStart c ch2 m)).1 ≠ ncol ∧
         (goodLines c ncol n ch2 i).2 = (countfields c (rowStart c ch2 m)).2)) := by
  induction n generalizing ch2 i with
  | zero =>
    refine ⟨0, le_refl _, rfl, ?_, Or.inl ⟨rfl, rfl⟩⟩
    intro k hk
    omega
  | succ n ih =>
    rw [goodLines]
    by_cases he : ch2 < c.eof
    · rw [if_pos he]
      dsimp only
      by_cases hg : (countfields c ch2).1 = ncol ∨
          ((countfields c ch2).1 = 0 ∧ (c.skipEmptyLines = true ∨ c.fill = true))
      · rw [if_pos hg]
        have hn : (countfields c ch2).1 = ncol := by
          rcases hg with h | h
          · exact h
          · rcases countfields_pos_or_fail c ch2 with h2 | h2
            · rw [h2] at h; exact absurd h.1 (by decide)
            · omega
        obtain ⟨m, m1, m2, m3, m4⟩ := ih (countfields c ch2).2 (i + 1)
        refine ⟨m + 1, by omega, by rw [m2]; omega, ?_, ?_⟩
        · intro k hk
          cases k with
          | zero => exact ⟨he, hn⟩
          | succ k =>
            rw [rowStart_succ]
            exact m3 k (by omega)
        · rw [rowStart_succ]
          rcases m4 with ⟨a, b⟩ | ⟨a, b⟩ | ⟨a, b, d⟩
          · exact Or.inl ⟨by omega, b⟩
          · exact Or.inr (Or.inl ⟨a, b⟩)
          · exact Or.inr (Or.inr ⟨a, b, d⟩)
      · rw [if_neg hg]
        refine ⟨0, by omega, rfl, ?_, Or.inr (Or.inr ⟨he, fun h => hg (Or.inl h), rfl⟩)⟩
        intro k hk
        omega
    · rw [if_neg he]
      refine ⟨0, by omega, rfl, ?_, Or.inr (Or.inl ⟨by show c.eof ≤ ch2; omega, rfl⟩)⟩
      intro k hk
      omega

/-- When the loop over the attempts of `nextGoodLine` ends below `eof` within its limit, it
ends right after an end-of-line beyond the offset it started from, and the loop over the
next rows found five rows or reached `eof` there. -/
theorem goodLineLoop_spec (c : Ctx) (ncol : Int) (hl : 1 ≤ c.eolLen) (n ch a : Nat)
    (hf : 31 ≤ n + a) (h1 : (goodLineLoop c ncol n ch a).1 < c.eof)
    (h2 : (goodLineLoop c ncol n ch a).2 < 30) :
    ch < (goodLineLoop c ncol n ch a).1 ∧ c.eolLen ≤ (goodLineLoop c ncol n ch a).1 ∧
    rd c ((goodLineLoop c ncol n ch a).1 - c.eolLen) = c.eol ∧
    ((goodLines c ncol 5 (goodLineLoop c ncol n ch a).1 0).1 = 5 ∨
      c.eof ≤ (goodLines c ncol 5 (goodLineLoop c ncol n ch a).1 0).2) := by
  induction n generalizing ch a with
  | zero =>
    simp only [goodLineLoop] at h2
    omega
  | succ n ih =>
    rw [goodLineLoop] at h1 h2 ⊢
    by_cases he : ch < c.eof
    · rw [if_pos he] at h1 h2 ⊢
      by_cases ha : a < 30
      · rw [if_pos ha] at h1 h2 ⊢
        dsimp only at h1 h2 ⊢
        have hge := scanWhile_ge c.eof (fun i => rd c i ≠ c.eol) (c.eof - ch) ch
        have hst := scanWhile_stop c.eof (fun i => rd c i ≠ c.eol) (c.eof - ch) ch (le_refl _)
        generalize scanWhile c.eof (fun i => rd c i ≠ c.eol) (c.eof - ch) ch = ch1
          at h1 h2 hge hst ⊢
        by_cases hb : (goodLines c ncol 5 (if ch1 < c.eof then ch1 + c.eolLen else ch1) 0).1 = 5 ∨
            (goodLines c ncol 5 (if ch1 < c.eof then ch1 + c.eolLen else ch1) 0).2 ≥ c.eof
        · rw [if_pos hb] at h1 h2 ⊢
          by_cases h3 : ch1 < c.eof
          · rw [if_pos h3] at h1 hb ⊢
            refine ⟨by show ch < ch1 + c.eolLen; omega, by show c.eolLen ≤ ch1 + c.eolLen; omega,
              ?_, hb⟩
            show rd c (ch1 + c.eolLen - c.eolLen) = c.eol
            rw [Nat.add_sub_cancel]
            rcases hst with hst | hst
            · omega
            · simpa using hst
          · rw [if_neg h3] at h1
            exact absurd h1 h3
        · rw [if_neg hb] at h1 h2 ⊢
          obtain ⟨i1, i2, i3, i4⟩ := ih _ (a + 1) (by omega) h1 h2
          refine ⟨?_, i2, i3, i4⟩
          have : ch ≤ (if ch1 < c.eof then ch1 + c.eolLen else ch1) := by
            split <;> omega
          omega
      · rw [if_neg ha] at h2
        have : a + 1 < 30 := h2
        omega
    · rw [if_neg he] at h1
      exact absurd h1 he

/-- C35: whenever `nextGoodLine` returns true (with an end-of-line of at least one byte),
the offset it returns is strictly greater than the offset it was given, is below `eof`
and immediately follows an end-of-line (an `eol` byte stands `eolLen` bytes before it); of
the rows starting there the first `i`, for some `i` of at most five, have exactly `ncol`
fields according to `countfields`, and either `i` is five, or the next row would start at
or after `eof`, or the next row has another count of fields and ends at or after `eof`. -/
theorem nextGoodLine_lands_on_row_start (c : Ctx) (this p : Nat) (ncol : Int)
    (hl : 1 ≤ c.eolLen) (h : nextGoodLine c this ncol = (true, p)) :
    this < p ∧ p < c.eof ∧ c.eolLen ≤ p ∧ rd c (p - c.eolLen) = c.eol ∧
    ∃ i, i ≤ 5 ∧
      (∀ k, k < i → rowStart c p k < c.eof ∧ (countfields c (rowStart c p k)).1 = ncol) ∧
      (i = 5 ∨ c.eof ≤ rowStart c p i ∨
        (rowStart c p i < c.eof ∧ (countfields c (rowStart c p i)).1 ≠ ncol ∧
          1 ≤ (countfields c (rowStart c p i)).1 ∧
          c.eof ≤ (countfields c (rowStart c p i)).2)) := by
  unfold nextGoodLine at h
  dsimp only at h
  by_cases hc : (goodLineLoop c ncol 31 this 0).1 < c.eof ∧ (goodLineLoop c ncol 31 this 0).2 < 30
  · rw [if_pos hc] at h
    have hp : (goodLineLoop c ncol 31 this 0).1 = p := congrArg Prod.snd h
    obtain ⟨s1, s2, s3, s4⟩ := goodLineLoop_spec c ncol hl 31 this 0 (by omega) hc.1 hc.2
    have hlt := hc.1
    rw [hp] at s1 s2 s3 s4 hlt
    refine ⟨s1, hlt, s2, s3, ?_⟩
    obtain ⟨m, m1, m2, m3, m4⟩ := goodLines_spec c ncol 5 p 0
    refine ⟨m, m1, m3, ?_⟩
    rcases m4 with ⟨a, _⟩ | ⟨a, _⟩ | ⟨a, b, d⟩
    · exact Or.inl a
    · exact Or.inr (Or.inl a)
    · rcases s4 with s4 | s4
      · left
        omega
      · right; right
        rw [d] at s4
        refine ⟨a, b, ?_, s4⟩
        rcases countfields_pos_or_fail c (rowStart c p m) with e | e
        · have := countfields_fail_cursor c (rowStart c p m) e
          omega
        · exact e
  · rw [if_neg hc] at h
    cases h

theorem nextGoodLine_lands_on_row_start_witness :
    nextGoodLine (csv (List.replicate 6 [49, 44, 50, 10]).flatten) 1 2 = (true, 4) ∧
    ∃ i, i ≤ 5 ∧
      (∀ k, k < i → rowStart (csv (List.replicate 6 [49, 44, 50, 10]).flatten) 4 k <
          (csv (List.replicate 6 [49, 44, 50, 10]).flatten).eof ∧
        (countfields (csv (List.replicate 6 [49, 44, 50, 10]).flatten)
          (rowStart (csv (List.replicate 6 [49, 44, 50, 10]).flatten) 4 k)).1 = 2) ∧
      (i = 5 ∨ (csv (List.replicate 6 [49, 44, 50, 10]).flatten).eof ≤
          rowStart (csv (List.replicate 6 [49, 44, 50, 10]).flatten) 4 i ∨
        (rowStart (csv (List.replicate 6 [49, 44, 50, 10]).flatten) 4 i <
            (csv (List.replicate 6 [49, 44, 50, 10]).flatten).eof ∧
          (countfields (csv (List.replicate 6 [49, 44, 50, 10]).flatten)
            (rowStart (csv (List.replicate 6 [49, 44, 50, 10]).flatten) 4 i)).1 ≠ 2 ∧
          1 ≤ (countfields (csv (List.replicate 6 [49, 44, 50, 10]).flatten)
            (rowStart (csv (List.replicate 6 [49, 44, 50, 10]).flatten) 4 i)).1 ∧
          (csv (List.replicate 6 [49, 44, 50, 10]).flatten).eof ≤
            (countfields (csv (List.replicate 6 [49, 44, 50, 10]).flatten)
              (rowStart (csv (List.replicate 6 [49, 44, 50, 10]).flatten) 4 i)).2)) :=
  ⟨by decide, (nextGoodLine_lands_on_row_start (csv (List.replicate 6 [49, 44, 50, 10]).flatten)
    1 4 2 (by decide) (by decide)).2.2.2.2⟩

/-- C35, as stated, fails on two inputs. On `1,2` line feed `3,4` line feed, with two
columns, `nextGoodLine` started at 0 returns true and offset 4, with one row from there to
`eof`: the second row would start at `eof`, where `countfields` counts one field. On `x`
line feed `1,2,3` line feed, with two columns, it returns true and offset 2, where the only
row has three fields and ends at `eof`. -/
theorem nextGoodLine_short_tail_counterexample :
    nextGoodLine (csv [49, 44, 50, 10, 51, 44, 52, 10]) 0 2 = (true, 4) ∧
    rowStart (csv [49, 44, 50, 10, 51, 44, 52, 10]) 4 1 = 8 ∧
    (csv [49, 44, 50, 10, 51, 44, 52, 10]).eof = 8 ∧
    (countfields (csv [49, 44, 50, 10, 51, 44, 52, 10])
      (rowStart (csv [49, 44, 50, 10, 51, 44, 52, 10]) 4 1)).1 = 1 ∧
    nextGoodLine (csv [120, 10, 49, 44, 50, 44, 51, 10]) 0 2 = (true, 2) ∧
    countfields (csv [120, 10, 49, 44, 50, 44, 51, 10])
      (rowStart (csv [120, 10, 49, 44, 50, 44, 51, 10]) 2 0) = (3, 8) ∧
    (csv [120, 10, 49, 44, 50, 44, 51, 10]).eof = 8 := by
  decide

/-! ## C31: the limit of 100 end-of-lines under quote rules 0 and 1 -/

/-- Once 100 end-of-lines are counted the rule 0 loop stops on the next byte. -/
theorem quoteLoop0_full (c : Ctx) (fuel ch : Nat) : quoteLoop0 c fuel ch 100 = ch + 1 := by
  cases fuel with
  | zero => rfl
  | succ f =>
    unfold quoteLoop0
    simp

/-- Once 100 end-of-lines are counted the rule 1 loop stops on the next byte. -/
theorem quoteLoop1_full (c : Ctx) (fuel ch : Nat) : quoteLoop1 c fuel ch 100 = ch + 1 := by
  cases fuel with
  | zero => rfl
  | succ f =>
    unfold quoteLoop1
    simp

/-- The rule 0 loop run over a content of doubled quotes and other bytes that holds 99
end-of-lines and is followed by one more: it stops on the byte after that one. -/
theorem quoteLoop0_limit (c : Ctx) (heq : c.eol ≠ c.quote) (n : Nat) :
    ∀ (pre : List Nat), pre.length = n →
    ∀ (fuel ch eolCount : Nat), doubled c.quote pre = true →
    bytesAt c (ch + 1) (pre ++ [c.eol]) = true →
    ch + 1 + pre.length < c.eof →
    eolCount + pre.count c.eol = 99 → c.eof - ch ≤ fuel →
    quoteLoop0 c fuel ch eolCount = ch + 1 + pre.length + 1 := by
  induction n using Nat.strong_induction_on with
  | _ n ih =>
    intro pre hlen fuel ch eolCount hd hb hw hcount hfuel
    obtain ⟨f, rfl⟩ : ∃ f, fuel = f + 1 := ⟨fuel - 1, by omega⟩
    unfold quoteLoop0
    simp only
    rcases pre with _ | ⟨a, _ | ⟨b, rest⟩⟩
    · simp only [List.nil_append, bytesAt_cons, List.length_nil, Nat.add_zero,
        List.count_nil] at hb hw hcount ⊢
      have h1 : ch + 1 < c.eof ∧ eolCount < 100 := ⟨hw, by omega⟩
      rw [if_pos h1, hb.1, if_neg heq, if_pos rfl, hcount]
      exact quoteLoop0_full c f (ch + 1)
    · simp only [doubled, decide_eq_true_eq] at hd
      simp only [List.singleton_append, bytesAt_cons, List.length_singleton] at hb hw hlen ⊢
      have hc : List.count c.eol [a] = if a = c.eol then 1 else 0 := by
        simp [List.count_cons]
      have h1 : ch + 1 < c.eof ∧ eolCount < 100 := ⟨by omega, by omega⟩
      rw [if_pos h1, hb.1, if_neg hd]
      have := ih 0 (by omega) [] rfl f (ch + 1) (eolCount + (if a = c.eol then 1 else 0))
        rfl (by simp only [List.nil_append, bytesAt_cons]; exact hb.2)
        (by simpa using hw) (by simp only [List.count_nil]; omega) (by omega)
      simpa using this
    · simp only [List.cons_append, bytesAt_cons, List.length_cons] at hb hw hlen
      have hcnt : List.count c.eol (a :: b :: rest) =
          List.count c.eol rest + (if b = c.eol then 1 else 0) + (if a = c.eol then 1 else 0) := by
        simp [List.count_cons]
      have h1 : ch + 1 < c.eof ∧ eolCount < 100 := ⟨by omega, by omega⟩
      rw [if_pos h1, hb.1]
      by_cases haq : a = c.quote
      · simp only [doubled, haq, if_true, Bool.and_eq_true, decide_eq_true_eq] at hd
        have h2 : ch + 1 + 1 < c.eof ∧ rd c (ch + 1 + 1) = c.quote :=
          ⟨by omega, by rw [hb.2.1]; exact hd.1⟩
        have hbe : ¬ b = c.eol := by rw [hd.1]; exact fun h => heq h.symm
        rw [if_neg hbe] at hcnt
        rw [if_pos haq, if_pos h2]
        have := ih rest.length (by omega) rest rfl f (ch + 1 + 1)
          (eolCount + (if a = c.eol then 1 else 0)) hd.2 hb.2.2 (by omega) (by omega) (by omega)
        rw [this]; simp only [List.length_cons]; omega
      · simp only [doubled, haq, if_false] at hd
        rw [if_neg haq]
        have := ih (rest.length + 1) (by omega) (b :: rest) (by simp) f (ch + 1)
          (eolCount + (if a = c.eol then 1 else 0)) hd
          (by simp only [List.cons_append, bytesAt_cons]; exact hb.2)
          (by simp only [List.length_cons]; omega)
          (by have : List.count c.eol (b :: rest) =
                  List.count c.eol rest + (if b = c.eol then 1 else 0) := by
                simp [List.count_cons]
              omega)
          (by omega)
        rw [this]; simp only [List.length_cons]; omega

/-- The rule 1 loop run over a content of escaped bytes and other bytes in which it counts
99 end-of-lines and which is followed by one more: it stops on the byte after that one. -/
theorem quoteLoop1_limit (c : Ctx) (heq : c.eol ≠ c.quote) (he92 : c.eol ≠ 92) (n : Nat) :
    ∀ (pre : List Nat), pre.length = n →
    ∀ (fuel ch eolCount : Nat), escaped c.quote pre = true →
    bytesAt c (ch + 1) (pre ++ [c.eol]) = true →
    ch + 1 + pre.length < c.eof →
    eolCount + bareEols c.eol pre = 99 → c.eof - ch ≤ fuel →
    quoteLoop1 c fuel ch eolCount = ch + 1 + pre.length + 1 := by
  induction n using Nat.strong_induction_on with
  | _ n ih =>
    intro pre hlen fuel ch eolCount hd hb hw hcount hfuel
    obtain ⟨f, rfl⟩ : ∃ f, fuel = f + 1 := ⟨fuel - 1, by omega⟩
    unfold quoteLoop1
    simp only
    rcases pre with _ | ⟨a, _ | ⟨b, rest⟩⟩
    · simp only [List.nil_append, bytesAt_cons, List.length_nil, Nat.add_zero,
        bareEols] at hb hw hcount ⊢
      have h1 : ch + 1 < c.eof ∧ rd c (ch + 1) ≠ c.quote ∧ eolCount < 100 :=
        ⟨hw, by rw [hb.1]; exact heq, by omega⟩
      rw [if_pos h1, hb.1, if_neg he92, if_pos rfl, hcount]
      exact quoteLoop1_full c f (ch + 1)
    · simp only [escaped, decide_eq_true_eq] at hd
      simp only [List.singleton_append, bytesAt_cons, List.length_singleton, bareEols]
        at hb hw hlen hcount ⊢
      have h1 : ch + 1 < c.eof ∧ rd c (ch + 1) ≠ c.quote ∧ eolCount < 100 :=
        ⟨by omega, by rw [hb.1]; exact hd.1, by split at hcount <;> omega⟩
      rw [if_pos h1, hb.1, if_neg hd.2]
      have := ih 0 (by omega) [] rfl f (ch + 1) (eolCount + (if a = c.eol then 1 else 0))
        rfl (by simp only [List.nil_append, bytesAt_cons]; exact hb.2)
        (by simpa using hw) (by simp only [bareEols]; omega) (by omega)
      simpa using this
    · simp only [List.cons_append, bytesAt_cons, List.length_cons] at hb hw hlen
      by_cases haq : a = c.quote
      · simp [escaped, haq] at hd
      · have h1 : ch + 1 < c.eof ∧ rd c (ch + 1) ≠ c.quote ∧ eolCount < 100 := by
          refine ⟨by omega, by rw [hb.1]; exact haq, ?_⟩
          simp only [bareEols] at hcount
          omega
        rw [if_pos h1, hb.1]
        by_cases hbs : a = 92
        · have hq92 : ¬ (92 = c.quote) := by rw [← hbs]; exact haq
          simp only [escaped, hbs, hq92, if_false, if_true] at hd
          simp only [bareEols, hbs, if_true] at hcount
          rw [if_pos hbs]
          have := ih rest.length (by omega) rest rfl f (ch + 1 + 1)
            (eolCount + (if a = c.eol then 1 else 0)) hd hb.2.2 (by omega)
            (by rw [hbs]; omega) (by omega)
          rw [this]; simp only [List.length_cons]; omega
        · simp only [escaped, haq, hbs, if_false] at hd
          simp only [bareEols, hbs, if_false] at hcount
          rw [if_neg hbs]
          have := ih (rest.length + 1) (by omega) (b :: rest) (by simp) f (ch + 1)
            (eolCount + (if a = c.eol then 1 else 0)) hd
            (by simp only [List.cons_append, bytesAt_cons]; exact hb.2)
            (by simp only [List.length_cons]; omega)
            (by omega)
            (by omega)
          simp only [Nat.add_zero]
          rw [this]; simp only [List.length_cons]; omega

/-- Lines 198-200 of `Field` for a quoted field whose closing quote is not followed by a
terminator: the call fails. -/
theorem Field_finish_fail (c : Ctx) (this : Nat) (tgt : Bool) (fs e : Nat)
    (hos : (on_sep c (if c.stripWhite = true then skip_white c (e + 1) else e + 1)).1 = false) :
    Field_finish c this tgt fs true e = ⟨false, this, none⟩ := by
  unfold Field_finish
  simp only [if_true]
  rw [if_pos (by rw [hos]; simp)]

theorem bytesAt_agree (c d : Ctx) (l : List Nat) (p : Nat)
    (h : ∀ i, p ≤ i → i < p + l.length → rd d i = rd c i) :
    bytesAt d p l = bytesAt c p l := by
  induction l generalizing p with
  | nil => rfl
  | cons b bs ih =>
    simp only [bytesAt]
    rw [h p (le_refl _) (by simp), ih (p + 1) (fun i h1 h2 => h i (by omega)
      (by simp only [List.length_cons]; omega))]

/-- The rule 0 and rule 1 branches of `Field` on a field that opens with the quote and whose
content reaches a 100th counted end-of-line, at offset `this + 1 + pre.length`: the call
fails unless the next byte is a quote that a terminator follows. -/
theorem Field_eol_limit_fails (c : Ctx) (this : Nat) (tgt : Bool) (pre : List Nat)
    (hb1 : c.quote ≠ 32 ∧ c.quote ≠ 9) (hqe : c.eol ≠ c.quote) (hqs : c.sep ≠ c.quote)
    (hopen : rd c this = c.quote)
    (hb : bytesAt c (this + 1) (pre ++ [c.eol]) = true)
    (hw : this + 1 + pre.length < c.eof)
    (hrule : (c.quoteRule = 0 ∧ doubled c.quote pre = true ∧ pre.count c.eol = 99) ∨
      (c.quoteRule = 1 ∧ c.eol ≠ 92 ∧ escaped c.quote pre = true ∧
        bareEols c.eol pre = 99))
    (hnext : this + 1 + pre.length + 1 ≥ c.eof ∨
      rd c (this + 1 + pre.length + 1) ≠ c.quote ∨
      (this + 1 + pre.length + 2 < c.eof ∧ rd c (this + 1 + pre.length + 2) = c.quote)) :
    Field c this tgt = ⟨false, this, none⟩ := by
  have hsw : (if c.stripWhite = true then skip_white c this else this) = this := by
    split
    · exact skip_white_none c this ⟨by rw [hopen]; exact hb1.1, by rw [hopen]; exact hb1.2⟩
    · rfl
  have hfin : ¬ (this + 1 + pre.length + 1 ≥ c.eof ∨
      rd c (this + 1 + pre.length + 1) ≠ c.quote) →
      Field_finish c this tgt (this + 1) true (this + 1 + pre.length + 1) =
        ⟨false, this, none⟩ := by
    intro hn
    have h2 : this + 1 + pre.length + 2 < c.eof ∧ rd c (this + 1 + pre.length + 2) = c.quote := by
      rcases hnext with h | h | h
      · exact absurd (Or.inl h) hn
      · exact absurd (Or.inr h) hn
      · exact h
    apply Field_finish_fail
    have hsk : (if c.stripWhite = true then skip_white c (this + 1 + pre.length + 1 + 1)
        else this + 1 + pre.length + 1 + 1) = this + 1 + pre.length + 2 := by
      split
      · exact skip_white_none c _ ⟨by rw [h2.2]; exact hb1.1, by rw [h2.2]; exact hb1.2⟩
      · rfl
    rw [hsk, on_sep_false c _ h2.1 (by rw [h2.2]; exact fun h => hqs h.symm)
      (by rw [h2.2]; exact fun h => hqe h.symm)]
  unfold Field
  dsimp only
  rw [hsw, if_neg (by
    rintro (h | h)
    · exact h hopen
    · rcases hrule with hr | hr
      · rw [hr.1] at h; cases h
      · rw [hr.1] at h; cases h)]
  rcases hrule with ⟨hr, hd, hc⟩ | ⟨hr, h92, hd, hc⟩
  · rw [hr]
    dsimp only
    rw [quoteLoop0_limit c hqe pre.length pre rfl (c.eof - this + 1) this 0 hd hb hw
      (by omega) (by omega)]
    by_cases hn : this + 1 + pre.length + 1 ≥ c.eof ∨ rd c (this + 1 + pre.length + 1) ≠ c.quote
    · rw [if_pos hn]
    · rw [if_neg hn]
      exact hfin hn
  · rw [hr]
    dsimp only
    rw [quoteLoop1_limit c hqe h92 pre.length pre rfl (c.eof - this + 1) this 0 hd hb hw
      (by omega) (by omega)]
    by_cases hn : this + 1 + pre.length + 1 ≥ c.eof ∨ rd c (this + 1 + pre.length + 1) ≠ c.quote
    · rw [if_pos hn]
    · rw [if_neg hn]
      exact hfin hn

/-- C31: under quote rule 0 or 1, with a quote byte that is not a space, a tab, `sep` or
`eol` (and `eol` not a backslash under rule 1), if a field opens with the quote byte and
its content reaches a 100th counted end-of-line before any closing quote (under rule 0 the
content is made of doubled quotes and of other bytes and every `eol` byte counts; under
rule 1 it is made of backslash-escaped bytes and of other bytes, and an `eol` byte counts
unless a backslash escapes it), then `Field` returns failure whenever the byte just past
that end-of-line is at `eof`, is not a quote, or is a quote followed by another quote; and
it does so whatever the memory holds beyond the byte just past the 100th end-of-line, or,
when that byte is a quote, beyond the byte after it. -/
theorem Field_fails_at_eol_limit (c : Ctx) (this : Nat) (tgt : Bool) (pre : List Nat)
    (hb1 : c.quote ≠ 32 ∧ c.quote ≠ 9) (hqe : c.eol ≠ c.quote) (hqs : c.sep ≠ c.quote)
    (hopen : rd c this = c.quote)
    (hb : bytesAt c (this + 1) (pre ++ [c.eol]) = true)
    (hw : this + 1 + pre.length < c.eof)
    (hrule : (c.quoteRule = 0 ∧ doubled c.quote pre = true ∧ pre.count c.eol = 99) ∨
      (c.quoteRule = 1 ∧ c.eol ≠ 92 ∧ escaped c.quote pre = true ∧
        bareEols c.eol pre = 99))
    (hnext : this + 1 + pre.length + 1 ≥ c.eof ∨
      rd c (this + 1 + pre.length + 1) ≠ c.quote ∨
      (this + 1 + pre.length + 2 < c.eof ∧ rd c (this + 1 + pre.length + 2) = c.quote))
    (buf2 : List Nat)
    (hag : ∀ i, (i ≤ this + 1 + pre.length + 1 ∨
        (i = this + 1 + pre.length + 2 ∧ this + 1 + pre.length + 1 < c.eof ∧
          rd c (this + 1 + pre.length + 1) = c.quote)) →
      buf2.getD i 0 = c.buf.getD i 0) :
    Field { c with buf := buf2 } this tgt = ⟨false, this, none⟩ := by
  have hrd : ∀ i, i ≤ this + 1 + pre.length + 1 → rd { c with buf := buf2 } i = rd c i :=
    fun i hi => hag i (Or.inl hi)
  apply Field_eol_limit_fails { c with buf := buf2 } this tgt pre hb1 hqe hqs
  · rw [hrd this (by omega)]
    exact hopen
  · rw [bytesAt_agree c { c with buf := buf2 } _ _ (fun i _ h2 => hrd i (by
      simp only [List.length_append, List.length_singleton] at h2
      omega))]
    exact hb
  · exact hw
  · exact hrule
  · by_cases hn : this + 1 + pre.length + 1 ≥ c.eof ∨ rd c (this + 1 + pre.length + 1) ≠ c.quote
    · rcases hn with h | h
      · exact Or.inl h
      · right; left
        rw [hrd _ (le_refl _)]
        exact h
    · have h2 : this + 1 + pre.length + 2 < c.eof ∧
          rd c (this + 1 + pre.length + 2) = c.quote := by
        rcases hnext with h | h | h
        · exact absurd (Or.inl h) hn
        · exact absurd (Or.inr h) hn
        · exact h
      right; right
      refine ⟨h2.1, ?_⟩
      have : rd { c with buf := buf2 } (this + 1 + pre.length + 2) =
          rd c (this + 1 + pre.length + 2) :=
        hag _ (Or.inr ⟨rfl, by omega, by
          by_contra h
          exact hn (Or.inr h)⟩)
      rw [this]
      exact h2.2

theorem Field_fails_at_eol_limit_witness :
    Field { csv ([34] ++ List.replicate 101 10 ++ [34, 44, 49, 10]) with
      buf := [34] ++ List.replicate 101 10 ++ [120, 121] } 0 true = ⟨false, 0, none⟩ :=
  Field_fails_at_eol_limit (csv ([34] ++ List.replicate 101 10 ++ [34, 44, 49, 10])) 0 true
    (List.replicate 99 10) (by decide) (by decide) (by decide) (by decide)
    (by set_option maxRecDepth 100000 in decide) (by decide)
    (Or.inl ⟨by decide, by set_option maxRecDepth 100000 in decide,
      by set_option maxRecDepth 100000 in decide⟩)
    (Or.inr (Or.inl (by set_option maxRecDepth 100000 in decide)))
    ([34] ++ List.replicate 101 10 ++ [120, 121])
    (by
      intro i hi
      have h : i ≤ 101 := by
        rcases hi with h | h
        · exact h
        · exact absurd h.2.2 (by set_option maxRecDepth 100000 in decide)
      have key : ∀ j, j < 102 → ([34] ++ List.replicate 101 10 ++ [120, 121]).getD j 0 =
          (csv ([34] ++ List.replicate 101 10 ++ [34, 44, 49, 10])).buf.getD j 0 := by
        set_option maxRecDepth 100000 in decide
      exact key i (by omega))

/-- C31, as stated, fails under quote rule 1: in the field made of an opening quote, 101
times backslash and line feed, and a closing quote followed by a comma, 101 `eol` bytes
follow the opening quote before the closing quote, and `Field` succeeds and records the
202 bytes between the quotes, because the loop steps over the byte after each backslash
without counting it. Under quote rule 0, in the field that opens with a quote followed by
100 line feeds, a doubled quote, a line feed and a closing quote, `Field` fails, and it
succeeds when the byte two past the 100th line feed (offset 102) is a comma instead: that
byte is examined. -/
theorem Field_eol_limit_counterexample :
    rd (csv ([34] ++ (List.replicate 101 [92, 10]).flatten ++ [34, 44, 49, 10])) 0 = 34 ∧
    (seg (csv ([34] ++ (List.replicate 101 [92, 10]).flatten ++ [34, 44, 49, 10]))
      1 203).count 10 = 101 ∧
    34 ∉ seg (csv ([34] ++ (List.replicate 101 [92, 10]).flatten ++ [34, 44, 49, 10])) 1 203 ∧
    Field { csv ([34] ++ (List.replicate 101 [92, 10]).flatten ++ [34, 44, 49, 10]) with
      quoteRule := 1 } 0 true = ⟨true, 204, some ⟨202, 1⟩⟩ ∧
    Field (csv ([34] ++ List.replicate 100 10 ++ [34, 34, 10, 34, 44, 49, 10])) 0 true =
      ⟨false, 0, none⟩ ∧
    Field (csv ([34] ++ List.replicate 100 10 ++ [34, 44, 10, 34, 44, 49, 10])) 0 true =
      ⟨true, 102, some ⟨100, 1⟩⟩ := by
  set_option maxRecDepth 100000 in decide

/-! ## C32: where a field ends under quote rule 2 -/

/-- The inner loop of quote rule 2, started below `eof`: it stops on the first quote that a
terminator follows, or else on the end of the line. -/
theorem quoteLoop2inner_char (c : Ctx) (n ch2 : Nat) (hlt : ch2 < c.eof)
    (hf : c.eof - ch2 ≤ n) :
    ch2 < (quoteLoop2inner c n ch2).2 ∧ (quoteLoop2inner c n ch2).2 ≤ c.eof ∧
    (∀ i, ch2 < i → i < (quoteLoop2inner c n ch2).2 →
      rd c i ≠ c.eol ∧ quoteThenSep c i = false) ∧
    ((quoteLoop2inner c n ch2).1 = true →
      (quoteLoop2inner c n ch2).2 < c.eof ∧
      quoteThenSep c (quoteLoop2inner c n ch2).2 = true) ∧
    ((quoteLoop2inner c n ch2).1 = false →
      (quoteLoop2inner c n ch2).2 ≥ c.eof ∨ rd c (quoteLoop2inner c n ch2).2 = c.eol) := by
  induction n generalizing ch2 with
  | zero => omega
  | succ n ih =>
    rw [quoteLoop2inner]
    by_cases h1 : ch2 + 1 < c.eof ∧ rd c (ch2 + 1) ≠ c.eol
    · rw [if_pos h1]
      by_cases h2 : quoteThenSep c (ch2 + 1) = true
      · rw [if_pos h2]
        refine ⟨by show ch2 < ch2 + 1; omega, by show ch2 + 1 ≤ c.eof; omega, ?_, ?_, ?_⟩
        · intro i a b
          have : i < ch2 + 1 := b
          omega
        · intro _
          exact ⟨h1.1, h2⟩
        · intro h
          cases h
      · rw [if_neg h2]
        obtain ⟨i1, i2, i3, i4, i5⟩ := ih (ch2 + 1) h1.1 (by omega)
        refine ⟨by omega, i2, ?_, i4, i5⟩
        intro i a b
        by_cases hi : i = ch2 + 1
        · subst hi
          exact ⟨h1.2, by simpa using h2⟩
        · exact i3 i (by omega) b
    · rw [if_neg h1]
      refine ⟨by show ch2 < ch2 + 1; omega, by show ch2 + 1 ≤ c.eof; omega, ?_, ?_, ?_⟩
      · intro i a b
        have : i < ch2 + 1 := b
        omega
      · intro h
        cases h
      · intro _
        show ch2 + 1 ≥ c.eof ∨ rd c (ch2 + 1) = c.eol
        by_cases h3 : ch2 + 1 < c.eof
        · right
          by_contra h4
          exact h1 ⟨h3, h4⟩
        · left; omega

/-- The loop of quote rule 2, started on the opening quote below `eof`: it ends on the first
quote of the line that a terminator follows, and the two cursors are then equal; or else,
with unequal cursors, on the first `sep` of the line or on the end of the line. -/
theorem quoteLoop2_char (c : Ctx) (fuel ch ch2 : Nat) (hlt : ch < c.eof) (h2 : ch2 ≤ ch)
    (hf : c.eof - ch ≤ fuel) :
    ch < (quoteLoop2 c fuel ch ch2).1 ∧ (quoteLoop2 c fuel ch ch2).1 ≤ c.eof ∧
    (((quoteLoop2 c fuel ch ch2).1 = (quoteLoop2 c fuel ch ch2).2 ∧
        (quoteLoop2 c fuel ch ch2).1 < c.eof ∧
        quoteThenSep c (quoteLoop2 c fuel ch ch2).1 = true ∧
        ∀ i, ch < i → i < (quoteLoop2 c fuel ch ch2).1 →
          rd c i ≠ c.eol ∧ quoteThenSep c i = false) ∨
     ((quoteLoop2 c fuel ch ch2).1 ≠ (quoteLoop2 c fuel ch ch2).2 ∧
        onTerm c (quoteLoop2 c fuel ch ch2).1 ∧
        (∀ i, ch < i → i < (quoteLoop2 c fuel ch ch2).1 →
          rd c i ≠ c.sep ∧ rd c i ≠ c.eol) ∧
        (∀ i, ch < i → (∀ j, ch < j → j ≤ i → j < c.eof ∧ rd c j ≠ c.eol) →
          quoteThenSep c i = false))) := by
  induction fuel generalizing ch with
  | zero => omega
  | succ n ih =>
    rw [quoteLoop2]
    by_cases h1 : ch + 1 < c.eof ∧ rd c (ch + 1) ≠ c.eol
    · rw [if_pos h1]
      by_cases hq : quoteThenSep c (ch + 1) = true
      · rw [if_pos hq]
        refine ⟨by show ch < ch + 1; omega, by show ch + 1 ≤ c.eof; omega,
          Or.inl ⟨rfl, h1.1, hq, ?_⟩⟩
        intro i a b
        have : i < ch + 1 := b
        omega
      · rw [if_neg hq]
        have hqf : quoteThenSep c (ch + 1) = false := by simpa using hq
        by_cases hs : rd c (ch + 1) = c.sep
        · rw [if_pos hs]
          obtain ⟨i1, i2, i3, i4, i5⟩ := quoteLoop2inner_char c (c.eof - (ch + 1)) (ch + 1) h1.1
            (le_refl _)
          generalize quoteLoop2inner c (c.eof - (ch + 1)) (ch + 1) = r at i1 i2 i3 i4 i5
          by_cases hr : r.1 = true
          · rw [if_pos hr]
            refine ⟨by show ch < r.2; omega, i2, Or.inl ⟨rfl, (i4 hr).1, (i4 hr).2, ?_⟩⟩
            intro i a b
            by_cases hi : i = ch + 1
            · subst hi
              exact ⟨h1.2, hqf⟩
            · exact i3 i (by omega) b
          · rw [if_neg hr]
            have hrf : r.1 = false := by simpa using hr
            refine ⟨by show ch < ch + 1; omega, by show ch + 1 ≤ c.eof; omega,
              Or.inr ⟨?_, Or.inr (Or.inl hs), ?_, ?_⟩⟩
            · show ch + 1 ≠ r.2
              omega
            · intro i a b
              have : i < ch + 1 := b
              omega
            · intro i a hline
              by_cases hi : i = ch + 1
              · subst hi
                exact hqf
              · by_cases hi2 : i < r.2
                · exact (i3 i (by omega) hi2).2
                · exfalso
                  have := hline r.2 (by omega) (by omega)
                  rcases i5 hrf with h | h
                  · omega
                  · exact this.2 h
        · rw [if_neg hs]
          obtain ⟨i1, i2, i3⟩ := ih (ch + 1) h1.1 (by omega) (by omega)
          refine ⟨by omega, i2, ?_⟩
          rcases i3 with ⟨a, b, d, e⟩ | ⟨a, b, d, e⟩
          · refine Or.inl ⟨a, b, d, ?_⟩
            intro i x y
            by_cases hi : i = ch + 1
            · subst hi
              exact ⟨h1.2, hqf⟩
            · exact e i (by omega) y
          · refine Or.inr ⟨a, b, ?_, ?_⟩
            · intro i x y
              by_cases hi : i = ch + 1
              · subst hi
                exact ⟨hs, h1.2⟩
              · exact d i (by omega) y
            · intro i x hline
              by_cases hi : i = ch + 1
              · subst hi
                exact hqf
              · exact e i (by omega) (fun j j1 j2 => hline j (by omega) j2)
    · rw [if_neg h1]
      refine ⟨by show ch < ch + 1; omega, by show ch + 1 ≤ c.eof; omega,
        Or.inr ⟨?_, ?_, ?_, ?_⟩⟩
      · show ch + 1 ≠ ch2
        omega
      · show onTerm c (ch + 1)
        by_cases h3 : ch + 1 < c.eof
        · right; right
          by_contra h4
          exact h1 ⟨h3, h4⟩
        · left; omega
      · intro i a b
        have : i < ch + 1 := b
        omega
      · intro i a hline
        exfalso
        have := hline (ch + 1) (by omega) (by omega)
        exact h1 this

theorem toUInt32_sub (a b : Nat) (h : b ≤ a) (h2 : a - b < 4294967296) :
    toUInt32 ((a : Int) - (b : Int)) = a - b := by
  unfold toUInt32
  have e : (a : Int) - (b : Int) = ((a - b : Nat) : Int) := by omega
  rw [e, Int.emod_eq_of_lt (by omega) (by omega)]
  rfl

/-- Lines 194-215 of `Field` for a field taken as quoted whose closing quote, at `e`, is
followed by a terminator. -/
theorem Field_finish_quoted_at (c : Ctx) (this fs e : Nat) (tgt : Bool) (h0 : this ≤ fs)
    (hfe : fs ≤ e) (hlen : e - this < 2147483648) (hterm : onTerm c (e + 1))
    (heol : c.eol = 10 ∨ c.eol = 13) :
    Field_finish c this tgt fs true e =
      ⟨true, (on_sep c (e + 1)).2,
        store tgt ⟨if (e - fs = 0 ∧ c.blank_is_a_NAstring = true) ∨
                  (e - fs ≠ 0 ∧ is_NAstring c fs = true)
                then INT_MIN else ((e - fs : Nat) : Int), fs - this⟩ none⟩ := by
  have h1 : skip_white c (e + 1) = e + 1 := skip_white_onTerm c _ (by omega) hterm
  have h2 : (on_sep c (e + 1)).1 = true := on_sep_of_onTerm c _ hterm
  have hcast : toInt32 ((e : Int) - (fs : Int)) = ((e - fs : Nat) : Int) := by
    unfold toInt32; omega
  have hoff := toUInt32_sub fs this h0 (by omega)
  unfold Field_finish
  simp only [hcast, hoff, h1, h2, ite_self, Bool.not_eq_true, Bool.true_eq_false,
    and_false, if_false, if_true, not_true_eq_false]
  by_cases hz : e - fs = 0
  · simp [hz]
  · simp [hz]

/-- Lines 194-215 of `Field` for a field taken as not quoted that ends on a terminator
at `e`: the length recorded is the number `m` of bytes of the field less the trailing
blanks, which are dropped when `stripWhite` is on. -/
theorem Field_finish_unquoted_at (c : Ctx) (this fs e : Nat) (h0 : this ≤ fs)
    (hfe : fs ≤ e) (hlen : e - this < 2147483648) (hterm : onTerm c e) :
    ∃ m, m ≤ e - fs ∧ (c.stripWhite = false → m = e - fs) ∧
      (∀ i, m ≤ i → i < e - fs → rd c (fs + i) = 32 ∨ rd c (fs + i) = 9) ∧
      (c.stripWhite = true → 0 < m →
        rd c (fs + (m - 1)) ≠ 32 ∧ rd c (fs + (m - 1)) ≠ 9) ∧
      ∀ tgt, Field_finish c this tgt fs false e =
        ⟨true, (on_sep c e).2,
          store tgt ⟨if (m = 0 ∧ c.blank_is_a_NAstring = true) ∨
                (m ≠ 0 ∧ is_NAstring c fs = true)
              then INT_MIN else (m : Int), fs - this⟩ none⟩ := by
  have hos := on_sep_of_onTerm c _ hterm
  have hcast : toInt32 ((e : Int) - (fs : Int)) = ((e - fs : Nat) : Int) := by
    unfold toInt32; omega
  have hoff := toUInt32_sub fs this h0 (by omega)
  by_cases hsw : c.stripWhite = true
  · by_cases hn : e - fs = 0
    · refine ⟨0, by omega, by simp [hsw], fun i h1 h2 => by omega, fun _ h => by omega, ?_⟩
      intro tgt
      unfold Field_finish
      simp [hos, hcast, hn, hsw, hoff]
    · have hs := stripTrail_spec c fs (e - fs)
      refine ⟨stripTrail c fs (e - fs), hs.1, by simp [hsw], hs.2.1, fun _ => hs.2.2, ?_⟩
      intro tgt
      unfold Field_finish
      have hpos : (0 : Int) < ((e - fs : Nat) : Int) := by omega
      simp only [hcast, hsw, hpos, hos, Int.toNat_ofNat, hoff]
      simp only [Bool.false_eq_true, not_false_eq_true, and_self, ↓reduceIte,
        Bool.not_eq_true, Nat.cast_eq_zero, Nat.cast_ofNat, not_true_eq_false]
      by_cases hz : stripTrail c fs (e - fs) = 0
      · simp [hz, hos]
      · simp [hz, hos]
  · refine ⟨e - fs, Nat.le_refl _, fun _ => rfl, fun i h1 h2 => by omega,
      fun h => absurd h hsw, ?_⟩
    intro tgt
    unfold Field_finish
    simp only [hcast, hsw, hos, hoff]
    by_cases hz : e - fs = 0
    · simp [hz, hos]
    · simp [hz, hos]

/-- The bytes that `skip_white` steps over are spaces and tabs. -/
theorem fieldStart_blanks (c : Ctx) (this : Nat) :
    this ≤ (if c.stripWhite = true then skip_white c this else this) ∧
    ∀ i, this ≤ i → i < (if c.stripWhite = true then skip_white c this else this) →
      rd c i = 32 ∨ rd c i = 9 := by
  split
  · refine ⟨skip_white_ge c this, ?_⟩
    intro i h1 h2
    have := (scanWhile_all c.eof (isWhite c) (c.eof - this) this i h1 h2).2
    simp only [isWhite, Bool.decide_and, Bool.and_eq_true, decide_eq_true_eq,
      Bool.decide_or, Bool.or_eq_true] at this
    exact this.1
  · exact ⟨le_refl _, fun i h1 h2 => by omega⟩

/-- No end-of-line stands between a terminator and the cursor `on_sep` computes from
it. -/
theorem on_sep_no_eol (c : Ctx) (E i : Nat) (heol : c.eol = 10 ∨ c.eol = 13) (h1 : E ≤ i)
    (h2 : i < (on_sep c E).2) : rd c i ≠ c.eol := by
  have := ((on_sep_run c E).2 i h1 h2).1
  rw [this]
  rcases heol with h | h <;> rw [h] <;> decide

/-- C32: under quote rule 2, with `eol` a line feed or a carriage return, a quote byte
other than `eol`, a window below 2^31 - 1 bytes and a start cursor in it, `Field` returns
success, never moves the cursor past an `eol` byte, and the slice it records (start `fs`,
length `len` unless the field is taken as missing) holds no `eol` byte. With `s` the start
of the field (the cursor, moved over leading blanks when `stripWhite` is on): a field that
opens with the quote byte ends at the first later quote of the line that `sep`, `eol` or
`eof` follows, and the slice is what stands between the two quotes; when the line has no
such quote it ends at the first `sep` after the opening quote, else at the end of the
line, and the slice starts on the opening quote; a field that does not open with the quote
byte ends at the first `sep`, `eol` or `eof`, whatever quotes it holds. -/
theorem Field_rule2_ends (c : Ctx) (this : Nat) (hr : c.quoteRule = 2)
    (heol : c.eol = 10 ∨ c.eol = 13) (hqe : c.quote ≠ c.eol) (hsz : c.eof < 2147483647)
    (hin : this ≤ c.eof) :
    ∃ (fs E : Nat) (len : Int),
      (∀ tgt, Field c this tgt = ⟨true, (on_sep c E).2, store tgt ⟨len, fs - this⟩ none⟩) ∧
      this ≤ fs ∧ onTerm c E ∧
      (∀ i, this ≤ i → i < (on_sep c E).2 → rd c i ≠ c.eol) ∧
      (len = INT_MIN ∨ (0 ≤ len ∧ (fs : Int) + len ≤ (E : Int))) ∧
      (∀ s, s = (if c.stripWhite = true then skip_white c this else this) →
        (s < c.eof → rd c s = c.quote →
          (∃ q, s < q ∧ q < c.eof ∧ quoteThenSep c q = true ∧
            (∀ i, s < i → i < q → rd c i ≠ c.eol ∧ quoteThenSep c i = false) ∧
            fs = s + 1 ∧ E = q + 1 ∧
            len = if (q - (s + 1) = 0 ∧ c.blank_is_a_NAstring = true) ∨
                  (q - (s + 1) ≠ 0 ∧ is_NAstring c (s + 1) = true)
                then INT_MIN else ((q - (s + 1) : Nat) : Int)) ∨
          ((∀ i, s < i → (∀ j, s < j → j ≤ i → j < c.eof ∧ rd c j ≠ c.eol) →
              quoteThenSep c i = false) ∧
            fs = s ∧ s < E ∧ (∀ i, s < i → i < E → rd c i ≠ c.sep ∧ rd c i ≠ c.eol) ∧
            ∃ m, m ≤ E - s ∧ (c.stripWhite = false → m = E - s) ∧
              (∀ i, m ≤ i → i < E - s → rd c (s + i) = 32 ∨ rd c (s + i) = 9) ∧
              (c.stripWhite = true → 0 < m →
                rd c (s + (m - 1)) ≠ 32 ∧ rd c (s + (m - 1)) ≠ 9) ∧
              len = if (m = 0 ∧ c.blank_is_a_NAstring = true) ∨
                    (m ≠ 0 ∧ is_NAstring c s = true)
                  then INT_MIN else (m : Int))) ∧
        (rd c s ≠ c.quote →
          fs = s ∧ s ≤ E ∧ (∀ i, s ≤ i → i < E → ¬ onTerm c i) ∧
          ∃ m, m ≤ E - s ∧ (c.stripWhite = false → m = E - s) ∧
            (∀ i, m ≤ i → i < E - s → rd c (s + i) = 32 ∨ rd c (s + i) = 9) ∧
            (c.stripWhite = true → 0 < m →
              rd c (s + (m - 1)) ≠ 32 ∧ rd c (s + (m - 1)) ≠ 9) ∧
            len = if (m = 0 ∧ c.blank_is_a_NAstring = true) ∨
                  (m ≠ 0 ∧ is_NAstring c s = true)
                then INT_MIN else (m : Int))) := by
  obtain ⟨hS1, hS2⟩ := fieldStart_blanks c this
  have hS3 : (if c.stripWhite = true then skip_white c this else this) ≤ c.eof := by
    split
    · exact scanWhile_le _ _ _ _ hin
    · exact hin
  have hblank : ∀ i, rd c i = 32 ∨ rd c i = 9 → rd c i ≠ c.eol := by
    intro i h
    rcases h with h | h <;> rw [h] <;> rcases heol with e | e <;> rw [e] <;> decide
  have hlenNA : ∀ (m : Nat) (P : Prop) [Decidable P] (fs E : Nat), fs + m ≤ E →
      ((if P then INT_MIN else (m : Int)) = INT_MIN ∨
        (0 ≤ (if P then INT_MIN else (m : Int)) ∧
          (fs : Int) + (if P then INT_MIN else (m : Int)) ≤ (E : Int))) := by
    intro m P _ fs E h
    by_cases hp : P
    · left; rw [if_pos hp]
    · right
      rw [if_neg hp]
      omega
  generalize hSdef : (if c.stripWhite = true then skip_white c this else this) = S
    at hS1 hS2 hS3
  by_cases hq : rd c S = c.quote
  · have hF : ∀ tgt, Field c this tgt =
        if (quoteLoop2 c (c.eof - S + 1) S S).1 ≠ (quoteLoop2 c (c.eof - S + 1) S S).2 then
          Field_finish c this tgt S false (quoteLoop2 c (c.eof - S + 1) S S).1
        else Field_finish c this tgt (S + 1) true (quoteLoop2 c (c.eof - S + 1) S S).1 := by
      intro tgt
      unfold Field
      dsimp only
      rw [hSdef, if_neg (by
        rintro (h | h)
        · exact h hq
        · rw [hr] at h; cases h), hr]
    by_cases hlt : S < c.eof
    · obtain ⟨k1, k2, k3⟩ := quoteLoop2_char c (c.eof - S + 1) S S hlt (le_refl _) (by omega)
      generalize quoteLoop2 c (c.eof - S + 1) S S = r at k1 k2 k3 hF
      rcases k3 with ⟨a, b, d, e⟩ | ⟨a, b, d, e⟩
      · have hterm : onTerm c (r.1 + 1) := by
          simp only [quoteThenSep, Bool.decide_and, Bool.and_eq_true, decide_eq_true_eq,
            Bool.decide_or, Bool.or_eq_true] at d
          exact d.2
        have hqq : rd c r.1 = c.quote := by
          simp only [quoteThenSep, Bool.decide_and, Bool.and_eq_true, decide_eq_true_eq] at d
          exact d.1
        refine ⟨S + 1, r.1 + 1,
          (if (r.1 - (S + 1) = 0 ∧ c.blank_is_a_NAstring = true) ∨
              (r.1 - (S + 1) ≠ 0 ∧ is_NAstring c (S + 1) = true)
            then INT_MIN else ((r.1 - (S + 1) : Nat) : Int)),
          fun tgt => ?_, by omega, hterm, ?_,
          hlenNA (r.1 - (S + 1)) _ (S + 1) (r.1 + 1) (by omega), ?_⟩
        · rw [hF tgt, if_neg (by simpa using a)]
          exact Field_finish_quoted_at c this (S + 1) r.1 tgt (by omega) (by omega) (by omega)
            hterm heol
        · intro i i1 i2
          by_cases h1 : i < S
          · exact hblank i (hS2 i i1 h1)
          · by_cases h2 : i = S
            · rw [h2, hq]; exact hqe
            · by_cases h3 : i < r.1
              · exact (e i (by omega) h3).1
              · by_cases h4 : i = r.1
                · rw [h4, hqq]; exact hqe
                · exact on_sep_no_eol c (r.1 + 1) i heol (by omega) i2
        · intro s hs
          subst hs
          exact ⟨fun _ _ => Or.inl ⟨r.1, k1, b, d, e, rfl, rfl, rfl⟩, fun h => absurd hq h⟩
      · obtain ⟨m, m1, m2, m3, m4, m5⟩ := Field_finish_unquoted_at c this S r.1 hS1 (by omega)
          (by omega) b
        refine ⟨S, r.1,
          (if (m = 0 ∧ c.blank_is_a_NAstring = true) ∨ (m ≠ 0 ∧ is_NAstring c S = true)
            then INT_MIN else (m : Int)),
          fun tgt => ?_, hS1, b, ?_, hlenNA m _ S r.1 (by omega), ?_⟩
        · rw [hF tgt, if_pos a]
          exact m5 tgt
        · intro i i1 i2
          by_cases h1 : i < S
          · exact hblank i (hS2 i i1 h1)
          · by_cases h2 : i = S
            · rw [h2, hq]; exact hqe
            · by_cases h3 : i < r.1
              · exact (d i (by omega) h3).2
              · exact on_sep_no_eol c r.1 i heol (by omega) i2
        · intro s hs
          subst hs
          exact ⟨fun _ _ => Or.inr ⟨e, rfl, k1, d, m, m1, m2, m3, m4, rfl⟩,
            fun h => absurd hq h⟩
    · have hr1 : quoteLoop2 c (c.eof - S + 1) S S = (S + 1, S) := by
        rw [show c.eof - S + 1 = 0 + 1 by omega, quoteLoop2,
          if_neg (show ¬ (S + 1 < c.eof ∧ rd c (S + 1) ≠ c.eol) by omega)]
      rw [hr1] at hF
      have b : onTerm c (S + 1) := Or.inl (by omega)
      obtain ⟨m, m1, m2, m3, m4, m5⟩ := Field_finish_unquoted_at c this S (S + 1) hS1
        (by omega) (by omega) b
      refine ⟨S, S + 1,
          (if (m = 0 ∧ c.blank_is_a_NAstring = true) ∨ (m ≠ 0 ∧ is_NAstring c S = true)
            then INT_MIN else (m : Int)),
          fun tgt => ?_, hS1, b, ?_, hlenNA m _ S (S + 1) (by omega), ?_⟩
      · rw [hF tgt]
        dsimp only
        rw [if_pos (show S + 1 ≠ S by omega)]
        exact m5 tgt
      · intro i i1 i2
        by_cases h1 : i < S
        · exact hblank i (hS2 i i1 h1)
        · by_cases h2 : i = S
          · rw [h2, hq]; exact hqe
          · exact on_sep_no_eol c (S + 1) i heol (by omega) i2
      · intro s hs
        subst hs
        exact ⟨fun h _ => absurd h hlt, fun h => absurd hq h⟩
  · have hF : ∀ tgt, Field c this tgt =
        Field_finish c this tgt S false (scanWhile c.eof (notSepEol c) (c.eof - S) S) := by
      intro tgt
      unfold Field
      dsimp only
      rw [hSdef, if_pos (Or.inl hq)]
    obtain ⟨t1, t2, t3⟩ := scan_notSepEol_spec c S
    have t4 : scanWhile c.eof (notSepEol c) (c.eof - S) S ≤ c.eof := scanWhile_le _ _ _ _ hS3
    generalize scanWhile c.eof (notSepEol c) (c.eof - S) S = e at t1 t2 t3 t4 hF
    obtain ⟨m, m1, m2, m3, m4, m5⟩ := Field_finish_unquoted_at c this S e hS1 t1
      (by omega) t2
    refine ⟨S, e,
          (if (m = 0 ∧ c.blank_is_a_NAstring = true) ∨ (m ≠ 0 ∧ is_NAstring c S = true)
            then INT_MIN else (m : Int)),
          fun tgt => ?_, hS1, t2, ?_, hlenNA m _ S e (by omega), ?_⟩
    · rw [hF tgt]
      exact m5 tgt
    · intro i i1 i2
      by_cases h1 : i < S
      · exact hblank i (hS2 i i1 h1)
      · by_cases h3 : i < e
        · exact fun h => t3 i (by omega) h3 (Or.inr (Or.inr h))
        · exact on_sep_no_eol c e i heol (by omega) i2
    · intro s hs
      subst hs
      exact ⟨fun _ h => absurd h hq, fun _ => ⟨rfl, t1, t3, m, m1, m2, m3, m4, rfl⟩⟩

theorem Field_rule2_ends_witness :
    Field { csv [34, 97, 44, 98, 34, 44, 99, 10] with quoteRule := 2 } 0 true =
      ⟨true, 5, some ⟨3, 1⟩⟩ ∧
    (∀ tgt, (Field { csv [34, 97, 44, 98, 34, 44, 99, 10] with quoteRule := 2 } 0 tgt).ok =
      true) :=
  ⟨by decide, by
    obtain ⟨fs, E, len, h, _⟩ := Field_rule2_ends
      { csv [34, 97, 44, 98, 34, 44, 99, 10] with quoteRule := 2 } 0 rfl (Or.inl rfl)
      (by decide) (by decide) (by decide)
    intro tgt
    rw [h tgt]⟩

/-- C32, as stated, fails on a field that does not open with the quote byte: on the line
`a"b,c",d` under quote rule 2 the first quote that `sep`, `eol` or `eof` follows stands at
offset 5, with no `eol` before it, and `Field` started at 0 ends the field at the first
`sep`, offset 3, and records the three bytes `a"b`. -/
theorem Field_rule2_counterexample :
    quoteThenSep { csv [97, 34, 98, 44, 99, 34, 44, 100, 10] with quoteRule := 2 } 5 = true ∧
    (∀ i, i < 5 →
      quoteThenSep { csv [97, 34, 98, 44, 99, 34, 44, 100, 10] with quoteRule := 2 } i = false ∧
      rd { csv [97, 34, 98, 44, 99, 34, 44, 100, 10] with quoteRule := 2 } i ≠ 10) ∧
    Field { csv [97, 34, 98, 44, 99, 34, 44, 100, 10] with quoteRule := 2 } 0 true =
      ⟨true, 3, some ⟨3, 0⟩⟩ := by
  decide

/-! ## C17: the header row, for every row that `countfields` accepts -/

/-- The loop of quote rule 0 ends after the opening quote. -/
theorem quoteLoop0_gt (c : Ctx) (n ch k : Nat) : ch < quoteLoop0 c n ch k := by
  induction n generalizing ch k with
  | zero => simp [quoteLoop0]
  | succ n ih =>
    unfold quoteLoop0
    simp only
    split
    · split
      · split
        · have := ih (ch + 1 + 1) (k + if rd c (ch + 1) = c.eol then 1 else 0)
          omega
        · omega
      · have := ih (ch + 1) (k + if rd c (ch + 1) = c.eol then 1 else 0)
        omega
    · omega

/-- The loop of quote rule 1 ends after the opening quote. -/
theorem quoteLoop1_gt (c : Ctx) (n ch k : Nat) : ch < quoteLoop1 c n ch k := by
  induction n generalizing ch k with
  | zero => simp [quoteLoop1]
  | succ n ih =>
    unfold quoteLoop1
    simp only
    split
    · have := ih (ch + 1 + if rd c (ch + 1) = 92 then 1 else 0)
        (k + if rd c (ch + 1) = c.eol then 1 else 0)
      omega
    · omega

/-- The loop of quote rule 2 ends after the opening quote. -/
theorem quoteLoop2_gt (c : Ctx) (n ch ch2 : Nat) : ch < (quoteLoop2 c n ch ch2).1 := by
  induction n generalizing ch ch2 with
  | zero => simp [quoteLoop2]
  | succ n ih =>
    unfold quoteLoop2
    simp only
    split
    · split
      · simp
      · split
        · have := (quoteLoop2inner_spec c (c.eof - (ch + 1)) (ch + 1)).1
          split
          · simp only; omega
          · simp
        · have := ih (ch + 1) ch2
          omega
    · simp

/-- The cursor that `Field_finish` returns is not before the end `e` of the field when
the call starts at or before it. -/
theorem Field_finish_ge (c : Ctx) (this : Nat) (tgt : Bool) (fs : Nat) (q : Bool) (e : Nat)
    (h : this ≤ e) : this ≤ (Field_finish c this tgt fs q e).ch := by
  unfold Field_finish
  simp only
  cases q with
  | false =>
    simp only [Bool.false_eq_true, if_false]
    by_cases hos : (on_sep c e).1 = true
    · rw [if_neg (by simp [hos])]
      have := (on_sep_run c e).1
      simp only
      omega
    · rw [if_pos hos]
  | true =>
    simp only [if_true]
    by_cases hos : (on_sep c (if c.stripWhite = true then skip_white c (e + 1) else e + 1)).1
        = true
    · rw [if_neg (by simp [hos])]
      simp only
      have h1 := (on_sep_run c (if c.stripWhite = true then skip_white c (e + 1) else e + 1)).1
      have h2 : e + 1 ≤ (if c.stripWhite = true then skip_white c (e + 1) else e + 1) := by
        split
        · exact skip_white_ge c (e + 1)
        · exact Nat.le_refl _
      omega
    · rw [if_pos hos]

/-- The function `Field` never moves the cursor backwards. -/
theorem Field_ge (c : Ctx) (this : Nat) (tgt : Bool) : this ≤ (Field c this tgt).ch := by
  have hsw : this ≤ (if c.stripWhite then skip_white c this else this) := by
    split
    · exact skip_white_ge c this
    · exact Nat.le_refl _
  unfold Field
  simp only
  generalize (if c.stripWhite then skip_white c this else this) = ch at hsw
  split
  · apply Field_finish_ge
    have := scanWhile_ge c.eof (notSepEol c) (c.eof - ch) ch
    omega
  · split
    · split
      · exact Nat.le_refl _
      · apply Field_finish_ge
        have := quoteLoop0_gt c (c.eof - ch + 1) ch 0
        omega
    · split
      · exact Nat.le_refl _
      · apply Field_finish_ge
        have := quoteLoop1_gt c (c.eof - ch + 1) ch 0
        omega
    · have := quoteLoop2_gt c (c.eof - ch + 1) ch ch
      split
      · apply Field_finish_ge; omega
      · apply Field_finish_ge; omega
    · exact Nat.le_refl _

/-- The cursor and the return value of `Field_finish` do not depend on the target. -/
theorem Field_finish_tgt (c : Ctx) (this : Nat) (tgt : Bool) (fs : Nat) (q : Bool) (e : Nat) :
    (Field_finish c this tgt fs q e).ch = (Field_finish c this false fs q e).ch ∧
    (Field_finish c this tgt fs q e).ok = (Field_finish c this false fs q e).ok := by
  unfold Field_finish
  simp only
  generalize (if q = true then
      (if c.stripWhite = true then skip_white c (e + 1) else e + 1) else e) = x
  by_cases hos : (on_sep c x).1 = true
  · rw [if_neg (show ¬ ¬ (on_sep c x).1 = true from not_not.mpr hos),
      if_neg (show ¬ ¬ (on_sep c x).1 = true from not_not.mpr hos)]
    exact ⟨rfl, rfl⟩
  · rw [if_pos hos, if_pos hos]
    exact ⟨rfl, rfl⟩

/-- The cursor and the return value of `Field` do not depend on the target. -/
theorem Field_tgt (c : Ctx) (this : Nat) (tgt : Bool) :
    (Field c this tgt).ch = (Field c this false).ch ∧
    (Field c this tgt).ok = (Field c this false).ok := by
  unfold Field
  simp only
  generalize (if c.stripWhite = true then skip_white c this else this) = ch
  by_cases h1 : rd c ch ≠ c.quote ∨ c.quoteRule = 3
  · rw [if_pos h1, if_pos h1]
    exact Field_finish_tgt _ _ _ _ _ _
  · rw [if_neg h1, if_neg h1]
    generalize c.quoteRule = r
    match r with
    | 0 =>
      simp only
      by_cases h2 : quoteLoop0 c (c.eof - ch + 1) ch 0 ≥ c.eof ∨
          rd c (quoteLoop0 c (c.eof - ch + 1) ch 0) ≠ c.quote
      · rw [if_pos h2, if_pos h2]; exact ⟨rfl, rfl⟩
      · rw [if_neg h2, if_neg h2]; exact Field_finish_tgt _ _ _ _ _ _
    | 1 =>
      simp only
      by_cases h2 : quoteLoop1 c (c.eof - ch + 1) ch 0 ≥ c.eof ∨
          rd c (quoteLoop1 c (c.eof - ch + 1) ch 0) ≠ c.quote
      · rw [if_pos h2, if_pos h2]; exact ⟨rfl, rfl⟩
      · rw [if_neg h2, if_neg h2]; exact Field_finish_tgt _ _ _ _ _ _
    | 2 =>
      simp only
      by_cases h2 : (quoteLoop2 c (c.eof - ch + 1) ch ch).1 ≠ (quoteLoop2 c (c.eof - ch + 1) ch ch).2
      · rw [if_pos h2, if_pos h2]; exact Field_finish_tgt _ _ _ _ _ _
      · rw [if_neg h2, if_neg h2]; exact Field_finish_tgt _ _ _ _ _ _
    | n + 3 => exact ⟨rfl, rfl⟩

/-- On the end of a line (at `eof`, or on the byte `eol`) `Field` reads an empty field and
leaves the cursor where it is. -/
theorem Field_at_line_end (c : Ctx) (p : Nat) (tgt : Bool) (heol : c.eol = 10 ∨ c.eol = 13)
    (hq : c.quote ≠ c.eol) (hz : rd c c.eof ≠ c.quote ∨ c.quoteRule = 3) (hp : p ≤ c.eof)
    (h : p ≥ c.eof ∨ rd c p = c.eol) : (Field c p tgt).ch = p := by
  have hterm : onTerm c p := by
    rcases h with h | h
    · exact Or.inl h
    · exact Or.inr (Or.inr h)
  have hsw : skip_white c p = p := skip_white_onTerm_fix c p hterm heol
  have hch : (if c.stripWhite = true then skip_white c p else p) = p := by
    split
    · exact hsw
    · rfl
  have hnq : rd c p ≠ c.quote ∨ c.quoteRule = 3 := by
    rcases h with h | h
    · have : p = c.eof := by omega
      rw [this]; exact hz
    · left; rw [h]; exact fun e => hq e.symm
  have hsc : scanWhile c.eof (notSepEol c) (c.eof - p) p = p := by
    apply scanWhile_fix
    rintro ⟨h1, h2⟩
    rcases h with h | h
    · omega
    · simp [notSepEol, h] at h2
  have hos : on_sep c p = (true, p) := by
    apply on_sep_true c p hterm
    rintro ⟨_, h1, h2⟩
    rcases h with h | h
    · omega
    · rw [h] at h2; omega
  unfold Field
  simp only [hch]
  rw [if_pos hnq, hsc]
  unfold Field_finish
  simp [hos]

/-- On the end of a line the loop of `countfields` returns the count it has. -/
theorem countLoop_at_end (c : Ctx) (n ch : Nat) (ncol : Int)
    (h : ¬ (ch < c.eof ∧ rd c ch ≠ c.eol)) : countLoop c n ch ncol = (ncol, ch) := by
  cases n with
  | zero => rfl
  | succ n => rw [countLoop, if_neg h]

/-- The rounds of the loops over the fields of the first row follow the rounds of
`countfields` on that row: after as many fields as `countfields` counted, the scan of
line 768 is on the end of the line, and the loop of line 805 ends there within as many
rounds. -/
theorem countLoop_headerScan (c : Ctx) (heol : c.eol = 10 ∨ c.eol = 13)
    (hq : c.quote ≠ c.eol) (hz : rd c c.eof ≠ c.quote ∨ c.quoteRule = 3) :
    ∀ (fuel ch : Nat) (ncol : Int), c.eof - ch < fuel → ch ≤ c.eof →
      (countLoop c fuel ch ncol).1 ≠ -1 → 0 ≤ ncol →
      (∀ ac, (headerScan c ((countLoop c fuel ch ncol).1 - ncol + 1).toNat ch ac).2 - 1 ≥ c.eof ∨
        rd c ((headerScan c ((countLoop c fuel ch ncol).1 - ncol + 1).toNat ch ac).2 - 1)
          = c.eol) ∧
      ∀ (m anchor i : Nat) (names : List LenOff),
        ((countLoop c fuel ch ncol).1 - ncol + 1).toNat ≤ m →
        (readNames c anchor m ch i names).2 ≥ c.eof ∨
          rd c (readNames c anchor m ch i names).2 = c.eol := by
  intro fuel
  induction fuel with
  | zero => intro ch ncol h; omega
  | succ n ih =>
    intro ch ncol hf hle hne hn
    by_cases hc : ch < c.eof ∧ rd c ch ≠ c.eol
    · have hge := Field_ge c ch false
      have htg := (Field_tgt c ch true).1
      by_cases hok : (Field c ch false).ok = false
      · exfalso
        rw [countLoop, if_pos hc] at hne
        simp only [hok, if_true] at hne
        exact hne rfl
      · have hok2 : (Field c ch false).ok = true := by simpa using hok
        by_cases hr : (Field c ch false).ch < c.eof ∧ rd c (Field c ch false).ch ≠ c.eol
        · have hcl : countLoop c (n + 1) ch ncol
              = countLoop c n ((Field c ch false).ch + 1) (ncol + 1) := by
            rw [countLoop, if_pos hc]
            simp only [hok2, Bool.true_eq_false, if_false]
            rw [if_pos hr]
          rw [hcl] at hne ⊢
          obtain ⟨i1, i2⟩ := ih ((Field c ch false).ch + 1) (ncol + 1) (by omega) (by omega)
            hne (by omega)
          have hrange := countLoop_range c n ((Field c ch false).ch + 1) (ncol + 1)
          have hcnt : ((countLoop c n ((Field c ch false).ch + 1) (ncol + 1)).1 - ncol + 1).toNat
              = ((countLoop c n ((Field c ch false).ch + 1) (ncol + 1)).1
                  - (ncol + 1) + 1).toNat + 1 := by
            rcases hrange with h | h
            · exact absurd h hne
            · omega
          rw [hcnt]
          refine ⟨fun ac => ?_, fun m anchor i names hm => ?_⟩
          · rw [headerScan]
            exact i1 _
          · obtain ⟨m2, rfl⟩ : ∃ m2, m = m2 + 1 := ⟨m - 1, by omega⟩
            rw [readNames]
            simp only [htg]
            rw [if_neg (by omega)]
            exact i2 m2 anchor (i + 1) _ (by omega)
        · have hcl : countLoop c (n + 1) ch ncol = (ncol, (Field c ch false).ch) := by
            rw [countLoop, if_pos hc]
            simp only [hok2, Bool.true_eq_false, if_false]
            rw [if_neg hr]
            exact countLoop_at_end c n _ ncol hr
          rw [hcl]
          have hcnt : (ncol - ncol + 1).toNat = 1 := by omega
          simp only [hcnt]
          have hP : (Field c ch false).ch ≥ c.eof ∨ rd c (Field c ch false).ch = c.eol := by
            by_cases h1 : (Field c ch false).ch < c.eof
            · right
              by_contra h2
              exact hr ⟨h1, h2⟩
            · left; omega
          refine ⟨fun ac => ?_, fun m anchor i names hm => ?_⟩
          · rw [headerScan, headerScan]
            simpa using hP
          · obtain ⟨m2, rfl⟩ : ∃ m2, m = m2 + 1 := ⟨m - 1, by omega⟩
            rw [readNames]
            simp only [htg]
            rw [if_pos hP]
            exact hP
    · have hcl : countLoop c (n + 1) ch ncol = (ncol, ch) := countLoop_at_end c _ ch ncol hc
      rw [hcl]
      have hcnt : (ncol - ncol + 1).toNat = 1 := by omega
      simp only [hcnt]
      have hP : ch ≥ c.eof ∨ rd c ch = c.eol := by
        by_cases h1 : ch < c.eof
        · right
          by_contra h2
          exact hc ⟨h1, h2⟩
        · left; omega
      have hF : ∀ tgt, (Field c ch tgt).ch = ch := fun tgt =>
        Field_at_line_end c ch tgt heol hq hz hle hP
      refine ⟨fun ac => ?_, fun m anchor i names hm => ?_⟩
      · rw [headerScan, headerScan]
        simp only [hF]
        simpa using hP
      · obtain ⟨m2, rfl⟩ : ∃ m2, m = m2 + 1 := ⟨m - 1, by omega⟩
        rw [readNames]
        simp only [hF]
        rw [if_pos hP]
        exact hP

/-- C17 (amended): with `header` auto, for a first row on which `countfields` counts `tt`
fields, `tt` no more than `ncol`, under a dialect with `eol` one of `\n`, `\r` and a quote
that is not `eol` (nor the byte at `eof`), and when no line precedes the row, or `skip` is
given, or the line before the row has a field count other than `ncol` and ends where the
row starts: header resolution does not stop; the row is treated as the header if and only
if every one of its fields is empty after its leading blanks (`on_sep` holds there, and
such a field is not put to `StrtoD`) or rejected by `StrtoD`; otherwise it is treated as
the first data row, `pos` is unchanged and every column-name slice is `(len 0, off 0)`. -/
theorem header_iff_no_float_field (c : Ctx) (sof pos tt ncol skipNrow : Nat)
    (heol : c.eol = 10 ∨ c.eol = 13) (hq : c.quote ≠ c.eol)
    (hz : rd c c.eof ≠ c.quote ∨ c.quoteRule = 3) (hpos : pos ≤ c.eof)
    (htt : (countfields c pos).1 = (tt : Int)) (hnc : tt ≤ ncol)
    (hprev : pos ≤ sof ∨ skipNrow ≠ 0 ∨
      ((countfields c (prevLineStart c sof pos)).1 ≠ (ncol : Int) ∧
        (countfields c (prevLineStart c sof pos)).2 = pos)) :
    headerResolve c sof pos tt ncol none skipNrow ≠ HeaderResult.stop ∧
    ((∃ names p, headerResolve c sof pos tt ncol none skipNrow = HeaderResult.header names p) ↔
      ∀ q ∈ fieldStarts c tt
          (if c.sep = 32 then scanWhile c.eof (fun i => rd c i = 32) (c.eof - pos) pos
           else pos), emptyOrNotFloat c q = true) ∧
    ((∃ q ∈ fieldStarts c tt
          (if c.sep = 32 then scanWhile c.eof (fun i => rd c i = 32) (c.eof - pos) pos
           else pos), emptyOrNotFloat c q = false) →
      headerResolve c sof pos tt ncol none skipNrow
        = HeaderResult.dataRow (List.replicate ncol ⟨0, 0⟩) pos) := by
  have hac := headerScan_allchar c tt
    (if c.sep = 32 then scanWhile c.eof (fun i => rd c i = 32) (c.eof - pos) pos else pos) true
  simp only [Bool.true_and] at hac
  have hstart : (if c.sep = 32 then scanWhile c.eof (fun i => rd c i = 32) (c.eof - pos) pos
      else pos) ≤ c.eof := by
    split
    · exact scanWhile_le _ _ _ _ hpos
    · exact hpos
  -- the field count of the row is the count of the loop of `countfields`
  have hcl : (countLoop c (c.eof - (if c.sep = 32 then
        scanWhile c.eof (fun i => rd c i = 32) (c.eof - pos) pos else pos) + 1)
      (if c.sep = 32 then scanWhile c.eof (fun i => rd c i = 32) (c.eof - pos) pos else pos)
      1).1 = (tt : Int) := by
    unfold countfields at htt
    simp only at htt
    generalize (if c.sep = 32 then scanWhile c.eof (fun i => rd c i = 32) (c.eof - pos) pos
      else pos) = start at htt ⊢
    by_cases hneg : (countLoop c (c.eof - start + 1) start 1).1 < 0
    · rw [if_pos hneg] at htt
      simp only at htt
      omega
    · rw [if_neg hneg] at htt
      exact htt
  obtain ⟨s1, s3⟩ := countLoop_headerScan c heol hq hz
    (c.eof - (if c.sep = 32 then
        scanWhile c.eof (fun i => rd c i = 32) (c.eof - pos) pos else pos) + 1)
    (if c.sep = 32 then scanWhile c.eof (fun i => rd c i = 32) (c.eof - pos) pos else pos)
    1 (by omega) hstart (by rw [hcl]; omega) (by omega)
  rw [hcl] at s1 s3
  have hcnt : ((tt : Int) - 1 + 1).toNat = tt := by omega
  rw [hcnt] at s1 s3
  have s1t := s1 true
  have s3n := s3 ncol pos 0 (List.replicate ncol ⟨0, 0⟩) hnc
  have key : (((fieldStarts c tt
          (if c.sep = 32 then scanWhile c.eof (fun i => rd c i = 32) (c.eof - pos) pos
           else pos)).all (emptyOrNotFloat c) = true) ∧
      ∃ names p, headerResolve c sof pos tt ncol none skipNrow = HeaderResult.header names p) ∨
    (((fieldStarts c tt
          (if c.sep = 32 then scanWhile c.eof (fun i => rd c i = 32) (c.eof - pos) pos
           else pos)).all (emptyOrNotFloat c) = false) ∧
      headerResolve c sof pos tt ncol none skipNrow
        = HeaderResult.dataRow (List.replicate ncol ⟨0, 0⟩) pos) := by
    unfold headerResolve
    dsimp only
    generalize (if c.sep = 32 then scanWhile c.eof (fun i => rd c i = 32) (c.eof - pos) pos
      else pos) = start at hac s1t s3n ⊢
    generalize headerScan c tt start true = hs at hac s1t ⊢
    generalize readNames c pos ncol start 0 (List.replicate ncol ⟨0, 0⟩) = rn at s3n ⊢
    rw [if_neg (by rintro ⟨h1, h2⟩; rcases s1t with h | h; omega; exact h2 h)]
    by_cases hall : (fieldStarts c tt start).all (emptyOrNotFloat c) = true
    · have h1 : hs.1 = true := by rw [hac]; exact hall
      have hcond : ¬ ((none : Option Bool) = some false ∨
          ((none : Option Bool) = none ∧ hs.1 = false)) := by simp [h1]
      rw [if_neg hcond, if_neg (by rintro ⟨h1, h2⟩; rcases s3n with h | h; omega; exact h2 h)]
      exact Or.inl ⟨hall, _, _, rfl⟩
    · have hall2 : (fieldStarts c tt start).all (emptyOrNotFloat c) = false := by
        simpa using hall
      have h1 : hs.1 = false := by rw [hac]; exact hall2
      have hcond : ((none : Option Bool) = some false ∨
          ((none : Option Bool) = none ∧ hs.1 = false)) := Or.inr ⟨rfl, h1⟩
      rw [if_pos hcond]
      refine Or.inr ⟨hall2, ?_⟩
      by_cases hps : pos > sof ∧ skipNrow = 0
      · rw [if_pos hps]
        rcases hprev with h | h | h
        · omega
        · exact absurd hps.2 h
        · rw [if_neg h.1, if_neg (not_not.mpr h.2)]
      · rw [if_neg hps]
  rcases key with ⟨k1, names, p, k2⟩ | ⟨k1, k2⟩
  · refine ⟨by rw [k2]; simp, ⟨fun _ => by simpa using k1, fun _ => ⟨names, p, k2⟩⟩, ?_⟩
    rintro ⟨q, hq1, hq2⟩
    have := (List.all_eq_true.mp k1) q hq1
    rw [hq2] at this
    exact absurd this (by simp)
  · refine ⟨by rw [k2]; simp, ⟨?_, ?_⟩, fun _ => k2⟩
    · rintro ⟨names, p, h⟩
      rw [k2] at h
      cases h
    · intro h
      have : (fieldStarts c tt
          (if c.sep = 32 then scanWhile c.eof (fun i => rd c i = 32) (c.eof - pos) pos
           else pos)).all (emptyOrNotFloat c) = true := List.all_eq_true.mpr h
      rw [k1] at this
      exact absurd this (by simp)

/-- C17, three instances: the row `a,b,c` above `1,2,3` is the header; the row `1,2,3` at
the start of the input is the first data row; so is the row `1,2` below the line `x`,
which has one field. -/
theorem header_iff_no_float_field_witness :
    ((countfields (csv [97, 44, 98, 44, 99, 10, 49, 44, 50, 44, 51, 10, 52, 44, 53, 44, 54, 10])
        0).1 = 3 ∧
      ∃ names p,
        headerResolve (csv [97, 44, 98, 44, 99, 10, 49, 44, 50, 44, 51, 10, 52, 44, 53, 44, 54, 10])
          0 0 3 3 none 0 = HeaderResult.header names p) ∧
    ((countfields (csv [49, 44, 50, 44, 51, 10, 52, 44, 53, 44, 54, 10]) 0).1 = 3 ∧
      headerResolve (csv [49, 44, 50, 44, 51, 10, 52, 44, 53, 44, 54, 10]) 0 0 3 3 none 0
        = HeaderResult.dataRow (List.replicate 3 ⟨0, 0⟩) 0) ∧
    ((countfields (csv [120, 10, 49, 44, 50, 10, 51, 44, 52, 10]) 2).1 = 2 ∧
      countfields (csv [120, 10, 49, 44, 50, 10, 51, 44, 52, 10])
        (prevLineStart (csv [120, 10, 49, 44, 50, 10, 51, 44, 52, 10]) 0 2) = (1, 2) ∧
      headerResolve (csv [120, 10, 49, 44, 50, 10, 51, 44, 52, 10]) 0 2 2 2 none 0
        = HeaderResult.dataRow (List.replicate 2 ⟨0, 0⟩) 2) :=
  ⟨⟨by decide,
      (header_iff_no_float_field
        (csv [97, 44, 98, 44, 99, 10, 49, 44, 50, 44, 51, 10, 52, 44, 53, 44, 54, 10])
        0 0 3 3 0 (by decide) (by decide) (by decide) (by decide) (by decide) (by decide)
        (Or.inl (by decide))).2.1.2 (by decide)⟩,
    ⟨by decide,
      (header_iff_no_float_field (csv [49, 44, 50, 44, 51, 10, 52, 44, 53, 44, 54, 10])
        0 0 3 3 0 (by decide) (by decide) (by decide) (by decide) (by decide) (by decide)
        (Or.inl (by decide))).2.2 ⟨0, by decide, by decide⟩⟩,
    ⟨by decide, by decide,
      (header_iff_no_float_field (csv [120, 10, 49, 44, 50, 10, 51, 44, 52, 10])
        0 2 2 2 0 (by decide) (by decide) (by decide) (by decide) (by decide) (by decide)
        (Or.inr (Or.inr (by decide)))).2.2 ⟨2, by decide, by decide⟩⟩⟩

end Fread
